import Mathlib

/-!
Shallow embedding of the symbolication engine of
`src/profile-logic/symbolication.js`, together with proofs about its
behaviour.

JS `Map` and `Set` values are modelled as insertion-ordered association
lists, JS arrays as lists paired with an allocation tag that stands for the
array's object identity (writes keep the tag, `slice()` and table clones
allocate fresh tags).  `throw` statements are modelled with `Except`.
-/

namespace Symbolication

/-- Equality of `Except` values is decidable (needed to evaluate the model
on concrete inputs). -/
instance instDecEqExcept {ε α : Type} [DecidableEq ε] [DecidableEq α] :
    DecidableEq (Except ε α) := fun x y =>
  match x, y with
  | Except.ok a, Except.ok b =>
    if h : a = b then Decidable.isTrue (by rw [h])
    else Decidable.isFalse (fun hc => h (Except.ok.inj hc))
  | Except.error a, Except.error b =>
    if h : a = b then Decidable.isTrue (by rw [h])
    else Decidable.isFalse (fun hc => h (Except.error.inj hc))
  | Except.ok _, Except.error _ => Decidable.isFalse (fun hc => Except.noConfusion hc)
  | Except.error _, Except.ok _ => Decidable.isFalse (fun hc => Except.noConfusion hc)

/-! ### JS insertion-ordered maps and sets -/

/-- JS `Map.get`: the (unique) binding of a key in an insertion-ordered
association list. -/
def mget {K V : Type} [DecidableEq K] : List (K × V) → K → Option V
  | [], _ => none
  | (k', v) :: rest, k => if k' = k then some v else mget rest k

/-- JS `Map.set`: update the value in place if the key is present (keeping
its position), otherwise append a new binding at the end. -/
def mset {K V : Type} [DecidableEq K] : List (K × V) → K → V → List (K × V)
  | [], k, v => [(k, v)]
  | (k', v') :: rest, k, v =>
    if k' = k then (k', v) :: rest else (k', v') :: mset rest k v

/-- JS `Map.delete`. -/
def mdel {K V : Type} [DecidableEq K] : List (K × V) → K → List (K × V)
  | [], _ => []
  | (k', v') :: rest, k => if k' = k then rest else (k', v') :: mdel rest k

/-- JS `Set.add`: append if not already present (insertion order kept). -/
def jsSetAdd {K : Type} [DecidableEq K] (s : List K) (k : K) : List K :=
  if s.contains k then s else s ++ [k]

/-- JS `Set.delete`. -/
def jsSetDel {K : Type} [DecidableEq K] : List K → K → List K
  | [], _ => []
  | k' :: rest, k => if k' = k then rest else k' :: jsSetDel rest k

/-- JS `new Set(iterable)`. -/
def jsSetOfList {K : Type} [DecidableEq K] (l : List K) : List K :=
  l.foldl jsSetAdd []

/-! ### Columns and tables -/

/-- One columnar array together with an allocation tag: `ref` models the JS
object identity of the underlying array (writes keep the identity,
`slice()` yields a fresh one), `data` models its contents. -/
structure Col (α : Type) where
  ref : Nat
  data : List α
deriving DecidableEq

/-- JS read `a[i]`.  Reads are in range for well-formed tables; an
out-of-range read is mapped to the column's default value. -/
def cget {α : Type} (c : Col α) (dflt : α) (i : Nat) : α :=
  c.data.getD i dflt

/-- Contents part of a JS write `a[i] = v`: a write past the end grows the
array. -/
def lset {α : Type} (l : List α) (dflt : α) (i : Nat) (v : α) : List α :=
  if i < l.length then l.set i v
  else l ++ List.replicate (i - l.length) dflt ++ [v]

/-- JS write `a[i] = v`: writes keep the array's object identity. -/
def cset {α : Type} (c : Col α) (dflt : α) (i : Nat) (v : α) : Col α :=
  ⟨c.ref, lset c.data dflt i v⟩

/-- JS `array.slice()`: same contents, fresh object identity `r`. -/
def cslice {α : Type} (r : Nat) (c : Col α) : Col α :=
  ⟨r, c.data⟩

/-- Frame table (the columns touched or shared by symbolication). -/
structure FrameTable where
  address : Col Nat
  func : Col Nat
  nativeSymbol : Col (Option Nat)
  line : Col (Option Nat)
  innerWindowID : Col (Option Nat)
  length : Nat
deriving DecidableEq

/-- Func table. -/
structure FuncTable where
  name : Col Nat
  fileName : Col (Option Nat)
  resource : Col Int
  isJS : Col Bool
  relevantForJS : Col Bool
  lineNumber : Col (Option Nat)
  columnNumber : Col (Option Nat)
  length : Nat
deriving DecidableEq

/-- Native symbol table. -/
structure NativeSymbolTable where
  libIndex : Col Nat
  address : Col Nat
  name : Col Nat
  length : Nat
deriving DecidableEq

/-- A JS `resourceTable.lib` cell: `null`, `undefined`, or a number (with
`-1` used as another "no lib" marker). -/
inductive JsLibIndexValue where
  | null
  | undef
  | val (i : Int)
deriving DecidableEq

/-- Resource table (the columns read by symbolication). -/
structure ResourceTable where
  type : Col Nat
  lib : Col JsLibIndexValue
  length : Nat
deriving DecidableEq

/-- A lib row, identified by the pair `(debugName, breakpadId)`. -/
structure Lib where
  debugName : String
  breakpadId : String
deriving DecidableEq

/-- Modelled from the spec: `resourceTypes.library` of `data-structures.js`
(not under `src/`) is an opaque discriminator constant; only equality with
it is ever tested. -/
def resourceTypesLibrary : Nat := 1

/-- Modelled from the spec: the string table (`UniqueStringArray`, not under
`src/`) is an append-only interning table, shared by reference between the
input and output threads; `ref` models its object identity. -/
structure StringTable where
  ref : Nat
  strings : List String
deriving DecidableEq

/-- `stringTable.getString(index)`. -/
def getString (st : StringTable) (index : Nat) : String :=
  st.strings.getD index ""

/-- Modelled from the spec: `stringTable.indexForString(s)` returns the
existing index of `s` or appends `s` at the end (strings are append-only
and never invalidated). -/
def indexForString (st : StringTable) (s : String) : Nat × StringTable :=
  match st.strings.findIdx? (fun t => t == s) with
  | some i => (i, st)
  | none => (st.strings.length, ⟨st.ref, st.strings ++ [s]⟩)

/-- A thread's tables, as used by symbolication. -/
structure Thread where
  frameTable : FrameTable
  funcTable : FuncTable
  nativeSymbols : NativeSymbolTable
  resourceTable : ResourceTable
  libs : List Lib
  stringTable : StringTable
deriving DecidableEq

/-- All array/object identities reachable from a thread's tables. -/
def threadRefs (t : Thread) : List Nat :=
  [t.frameTable.address.ref, t.frameTable.func.ref, t.frameTable.nativeSymbol.ref,
   t.frameTable.line.ref, t.frameTable.innerWindowID.ref,
   t.funcTable.name.ref, t.funcTable.fileName.ref, t.funcTable.resource.ref,
   t.funcTable.isJS.ref, t.funcTable.relevantForJS.ref, t.funcTable.lineNumber.ref,
   t.funcTable.columnNumber.ref,
   t.nativeSymbols.libIndex.ref, t.nativeSymbols.address.ref, t.nativeSymbols.name.ref,
   t.resourceTable.type.ref, t.resourceTable.lib.ref,
   t.stringTable.ref]

/-- First allocation tag that is fresh for a thread. -/
def freshRefBase (t : Thread) : Nat :=
  (threadRefs t).foldr max 0 + 1

/-- Modelled from the spec: `shallowCloneFuncTable` (`data-structures.js`,
not under `src/`) copies every column of the func table into a newly
allocated array (`r` … `r + 6` are the fresh identities). -/
def shallowCloneFuncTable (r : Nat) (t : FuncTable) : FuncTable :=
  ⟨⟨r, t.name.data⟩, ⟨r + 1, t.fileName.data⟩, ⟨r + 2, t.resource.data⟩,
   ⟨r + 3, t.isJS.data⟩, ⟨r + 4, t.relevantForJS.data⟩,
   ⟨r + 5, t.lineNumber.data⟩, ⟨r + 6, t.columnNumber.data⟩, t.length⟩

/-- Modelled from the spec: `shallowCloneNativeSymbolTable`
(`data-structures.js`, not under `src/`) copies every column of the native
symbol table into a newly allocated array. -/
def shallowCloneNativeSymbolTable (r : Nat) (t : NativeSymbolTable) : NativeSymbolTable :=
  ⟨⟨r, t.libIndex.data⟩, ⟨r + 1, t.address.data⟩, ⟨r + 2, t.name.data⟩, t.length⟩

/-! ### Symbolication step inputs -/

/-- The provider's answer for one address. -/
structure AddressResult where
  symbolAddress : Nat
  name : String
  file : Option String
  line : Option Nat
deriving DecidableEq

/-- The per-thread, per-library information gathered by the address
collector. -/
structure ThreadLibSymbolicationInfo where
  resourceIndex : Nat
  libIndex : Nat
  allFuncsForThisLib : List Nat
  allNativeSymbolsForThisLib : List Nat
  allFramesForThisLib : List Nat
  frameAddresses : List Nat
deriving DecidableEq

/-- One symbolication step: one library's results for one thread. -/
structure SymbolicationStepInfo where
  threadLibSymbolicationInfo : ThreadLibSymbolicationInfo
  resultsForLib : List (Nat × AddressResult)
deriving DecidableEq

/-! ### `makeConsensusMap` (source lines 233–253) -/

/-- The running state of `makeConsensusMap`: the tentative map and the
permanently excluded keys. -/
structure ConsensusState (K V : Type) where
  consensusMap : List (K × V)
  divergentKeys : List K
deriving DecidableEq

/-- One iteration of the `makeConsensusMap` loop. -/
def makeConsensusMapStep {K V : Type} [DecidableEq K] [DecidableEq V]
    (st : ConsensusState K V) (kv : K × V) : ConsensusState K V :=
  if st.divergentKeys.contains kv.1 then st
  else
    match mget st.consensusMap kv.1 with
    | none => { st with consensusMap := mset st.consensusMap kv.1 kv.2 }
    | some previousValue =>
      if previousValue = kv.2 then st
      else
        { consensusMap := mdel st.consensusMap kv.1
          divergentKeys := jsSetAdd st.divergentKeys kv.1 }

/-- `makeConsensusMap`: keep a key only if all its recorded values agree. -/
def makeConsensusMap {K V : Type} [DecidableEq K] [DecidableEq V]
    (pairs : List (K × V)) : List (K × V) :=
  (pairs.foldl makeConsensusMapStep ⟨[], []⟩).consensusMap

/-! ### `applySymbolicationStep` (source lines 390–624) -/

/-- Step A (source lines 430–449): resolve the address result for one frame
from `resultsForLib`, falling back to the frame's existing native symbol,
or to a hex placeholder name synthesized from the address. -/
def resolveAddressResult (oldFrameTable : FrameTable)
    (oldNativeSymbols : NativeSymbolTable) (stringTable : StringTable)
    (resultsForLib : List (Nat × AddressResult)) (frameIndex : Nat) :
    AddressResult :=
  let oldFrameSymbol := cget oldFrameTable.nativeSymbol none frameIndex
  let address := cget oldFrameTable.address 0 frameIndex
  match mget resultsForLib address with
  | some addressResult => addressResult
  | none =>
    match oldFrameSymbol with
    | some oldSym =>
      { symbolAddress := cget oldNativeSymbols.address 0 oldSym
        name := getString stringTable (cget oldNativeSymbols.name 0 oldSym)
        file := none
        line := none }
    | none =>
      { symbolAddress := address
        name := "0x" ++ (Nat.toDigits 16 address).asString
        file := none
        line := none }

/-- State of the first loop of `applySymbolicationStep` (source lines
430–481). -/
structure StepAState where
  availableNativeSymbols : List Nat
  frameToSymbolAddressMap : List (Nat × Nat)
  symbolAddressToNameMap : List (Nat × String)
  symbolAddressToCanonicalSymbolIndexMap : List (Nat × Nat)
deriving DecidableEq

/-- One iteration of the first loop: record the frame's symbol address and
name, and opportunistically claim the frame's old native symbol as the
canonical symbol for that symbol address. -/
def stepAFrame (oldFrameTable : FrameTable) (oldNativeSymbols : NativeSymbolTable)
    (stringTable : StringTable) (resultsForLib : List (Nat × AddressResult))
    (st : StepAState) (frameIndex : Nat) : StepAState :=
  let oldFrameSymbol := cget oldFrameTable.nativeSymbol none frameIndex
  let addressResult :=
    resolveAddressResult oldFrameTable oldNativeSymbols stringTable resultsForLib frameIndex
  let symbolAddress := addressResult.symbolAddress
  let st1 : StepAState :=
    { st with
      frameToSymbolAddressMap := mset st.frameToSymbolAddressMap frameIndex symbolAddress
      symbolAddressToNameMap := mset st.symbolAddressToNameMap symbolAddress addressResult.name }
  match oldFrameSymbol with
  | none => st1
  | some oldSym =>
    if (mget st1.symbolAddressToCanonicalSymbolIndexMap symbolAddress).isSome then st1
    else if st1.availableNativeSymbols.contains oldSym then
      { st1 with
        availableNativeSymbols := jsSetDel st1.availableNativeSymbols oldSym
        symbolAddressToCanonicalSymbolIndexMap :=
          mset st1.symbolAddressToCanonicalSymbolIndexMap symbolAddress oldSym }
    else st1

/-- The first loop of `applySymbolicationStep`. -/
def stepA (oldFrameTable : FrameTable) (oldNativeSymbols : NativeSymbolTable)
    (stringTable : StringTable) (resultsForLib : List (Nat × AddressResult))
    (allFramesForThisLib : List Nat) (availableNativeSymbols : List Nat) : StepAState :=
  allFramesForThisLib.foldl
    (stepAFrame oldFrameTable oldNativeSymbols stringTable resultsForLib)
    ⟨availableNativeSymbols, [], [], []⟩

/-- State of the canonical-symbol loop (source lines 499–522). -/
structure StepBState where
  availableIter : List Nat
  nativeSymbols : NativeSymbolTable
  symbolAddressToCanonicalSymbolIndexMap : List (Nat × Nat)
  stringTable : StringTable
deriving DecidableEq

/-- One iteration of the canonical-symbol loop: find (or repurpose, or
append) a canonical symbol row for one symbol address and give it the
resolved address and name. -/
def stepBEntry (libIndex : Nat) (st : StepBState) (entry : Nat × String) : StepBState :=
  let symbolAddress := entry.1
  let interned := indexForString st.stringTable entry.2
  let symbolStringIndex := interned.1
  let stringTable := interned.2
  match mget st.symbolAddressToCanonicalSymbolIndexMap symbolAddress with
  | some symbolIndex =>
    { st with
      nativeSymbols :=
        { st.nativeSymbols with
          address := cset st.nativeSymbols.address 0 symbolIndex symbolAddress
          name := cset st.nativeSymbols.name 0 symbolIndex symbolStringIndex }
      stringTable := stringTable }
  | none =>
    match st.availableIter with
    | symbolIndex :: rest =>
      { availableIter := rest
        nativeSymbols :=
          { st.nativeSymbols with
            address := cset st.nativeSymbols.address 0 symbolIndex symbolAddress
            name := cset st.nativeSymbols.name 0 symbolIndex symbolStringIndex }
        symbolAddressToCanonicalSymbolIndexMap :=
          mset st.symbolAddressToCanonicalSymbolIndexMap symbolAddress symbolIndex
        stringTable := stringTable }
    | [] =>
      let symbolIndex := st.nativeSymbols.length
      let grown :=
        { st.nativeSymbols with
          libIndex := cset st.nativeSymbols.libIndex 0 symbolIndex libIndex
          length := symbolIndex + 1 }
      { availableIter := []
        nativeSymbols :=
          { grown with
            address := cset grown.address 0 symbolIndex symbolAddress
            name := cset grown.name 0 symbolIndex symbolStringIndex }
        symbolAddressToCanonicalSymbolIndexMap :=
          mset st.symbolAddressToCanonicalSymbolIndexMap symbolAddress symbolIndex
        stringTable := stringTable }

/-- The canonical-symbol loop. -/
def stepB (libIndex : Nat) (st : StepBState) (entries : List (Nat × String)) : StepBState :=
  entries.foldl (stepBEntry libIndex) st

/-- Write the canonical symbol of every frame's symbol address into the new
`nativeSymbol` column (source lines 526–536). -/
def stepCAssign (symbolAddressToCanonicalSymbolIndexMap : List (Nat × Nat))
    (frameToSymbolAddressMap : List (Nat × Nat)) (col : Col (Option Nat)) :
    Except String (Col (Option Nat)) :=
  frameToSymbolAddressMap.foldlM
    (fun c entry =>
      match mget symbolAddressToCanonicalSymbolIndexMap entry.2 with
      | none =>
        Except.error "Impossible, all symbolAddresses have a canonical symbol at this point."
      | some symbolIndex => Except.ok (cset c none entry.1 (some symbolIndex)))
    col

/-- Instrumentation record: for one processed frame, the resolved function
name / file name string indices and the assigned func index (observation
only, not part of the JS state). -/
structure FuncResolution where
  frameIndex : Nat
  nameStringIndex : Nat
  fileNameStringIndex : Option Nat
  funcIndex : Nat
deriving DecidableEq

/-- `funcKey` of source line 581: `${nameIndex}:${fileIndex ?? ''}`. -/
def funcKeyFor (nameStringIndex : Nat) (fileNameStringIndex : Option Nat) : String :=
  Nat.repr nameStringIndex ++ ":" ++
    (match fileNameStringIndex with
     | some i => Nat.repr i
     | none => "")

/-- State of the func-grouping loop (source lines 543–604). -/
structure StepDState where
  funcTable : FuncTable
  availableFuncIter : List Nat
  funcKeyToFuncMap : List (String × Nat)
  oldFuncToNewFuncEntries : List (Nat × Nat)
  funcCol : Col Nat
  lineCol : Col (Option Nat)
  stringTable : StringTable
  funcResolutionLog : List FuncResolution
deriving DecidableEq

/-- One iteration of the func-grouping loop: resolve name and file for the
frame, reuse or create the func for that `(name, file)` key, and write the
frame's `func` and `line` cells. -/
def stepDFrame (oldFrameTable : FrameTable) (nativeSymbols : NativeSymbolTable)
    (resultsForLib : List (Nat × AddressResult)) (resourceIndex : Nat)
    (newNativeSymbolCol : Col (Option Nat)) (st : StepDState) (frameIndex : Nat) :
    Except String StepDState :=
  let oldFunc := cget oldFrameTable.func 0 frameIndex
  match cget newNativeSymbolCol none frameIndex with
  | none => Except.error "Impossible, all frames now have native symbols."
  | some nativeSymbolIndex =>
    let address := cget oldFrameTable.address 0 frameIndex
    let addressResult :=
      match mget resultsForLib address with
      | some r => r
      | none =>
        let symbolName := cget nativeSymbols.name 0 nativeSymbolIndex
        let fileNameIndex := cget st.funcTable.fileName none oldFunc
        { symbolAddress := cget nativeSymbols.address 0 nativeSymbolIndex
          name := getString st.stringTable symbolName
          file := fileNameIndex.map (getString st.stringTable)
          line := cget oldFrameTable.line none frameIndex }
    let intern1 := indexForString st.stringTable addressResult.name
    let functionStringIndex := intern1.1
    let intern2 :=
      match addressResult.file with
      | some f =>
        let r := indexForString intern1.2 f
        (some r.1, r.2)
      | none => ((none : Option Nat), intern1.2)
    let fileNameStringIndex := intern2.1
    let stringTable := intern2.2
    let funcKey := funcKeyFor functionStringIndex fileNameStringIndex
    match mget st.funcKeyToFuncMap funcKey with
    | some funcIndex =>
      Except.ok
        { st with
          oldFuncToNewFuncEntries := st.oldFuncToNewFuncEntries ++ [(oldFunc, funcIndex)]
          funcCol := cset st.funcCol 0 frameIndex funcIndex
          lineCol := cset st.lineCol none frameIndex addressResult.line
          stringTable := stringTable
          funcResolutionLog := st.funcResolutionLog ++
            [⟨frameIndex, functionStringIndex, fileNameStringIndex, funcIndex⟩] }
    | none =>
      match st.availableFuncIter with
      | funcIndex :: rest =>
        Except.ok
          { funcTable :=
              { st.funcTable with
                name := cset st.funcTable.name 0 funcIndex functionStringIndex
                fileName := cset st.funcTable.fileName none funcIndex fileNameStringIndex }
            availableFuncIter := rest
            funcKeyToFuncMap := mset st.funcKeyToFuncMap funcKey funcIndex
            oldFuncToNewFuncEntries := st.oldFuncToNewFuncEntries ++ [(oldFunc, funcIndex)]
            funcCol := cset st.funcCol 0 frameIndex funcIndex
            lineCol := cset st.lineCol none frameIndex addressResult.line
            stringTable := stringTable
            funcResolutionLog := st.funcResolutionLog ++
              [⟨frameIndex, functionStringIndex, fileNameStringIndex, funcIndex⟩] }
      | [] =>
        let funcIndex := st.funcTable.length
        let grown :=
          { st.funcTable with
            isJS := cset st.funcTable.isJS false funcIndex false
            relevantForJS := cset st.funcTable.relevantForJS false funcIndex false
            resource := cset st.funcTable.resource (-1) funcIndex (resourceIndex : Int)
            lineNumber := cset st.funcTable.lineNumber none funcIndex none
            columnNumber := cset st.funcTable.columnNumber none funcIndex none
            length := funcIndex + 1 }
        Except.ok
          { funcTable :=
              { grown with
                name := cset grown.name 0 funcIndex functionStringIndex
                fileName := cset grown.fileName none funcIndex fileNameStringIndex }
            availableFuncIter := []
            funcKeyToFuncMap := mset st.funcKeyToFuncMap funcKey funcIndex
            oldFuncToNewFuncEntries := st.oldFuncToNewFuncEntries ++ [(oldFunc, funcIndex)]
            funcCol := cset st.funcCol 0 frameIndex funcIndex
            lineCol := cset st.lineCol none frameIndex addressResult.line
            stringTable := stringTable
            funcResolutionLog := st.funcResolutionLog ++
              [⟨frameIndex, functionStringIndex, fileNameStringIndex, funcIndex⟩] }

/-- The result of `applySymbolicationStep`: the new thread value, the merged
`oldFuncToNewFuncMap`, plus instrumentation views of the internal maps
(observations only). -/
structure ApplyResult where
  thread : Thread
  oldFuncToNewFuncMap : List (Nat × Nat)
  frameToSymbolAddressMap : List (Nat × Nat)
  symbolAddressToNameMap : List (Nat × String)
  oldFuncToNewFuncEntries : List (Nat × Nat)
  funcResolutionLog : List FuncResolution
deriving DecidableEq

/-- `applySymbolicationStep` (source lines 390–624). -/
def applySymbolicationStep (thread : Thread)
    (symbolicationStepInfo : SymbolicationStepInfo)
    (oldFuncToNewFuncMap : List (Nat × Nat)) : Except String ApplyResult :=
  let oldFrameTable := thread.frameTable
  let oldFuncTable := thread.funcTable
  let oldNativeSymbols := thread.nativeSymbols
  let stringTable := thread.stringTable
  let info := symbolicationStepInfo.threadLibSymbolicationInfo
  let resultsForLib := symbolicationStepInfo.resultsForLib
  let base := freshRefBase thread
  let availableFuncs := jsSetOfList info.allFuncsForThisLib
  let availableNativeSymbols := jsSetOfList info.allNativeSymbolsForThisLib
  let stA := stepA oldFrameTable oldNativeSymbols stringTable resultsForLib
    info.allFramesForThisLib availableNativeSymbols
  let stB := stepB info.libIndex
    ⟨stA.availableNativeSymbols, shallowCloneNativeSymbolTable base oldNativeSymbols,
     stA.symbolAddressToCanonicalSymbolIndexMap, stringTable⟩
    stA.symbolAddressToNameMap
  match stepCAssign stB.symbolAddressToCanonicalSymbolIndexMap
      stA.frameToSymbolAddressMap (cslice (base + 3) oldFrameTable.nativeSymbol) with
  | Except.error e => Except.error e
  | Except.ok newNativeSymbolCol =>
    let stD0 : StepDState :=
      { funcTable := shallowCloneFuncTable (base + 4) oldFuncTable
        availableFuncIter := availableFuncs
        funcKeyToFuncMap := []
        oldFuncToNewFuncEntries := []
        funcCol := cslice (base + 11) oldFrameTable.func
        lineCol := cslice (base + 12) oldFrameTable.line
        stringTable := stB.stringTable
        funcResolutionLog := [] }
    match info.allFramesForThisLib.foldlM
        (stepDFrame oldFrameTable stB.nativeSymbols resultsForLib info.resourceIndex
          newNativeSymbolCol) stD0 with
    | Except.error e => Except.error e
    | Except.ok stD =>
      let frameTable :=
        { oldFrameTable with
          func := stD.funcCol
          nativeSymbol := newNativeSymbolCol
          line := stD.lineCol }
      let oldFuncToNewFuncMapForThisLib := makeConsensusMap stD.oldFuncToNewFuncEntries
      let mergedMap := oldFuncToNewFuncMapForThisLib.foldl
        (fun m kv => mset m kv.1 kv.2) oldFuncToNewFuncMap
      Except.ok
        { thread :=
            { thread with
              frameTable := frameTable
              funcTable := stD.funcTable
              nativeSymbols := stB.nativeSymbols
              stringTable := stD.stringTable }
          oldFuncToNewFuncMap := mergedMap
          frameToSymbolAddressMap := stA.frameToSymbolAddressMap
          symbolAddressToNameMap := stA.symbolAddressToNameMap
          oldFuncToNewFuncEntries := stD.oldFuncToNewFuncEntries
          funcResolutionLog := stD.funcResolutionLog }

/-! ### The address collector (source lines 260–329) -/

/-- `${lib.debugName}/${lib.breakpadId}` (source line 318). -/
def libKeyOf (lib : Lib) : String :=
  lib.debugName ++ "/" ++ lib.breakpadId

/-- JS `list[i]` for a possibly negative index: out of range is
`undefined`. -/
def jsIndexList {α : Type} (l : List α) (i : Int) : Option α :=
  if i < 0 then none else l.get? i.toNat

/-- Source lines 285–291: the set of funcs of one library resource. -/
def collectFuncsForResource (funcTable : FuncTable) (resourceIndex : Nat) : List Nat :=
  (List.range funcTable.length).filter fun funcIndex =>
    cget funcTable.resource (-1) funcIndex = (resourceIndex : Int)

/-- Source lines 294–304: the set of native symbols of one library. -/
def collectNativeSymbolsForLib (nativeSymbols : NativeSymbolTable) (libIndex : Nat) : List Nat :=
  (List.range nativeSymbols.length).filter fun nativeSymbolIndex =>
    cget nativeSymbols.libIndex 0 nativeSymbolIndex = libIndex

/-- Source lines 307–316: the frames of one library resource. -/
def collectFramesForResource (frameTable : FrameTable) (funcTable : FuncTable)
    (resourceIndex : Nat) : List Nat :=
  (List.range frameTable.length).filter fun frameIndex =>
    cget funcTable.resource (-1) (cget frameTable.func 0 frameIndex) = (resourceIndex : Int)

/-- The `ThreadLibSymbolicationInfo` gathered for one library resource. -/
def threadLibInfoFor (thread : Thread) (resourceIndex libIndex : Nat) :
    ThreadLibSymbolicationInfo :=
  let allFramesForThisLib :=
    collectFramesForResource thread.frameTable thread.funcTable resourceIndex
  { resourceIndex := resourceIndex
    libIndex := libIndex
    allFuncsForThisLib := collectFuncsForResource thread.funcTable resourceIndex
    allNativeSymbolsForThisLib := collectNativeSymbolsForLib thread.nativeSymbols libIndex
    allFramesForThisLib := allFramesForThisLib
    frameAddresses := allFramesForThisLib.map (cget thread.frameTable.address 0) }

/-- `getThreadSymbolicationInfo` (source lines 260–329). -/
def getThreadSymbolicationInfo (thread : Thread) :
    Except String (List (String × ThreadLibSymbolicationInfo)) :=
  (List.range thread.resourceTable.length).foldlM
    (fun map resourceIndex =>
      if cget thread.resourceTable.type 0 resourceIndex ≠ resourceTypesLibrary then
        Except.ok map
      else
        match cget thread.resourceTable.lib JsLibIndexValue.undef resourceIndex with
        | JsLibIndexValue.null => Except.ok map
        | JsLibIndexValue.undef => Except.ok map
        | JsLibIndexValue.val libIndexRaw =>
          if libIndexRaw = -1 then Except.ok map
          else
            match jsIndexList thread.libs libIndexRaw with
            | none => Except.error "Did not find a lib."
            | some lib =>
              Except.ok (mset map (libKeyOf lib)
                (threadLibInfoFor thread resourceIndex libIndexRaw.toNat)))
    []

/-! ### The request aggregator (source lines 333–354) -/

/-- The `(debugName, breakpadId)` pair carried by a resolution request. -/
structure LibDescriptor where
  debugName : String
  breakpadId : String
deriving DecidableEq

/-- One per-library resolution request. -/
structure LibSymbolicationRequest where
  lib : LibDescriptor
  addresses : List Nat
deriving DecidableEq

/-- JS `string.split(sep)` for a one-character separator, at the character
list level. -/
def jsSplitCharList (sep : Char) : List Char → List (List Char)
  | [] => [[]]
  | c :: rest =>
    if c = sep then [] :: jsSplitCharList sep rest
    else
      match jsSplitCharList sep rest with
      | [] => [[c]]
      | part :: parts => (c :: part) :: parts

/-- JS `string.split(sep)` for a one-character separator. -/
def jsSplitOnChar (s : String) (sep : Char) : List String :=
  (jsSplitCharList sep s.data).map String.mk

/-- Source lines 350–351: `const [debugName, breakpadId] = libKey.split('/')`. -/
def decodeLibKey (libKey : String) : LibDescriptor :=
  let parts := jsSplitOnChar libKey '/'
  { debugName := parts.getD 0 "", breakpadId := parts.getD 1 "" }

/-- `buildLibSymbolicationRequestsForAllThreads` (source lines 333–354). -/
def buildLibSymbolicationRequestsForAllThreads
    (symbolicationInfo : List (List (String × ThreadLibSymbolicationInfo))) :
    List LibSymbolicationRequest :=
  let libKeyToAddressesMap :=
    symbolicationInfo.foldl
      (fun m threadSymbolicationInfo =>
        threadSymbolicationInfo.foldl
          (fun m entry =>
            let addressSet :=
              match mget m entry.1 with
              | some s => s
              | none => []
            mset m entry.1 (entry.2.frameAddresses.foldl jsSetAdd addressSet))
          m)
      []
  libKeyToAddressesMap.map fun entry =>
    { lib := decodeLibKey entry.1, addresses := entry.2 }

/-! ### The orchestrator (source lines 360–377 and 632–662) -/

/-- Modelled from the spec: provider errors are either the distinguished,
recoverable `SymbolsNotFoundError` (`errors.js`, not under `src/`) or any
other error. -/
inductive ProviderError where
  | symbolsNotFound (message : String)
  | other (message : String)
deriving DecidableEq

/-- One per-library completion delivered by the symbol provider: exactly one
success-or-failure callback per requested library. -/
inductive LibEvent where
  | success (request : LibSymbolicationRequest) (results : List (Nat × AddressResult))
  | failure (request : LibSymbolicationRequest) (error : ProviderError)
deriving DecidableEq

/-- A profile: its threads. -/
structure Profile where
  threads : List Thread
deriving DecidableEq

/-- `finishSymbolicationForLib` (source lines 360–377): the step-callback
invocations for one library's results, one per thread that has an entry for
the library key. -/
def finishSymbolicationForLib (profile : Profile)
    (symbolicationInfo : List (List (String × ThreadLibSymbolicationInfo)))
    (resultsForLib : List (Nat × AddressResult)) (libKey : String) :
    List (Nat × SymbolicationStepInfo) :=
  (List.range profile.threads.length).foldl
    (fun acc threadIndex =>
      match mget (symbolicationInfo.getD threadIndex []) libKey with
      | none => acc
      | some threadLibSymbolicationInfo =>
        acc ++ [(threadIndex, ⟨threadLibSymbolicationInfo, resultsForLib⟩)])
    []

/-- Observable outcome of a symbolication run: the step-callback invocations
and the logged (warned) errors. -/
structure SymbolicationRun where
  stepCalls : List (Nat × SymbolicationStepInfo)
  warnings : List ProviderError
deriving DecidableEq

/-- The two provider callbacks of `symbolicateProfile` (source lines
642–660): a success forwards the results per thread; a failure rethrows
unless the error is the "not found" kind, which is only logged. -/
def handleLibEvent (profile : Profile)
    (symbolicationInfo : List (List (String × ThreadLibSymbolicationInfo)))
    (run : SymbolicationRun) : LibEvent → Except ProviderError SymbolicationRun
  | LibEvent.success request results =>
    let libKey := request.lib.debugName ++ "/" ++ request.lib.breakpadId
    Except.ok
      { run with
        stepCalls := run.stepCalls ++
          finishSymbolicationForLib profile symbolicationInfo results libKey }
  | LibEvent.failure _request error =>
    match error with
    | ProviderError.symbolsNotFound _ =>
      Except.ok { run with warnings := run.warnings ++ [error] }
    | ProviderError.other _ => Except.error error

/-- `symbolicateProfile` (source lines 632–662).  The external, asynchronous
symbol store is modelled by the list of per-library completion events it
delivers; the function gathers the per-thread info, builds the aggregated
requests, and folds the events through the two callbacks. -/
def symbolicateProfile (profile : Profile) (events : List LibEvent) :
    Except String (List LibSymbolicationRequest × Except ProviderError SymbolicationRun) :=
  match profile.threads.mapM getThreadSymbolicationInfo with
  | Except.error e => Except.error e
  | Except.ok symbolicationInfo =>
    let requests := buildLibSymbolicationRequestsForAllThreads symbolicationInfo
    Except.ok (requests,
      events.foldlM (handleLibEvent profile symbolicationInfo) ⟨[], []⟩)

/-! ### Auxiliary definitions used by the verification -/

/-- `st₂` is `st₁` with zero or more strings appended (and the same object
identity): how the string table evolves during a step. -/
def strExt (st₁ st₂ : StringTable) : Prop :=
  st₂.ref = st₁.ref ∧ ∃ l, st₂.strings = st₁.strings ++ l

/-- The index `indexForString` returns (without the updated table). -/
def stIdx (st : StringTable) (s : String) : Nat :=
  (indexForString st s).1

/-- Row-allocation count: how a "reuse an available row, else append" loop
evolves the table length, as a function of the stream of keys, the keys
already seen, and the number of still-available rows. -/
def allocSpec {K : Type} [DecidableEq K] : List K → List K → Nat → Nat → Nat
  | [], _, _, len => len
  | k :: rest, seen, iterLen, len =>
    if seen.contains k then allocSpec rest seen iterLen len
    else
      match iterLen with
      | i + 1 => allocSpec rest (seen ++ [k]) i len
      | 0 => allocSpec rest (seen ++ [k]) 0 (len + 1)

/-- The keys of an association-list map. -/
def mkeys {K V : Type} (m : List (K × V)) : List K :=
  m.map Prod.fst

/-- The symbol address Step A resolves for one frame. -/
def frameSymbolAddress (ft : FrameTable) (ns : NativeSymbolTable) (st : StringTable)
    (resultsForLib : List (Nat × AddressResult)) (f : Nat) : Nat :=
  (resolveAddressResult ft ns st resultsForLib f).symbolAddress

/-- The symbol name Step A resolves for one frame. -/
def frameSymbolName (ft : FrameTable) (ns : NativeSymbolTable) (st : StringTable)
    (resultsForLib : List (Nat × AddressResult)) (f : Nat) : String :=
  (resolveAddressResult ft ns st resultsForLib f).name

/-- Invariant of the Step A loop state, relative to the initial list of
available native symbols. -/
structure StepAInv (avail₀ : List Nat) (st : StepAState) : Prop where
  f2saKeysNodup : (mkeys st.frameToSymbolAddressMap).Nodup
  nameKeysNodup : (mkeys st.symbolAddressToNameMap).Nodup
  canonKeysNodup : (mkeys st.symbolAddressToCanonicalSymbolIndexMap).Nodup
  canonKeysSub : ∀ a ∈ mkeys st.symbolAddressToCanonicalSymbolIndexMap,
    a ∈ mkeys st.symbolAddressToNameMap
  count : st.availableNativeSymbols.length +
    st.symbolAddressToCanonicalSymbolIndexMap.length = avail₀.length
  f2saValSub : ∀ p ∈ st.frameToSymbolAddressMap, p.2 ∈ mkeys st.symbolAddressToNameMap

/-- Pure version of `stepCAssign`: entries whose symbol address has no
canonical symbol are skipped (the step proves this never happens). -/
def stepCPure (symbolAddressToCanonicalSymbolIndexMap : List (Nat × Nat))
    (frameToSymbolAddressMap : List (Nat × Nat)) (col : Col (Option Nat)) :
    Col (Option Nat) :=
  frameToSymbolAddressMap.foldl
    (fun c entry =>
      match mget symbolAddressToCanonicalSymbolIndexMap entry.2 with
      | none => c
      | some symbolIndex => cset c none entry.1 (some symbolIndex))
    col

/-- Pure version of one func-grouping iteration: a frame that would trigger
the defensive `throw` is skipped (the step proves this never happens). -/
def stepDPureFrame (oldFrameTable : FrameTable) (nativeSymbols : NativeSymbolTable)
    (resultsForLib : List (Nat × AddressResult)) (resourceIndex : Nat)
    (newNativeSymbolCol : Col (Option Nat)) (st : StepDState) (frameIndex : Nat) :
    StepDState :=
  match stepDFrame oldFrameTable nativeSymbols resultsForLib resourceIndex
      newNativeSymbolCol st frameIndex with
  | Except.ok st' => st'
  | Except.error _ => st

/-- The always-succeeding model of `applySymbolicationStep`; the step
function is proven to coincide with `Except.ok` of this value. -/
def applyModel (thread : Thread) (symbolicationStepInfo : SymbolicationStepInfo)
    (oldFuncToNewFuncMap : List (Nat × Nat)) : ApplyResult :=
  let oldFrameTable := thread.frameTable
  let oldFuncTable := thread.funcTable
  let oldNativeSymbols := thread.nativeSymbols
  let stringTable := thread.stringTable
  let info := symbolicationStepInfo.threadLibSymbolicationInfo
  let resultsForLib := symbolicationStepInfo.resultsForLib
  let base := freshRefBase thread
  let availableFuncs := jsSetOfList info.allFuncsForThisLib
  let availableNativeSymbols := jsSetOfList info.allNativeSymbolsForThisLib
  let stA := stepA oldFrameTable oldNativeSymbols stringTable resultsForLib
    info.allFramesForThisLib availableNativeSymbols
  let stB := stepB info.libIndex
    ⟨stA.availableNativeSymbols, shallowCloneNativeSymbolTable base oldNativeSymbols,
     stA.symbolAddressToCanonicalSymbolIndexMap, stringTable⟩
    stA.symbolAddressToNameMap
  let newNativeSymbolCol := stepCPure stB.symbolAddressToCanonicalSymbolIndexMap
    stA.frameToSymbolAddressMap (cslice (base + 3) oldFrameTable.nativeSymbol)
  let stD0 : StepDState :=
    { funcTable := shallowCloneFuncTable (base + 4) oldFuncTable
      availableFuncIter := availableFuncs
      funcKeyToFuncMap := []
      oldFuncToNewFuncEntries := []
      funcCol := cslice (base + 11) oldFrameTable.func
      lineCol := cslice (base + 12) oldFrameTable.line
      stringTable := stB.stringTable
      funcResolutionLog := [] }
  let stD := info.allFramesForThisLib.foldl
    (stepDPureFrame oldFrameTable stB.nativeSymbols resultsForLib info.resourceIndex
      newNativeSymbolCol) stD0
  let frameTable :=
    { oldFrameTable with
      func := stD.funcCol
      nativeSymbol := newNativeSymbolCol
      line := stD.lineCol }
  let oldFuncToNewFuncMapForThisLib := makeConsensusMap stD.oldFuncToNewFuncEntries
  let mergedMap := oldFuncToNewFuncMapForThisLib.foldl
    (fun m kv => mset m kv.1 kv.2) oldFuncToNewFuncMap
  { thread :=
      { thread with
        frameTable := frameTable
        funcTable := stD.funcTable
        nativeSymbols := stB.nativeSymbols
        stringTable := stD.stringTable }
    oldFuncToNewFuncMap := mergedMap
    frameToSymbolAddressMap := stA.frameToSymbolAddressMap
    symbolAddressToNameMap := stA.symbolAddressToNameMap
    oldFuncToNewFuncEntries := stD.oldFuncToNewFuncEntries
    funcResolutionLog := stD.funcResolutionLog }

/-- The Step A state of the model, for one step applied to one thread. -/
def modelStA (thread : Thread) (stepInfo : SymbolicationStepInfo) : StepAState :=
  stepA thread.frameTable thread.nativeSymbols thread.stringTable stepInfo.resultsForLib
    stepInfo.threadLibSymbolicationInfo.allFramesForThisLib
    (jsSetOfList stepInfo.threadLibSymbolicationInfo.allNativeSymbolsForThisLib)

/-- The Step B state of the model. -/
def modelStB (thread : Thread) (stepInfo : SymbolicationStepInfo) : StepBState :=
  stepB stepInfo.threadLibSymbolicationInfo.libIndex
    ⟨(modelStA thread stepInfo).availableNativeSymbols,
     shallowCloneNativeSymbolTable (freshRefBase thread) thread.nativeSymbols,
     (modelStA thread stepInfo).symbolAddressToCanonicalSymbolIndexMap,
     thread.stringTable⟩
    (modelStA thread stepInfo).symbolAddressToNameMap

/-- The new `nativeSymbol` frame column of the model. -/
def modelNsCol (thread : Thread) (stepInfo : SymbolicationStepInfo) : Col (Option Nat) :=
  stepCPure (modelStB thread stepInfo).symbolAddressToCanonicalSymbolIndexMap
    (modelStA thread stepInfo).frameToSymbolAddressMap
    (cslice (freshRefBase thread + 3) thread.frameTable.nativeSymbol)

/-- The initial func-grouping state of the model. -/
def modelStD0 (thread : Thread) (stepInfo : SymbolicationStepInfo) : StepDState :=
  { funcTable := shallowCloneFuncTable (freshRefBase thread + 4) thread.funcTable
    availableFuncIter := jsSetOfList stepInfo.threadLibSymbolicationInfo.allFuncsForThisLib
    funcKeyToFuncMap := []
    oldFuncToNewFuncEntries := []
    funcCol := cslice (freshRefBase thread + 11) thread.frameTable.func
    lineCol := cslice (freshRefBase thread + 12) thread.frameTable.line
    stringTable := (modelStB thread stepInfo).stringTable
    funcResolutionLog := [] }

/-- The final func-grouping state of the model. -/
def modelStD (thread : Thread) (stepInfo : SymbolicationStepInfo) : StepDState :=
  stepInfo.threadLibSymbolicationInfo.allFramesForThisLib.foldl
    (stepDPureFrame thread.frameTable (modelStB thread stepInfo).nativeSymbols
      stepInfo.resultsForLib stepInfo.threadLibSymbolicationInfo.resourceIndex
      (modelNsCol thread stepInfo))
    (modelStD0 thread stepInfo)

/-- Invariant of the func-grouping loop state: `avail` is the available
func list, `N0` the func-table length before the step, `processed` the
frames handled so far. -/
structure StepDInv (oldFt : FrameTable) (avail : List Nat) (N0 : Nat)
    (processed : List Nat) (st : StepDState) : Prop where
  logFrames : st.funcResolutionLog.map (fun e => e.frameIndex) = processed
  entriesEq : st.oldFuncToNewFuncEntries =
    st.funcResolutionLog.map (fun e => (cget oldFt.func 0 e.frameIndex, e.funcIndex))
  colEq : ∀ e ∈ st.funcResolutionLog, cget st.funcCol 0 e.frameIndex = e.funcIndex
  mapBinding : ∀ e ∈ st.funcResolutionLog,
    mget st.funcKeyToFuncMap (funcKeyFor e.nameStringIndex e.fileNameStringIndex) =
      some e.funcIndex
  mapKeysNodup : (mkeys st.funcKeyToFuncMap).Nodup
  iterStruct : ∃ n, st.availableFuncIter = avail.drop n ∧
    st.funcKeyToFuncMap.map Prod.snd =
      avail.take n ++ List.range' N0 (st.funcTable.length - N0) ∧
    N0 ≤ st.funcTable.length ∧ (N0 < st.funcTable.length → n = avail.length)

/-- A small example thread over one library with one frame, used to
evaluate the theorems on concrete inputs. -/
def exThread : Thread :=
  { frameTable := ⟨⟨0, [10]⟩, ⟨1, [0]⟩, ⟨2, [none]⟩, ⟨3, [none]⟩, ⟨4, [none]⟩, 1⟩
    funcTable := ⟨⟨5, [0]⟩, ⟨6, [none]⟩, ⟨7, [0]⟩, ⟨8, [false]⟩, ⟨9, [false]⟩,
      ⟨10, [none]⟩, ⟨11, [none]⟩, 1⟩
    nativeSymbols := ⟨⟨12, []⟩, ⟨13, []⟩, ⟨14, []⟩, 0⟩
    resourceTable := ⟨⟨15, [1]⟩, ⟨16, [JsLibIndexValue.val 0]⟩, 1⟩
    libs := [⟨"libxul", "ABC123"⟩]
    stringTable := ⟨17, []⟩ }

/-- The collector output for `exThread`'s single library. -/
def exInfo : ThreadLibSymbolicationInfo :=
  ⟨0, 0, [0], [], [0], [10]⟩

/-- A symbolication step for `exThread`: the provider resolves address 10
to the function at symbol address 0 named "X". -/
def exStep : SymbolicationStepInfo :=
  ⟨exInfo, [(10, ⟨0, "X", none, none⟩)]⟩

/-- Does resource row `r` qualify as a symbolicatable library resource
(kind library, with a concrete lib index)? -/
def resourceQualifies (t : Thread) (r : Nat) : Prop :=
  cget t.resourceTable.type 0 r = resourceTypesLibrary ∧
    ∃ i : Int, cget t.resourceTable.lib JsLibIndexValue.undef r = JsLibIndexValue.val i ∧
      i ≠ -1

instance (t : Thread) (r : Nat) : Decidable (resourceQualifies t r) := by
  unfold resourceQualifies
  cases cget t.resourceTable.lib JsLibIndexValue.undef r with
  | null => exact decidable_of_iff (False ∧ False) (by simp)
  | undef => exact decidable_of_iff (False ∧ False) (by simp)
  | val i =>
    exact decidable_of_iff
      (cget t.resourceTable.type 0 r = resourceTypesLibrary ∧ i ≠ -1) (by simp)

/-- The raw lib index of a qualifying resource row. -/
def resourceRawLibIndex (t : Thread) (r : Nat) : Int :=
  match cget t.resourceTable.lib JsLibIndexValue.undef r with
  | JsLibIndexValue.val i => i
  | _ => -1

/-- A qualifying resource row whose lib index has no lib row: the fatal
collector condition. -/
def resourceIsDangling (t : Thread) (r : Nat) : Prop :=
  resourceQualifies t r ∧ jsIndexList t.libs (resourceRawLibIndex t r) = none

instance (t : Thread) (r : Nat) : Decidable (resourceIsDangling t r) := by
  unfold resourceIsDangling; infer_instance

/-- The qualifying, non-dangling resource rows of a thread whose lib has
library key `key`, in row order. -/
def libResourceRowsFor (t : Thread) (key : String) : List Nat :=
  (List.range t.resourceTable.length).filter fun r =>
    decide (resourceQualifies t r) &&
      match jsIndexList t.libs (resourceRawLibIndex t r) with
      | none => false
      | some lib => libKeyOf lib == key

/-- Spec-side definition (§4.2): the distinct library keys over all
threads' collector outputs, in first-encounter order. -/
def specDistinctLibKeys
    (symbolicationInfo : List (List (String × ThreadLibSymbolicationInfo))) : List String :=
  jsSetOfList ((symbolicationInfo.foldr (· ++ ·) []).map Prod.fst)

/-- Spec-side definition (§4.2): the deduplicated union of the frame
addresses recorded for one library key across all threads, in
first-encounter order. -/
def specAggregatedAddresses
    (symbolicationInfo : List (List (String × ThreadLibSymbolicationInfo)))
    (key : String) : List Nat :=
  jsSetOfList
    ((((symbolicationInfo.foldr (· ++ ·) []).filter fun e => e.1 = key).map
        fun e => e.2.frameAddresses).foldr (· ++ ·) [])

/-- One iteration of the aggregator's nested loop (source lines 339–347):
merge one collector entry into the libKey → address-set map. -/
def aggStep (m : List (String × List Nat)) (entry : String × ThreadLibSymbolicationInfo) :
    List (String × List Nat) :=
  let addressSet :=
    match mget m entry.1 with
    | some s => s
    | none => []
  mset m entry.1 (entry.2.frameAddresses.foldl jsSetAdd addressSet)

/-- The deduplicated union of the frame addresses recorded for key `k` in
the entry stream `P`, in first-encounter order. -/
def aggValue (P : List (String × ThreadLibSymbolicationInfo)) (k : String) : List Nat :=
  jsSetOfList
    (((P.filter fun e => e.1 = k).map fun e => e.2.frameAddresses).foldr (· ++ ·) [])

/-- One iteration of the collector loop of `getThreadSymbolicationInfo`
(source lines 264–327). -/
def collectorStep (thread : Thread) (map : List (String × ThreadLibSymbolicationInfo))
    (resourceIndex : Nat) :
    Except String (List (String × ThreadLibSymbolicationInfo)) :=
  if cget thread.resourceTable.type 0 resourceIndex ≠ resourceTypesLibrary then
    Except.ok map
  else
    match cget thread.resourceTable.lib JsLibIndexValue.undef resourceIndex with
    | JsLibIndexValue.null => Except.ok map
    | JsLibIndexValue.undef => Except.ok map
    | JsLibIndexValue.val libIndexRaw =>
      if libIndexRaw = -1 then Except.ok map
      else
        match jsIndexList thread.libs libIndexRaw with
        | none => Except.error "Did not find a lib."
        | some lib =>
          Except.ok (mset map (libKeyOf lib)
            (threadLibInfoFor thread resourceIndex libIndexRaw.toNat))

/-- The fatal error carried by a completion event, if any: a provider
failure whose error is not the recoverable "not found" kind (source lines
653–659). -/
def eventFatal : LibEvent → Option ProviderError
  | LibEvent.failure _ (ProviderError.other m) => some (ProviderError.other m)
  | _ => none

/-- The logged (warned) error carried by a completion event, if any. -/
def eventWarning : LibEvent → Option ProviderError
  | LibEvent.failure _ (ProviderError.symbolsNotFound m) =>
    some (ProviderError.symbolsNotFound m)
  | _ => none

/-- The step-callback invocations triggered by one completion event. -/
def stepCallsOf (profile : Profile)
    (symbolicationInfo : List (List (String × ThreadLibSymbolicationInfo))) :
    LibEvent → List (Nat × SymbolicationStepInfo)
  | LibEvent.success request results =>
    finishSymbolicationForLib profile symbolicationInfo results
      (request.lib.debugName ++ "/" ++ request.lib.breakpadId)
  | LibEvent.failure _ _ => []

/-- The symbolication step for one library resource of a thread, with the
library slice recomputed by the address collector. -/
def sliceStep (t : Thread) (rI lI : Nat) (res : List (Nat × AddressResult)) :
    SymbolicationStepInfo :=
  ⟨threadLibInfoFor t rI lI, res⟩

/-- Frame-effect relation between two canonical-symbol loop states: the
native-symbol column identities are preserved, the table only grows, and
the string table is only appended to. -/
def stepBEffects (st st' : StepBState) : Prop :=
  st'.nativeSymbols.libIndex.ref = st.nativeSymbols.libIndex.ref ∧
  st'.nativeSymbols.address.ref = st.nativeSymbols.address.ref ∧
  st'.nativeSymbols.name.ref = st.nativeSymbols.name.ref ∧
  st.nativeSymbols.length ≤ st'.nativeSymbols.length ∧
  strExt st.stringTable st'.stringTable

/-- Frame-effect relation between two func-grouping loop states: all
column identities are preserved, the func table only grows, and the
string table is only appended to. -/
def stepDEffects (st st' : StepDState) : Prop :=
  st'.funcCol.ref = st.funcCol.ref ∧
  st'.lineCol.ref = st.lineCol.ref ∧
  st'.funcTable.name.ref = st.funcTable.name.ref ∧
  st'.funcTable.fileName.ref = st.funcTable.fileName.ref ∧
  st'.funcTable.resource.ref = st.funcTable.resource.ref ∧
  st'.funcTable.isJS.ref = st.funcTable.isJS.ref ∧
  st'.funcTable.relevantForJS.ref = st.funcTable.relevantForJS.ref ∧
  st'.funcTable.lineNumber.ref = st.funcTable.lineNumber.ref ∧
  st'.funcTable.columnNumber.ref = st.funcTable.columnNumber.ref ∧
  st.funcTable.length ≤ st'.funcTable.length ∧
  strExt st.stringTable st'.stringTable

/-- The output thread of `applySymbolicationStep` (falling back to the
input thread on a throw; the step is proven never to throw). -/
def applyOk (thread : Thread) (stepInfo : SymbolicationStepInfo)
    (oldFuncToNewFuncMap : List (Nat × Nat)) : Thread :=
  match applySymbolicationStep thread stepInfo oldFuncToNewFuncMap with
  | Except.ok r => r.thread
  | Except.error _ => thread

/-- The func-key map rebuilt from the func-resolution log: one `Map.set` per
logged frame, keyed by the frame's resolved `funcKey` with the assigned func
index as value. -/
def keyFold (entries : List FuncResolution) : List (String × Nat) :=
  entries.foldl
    (fun m e => mset m (funcKeyFor e.nameStringIndex e.fileNameStringIndex) e.funcIndex) []

/-- Value-tracking invariant of the Step A loop state: the available
native-symbol set stays a duplicate-free subset of the initial one, and the
canonical claims are pairwise distinct symbols taken out of it. -/
structure StepAValInv (avail₀ : List Nat) (st : StepAState) : Prop where
  availNodup : st.availableNativeSymbols.Nodup
  availSub : ∀ v ∈ st.availableNativeSymbols, v ∈ avail₀
  canonValsNodup : (st.symbolAddressToCanonicalSymbolIndexMap.map Prod.snd).Nodup
  canonValsSub : ∀ p ∈ st.symbolAddressToCanonicalSymbolIndexMap, p.2 ∈ avail₀
  availCanonDisj : ∀ v ∈ st.availableNativeSymbols,
    v ∉ st.symbolAddressToCanonicalSymbolIndexMap.map Prod.snd

/-- Cell-tracking invariant of the canonical-symbol loop: every processed
entry's symbol address has a canonical symbol row carrying that address and
the interned name, the canonical rows are pairwise distinct, and each one
is either a pre-existing symbol or an appended row. -/
structure StepBCellInv (N0 : Nat) (avail₀ : List Nat) (done : List (Nat × String))
    (st : StepBState) : Prop where
  canonValsNodup : (st.symbolAddressToCanonicalSymbolIndexMap.map Prod.snd).Nodup
  iterNodup : st.availableIter.Nodup
  iterSub : ∀ v ∈ st.availableIter, v ∈ avail₀
  iterDisj : ∀ v ∈ st.availableIter,
    v ∉ st.symbolAddressToCanonicalSymbolIndexMap.map Prod.snd
  valsClass : ∀ p ∈ st.symbolAddressToCanonicalSymbolIndexMap,
    p.2 ∈ avail₀ ∨ (N0 ≤ p.2 ∧ p.2 < st.nativeSymbols.length)
  lenLB : N0 ≤ st.nativeSymbols.length
  cells : ∀ p ∈ done, ∃ c,
    mget st.symbolAddressToCanonicalSymbolIndexMap p.1 = some c ∧
    cget st.nativeSymbols.address 0 c = p.1 ∧
    c < st.nativeSymbols.address.data.length ∧
    cget st.nativeSymbols.name 0 c = stIdx st.stringTable p.2 ∧
    c < st.nativeSymbols.name.data.length ∧
    p.2 ∈ st.stringTable.strings

/-- Cell- and log-tracking invariant of the func-grouping loop: the key map
is the fold of the log, every logged func row carries its entry's name and
file-name indices, those indices are first occurrences in the string table,
and each log entry's resolution is determined by `resultsForLib` (when the
frame's address is covered) or by the frame's canonical symbol's interned
name (when not). -/
structure StepDCellInv (oldFt : FrameTable) (ns : NativeSymbolTable)
    (res : List (Nat × AddressResult)) (nsCol : Col (Option Nat)) (S0 : StringTable)
    (N0 : Nat) (done : List FuncResolution) (st : StepDState) : Prop where
  logEq : st.funcResolutionLog = done
  mapEq : st.funcKeyToFuncMap = keyFold done
  bindings : ∀ e ∈ done,
    mget st.funcKeyToFuncMap (funcKeyFor e.nameStringIndex e.fileNameStringIndex) =
      some e.funcIndex
  cells : ∀ e ∈ done,
    cget st.funcTable.name 0 e.funcIndex = e.nameStringIndex ∧
    e.funcIndex < st.funcTable.name.data.length ∧
    cget st.funcTable.fileName none e.funcIndex = e.fileNameStringIndex ∧
    e.funcIndex < st.funcTable.fileName.data.length
  firstOcc : ∀ e ∈ done,
    e.nameStringIndex < st.stringTable.strings.length ∧
    stIdx st.stringTable (getString st.stringTable e.nameStringIndex) =
      e.nameStringIndex ∧
    ∀ i, e.fileNameStringIndex = some i →
      i < st.stringTable.strings.length ∧
      stIdx st.stringTable (getString st.stringTable i) = i
  resCov : ∀ e ∈ done, ∀ r, mget res (cget oldFt.address 0 e.frameIndex) = some r →
    e.nameStringIndex = stIdx st.stringTable r.name ∧
    r.name ∈ st.stringTable.strings ∧
    e.fileNameStringIndex = r.file.map (stIdx st.stringTable) ∧
    (∀ fl, r.file = some fl → fl ∈ st.stringTable.strings)
  resUnc : ∀ e ∈ done, mget res (cget oldFt.address 0 e.frameIndex) = none →
    ∃ c, cget nsCol none e.frameIndex = some c ∧
      e.nameStringIndex = cget ns.name 0 c
  funcIterNodup : st.availableFuncIter.Nodup
  funcIterBound : ∀ v ∈ st.availableFuncIter, v < N0
  funcIterFresh : ∀ v ∈ st.availableFuncIter, v ∉ st.funcKeyToFuncMap.map Prod.snd
  lenMono : N0 ≤ st.funcTable.length
  idxBound : ∀ e ∈ done, e.funcIndex < st.funcTable.length
  strext0 : strExt S0 st.stringTable

/-- Replay invariant of the Step A loop when every frame carries the
canonical symbol of its (re-)resolved symbol address: the canonical map
claims the same canonical symbol for each address immediately, and the
available set is the initial one minus those claims. -/
structure StepAReplayInv (avail₀ : List Nat) (sa C : Nat → Nat) (processed : List Nat)
    (st : StepAState) : Prop where
  canonEq : st.symbolAddressToCanonicalSymbolIndexMap =
    (jsSetOfList (processed.map sa)).map (fun a => (a, C a))
  availMem : ∀ v, v ∈ st.availableNativeSymbols ↔
    (v ∈ avail₀ ∧ ∀ a ∈ jsSetOfList (processed.map sa), v ≠ C a)
  availNodup : st.availableNativeSymbols.Nodup

/-- Replay invariant for running the func-grouping loop a second time on the
first application's output thread: the working string table and func table
stay equal (as contents) to the first application's final ones, and the key
map and available-func iterator march along the first application's final
key map. -/
structure StepDReplayInv (S : StringTable) (T : FuncTable) (avail : List Nat)
    (done : List FuncResolution) (st : StepDState) : Prop where
  strings : st.stringTable = S
  nameData : st.funcTable.name.data = T.name.data
  fileData : st.funcTable.fileName.data = T.fileName.data
  flen : st.funcTable.length = T.length
  mapEq : st.funcKeyToFuncMap = keyFold done
  iterEq : st.availableFuncIter = avail.drop (keyFold done).length

/-! ### Lemmas: maps and sets -/

theorem mget_mset_self {K V : Type} [DecidableEq K] (m : List (K × V)) (k : K) (v : V) :
    mget (mset m k v) k = some v := by
  induction m with
  | nil => simp [mget, mset]
  | cons e rest ih =>
    obtain ⟨a, b⟩ := e
    by_cases h : a = k
    · simp [mset, h, mget]
    · simp [mset, h, mget, ih]

theorem mget_mset_ne {K V : Type} [DecidableEq K] (m : List (K × V)) (k k' : K) (v : V)
    (h : k ≠ k') : mget (mset m k v) k' = mget m k' := by
  induction m with
  | nil => simp [mget, mset, fun hc : k = k' => h hc]
  | cons e rest ih =>
    obtain ⟨a, b⟩ := e
    by_cases he : a = k
    · have : ¬ a = k' := fun hc => h (by rw [← he, hc])
      simp [mset, he, mget, this, h]
    · simp only [mset, if_neg he, mget]
      rw [ih]

theorem mkeys_mset_mem {K V : Type} [DecidableEq K] (m : List (K × V)) (k : K) (v : V)
    (h : k ∈ mkeys m) : mkeys (mset m k v) = mkeys m := by
  induction m with
  | nil => simp [mkeys] at h
  | cons e rest ih =>
    obtain ⟨a, b⟩ := e
    by_cases he : a = k
    · simp [mset, he, mkeys]
    · have : k ∈ mkeys rest := by
        rcases List.mem_cons.mp (show k ∈ a :: mkeys rest from h) with h' | h'
        · exact absurd h'.symm he
        · exact h'
      simp only [mset, if_neg he, mkeys, List.map_cons]
      rw [show List.map Prod.fst (mset rest k v) = mkeys (mset rest k v) from rfl, ih this]
      rfl

theorem mkeys_mset_not_mem {K V : Type} [DecidableEq K] (m : List (K × V)) (k : K) (v : V)
    (h : k ∉ mkeys m) : mkeys (mset m k v) = mkeys m ++ [k] := by
  induction m with
  | nil => simp [mset, mkeys]
  | cons e rest ih =>
    obtain ⟨a, b⟩ := e
    by_cases he : a = k
    · exact absurd (by simp [mkeys, he]) h
    · have : k ∉ mkeys rest := fun hc => h (by simp [mkeys] at hc ⊢; exact Or.inr hc)
      simp only [mset, if_neg he, mkeys, List.map_cons]
      rw [show List.map Prod.fst (mset rest k v) = mkeys (mset rest k v) from rfl, ih this]
      rfl

theorem mget_isSome_iff_mem_mkeys {K V : Type} [DecidableEq K] (m : List (K × V)) (k : K) :
    (mget m k).isSome = true ↔ k ∈ mkeys m := by
  induction m with
  | nil => simp [mget, mkeys]
  | cons e rest ih =>
    obtain ⟨a, b⟩ := e
    by_cases he : a = k
    · simp [mget, he, mkeys]
    · have : ¬ k = a := fun hc => he hc.symm
      simp [mget, he, mkeys, ih, this]

theorem mget_eq_none_iff_not_mem_mkeys {K V : Type} [DecidableEq K]
    (m : List (K × V)) (k : K) : mget m k = none ↔ k ∉ mkeys m := by
  rw [← mget_isSome_iff_mem_mkeys]
  cases mget m k <;> simp

theorem mkeys_nodup_mset {K V : Type} [DecidableEq K] (m : List (K × V)) (k : K) (v : V)
    (h : (mkeys m).Nodup) : (mkeys (mset m k v)).Nodup := by
  by_cases hk : k ∈ mkeys m
  · rwa [mkeys_mset_mem m k v hk]
  · rw [mkeys_mset_not_mem m k v hk]
    simpa [List.nodup_append] using ⟨h, hk⟩

theorem mem_of_mget_eq_some {K V : Type} [DecidableEq K] {m : List (K × V)} {k : K} {v : V}
    (h : mget m k = some v) : (k, v) ∈ m := by
  induction m with
  | nil => simp [mget] at h
  | cons e rest ih =>
    obtain ⟨a, b⟩ := e
    by_cases he : a = k
    · simp only [mget, if_pos he] at h
      have hb : b = v := Option.some.inj h
      exact he ▸ hb ▸ List.mem_cons_self (a, b) rest
    · simp only [mget, if_neg he] at h
      exact List.mem_cons_of_mem _ (ih h)

theorem mkeys_nodup_tail {K V : Type} {a : K} {b : V} {rest : List (K × V)}
    (hnd : (mkeys ((a, b) :: rest)).Nodup) : a ∉ mkeys rest ∧ (mkeys rest).Nodup := by
  have h' : (a :: mkeys rest).Nodup := hnd
  exact ⟨(List.nodup_cons.mp h').1, (List.nodup_cons.mp h').2⟩

theorem mget_eq_some_of_mem_of_nodup {K V : Type} [DecidableEq K] {m : List (K × V)}
    {k : K} {v : V} (hmem : (k, v) ∈ m) (hnd : (mkeys m).Nodup) : mget m k = some v := by
  induction m with
  | nil => simp at hmem
  | cons e rest ih =>
    obtain ⟨a, b⟩ := e
    obtain ⟨hhead, htail⟩ := mkeys_nodup_tail hnd
    rcases List.mem_cons.mp hmem with hm | hm
    · obtain ⟨ha, hb⟩ := Prod.mk.inj hm
      simp [mget, ha, hb]
    · have hk : k ∈ mkeys rest := by
        simp only [mkeys, List.mem_map]
        exact ⟨(k, v), hm, rfl⟩
      have he : a ≠ k := fun hc => hhead (hc ▸ hk)
      simp only [mget, if_neg he]
      exact ih hm htail

theorem mset_mem_cases {K V : Type} [DecidableEq K] {m : List (K × V)} {k : K} {v : V}
    {p : K × V} (h : p ∈ mset m k v) : p ∈ m ∨ (p.1 = k ∧ p.2 = v) := by
  induction m with
  | nil =>
    simp only [mset] at h
    rcases List.mem_singleton.mp h with h
    exact Or.inr (by rw [h]; exact ⟨rfl, rfl⟩)
  | cons e rest ih =>
    obtain ⟨a, b⟩ := e
    simp only [mset] at h
    by_cases he : a = k
    · rw [if_pos he] at h
      rcases List.mem_cons.mp h with h' | h'
      · exact Or.inr (by rw [h']; exact ⟨he, rfl⟩)
      · exact Or.inl (List.mem_cons_of_mem _ h')
    · rw [if_neg he] at h
      rcases List.mem_cons.mp h with h' | h'
      · exact Or.inl (h' ▸ List.mem_cons_self _ _)
      · rcases ih h' with h'' | h''
        · exact Or.inl (List.mem_cons_of_mem _ h'')
        · exact Or.inr h''

theorem mget_mdel_ne {K V : Type} [DecidableEq K] (m : List (K × V)) (k k' : K)
    (h : k ≠ k') : mget (mdel m k) k' = mget m k' := by
  induction m with
  | nil => simp [mdel]
  | cons e rest ih =>
    obtain ⟨a, b⟩ := e
    by_cases he : a = k
    · have : ¬ a = k' := fun hc => h (by rw [← he, hc])
      simp [mdel, he, mget, this, h]
    · simp [mdel, he, mget, ih]

theorem mget_mdel_self {K V : Type} [DecidableEq K] (m : List (K × V)) (k : K)
    (hnd : (mkeys m).Nodup) : mget (mdel m k) k = none := by
  induction m with
  | nil => simp [mdel, mget]
  | cons e rest ih =>
    obtain ⟨a, b⟩ := e
    obtain ⟨hhead, htail⟩ := mkeys_nodup_tail hnd
    by_cases he : a = k
    · rw [mdel, if_pos he, mget_eq_none_iff_not_mem_mkeys]
      exact he ▸ hhead
    · simp [mdel, he, mget, ih htail]

theorem jsSetAdd_mem {K : Type} [DecidableEq K] (s : List K) (k x : K) :
    x ∈ jsSetAdd s k ↔ x ∈ s ∨ x = k := by
  by_cases h : k ∈ s
  · rw [jsSetAdd, if_pos (by simp [List.contains, h])]
    constructor
    · exact Or.inl
    · rintro (hx | hx)
      · exact hx
      · exact hx ▸ h
  · rw [jsSetAdd, if_neg (by simp [List.contains, h])]
    simp

theorem jsSetAdd_nodup {K : Type} [DecidableEq K] (s : List K) (k : K) (h : s.Nodup) :
    (jsSetAdd s k).Nodup := by
  by_cases hc : k ∈ s
  · rw [jsSetAdd, if_pos (by simp [List.contains, hc])]
    exact h
  · rw [jsSetAdd, if_neg (by simp [List.contains, hc])]
    refine List.Nodup.append h (by simp) ?_
    intro x hx
    simp only [List.mem_singleton]
    intro hxe
    exact hc (hxe ▸ hx)

theorem jsSetDel_length_of_mem {K : Type} [DecidableEq K] (s : List K) (k : K)
    (h : k ∈ s) : (jsSetDel s k).length + 1 = s.length := by
  induction s with
  | nil => simp at h
  | cons e rest ih =>
    by_cases he : e = k
    · simp [jsSetDel, he]
    · have : k ∈ rest := by
        rcases List.mem_cons.mp h with h' | h'
        · exact absurd h'.symm he
        · exact h'
      simp [jsSetDel, he, ih this]

theorem jsSetDel_mem {K : Type} [DecidableEq K] (s : List K) (k x : K) :
    x ∈ jsSetDel s k → x ∈ s := by
  induction s with
  | nil => simp [jsSetDel]
  | cons e rest ih =>
    by_cases he : e = k
    · rw [jsSetDel, if_pos he]
      exact fun h => List.mem_cons_of_mem _ h
    · rw [jsSetDel, if_neg he]
      intro h
      rcases List.mem_cons.mp h with h' | h'
      · exact h' ▸ List.mem_cons_self e rest
      · exact List.mem_cons_of_mem _ (ih h')

theorem jsSetDel_nodup {K : Type} [DecidableEq K] (s : List K) (k : K) (h : s.Nodup) :
    (jsSetDel s k).Nodup := by
  induction s with
  | nil => simp [jsSetDel]
  | cons e rest ih =>
    rcases List.nodup_cons.mp h with ⟨he, hrest⟩
    by_cases hek : e = k
    · rw [jsSetDel, if_pos hek]
      exact hrest
    · rw [jsSetDel, if_neg hek]
      exact List.nodup_cons.mpr ⟨fun hc => he (jsSetDel_mem rest k e hc), ih hrest⟩

theorem not_mem_jsSetDel_of_nodup {K : Type} [DecidableEq K] (s : List K) (k : K)
    (h : s.Nodup) : k ∉ jsSetDel s k := by
  induction s with
  | nil => simp [jsSetDel]
  | cons e rest ih =>
    rcases List.nodup_cons.mp h with ⟨he, hrest⟩
    by_cases hek : e = k
    · rw [jsSetDel, if_pos hek]
      exact fun hc => he (hek ▸ hc)
    · rw [jsSetDel, if_neg hek]
      intro hc
      rcases List.mem_cons.mp hc with h' | h'
      · exact hek h'.symm
      · exact ih hrest h'

theorem jsSetOfList_eq_self {K : Type} [DecidableEq K] (l : List K) (h : l.Nodup) :
    jsSetOfList l = l := by
  suffices H : ∀ acc : List K, acc.Nodup → (∀ x ∈ acc, x ∉ l) →
      l.foldl jsSetAdd acc = acc ++ l by
    simpa using H [] (by simp) (by simp)
  induction l with
  | nil => intro acc _ _; simp
  | cons e rest ih =>
    intro acc hacc hdisj
    rcases List.nodup_cons.mp h with ⟨he, hrest⟩
    have hmem : e ∉ acc := fun hc => hdisj e hc (by simp)
    have h1 : (acc ++ [e]).Nodup := by
      refine List.Nodup.append hacc (by simp) ?_
      intro x hx
      simp only [List.mem_singleton]
      intro hxe
      exact hmem (hxe ▸ hx)
    have h2 : ∀ x ∈ acc ++ [e], x ∉ rest := by
      intro x hx
      rcases List.mem_append.mp hx with hx | hx
      · intro hc; exact hdisj x hx (List.mem_cons_of_mem _ hc)
      · simp at hx; rw [hx]; exact he
    calc (e :: rest).foldl jsSetAdd acc
        = rest.foldl jsSetAdd (jsSetAdd acc e) := by simp [List.foldl_cons]
      _ = rest.foldl jsSetAdd (acc ++ [e]) := by
          rw [show jsSetAdd acc e = acc ++ [e] from by
            rw [jsSetAdd, if_neg (by simp [List.contains, hmem])]]
      _ = (acc ++ [e]) ++ rest := ih hrest (acc ++ [e]) h1 h2
      _ = acc ++ e :: rest := by simp

/-! ### Lemmas: columns -/

theorem cget_cset_self {α : Type} (c : Col α) (d : α) (i : Nat) (v : α) :
    cget (cset c d i v) d i = v := by
  unfold cget cset lset
  by_cases h : i < c.data.length
  · rw [if_pos h]
    simp [List.getD_eq_getElem?_getD, List.getElem?_set_self h]
  · rw [if_neg h]
    have hlen : (c.data ++ List.replicate (i - c.data.length) d).length = i := by
      simp; omega
    rw [List.getD_eq_getElem?_getD, List.getElem?_append_right (Nat.le_of_eq hlen)]
    simp [hlen]

theorem cget_cset_ne {α : Type} (c : Col α) (d : α) (i j : Nat) (v : α) (h : i ≠ j) :
    cget (cset c d i v) d j = cget c d j := by
  unfold cget cset lset
  by_cases hi : i < c.data.length
  · rw [if_pos hi]
    simp [List.getD_eq_getElem?_getD, List.getElem?_set_ne h]
  · rw [if_neg hi]
    have hil : c.data.length ≤ i := Nat.le_of_not_lt hi
    have hlen2 : (c.data ++ List.replicate (i - c.data.length) d).length = i := by
      simp; omega
    by_cases hj : j < c.data.length
    · rw [List.getD_eq_getElem?_getD, List.getD_eq_getElem?_getD,
        List.getElem?_append_left (by rw [hlen2]; omega),
        List.getElem?_append_left hj]
    · have hj' : c.data.length ≤ j := Nat.le_of_not_lt hj
      rw [List.getD_eq_getElem?_getD, List.getD_eq_getElem?_getD,
        List.getElem?_eq_none hj']
      by_cases hji : j < i
      · rw [List.getElem?_append_left (by rw [hlen2]; omega),
          List.getElem?_append_right hj', List.getElem?_replicate]
        by_cases hcond : j - c.data.length < i - c.data.length
        · simp [hcond]
        · simp [hcond]
      · rw [List.getElem?_append_right (by rw [hlen2]; omega), hlen2,
          List.getElem?_eq_none (by simp; omega)]

theorem cset_ref {α : Type} (c : Col α) (d : α) (i : Nat) (v : α) :
    (cset c d i v).ref = c.ref := rfl

/-! ### Lemmas: string table -/

theorem strExt_refl (st : StringTable) : strExt st st :=
  ⟨rfl, [], by simp⟩

theorem strExt_trans {st₁ st₂ st₃ : StringTable} (h₁ : strExt st₁ st₂)
    (h₂ : strExt st₂ st₃) : strExt st₁ st₃ := by
  obtain ⟨hr₁, l₁, hl₁⟩ := h₁
  obtain ⟨hr₂, l₂, hl₂⟩ := h₂
  exact ⟨hr₂.trans hr₁, l₁ ++ l₂, by rw [hl₂, hl₁, List.append_assoc]⟩

theorem indexForString_strExt (st : StringTable) (s : String) :
    strExt st (indexForString st s).2 := by
  unfold indexForString
  cases st.strings.findIdx? (fun t => t == s) with
  | none => exact ⟨rfl, [s], rfl⟩
  | some i => exact strExt_refl st

theorem indexForString_mem (st : StringTable) (s : String) :
    s ∈ (indexForString st s).2.strings := by
  unfold indexForString
  cases h : st.strings.findIdx? (fun t => t == s) with
  | none => simp
  | some i =>
    by_contra hmem
    have hnone : st.strings.findIdx? (fun t => t == s) = none :=
      List.findIdx?_eq_none_iff.mpr (fun x hx => by
        simp only [beq_eq_false_iff_ne]
        exact fun hc => hmem (hc ▸ hx))
    rw [h] at hnone
    exact Option.noConfusion hnone

/-! ### Lemmas: Step A -/

theorem mkeys_mset_eq_jsSetAdd {K V : Type} [DecidableEq K] (m : List (K × V)) (k : K)
    (v : V) : mkeys (mset m k v) = jsSetAdd (mkeys m) k := by
  by_cases h : k ∈ mkeys m
  · rw [mkeys_mset_mem m k v h, jsSetAdd, if_pos (by simp [List.contains, h])]
  · rw [mkeys_mset_not_mem m k v h, jsSetAdd, if_neg (by simp [List.contains, h])]

theorem mem_foldl_jsSetAdd {K : Type} [DecidableEq K] (l : List K) (acc : List K) (x : K) :
    x ∈ l.foldl jsSetAdd acc ↔ x ∈ acc ∨ x ∈ l := by
  induction l generalizing acc with
  | nil => simp
  | cons e rest ih =>
    rw [List.foldl_cons, ih, jsSetAdd_mem]
    constructor
    · rintro ((hx | hx) | hx)
      · exact Or.inl hx
      · exact Or.inr (hx ▸ List.mem_cons_self e rest)
      · exact Or.inr (List.mem_cons_of_mem _ hx)
    · rintro (hx | hx)
      · exact Or.inl (Or.inl hx)
      · rcases List.mem_cons.mp hx with hx | hx
        · exact Or.inl (Or.inr hx)
        · exact Or.inr hx

theorem foldl_jsSetAdd_nodup {K : Type} [DecidableEq K] (l : List K) (acc : List K)
    (h : acc.Nodup) : (l.foldl jsSetAdd acc).Nodup := by
  induction l generalizing acc with
  | nil => exact h
  | cons e rest ih => exact ih _ (jsSetAdd_nodup _ _ h)

theorem jsSetOfList_nodup {K : Type} [DecidableEq K] (l : List K) :
    (jsSetOfList l).Nodup :=
  foldl_jsSetAdd_nodup l [] (by simp)

theorem stepAFrame_f2sa (ft : FrameTable) (ns : NativeSymbolTable) (s : StringTable)
    (res : List (Nat × AddressResult)) (st : StepAState) (f : Nat) :
    (stepAFrame ft ns s res st f).frameToSymbolAddressMap =
      mset st.frameToSymbolAddressMap f (frameSymbolAddress ft ns s res f) := by
  rw [stepAFrame]
  dsimp only
  cases cget ft.nativeSymbol none f with
  | none => rfl
  | some oldSym =>
    dsimp only
    split
    · rfl
    · split <;> rfl

theorem stepAFrame_sa2name (ft : FrameTable) (ns : NativeSymbolTable) (s : StringTable)
    (res : List (Nat × AddressResult)) (st : StepAState) (f : Nat) :
    (stepAFrame ft ns s res st f).symbolAddressToNameMap =
      mset st.symbolAddressToNameMap (frameSymbolAddress ft ns s res f)
        (frameSymbolName ft ns s res f) := by
  rw [stepAFrame]
  dsimp only
  cases cget ft.nativeSymbol none f with
  | none => rfl
  | some oldSym =>
    dsimp only
    split
    · rfl
    · split <;> rfl

/-- The canonical-symbol part of one Step A iteration: either unchanged, or
one new canonical entry is claimed from the available set. -/
theorem stepAFrame_canon_cases (ft : FrameTable) (ns : NativeSymbolTable) (s : StringTable)
    (res : List (Nat × AddressResult)) (st : StepAState) (f : Nat) :
    ((stepAFrame ft ns s res st f).symbolAddressToCanonicalSymbolIndexMap =
        st.symbolAddressToCanonicalSymbolIndexMap ∧
      (stepAFrame ft ns s res st f).availableNativeSymbols = st.availableNativeSymbols) ∨
    (∃ oldSym,
      mget st.symbolAddressToCanonicalSymbolIndexMap (frameSymbolAddress ft ns s res f) =
        none ∧
      oldSym ∈ st.availableNativeSymbols ∧
      (stepAFrame ft ns s res st f).symbolAddressToCanonicalSymbolIndexMap =
        mset st.symbolAddressToCanonicalSymbolIndexMap (frameSymbolAddress ft ns s res f)
          oldSym ∧
      (stepAFrame ft ns s res st f).availableNativeSymbols =
        jsSetDel st.availableNativeSymbols oldSym) := by
  rw [stepAFrame]
  dsimp only
  cases cget ft.nativeSymbol none f with
  | none => exact Or.inl ⟨rfl, rfl⟩
  | some oldSym =>
    dsimp only
    by_cases h1 : (mget st.symbolAddressToCanonicalSymbolIndexMap
        (resolveAddressResult ft ns s res f).symbolAddress).isSome
    · rw [if_pos h1]
      exact Or.inl ⟨rfl, rfl⟩
    · rw [if_neg h1]
      by_cases h2 : st.availableNativeSymbols.contains oldSym
      · rw [if_pos h2]
        refine Or.inr ⟨oldSym, ?_, by simpa [List.contains] using h2, rfl, rfl⟩
        rw [frameSymbolAddress]
        cases hm : mget st.symbolAddressToCanonicalSymbolIndexMap
            (resolveAddressResult ft ns s res f).symbolAddress with
        | none => rfl
        | some v => rw [hm] at h1; simp at h1
      · rw [if_neg h2]
        exact Or.inl ⟨rfl, rfl⟩

theorem stepAFrame_inv (ft : FrameTable) (ns : NativeSymbolTable) (s : StringTable)
    (res : List (Nat × AddressResult)) (avail₀ : List Nat) (st : StepAState) (f : Nat)
    (h : StepAInv avail₀ st) : StepAInv avail₀ (stepAFrame ft ns s res st f) := by
  have hf2sa := stepAFrame_f2sa ft ns s res st f
  have hname := stepAFrame_sa2name ft ns s res st f
  have hnamekeys : mkeys (stepAFrame ft ns s res st f).symbolAddressToNameMap =
      jsSetAdd (mkeys st.symbolAddressToNameMap) (frameSymbolAddress ft ns s res f) := by
    rw [hname, mkeys_mset_eq_jsSetAdd]
  rcases stepAFrame_canon_cases ft ns s res st f with ⟨hc, ha⟩ | ⟨oldSym, hmiss, hmem, hc, ha⟩
  · refine ⟨?_, ?_, ?_, ?_, ?_, ?_⟩
    · rw [hf2sa, mkeys_mset_eq_jsSetAdd]
      exact jsSetAdd_nodup _ _ h.f2saKeysNodup
    · rw [hnamekeys]
      exact jsSetAdd_nodup _ _ h.nameKeysNodup
    · rw [hc]; exact h.canonKeysNodup
    · intro a hmema
      rw [hc] at hmema
      rw [hnamekeys, jsSetAdd_mem]
      exact Or.inl (h.canonKeysSub a hmema)
    · rw [hc, ha]; exact h.count
    · intro p hp
      rw [hnamekeys, jsSetAdd_mem]
      rw [hf2sa] at hp
      by_cases hkey : f ∈ mkeys st.frameToSymbolAddressMap
      · -- the set updated an existing key in place
        rcases mset_mem_cases hp with hp' | hp'
        · exact Or.inl (h.f2saValSub p hp')
        · exact Or.inr (by rw [hp'.2])
      · rcases mset_mem_cases hp with hp' | hp'
        · exact Or.inl (h.f2saValSub p hp')
        · exact Or.inr (by rw [hp'.2])
  · have hkeynew : frameSymbolAddress ft ns s res f ∉
        mkeys st.symbolAddressToCanonicalSymbolIndexMap := by
      rw [← mget_eq_none_iff_not_mem_mkeys]
      exact hmiss
    refine ⟨?_, ?_, ?_, ?_, ?_, ?_⟩
    · rw [hf2sa, mkeys_mset_eq_jsSetAdd]
      exact jsSetAdd_nodup _ _ h.f2saKeysNodup
    · rw [hnamekeys]
      exact jsSetAdd_nodup _ _ h.nameKeysNodup
    · rw [hc]
      exact mkeys_nodup_mset _ _ _ h.canonKeysNodup
    · intro a hmema
      rw [hc, mkeys_mset_not_mem _ _ _ hkeynew] at hmema
      rw [hnamekeys, jsSetAdd_mem]
      rcases List.mem_append.mp hmema with hmema | hmema
      · exact Or.inl (h.canonKeysSub a hmema)
      · simp at hmema
        exact Or.inr hmema
    · rw [hc, ha]
      have h1 : (jsSetDel st.availableNativeSymbols oldSym).length + 1 =
          st.availableNativeSymbols.length := jsSetDel_length_of_mem _ _ hmem
      have h2 : (mset st.symbolAddressToCanonicalSymbolIndexMap
          (frameSymbolAddress ft ns s res f) oldSym).length =
          st.symbolAddressToCanonicalSymbolIndexMap.length + 1 := by
        have := mkeys_mset_not_mem st.symbolAddressToCanonicalSymbolIndexMap
          (frameSymbolAddress ft ns s res f) oldSym hkeynew
        have hlen := congrArg List.length this
        simpa [mkeys] using hlen
      have hcount := h.count
      rw [h2]
      omega
    · intro p hp
      rw [hnamekeys, jsSetAdd_mem]
      rw [hf2sa] at hp
      rcases mset_mem_cases hp with hp' | hp'
      · exact Or.inl (h.f2saValSub p hp')
      · exact Or.inr (by rw [hp'.2])

theorem stepA_foldl_inv (ft : FrameTable) (ns : NativeSymbolTable) (s : StringTable)
    (res : List (Nat × AddressResult)) (frames : List Nat) (avail₀ : List Nat)
    (st : StepAState) (h : StepAInv avail₀ st) :
    StepAInv avail₀ (frames.foldl (stepAFrame ft ns s res) st) := by
  induction frames generalizing st with
  | nil => exact h
  | cons g rest ih => exact ih _ (stepAFrame_inv ft ns s res avail₀ st g h)

theorem stepA_inv (ft : FrameTable) (ns : NativeSymbolTable) (s : StringTable)
    (res : List (Nat × AddressResult)) (frames : List Nat) (avail₀ : List Nat) :
    StepAInv avail₀ (stepA ft ns s res frames avail₀) := by
  rw [stepA]
  refine stepA_foldl_inv ft ns s res frames avail₀ _ ?_
  refine ⟨by simp [mkeys], by simp [mkeys], by simp [mkeys], ?_, by simp, ?_⟩
  · intro a ha; simp [mkeys] at ha
  · intro p hp; simp at hp

theorem stepA_foldl_f2sa_get (ft : FrameTable) (ns : NativeSymbolTable) (s : StringTable)
    (res : List (Nat × AddressResult)) (frames : List Nat) (st : StepAState) (f : Nat) :
    mget (frames.foldl (stepAFrame ft ns s res) st).frameToSymbolAddressMap f =
      if f ∈ frames then some (frameSymbolAddress ft ns s res f)
      else mget st.frameToSymbolAddressMap f := by
  induction frames generalizing st with
  | nil => simp
  | cons g rest ih =>
    rw [List.foldl_cons, ih]
    by_cases hf : f ∈ rest
    · rw [if_pos hf, if_pos (List.mem_cons_of_mem _ hf)]
    · rw [if_neg hf]
      by_cases hg : f = g
      · rw [if_pos (hg ▸ List.mem_cons_self g rest), stepAFrame_f2sa, hg, mget_mset_self]
      · have : f ∉ g :: rest := by
          intro hc
          rcases List.mem_cons.mp hc with hc | hc
          · exact hg hc
          · exact hf hc
        rw [if_neg this, stepAFrame_f2sa, mget_mset_ne _ _ _ _ (fun hc => hg hc.symm)]

theorem stepA_f2sa_get (ft : FrameTable) (ns : NativeSymbolTable) (s : StringTable)
    (res : List (Nat × AddressResult)) (frames : List Nat) (avail₀ : List Nat) (f : Nat) :
    mget (stepA ft ns s res frames avail₀).frameToSymbolAddressMap f =
      if f ∈ frames then some (frameSymbolAddress ft ns s res f) else none := by
  rw [stepA, stepA_foldl_f2sa_get]
  rfl

/-- Membership in the final frame-to-symbol-address map characterized. -/
theorem stepA_f2sa_mem (ft : FrameTable) (ns : NativeSymbolTable) (s : StringTable)
    (res : List (Nat × AddressResult)) (frames : List Nat) (avail₀ : List Nat)
    (p : Nat × Nat) :
    p ∈ (stepA ft ns s res frames avail₀).frameToSymbolAddressMap ↔
      p.1 ∈ frames ∧ p.2 = frameSymbolAddress ft ns s res p.1 := by
  constructor
  · intro hp
    have hnd := (stepA_inv ft ns s res frames avail₀).f2saKeysNodup
    have := mget_eq_some_of_mem_of_nodup (m := (stepA ft ns s res frames
      avail₀).frameToSymbolAddressMap) (k := p.1) (v := p.2) (by cases p; exact hp) hnd
    rw [stepA_f2sa_get] at this
    by_cases hf : p.1 ∈ frames
    · rw [if_pos hf] at this
      exact ⟨hf, (Option.some.inj this).symm⟩
    · rw [if_neg hf] at this
      exact Option.noConfusion this
  · intro ⟨hf, hv⟩
    have := stepA_f2sa_get ft ns s res frames avail₀ p.1
    rw [if_pos hf] at this
    have hmem := mem_of_mget_eq_some this
    cases p
    simp only at hv
    rw [hv]
    exact hmem

theorem stepA_foldl_sa2name_keys (ft : FrameTable) (ns : NativeSymbolTable)
    (s : StringTable) (res : List (Nat × AddressResult)) (frames : List Nat)
    (st : StepAState) :
    mkeys (frames.foldl (stepAFrame ft ns s res) st).symbolAddressToNameMap =
      (frames.map (frameSymbolAddress ft ns s res)).foldl jsSetAdd
        (mkeys st.symbolAddressToNameMap) := by
  induction frames generalizing st with
  | nil => simp
  | cons g rest ih =>
    rw [List.foldl_cons, ih, List.map_cons, List.foldl_cons, stepAFrame_sa2name,
      mkeys_mset_eq_jsSetAdd]

theorem stepA_sa2name_keys (ft : FrameTable) (ns : NativeSymbolTable) (s : StringTable)
    (res : List (Nat × AddressResult)) (frames : List Nat) (avail₀ : List Nat) :
    mkeys (stepA ft ns s res frames avail₀).symbolAddressToNameMap =
      jsSetOfList (frames.map (frameSymbolAddress ft ns s res)) := by
  rw [stepA, stepA_foldl_sa2name_keys]
  rfl

theorem stepA_sa2name_mem (ft : FrameTable) (ns : NativeSymbolTable) (s : StringTable)
    (res : List (Nat × AddressResult)) (frames : List Nat) (avail₀ : List Nat) (f : Nat)
    (hf : f ∈ frames) :
    frameSymbolAddress ft ns s res f ∈
      mkeys (stepA ft ns s res frames avail₀).symbolAddressToNameMap := by
  rw [stepA_sa2name_keys, jsSetOfList, mem_foldl_jsSetAdd]
  exact Or.inr (List.mem_map_of_mem _ hf)

/-! ### Lemmas: allocation counting -/

theorem foldl_jsSetAdd_length_ge {K : Type} [DecidableEq K] (l : List K) (acc : List K) :
    acc.length ≤ (l.foldl jsSetAdd acc).length := by
  induction l generalizing acc with
  | nil => exact Nat.le_refl _
  | cons e rest ih =>
    rw [List.foldl_cons]
    refine Nat.le_trans ?_ (ih (jsSetAdd acc e))
    rw [jsSetAdd]
    split
    · exact Nat.le_refl _
    · simp

theorem allocSpec_ge {K : Type} [DecidableEq K] (ks seen : List K) (i len : Nat) :
    len + (ks.foldl jsSetAdd seen).length ≤ allocSpec ks seen i len + i + seen.length := by
  induction ks generalizing seen i len with
  | nil => simp only [allocSpec, List.foldl_nil]; omega
  | cons k rest ih =>
    rw [List.foldl_cons]
    simp only [allocSpec]
    by_cases hk : k ∈ seen
    · rw [if_pos (by simp [List.contains, hk])]
      rw [show jsSetAdd seen k = seen from by rw [jsSetAdd, if_pos (by simp [List.contains, hk])]]
      exact ih seen i len
    · rw [if_neg (by simp [List.contains, hk])]
      have hadd : jsSetAdd seen k = seen ++ [k] := by
        rw [jsSetAdd, if_neg (by simp [List.contains, hk])]
      cases i with
      | zero =>
        have := ih (seen ++ [k]) 0 (len + 1)
        rw [hadd]
        simp only [List.length_append, List.length_singleton] at this ⊢
        omega
      | succ i' =>
        have := ih (seen ++ [k]) i' len
        rw [hadd]
        simp only [List.length_append, List.length_singleton] at this ⊢
        omega

theorem allocSpec_no_growth {K : Type} [DecidableEq K] (ks seen : List K) (i len : Nat)
    (h : (ks.foldl jsSetAdd seen).length ≤ seen.length + i) :
    allocSpec ks seen i len = len := by
  induction ks generalizing seen i len with
  | nil => rfl
  | cons k rest ih =>
    rw [List.foldl_cons] at h
    simp only [allocSpec]
    by_cases hk : k ∈ seen
    · rw [if_pos (by simp [List.contains, hk])]
      rw [show jsSetAdd seen k = seen from by
        rw [jsSetAdd, if_pos (by simp [List.contains, hk])]] at h
      exact ih seen i len h
    · have hadd : jsSetAdd seen k = seen ++ [k] := by
        rw [jsSetAdd, if_neg (by simp [List.contains, hk])]
      rw [if_neg (by simp [List.contains, hk])]
      rw [hadd] at h
      cases i with
      | zero =>
        exfalso
        have hge := foldl_jsSetAdd_length_ge rest (seen ++ [k])
        simp only [List.length_append, List.length_singleton] at hge h
        omega
      | succ i' =>
        refine ih (seen ++ [k]) i' len ?_
        simp only [List.length_append, List.length_singleton] at h ⊢
        omega

theorem allocSpec_le {K : Type} [DecidableEq K] (ks seen : List K) (i len : Nat) :
    len ≤ allocSpec ks seen i len := by
  induction ks generalizing seen i len with
  | nil => exact Nat.le_refl _
  | cons k rest ih =>
    simp only [allocSpec]
    split
    · exact ih seen i len
    · cases i with
      | zero => exact Nat.le_trans (Nat.le_succ len) (ih _ 0 (len + 1))
      | succ i' => exact ih _ i' len

/-! ### Lemmas: Step B (canonical symbols) -/

theorem stepBEntry_canon_isSome (l : Nat) (st : StepBState) (e : Nat × String) (a : Nat)
    (h : (mget st.symbolAddressToCanonicalSymbolIndexMap a).isSome = true) :
    (mget (stepBEntry l st e).symbolAddressToCanonicalSymbolIndexMap a).isSome = true := by
  rw [stepBEntry]
  dsimp only
  cases hm : mget st.symbolAddressToCanonicalSymbolIndexMap e.1 with
  | some si => exact h
  | none =>
    cases hit : st.availableIter with
    | cons si rest =>
      dsimp only
      by_cases ha : e.1 = a
      · rw [ha, mget_mset_self]; rfl
      · rw [mget_mset_ne _ _ _ _ ha]; exact h
    | nil =>
      dsimp only
      by_cases ha : e.1 = a
      · rw [ha, mget_mset_self]; rfl
      · rw [mget_mset_ne _ _ _ _ ha]; exact h

theorem stepBEntry_canon_self (l : Nat) (st : StepBState) (e : Nat × String) :
    (mget (stepBEntry l st e).symbolAddressToCanonicalSymbolIndexMap e.1).isSome = true := by
  rw [stepBEntry]
  dsimp only
  cases hm : mget st.symbolAddressToCanonicalSymbolIndexMap e.1 with
  | some si => simp [hm]
  | none =>
    cases hit : st.availableIter with
    | cons si rest => simp [mget_mset_self]
    | nil => simp [mget_mset_self]

theorem stepB_canon_total (l : Nat) (entries : List (Nat × String)) (st : StepBState)
    (a : Nat)
    (h : a ∈ mkeys entries ∨
      (mget st.symbolAddressToCanonicalSymbolIndexMap a).isSome = true) :
    (mget (stepB l st entries).symbolAddressToCanonicalSymbolIndexMap a).isSome = true := by
  induction entries generalizing st with
  | nil =>
    rcases h with h | h
    · simp [mkeys] at h
    · exact h
  | cons e rest ih =>
    rw [stepB, List.foldl_cons]
    rcases h with h | h
    · rcases List.mem_cons.mp (show a ∈ e.1 :: mkeys rest from h) with h' | h'
      · exact ih _ (Or.inr (h' ▸ stepBEntry_canon_self l st e))
      · exact ih _ (Or.inl h')
    · exact ih _ (Or.inr (stepBEntry_canon_isSome l st e a h))

theorem stepB_length_allocSpec (l : Nat) (entries : List (Nat × String)) (st : StepBState) :
    (stepB l st entries).nativeSymbols.length =
      allocSpec (mkeys entries) (mkeys st.symbolAddressToCanonicalSymbolIndexMap)
        st.availableIter.length st.nativeSymbols.length := by
  induction entries generalizing st with
  | nil => rfl
  | cons e rest ih =>
    rw [stepB, List.foldl_cons, show mkeys (e :: rest) = e.1 :: mkeys rest from rfl]
    simp only [allocSpec]
    by_cases hk : e.1 ∈ mkeys st.symbolAddressToCanonicalSymbolIndexMap
    · rw [if_pos (by simp [List.contains, hk])]
      obtain ⟨si, hsi⟩ := Option.isSome_iff_exists.mp
        ((mget_isSome_iff_mem_mkeys _ _).mpr hk)
      have hstep : stepBEntry l st e =
          { st with
            nativeSymbols :=
              { st.nativeSymbols with
                address := cset st.nativeSymbols.address 0 si e.1
                name := cset st.nativeSymbols.name 0 si
                  (indexForString st.stringTable e.2).1 }
            stringTable := (indexForString st.stringTable e.2).2 } := by
        rw [stepBEntry]
        dsimp only
        rw [hsi]
      simp only [stepB] at ih
      rw [hstep, ih]
    · rw [if_neg (by simp [List.contains, hk])]
      have hm : mget st.symbolAddressToCanonicalSymbolIndexMap e.1 = none :=
        (mget_eq_none_iff_not_mem_mkeys _ _).mpr hk
      cases hit : st.availableIter with
      | cons si rest' =>
        have hstep : stepBEntry l st e =
            { availableIter := rest'
              nativeSymbols :=
                { st.nativeSymbols with
                  address := cset st.nativeSymbols.address 0 si e.1
                  name := cset st.nativeSymbols.name 0 si
                    (indexForString st.stringTable e.2).1 }
              symbolAddressToCanonicalSymbolIndexMap :=
                mset st.symbolAddressToCanonicalSymbolIndexMap e.1 si
              stringTable := (indexForString st.stringTable e.2).2 } := by
          rw [stepBEntry]
          dsimp only
          rw [hm, hit]
        simp only [stepB] at ih
        rw [hstep, ih]
        dsimp only
        rw [mkeys_mset_not_mem _ _ _ hk]
        simp only [List.length_cons]
      | nil =>
        have hstep : stepBEntry l st e =
            { availableIter := []
              nativeSymbols :=
                { st.nativeSymbols with
                  libIndex := cset st.nativeSymbols.libIndex 0 st.nativeSymbols.length l
                  length := st.nativeSymbols.length + 1
                  address := cset st.nativeSymbols.address 0 st.nativeSymbols.length e.1
                  name := cset st.nativeSymbols.name 0 st.nativeSymbols.length
                    (indexForString st.stringTable e.2).1 }
              symbolAddressToCanonicalSymbolIndexMap :=
                mset st.symbolAddressToCanonicalSymbolIndexMap e.1 st.nativeSymbols.length
              stringTable := (indexForString st.stringTable e.2).2 } := by
          rw [stepBEntry]
          dsimp only
          rw [hm, hit]
        simp only [stepB] at ih
        rw [hstep, ih]
        dsimp only
        rw [mkeys_mset_not_mem _ _ _ hk]
        simp only [List.length_nil]

/-! ### Lemmas: Step C and the success of the whole step -/

theorem stepCAssign_eq_ok (canon f2sa : List (Nat × Nat)) (col : Col (Option Nat))
    (htotal : ∀ p ∈ f2sa, (mget canon p.2).isSome = true) :
    stepCAssign canon f2sa col = Except.ok (stepCPure canon f2sa col) := by
  induction f2sa generalizing col with
  | nil => rfl
  | cons p rest ih =>
    obtain ⟨si, hsi⟩ := Option.isSome_iff_exists.mp (htotal p (List.mem_cons_self p rest))
    rw [stepCAssign, List.foldlM_cons, hsi]
    rw [stepCPure, List.foldl_cons, hsi]
    exact ih (cset col none p.1 (some si)) (fun q hq => htotal q (List.mem_cons_of_mem _ hq))

theorem stepCPure_ref (canon f2sa : List (Nat × Nat)) (col : Col (Option Nat)) :
    (stepCPure canon f2sa col).ref = col.ref := by
  induction f2sa generalizing col with
  | nil => rfl
  | cons p rest ih =>
    rw [stepCPure, List.foldl_cons]
    cases mget canon p.2 with
    | none => exact ih col
    | some si => exact (ih _).trans rfl

theorem stepCPure_get_not_mem (canon f2sa : List (Nat × Nat)) (col : Col (Option Nat))
    (f : Nat) (hf : f ∉ mkeys f2sa) :
    cget (stepCPure canon f2sa col) none f = cget col none f := by
  induction f2sa generalizing col with
  | nil => rfl
  | cons p rest ih =>
    have hf1 : f ∉ mkeys rest := fun hc => hf (List.mem_cons_of_mem _ hc)
    have hf2 : p.1 ≠ f := fun hc => hf (hc ▸ List.mem_cons_self p.1 (mkeys rest))
    rw [stepCPure, List.foldl_cons]
    cases mget canon p.2 with
    | none => exact ih col hf1
    | some si =>
      rw [show (List.foldl (fun c entry =>
          match mget canon entry.2 with
          | none => c
          | some symbolIndex => cset c none entry.1 (some symbolIndex))
          (cset col none p.1 (some si)) rest) = stepCPure canon rest
          (cset col none p.1 (some si)) from rfl, ih _ hf1]
      exact cget_cset_ne _ _ _ _ _ hf2

theorem stepCPure_get_mem (canon f2sa : List (Nat × Nat)) (col : Col (Option Nat))
    (hnd : (mkeys f2sa).Nodup) (p : Nat × Nat) (hp : p ∈ f2sa) (si : Nat)
    (hsi : mget canon p.2 = some si) :
    cget (stepCPure canon f2sa col) none p.1 = some si := by
  induction f2sa generalizing col with
  | nil => simp at hp
  | cons q rest ih =>
    have hnd' : (mkeys rest).Nodup ∧ q.1 ∉ mkeys rest := by
      have h' : (q.1 :: mkeys rest).Nodup := hnd
      exact ⟨(List.nodup_cons.mp h').2, (List.nodup_cons.mp h').1⟩
    rcases List.mem_cons.mp hp with hp' | hp'
    · rw [hp'] at hsi ⊢
      rw [stepCPure, List.foldl_cons, hsi]
      rw [show (List.foldl (fun c entry =>
          match mget canon entry.2 with
          | none => c
          | some symbolIndex => cset c none entry.1 (some symbolIndex))
          (cset col none q.1 (some si)) rest) = stepCPure canon rest
          (cset col none q.1 (some si)) from rfl,
        stepCPure_get_not_mem canon rest _ q.1 hnd'.2]
      exact cget_cset_self _ _ _ _
    · rw [stepCPure, List.foldl_cons]
      cases mget canon q.2 with
      | none => exact ih col hnd'.1 hp'
      | some si' => exact ih _ hnd'.1 hp'

theorem stepDFrame_ok (oldFt : FrameTable) (ns : NativeSymbolTable)
    (res : List (Nat × AddressResult)) (rI : Nat) (nsCol : Col (Option Nat))
    (st : StepDState) (f : Nat) (h : (cget nsCol none f).isSome = true) :
    stepDFrame oldFt ns res rI nsCol st f =
      Except.ok (stepDPureFrame oldFt ns res rI nsCol st f) := by
  rw [stepDPureFrame]
  obtain ⟨si, hsi⟩ := Option.isSome_iff_exists.mp h
  rw [stepDFrame]
  dsimp only
  rw [hsi]
  dsimp only
  cases mget st.funcKeyToFuncMap _ with
  | some fi => rfl
  | none =>
    cases st.availableFuncIter with
    | cons fi rest => rfl
    | nil => rfl

theorem stepD_foldlM_eq_ok (oldFt : FrameTable) (ns : NativeSymbolTable)
    (res : List (Nat × AddressResult)) (rI : Nat) (nsCol : Col (Option Nat))
    (frames : List Nat) (st : StepDState)
    (h : ∀ f ∈ frames, (cget nsCol none f).isSome = true) :
    frames.foldlM (stepDFrame oldFt ns res rI nsCol) st =
      Except.ok (frames.foldl (stepDPureFrame oldFt ns res rI nsCol) st) := by
  induction frames generalizing st with
  | nil => rfl
  | cons f rest ih =>
    rw [List.foldlM_cons, stepDFrame_ok oldFt ns res rI nsCol st f
      (h f (List.mem_cons_self f rest))]
    rw [List.foldl_cons]
    exact ih _ (fun g hg => h g (List.mem_cons_of_mem _ hg))

/-- `applySymbolicationStep` never throws: it always returns the model
value.  (The two defensive `throw`s are unreachable.) -/
theorem applySymbolicationStep_eq (thread : Thread)
    (symbolicationStepInfo : SymbolicationStepInfo)
    (oldFuncToNewFuncMap : List (Nat × Nat)) :
    applySymbolicationStep thread symbolicationStepInfo oldFuncToNewFuncMap =
      Except.ok (applyModel thread symbolicationStepInfo oldFuncToNewFuncMap) := by
  rw [applySymbolicationStep, applyModel]
  dsimp only
  set ft := thread.frameTable
  set ns0 := thread.nativeSymbols
  set s0 := thread.stringTable
  set res := symbolicationStepInfo.resultsForLib
  set info := symbolicationStepInfo.threadLibSymbolicationInfo
  set base := freshRefBase thread
  set stA := stepA ft ns0 s0 res info.allFramesForThisLib
    (jsSetOfList info.allNativeSymbolsForThisLib) with hstA
  set stB := stepB info.libIndex
    ⟨stA.availableNativeSymbols, shallowCloneNativeSymbolTable base ns0,
     stA.symbolAddressToCanonicalSymbolIndexMap, s0⟩
    stA.symbolAddressToNameMap with hstB
  have hAinv := stepA_inv ft ns0 s0 res info.allFramesForThisLib
    (jsSetOfList info.allNativeSymbolsForThisLib)
  have htotal : ∀ p ∈ stA.frameToSymbolAddressMap,
      (mget stB.symbolAddressToCanonicalSymbolIndexMap p.2).isSome = true := by
    intro p hp
    rw [hstB]
    exact stepB_canon_total _ _ _ _ (Or.inl (hAinv.f2saValSub p hp))
  rw [stepCAssign_eq_ok _ _ _ htotal]
  dsimp only
  have hnsCol : ∀ f ∈ info.allFramesForThisLib,
      (cget (stepCPure stB.symbolAddressToCanonicalSymbolIndexMap
        stA.frameToSymbolAddressMap (cslice (base + 3) ft.nativeSymbol)) none f).isSome
        = true := by
    intro f hf
    have hget := stepA_f2sa_get ft ns0 s0 res info.allFramesForThisLib
      (jsSetOfList info.allNativeSymbolsForThisLib) f
    rw [if_pos hf, ← hstA] at hget
    have hpmem : (f, frameSymbolAddress ft ns0 s0 res f) ∈ stA.frameToSymbolAddressMap :=
      mem_of_mget_eq_some hget
    obtain ⟨si, hsi⟩ := Option.isSome_iff_exists.mp (htotal _ hpmem)
    rw [stepCPure_get_mem _ _ _ hAinv.f2saKeysNodup _ hpmem si hsi]
    rfl
  rw [stepD_foldlM_eq_ok _ _ _ _ _ _ _ hnsCol]

/-- The model result, decomposed into its named parts. -/
theorem applyModel_parts (t : Thread) (s : SymbolicationStepInfo) (m : List (Nat × Nat)) :
    applyModel t s m =
      { thread :=
          { t with
            frameTable :=
              { t.frameTable with
                func := (modelStD t s).funcCol
                nativeSymbol := modelNsCol t s
                line := (modelStD t s).lineCol }
            funcTable := (modelStD t s).funcTable
            nativeSymbols := (modelStB t s).nativeSymbols
            stringTable := (modelStD t s).stringTable }
        oldFuncToNewFuncMap := (makeConsensusMap (modelStD t s).oldFuncToNewFuncEntries).foldl
          (fun mm kv => mset mm kv.1 kv.2) m
        frameToSymbolAddressMap := (modelStA t s).frameToSymbolAddressMap
        symbolAddressToNameMap := (modelStA t s).symbolAddressToNameMap
        oldFuncToNewFuncEntries := (modelStD t s).oldFuncToNewFuncEntries
        funcResolutionLog := (modelStD t s).funcResolutionLog } := rfl

/-- The result extracted from a successful `applySymbolicationStep` call is
the model value. -/
theorem apply_ok_elim {t : Thread} {s : SymbolicationStepInfo} {m : List (Nat × Nat)}
    {r : ApplyResult} (hok : applySymbolicationStep t s m = Except.ok r) :
    r = applyModel t s m := by
  rw [applySymbolicationStep_eq] at hok
  exact (Except.ok.inj hok).symm

/-- The new `nativeSymbol` column holds, for every frame of the library,
the canonical symbol of the frame's resolved symbol address. -/
theorem modelNsCol_get (t : Thread) (s : SymbolicationStepInfo) (f : Nat)
    (hf : f ∈ s.threadLibSymbolicationInfo.allFramesForThisLib) :
    ∃ si, mget (modelStB t s).symbolAddressToCanonicalSymbolIndexMap
        (frameSymbolAddress t.frameTable t.nativeSymbols t.stringTable
          s.resultsForLib f) = some si ∧
      cget (modelNsCol t s) none f = some si := by
  have hAinv := stepA_inv t.frameTable t.nativeSymbols t.stringTable s.resultsForLib
    s.threadLibSymbolicationInfo.allFramesForThisLib
    (jsSetOfList s.threadLibSymbolicationInfo.allNativeSymbolsForThisLib)
  have hget := stepA_f2sa_get t.frameTable t.nativeSymbols t.stringTable s.resultsForLib
    s.threadLibSymbolicationInfo.allFramesForThisLib
    (jsSetOfList s.threadLibSymbolicationInfo.allNativeSymbolsForThisLib) f
  rw [if_pos hf] at hget
  have hpmem : (f, frameSymbolAddress t.frameTable t.nativeSymbols t.stringTable
      s.resultsForLib f) ∈ (modelStA t s).frameToSymbolAddressMap :=
    mem_of_mget_eq_some hget
  have hsome : (mget (modelStB t s).symbolAddressToCanonicalSymbolIndexMap
      (frameSymbolAddress t.frameTable t.nativeSymbols t.stringTable
        s.resultsForLib f)).isSome = true := by
    rw [modelStB]
    exact stepB_canon_total _ _ _ _
      (Or.inl (hAinv.f2saValSub _ hpmem))
  obtain ⟨si, hsi⟩ := Option.isSome_iff_exists.mp hsome
  refine ⟨si, hsi, ?_⟩
  rw [modelNsCol]
  exact stepCPure_get_mem _ _ _ hAinv.f2saKeysNodup _ hpmem si hsi

/-- C1.  After `applySymbolicationStep`, any two frames of the library
whose resolved symbol address (from `resultsForLib` or the Step A
fallback) is equal have equal `nativeSymbol` values in the returned frame
table, and no frame of the library ends the step with a null
`nativeSymbol`. -/
theorem merge_correctness (thread : Thread) (stepInfo : SymbolicationStepInfo)
    (map0 : List (Nat × Nat)) (r : ApplyResult)
    (hok : applySymbolicationStep thread stepInfo map0 = Except.ok r) :
    (∀ f1 ∈ stepInfo.threadLibSymbolicationInfo.allFramesForThisLib,
      ∀ f2 ∈ stepInfo.threadLibSymbolicationInfo.allFramesForThisLib,
      frameSymbolAddress thread.frameTable thread.nativeSymbols thread.stringTable
          stepInfo.resultsForLib f1 =
        frameSymbolAddress thread.frameTable thread.nativeSymbols thread.stringTable
          stepInfo.resultsForLib f2 →
      cget r.thread.frameTable.nativeSymbol none f1 =
        cget r.thread.frameTable.nativeSymbol none f2) ∧
    (∀ f ∈ stepInfo.threadLibSymbolicationInfo.allFramesForThisLib,
      cget r.thread.frameTable.nativeSymbol none f ≠ none) := by
  have hr := apply_ok_elim hok
  subst hr
  rw [applyModel_parts]
  dsimp only
  constructor
  · intro f1 hf1 f2 hf2 heq
    obtain ⟨si1, hsi1, hcol1⟩ := modelNsCol_get thread stepInfo f1 hf1
    obtain ⟨si2, hsi2, hcol2⟩ := modelNsCol_get thread stepInfo f2 hf2
    rw [heq, hsi2] at hsi1
    rw [hcol1, hcol2, Option.some.inj hsi1]
  · intro f hf
    obtain ⟨si, _, hcol⟩ := modelNsCol_get thread stepInfo f hf
    rw [hcol]
    exact fun hc => Option.noConfusion hc

/-- Witness for C1 on the concrete example. -/
theorem merge_correctness_witness :
    cget (applyModel exThread exStep []).thread.frameTable.nativeSymbol none 0 ≠ none :=
  (merge_correctness exThread exStep [] (applyModel exThread exStep [])
    (applySymbolicationStep_eq exThread exStep [])).2 0 (by decide)

/-- C4.  A frame whose address is absent from `resultsForLib` resolves to
its existing native symbol's address and name when it has one, else to its
own address with a hex placeholder name; and every frame of the library
ends Step A with a recorded symbol address and a recorded name for it. -/
theorem fallback_resolution (thread : Thread) (stepInfo : SymbolicationStepInfo)
    (map0 : List (Nat × Nat)) (r : ApplyResult)
    (hok : applySymbolicationStep thread stepInfo map0 = Except.ok r) :
    (∀ f ∈ stepInfo.threadLibSymbolicationInfo.allFramesForThisLib,
      mget stepInfo.resultsForLib (cget thread.frameTable.address 0 f) = none →
      resolveAddressResult thread.frameTable thread.nativeSymbols thread.stringTable
          stepInfo.resultsForLib f =
        (match cget thread.frameTable.nativeSymbol none f with
         | some oldSym =>
           { symbolAddress := cget thread.nativeSymbols.address 0 oldSym
             name := getString thread.stringTable (cget thread.nativeSymbols.name 0 oldSym)
             file := none
             line := none }
         | none =>
           { symbolAddress := cget thread.frameTable.address 0 f
             name := "0x" ++ (Nat.toDigits 16 (cget thread.frameTable.address 0 f)).asString
             file := none
             line := none })) ∧
    (∀ f ∈ stepInfo.threadLibSymbolicationInfo.allFramesForThisLib,
      mget r.frameToSymbolAddressMap f =
        some (frameSymbolAddress thread.frameTable thread.nativeSymbols
          thread.stringTable stepInfo.resultsForLib f) ∧
      (mget r.symbolAddressToNameMap
        (frameSymbolAddress thread.frameTable thread.nativeSymbols thread.stringTable
          stepInfo.resultsForLib f)).isSome = true) := by
  have hr := apply_ok_elim hok
  subst hr
  rw [applyModel_parts]
  dsimp only
  constructor
  · intro f hf habsent
    simp only [resolveAddressResult, habsent]
  · intro f hf
    constructor
    · have hget := stepA_f2sa_get thread.frameTable thread.nativeSymbols
        thread.stringTable stepInfo.resultsForLib
        stepInfo.threadLibSymbolicationInfo.allFramesForThisLib
        (jsSetOfList stepInfo.threadLibSymbolicationInfo.allNativeSymbolsForThisLib) f
      rw [if_pos hf] at hget
      exact hget
    · rw [mget_isSome_iff_mem_mkeys]
      exact stepA_sa2name_mem thread.frameTable thread.nativeSymbols thread.stringTable
        stepInfo.resultsForLib stepInfo.threadLibSymbolicationInfo.allFramesForThisLib
        (jsSetOfList stepInfo.threadLibSymbolicationInfo.allNativeSymbolsForThisLib) f hf

/-- Witness for C4 on a concrete example whose provider results do not
cover the frame address. -/
theorem fallback_resolution_witness :
    resolveAddressResult exThread.frameTable exThread.nativeSymbols exThread.stringTable
        [] 0 =
      { symbolAddress := 10, name := "0xa", file := none, line := none } :=
  ((fallback_resolution exThread ⟨exInfo, []⟩ [] (applyModel exThread ⟨exInfo, []⟩ [])
      (applySymbolicationStep_eq exThread ⟨exInfo, []⟩ [])).1 0 (by decide)
    (by decide)).trans (by decide)

/-! ### Lemmas: Step D case analysis -/

theorem mget_append_some {K V : Type} [DecidableEq K] {l₁ : List (K × V)}
    (l₂ : List (K × V)) {k : K} {v : V} (h : mget l₁ k = some v) :
    mget (l₁ ++ l₂) k = some v := by
  induction l₁ with
  | nil => simp [mget] at h
  | cons e rest ih =>
    obtain ⟨a, b⟩ := e
    by_cases he : a = k
    · simp only [mget, if_pos he] at h ⊢
      exact h
    · simp only [mget, if_neg he] at h ⊢
      exact ih h

theorem mget_append_none {K V : Type} [DecidableEq K] {l₁ : List (K × V)}
    (l₂ : List (K × V)) {k : K} (h : mget l₁ k = none) :
    mget (l₁ ++ l₂) k = mget l₂ k := by
  induction l₁ with
  | nil => rfl
  | cons e rest ih =>
    obtain ⟨a, b⟩ := e
    by_cases he : a = k
    · simp only [mget, if_pos he] at h
      exact Option.noConfusion h
    · simp only [mget, if_neg he] at h ⊢
      exact ih h

theorem mvalues_mset_not_mem {K V : Type} [DecidableEq K] (m : List (K × V)) (k : K)
    (v : V) (h : k ∉ mkeys m) :
    (mset m k v).map Prod.snd = m.map Prod.snd ++ [v] := by
  induction m with
  | nil => simp [mset]
  | cons e rest ih =>
    obtain ⟨a, b⟩ := e
    by_cases he : a = k
    · exact absurd (by simp [mkeys, he]) h
    · have : k ∉ mkeys rest := fun hc => h (by simp [mkeys] at hc ⊢; exact Or.inr hc)
      simp only [mset, if_neg he, List.map_cons, ih this]
      rfl

/-- One iteration of the func-grouping loop, fully case-analyzed: found in
`funcKeyToFuncMap`, reused from the available iterator, or appended. -/
theorem stepDPureFrame_cases (oldFt : FrameTable) (ns : NativeSymbolTable)
    (res : List (Nat × AddressResult)) (rI : Nat) (nsCol : Col (Option Nat))
    (st : StepDState) (f : Nat) (nsi : Nat) (hsi : cget nsCol none f = some nsi) :
    ∃ (nameIdx : Nat) (fileIdx : Option Nat) (line : Option Nat) (stbl' : StringTable),
      strExt st.stringTable stbl' ∧
      ((∃ funcIndex, mget st.funcKeyToFuncMap (funcKeyFor nameIdx fileIdx) = some funcIndex ∧
        stepDPureFrame oldFt ns res rI nsCol st f =
          { st with
            oldFuncToNewFuncEntries :=
              st.oldFuncToNewFuncEntries ++ [(cget oldFt.func 0 f, funcIndex)]
            funcCol := cset st.funcCol 0 f funcIndex
            lineCol := cset st.lineCol none f line
            stringTable := stbl'
            funcResolutionLog := st.funcResolutionLog ++ [⟨f, nameIdx, fileIdx, funcIndex⟩] }) ∨
      (∃ funcIndex rest, mget st.funcKeyToFuncMap (funcKeyFor nameIdx fileIdx) = none ∧
        st.availableFuncIter = funcIndex :: rest ∧
        stepDPureFrame oldFt ns res rI nsCol st f =
          { funcTable :=
              { st.funcTable with
                name := cset st.funcTable.name 0 funcIndex nameIdx
                fileName := cset st.funcTable.fileName none funcIndex fileIdx }
            availableFuncIter := rest
            funcKeyToFuncMap := mset st.funcKeyToFuncMap (funcKeyFor nameIdx fileIdx) funcIndex
            oldFuncToNewFuncEntries :=
              st.oldFuncToNewFuncEntries ++ [(cget oldFt.func 0 f, funcIndex)]
            funcCol := cset st.funcCol 0 f funcIndex
            lineCol := cset st.lineCol none f line
            stringTable := stbl'
            funcResolutionLog := st.funcResolutionLog ++ [⟨f, nameIdx, fileIdx, funcIndex⟩] }) ∨
      (mget st.funcKeyToFuncMap (funcKeyFor nameIdx fileIdx) = none ∧
        st.availableFuncIter = [] ∧
        stepDPureFrame oldFt ns res rI nsCol st f =
          { funcTable :=
              { st.funcTable with
                isJS := cset st.funcTable.isJS false st.funcTable.length false
                relevantForJS := cset st.funcTable.relevantForJS false st.funcTable.length false
                resource := cset st.funcTable.resource (-1) st.funcTable.length (rI : Int)
                lineNumber := cset st.funcTable.lineNumber none st.funcTable.length none
                columnNumber := cset st.funcTable.columnNumber none st.funcTable.length none
                length := st.funcTable.length + 1
                name := cset st.funcTable.name 0 st.funcTable.length nameIdx
                fileName := cset st.funcTable.fileName none st.funcTable.length fileIdx }
            availableFuncIter := []
            funcKeyToFuncMap :=
              mset st.funcKeyToFuncMap (funcKeyFor nameIdx fileIdx) st.funcTable.length
            oldFuncToNewFuncEntries :=
              st.oldFuncToNewFuncEntries ++ [(cget oldFt.func 0 f, st.funcTable.length)]
            funcCol := cset st.funcCol 0 f st.funcTable.length
            lineCol := cset st.lineCol none f line
            stringTable := stbl'
            funcResolutionLog :=
              st.funcResolutionLog ++ [⟨f, nameIdx, fileIdx, st.funcTable.length⟩] })) := by
  rw [stepDPureFrame, stepDFrame]
  dsimp only
  rw [hsi]
  dsimp only
  set addressResult := (match mget res (cget oldFt.address 0 f) with
    | some r => r
    | none =>
      { symbolAddress := cget ns.address 0 nsi
        name := getString st.stringTable (cget ns.name 0 nsi)
        file := (cget st.funcTable.fileName none (cget oldFt.func 0 f)).map
          (getString st.stringTable)
        line := cget oldFt.line none f : AddressResult }) with har
  set intern1 := indexForString st.stringTable addressResult.name with hi1
  set intern2 := (match addressResult.file with
    | some fl =>
      let r := indexForString intern1.2 fl
      ((some r.1 : Option Nat), r.2)
    | none => ((none : Option Nat), intern1.2)) with hi2
  refine ⟨intern1.1, intern2.1, addressResult.line, intern2.2, ?_, ?_⟩
  · refine strExt_trans (indexForString_strExt st.stringTable addressResult.name) ?_
    rw [hi2]
    cases addressResult.file with
    | none => exact strExt_refl _
    | some fl =>
      dsimp only
      rw [← hi1]
      exact indexForString_strExt intern1.2 fl
  · simp only [funcKeyFor]
    cases hmk : mget st.funcKeyToFuncMap (Nat.repr intern1.1 ++ ":" ++
        (match intern2.1 with
         | some i => Nat.repr i
         | none => "")) with
    | some funcIndex => exact Or.inl ⟨funcIndex, rfl, rfl⟩
    | none =>
      cases hit : st.availableFuncIter with
      | cons funcIndex rest => exact Or.inr (Or.inl ⟨funcIndex, rest, rfl, rfl, rfl⟩)
      | nil => exact Or.inr (Or.inr ⟨rfl, rfl, rfl⟩)

theorem stepDInv_step (oldFt : FrameTable) (ns : NativeSymbolTable)
    (res : List (Nat × AddressResult)) (rI : Nat) (nsCol : Col (Option Nat))
    (avail : List Nat) (N0 : Nat) (processed : List Nat) (st : StepDState) (f : Nat)
    (nsi : Nat) (hsi : cget nsCol none f = some nsi) (hf : f ∉ processed)
    (hinv : StepDInv oldFt avail N0 processed st) :
    StepDInv oldFt avail N0 (processed ++ [f])
      (stepDPureFrame oldFt ns res rI nsCol st f) := by
  obtain ⟨nameIdx, fileIdx, line, stbl', hext, hcases⟩ :=
    stepDPureFrame_cases oldFt ns res rI nsCol st f nsi hsi
  have hcol : ∀ (fi : Nat), ∀ e ∈ st.funcResolutionLog,
      cget (cset st.funcCol 0 f fi) 0 e.frameIndex = e.funcIndex := by
    intro fi e he
    have hne : f ≠ e.frameIndex := by
      intro hc
      exact hf (hc ▸ hinv.logFrames ▸ List.mem_map_of_mem _ he)
    rw [cget_cset_ne _ _ _ _ _ hne]
    exact hinv.colEq e he
  rcases hcases with ⟨fi, hfound, heq⟩ | ⟨fi, rest, hmiss, hit, heq⟩ | ⟨hmiss, hit, heq⟩
  · -- key found in funcKeyToFuncMap
    refine ⟨?_, ?_, ?_, ?_, ?_, ?_⟩ <;> rw [heq]
    · simp only [List.map_append, List.map_cons, List.map_nil, hinv.logFrames]
    · simp only [List.map_append, List.map_cons, List.map_nil, hinv.entriesEq]
    · intro e he
      rcases List.mem_append.mp he with he | he
      · exact hcol fi e he
      · simp at he
        rw [he]
        exact cget_cset_self _ _ _ _
    · intro e he
      rcases List.mem_append.mp he with he | he
      · exact hinv.mapBinding e he
      · simp at he
        rw [he]
        exact hfound
    · exact hinv.mapKeysNodup
    · exact hinv.iterStruct
  · -- key missing, reuse a func from the available iterator
    have hkeynotmem : funcKeyFor nameIdx fileIdx ∉ mkeys st.funcKeyToFuncMap :=
      (mget_eq_none_iff_not_mem_mkeys _ _).mp hmiss
    obtain ⟨n, hdrop, hvals, hle, hcond⟩ := hinv.iterStruct
    have hdrop' : avail.drop n = fi :: rest := hdrop ▸ hit
    have hn : n < avail.length := by
      by_contra h'
      rw [List.drop_eq_nil_of_le (Nat.le_of_not_lt h')] at hdrop'
      exact List.noConfusion hdrop'
    have hlenN0 : st.funcTable.length = N0 := by
      by_contra h'
      have := hcond (Nat.lt_of_le_of_ne hle (fun hc => h' hc.symm))
      omega
    refine ⟨?_, ?_, ?_, ?_, ?_, ?_⟩ <;> rw [heq]
    · simp only [List.map_append, List.map_cons, List.map_nil, hinv.logFrames]
    · simp only [List.map_append, List.map_cons, List.map_nil, hinv.entriesEq]
    · intro e he
      rcases List.mem_append.mp he with he | he
      · exact hcol fi e he
      · simp at he
        rw [he]
        exact cget_cset_self _ _ _ _
    · intro e he
      rcases List.mem_append.mp he with he | he
      · have hbind := hinv.mapBinding e he
        have hkeyne : funcKeyFor nameIdx fileIdx ≠
            funcKeyFor e.nameStringIndex e.fileNameStringIndex := by
          intro hc
          rw [← hc, hmiss] at hbind
          exact Option.noConfusion hbind
        rw [mget_mset_ne _ _ _ _ hkeyne]
        exact hbind
      · simp at he
        rw [he]
        exact mget_mset_self _ _ _
    · exact mkeys_nodup_mset _ _ _ hinv.mapKeysNodup
    · refine ⟨n + 1, ?_, ?_, by simpa using hle, ?_⟩
      · show rest = avail.drop (n + 1)
        rw [← List.drop_drop 1 n avail, hdrop']
        rfl
      · show (mset st.funcKeyToFuncMap (funcKeyFor nameIdx fileIdx) fi).map Prod.snd =
          avail.take (n + 1) ++ List.range' N0 (st.funcTable.length - N0)
        rw [mvalues_mset_not_mem _ _ _ hkeynotmem, hvals, hlenN0]
        simp only [Nat.sub_self, List.range', List.append_nil]
        have hget : avail[n]? = some fi := by
          have h0 := List.getElem?_drop avail n 0
          rw [hdrop'] at h0
          simpa using h0.symm
        rw [List.take_succ, hget]
        simp
      · intro h'
        simp only at h'
        omega
  · -- key missing, iterator exhausted: append a new func row
    have hkeynotmem : funcKeyFor nameIdx fileIdx ∉ mkeys st.funcKeyToFuncMap :=
      (mget_eq_none_iff_not_mem_mkeys _ _).mp hmiss
    obtain ⟨n, hdrop, hvals, hle, hcond⟩ := hinv.iterStruct
    have hdrop' : avail.drop n = [] := hdrop ▸ hit
    have hge : avail.length ≤ n := List.drop_eq_nil_iff.mp hdrop'
    refine ⟨?_, ?_, ?_, ?_, ?_, ?_⟩ <;> rw [heq]
    · simp only [List.map_append, List.map_cons, List.map_nil, hinv.logFrames]
    · simp only [List.map_append, List.map_cons, List.map_nil, hinv.entriesEq]
    · intro e he
      rcases List.mem_append.mp he with he | he
      · exact hcol st.funcTable.length e he
      · simp at he
        rw [he]
        exact cget_cset_self _ _ _ _
    · intro e he
      rcases List.mem_append.mp he with he | he
      · have hbind := hinv.mapBinding e he
        have hkeyne : funcKeyFor nameIdx fileIdx ≠
            funcKeyFor e.nameStringIndex e.fileNameStringIndex := by
          intro hc
          rw [← hc, hmiss] at hbind
          exact Option.noConfusion hbind
        rw [mget_mset_ne _ _ _ _ hkeyne]
        exact hbind
      · simp at he
        rw [he]
        exact mget_mset_self _ _ _
    · exact mkeys_nodup_mset _ _ _ hinv.mapKeysNodup
    · refine ⟨avail.length, ?_, ?_, by simp; omega, fun _ => rfl⟩
      · show ([] : List Nat) = avail.drop avail.length
        rw [List.drop_eq_nil_of_le (Nat.le_refl _)]
      · show (mset st.funcKeyToFuncMap (funcKeyFor nameIdx fileIdx)
            st.funcTable.length).map Prod.snd =
          avail.take avail.length ++ List.range' N0 (st.funcTable.length + 1 - N0)
        rw [mvalues_mset_not_mem _ _ _ hkeynotmem, hvals,
          List.take_of_length_le hge, List.take_length,
          show st.funcTable.length + 1 - N0 = (st.funcTable.length - N0) + 1 from by omega,
          List.range'_concat]
        simp only [List.append_assoc]
        congr 2
        simp
        omega

theorem stepD_foldl_inv (oldFt : FrameTable) (ns : NativeSymbolTable)
    (res : List (Nat × AddressResult)) (rI : Nat) (nsCol : Col (Option Nat))
    (avail : List Nat) (N0 : Nat) (frames processed : List Nat) (st : StepDState)
    (hnd : (processed ++ frames).Nodup)
    (hsi : ∀ f ∈ frames, (cget nsCol none f).isSome = true)
    (hinv : StepDInv oldFt avail N0 processed st) :
    StepDInv oldFt avail N0 (processed ++ frames)
      (frames.foldl (stepDPureFrame oldFt ns res rI nsCol) st) := by
  induction frames generalizing processed st with
  | nil => simpa using hinv
  | cons f rest ih =>
    obtain ⟨nsi, hnsi⟩ := Option.isSome_iff_exists.mp (hsi f (List.mem_cons_self f rest))
    have hf : f ∉ processed := by
      rcases List.nodup_append.mp hnd with ⟨_, _, hdisj⟩
      intro hc
      exact hdisj hc (List.mem_cons_self f rest)
    have hnd' : ((processed ++ [f]) ++ rest).Nodup := by
      rwa [show (processed ++ [f]) ++ rest = processed ++ f :: rest from by simp]
    have hstep := stepDInv_step oldFt ns res rI nsCol avail N0 processed st f nsi hnsi
      hf hinv
    have := ih (processed ++ [f]) _ hnd'
      (fun g hg => hsi g (List.mem_cons_of_mem _ hg)) hstep
    rwa [show (processed ++ [f]) ++ rest = processed ++ f :: rest from by simp] at this

theorem modelStD_inv (t : Thread) (s : SymbolicationStepInfo)
    (hnd : s.threadLibSymbolicationInfo.allFramesForThisLib.Nodup) :
    StepDInv t.frameTable (jsSetOfList s.threadLibSymbolicationInfo.allFuncsForThisLib)
      t.funcTable.length s.threadLibSymbolicationInfo.allFramesForThisLib
      (modelStD t s) := by
  have hsi : ∀ f ∈ s.threadLibSymbolicationInfo.allFramesForThisLib,
      (cget (modelNsCol t s) none f).isSome = true := by
    intro f hf
    obtain ⟨si, _, hcol⟩ := modelNsCol_get t s f hf
    rw [hcol]
    rfl
  have h0 : StepDInv t.frameTable
      (jsSetOfList s.threadLibSymbolicationInfo.allFuncsForThisLib)
      t.funcTable.length [] (modelStD0 t s) := by
    refine ⟨rfl, rfl, ?_, ?_, by simp [mkeys, modelStD0], ?_⟩
    · intro e he; simp [modelStD0] at he
    · intro e he; simp [modelStD0] at he
    · exact ⟨0, by simp [modelStD0], by simp [modelStD0, shallowCloneFuncTable],
        Nat.le_refl _, fun h => absurd h (Nat.lt_irrefl _)⟩
  have := stepD_foldl_inv t.frameTable (modelStB t s).nativeSymbols s.resultsForLib
    s.threadLibSymbolicationInfo.resourceIndex (modelNsCol t s)
    (jsSetOfList s.threadLibSymbolicationInfo.allFuncsForThisLib) t.funcTable.length
    s.threadLibSymbolicationInfo.allFramesForThisLib [] (modelStD0 t s)
    (by simpa using hnd) hsi h0
  simpa [modelStD] using this

/-! ### Lemmas: `makeConsensusMap` -/

theorem mem_mkeys_mdel {K V : Type} [DecidableEq K] {m : List (K × V)} {k x : K}
    (h : x ∈ mkeys (mdel m k)) : x ∈ mkeys m := by
  induction m with
  | nil => simpa [mdel] using h
  | cons e rest ih =>
    obtain ⟨a, b⟩ := e
    by_cases he : a = k
    · rw [mdel, if_pos he] at h
      exact List.mem_cons_of_mem _ h
    · rw [mdel, if_neg he] at h
      rcases List.mem_cons.mp (show x ∈ a :: mkeys (mdel rest k) from h) with h' | h'
      · exact h' ▸ List.mem_cons_self _ _
      · exact List.mem_cons_of_mem _ (ih h')

theorem mkeys_nodup_mdel {K V : Type} [DecidableEq K] (m : List (K × V)) (k : K)
    (h : (mkeys m).Nodup) : (mkeys (mdel m k)).Nodup := by
  induction m with
  | nil => simp [mdel, mkeys]
  | cons e rest ih =>
    obtain ⟨a, b⟩ := e
    obtain ⟨hhead, htail⟩ := mkeys_nodup_tail h
    by_cases he : a = k
    · rw [mdel, if_pos he]
      exact htail
    · rw [mdel, if_neg he]
      exact List.nodup_cons.mpr ⟨fun hc => hhead (mem_mkeys_mdel hc), ih htail⟩

theorem makeConsensusMapStep_inv {K V : Type} [DecidableEq K] [DecidableEq V]
    (processed : List (K × V)) (st : ConsensusState K V) (p : K × V)
    (hnd : (mkeys st.consensusMap).Nodup)
    (hdiv : ∀ k, k ∈ st.divergentKeys ↔
      ∃ v1 v2, (k, v1) ∈ processed ∧ (k, v2) ∈ processed ∧ v1 ≠ v2)
    (hmap : ∀ k v, mget st.consensusMap k = some v ↔
      (mget processed k = some v ∧ k ∉ st.divergentKeys)) :
    (mkeys (makeConsensusMapStep st p).consensusMap).Nodup ∧
    (∀ k, k ∈ (makeConsensusMapStep st p).divergentKeys ↔
      ∃ v1 v2, (k, v1) ∈ processed ++ [p] ∧ (k, v2) ∈ processed ++ [p] ∧ v1 ≠ v2) ∧
    (∀ k v, mget (makeConsensusMapStep st p).consensusMap k = some v ↔
      (mget (processed ++ [p]) k = some v ∧
        k ∉ (makeConsensusMapStep st p).divergentKeys)) := by
  obtain ⟨k₀, v₀⟩ := p
  have hget_append : ∀ k, k ≠ k₀ → mget (processed ++ [(k₀, v₀)]) k = mget processed k := by
    intro k hk
    cases hp : mget processed k with
    | some w => exact mget_append_some _ hp
    | none =>
      rw [mget_append_none _ hp, mget, if_neg (fun hc => hk hc.symm)]
      rfl
  by_cases hdivk : k₀ ∈ st.divergentKeys
  · -- branch: key already divergent, state unchanged
    have hstep : makeConsensusMapStep st (k₀, v₀) = st := by
      rw [makeConsensusMapStep, if_pos (by simp [List.contains, hdivk])]
    rw [hstep]
    refine ⟨hnd, ?_, ?_⟩
    · intro k
      rw [hdiv k]
      constructor
      · rintro ⟨v1, v2, h1, h2, hne⟩
        exact ⟨v1, v2, List.mem_append_left _ h1, List.mem_append_left _ h2, hne⟩
      · rintro ⟨v1, v2, h1, h2, hne⟩
        rcases List.mem_append.mp h1 with ha | ha <;>
          rcases List.mem_append.mp h2 with hb | hb
        · exact ⟨v1, v2, ha, hb, hne⟩
        · simp at hb
          obtain ⟨w1, w2, q1, q2, qne⟩ := (hdiv k₀).mp hdivk
          exact hb.1 ▸ ⟨w1, w2, q1, q2, qne⟩
        · simp at ha
          obtain ⟨w1, w2, q1, q2, qne⟩ := (hdiv k₀).mp hdivk
          exact ha.1 ▸ ⟨w1, w2, q1, q2, qne⟩
        · simp at ha hb
          exact absurd (ha.2.trans hb.2.symm) hne
    · intro k v
      by_cases hk : k = k₀
      · subst hk
        rw [hmap k v]
        constructor
        · rintro ⟨_, hc⟩
          exact absurd hdivk hc
        · rintro ⟨_, hc⟩
          exact absurd hdivk hc
      · rw [hmap k v, hget_append k hk]
  · -- key not divergent
    have hcontains : ¬ st.divergentKeys.contains k₀ = true := by
      simp [List.contains, hdivk]
    cases hpv : mget st.consensusMap k₀ with
    | none =>
      -- fresh key: insert provisionally
      have hproc : mget processed k₀ = none := by
        cases hp : mget processed k₀ with
        | none => rfl
        | some w =>
          have := (hmap k₀ w).mpr ⟨hp, hdivk⟩
          rw [hpv] at this
          exact Option.noConfusion this
      have hnotmem : ∀ v, (k₀, v) ∉ processed := by
        intro v hv
        have : k₀ ∈ mkeys processed := by
          simp only [mkeys, List.mem_map]
          exact ⟨(k₀, v), hv, rfl⟩
        exact (mget_eq_none_iff_not_mem_mkeys _ _).mp hproc this
      have hstep : makeConsensusMapStep st (k₀, v₀) =
          { st with consensusMap := mset st.consensusMap k₀ v₀ } := by
        rw [makeConsensusMapStep, if_neg hcontains]
        dsimp only
        rw [hpv]
      rw [hstep]
      refine ⟨mkeys_nodup_mset _ _ _ hnd, ?_, ?_⟩
      · intro k
        dsimp only
        rw [hdiv k]
        constructor
        · rintro ⟨v1, v2, h1, h2, hne⟩
          exact ⟨v1, v2, List.mem_append_left _ h1, List.mem_append_left _ h2, hne⟩
        · rintro ⟨v1, v2, h1, h2, hne⟩
          rcases List.mem_append.mp h1 with ha | ha <;>
            rcases List.mem_append.mp h2 with hb | hb
          · exact ⟨v1, v2, ha, hb, hne⟩
          · simp at hb
            exact absurd (hb.1 ▸ ha) (hnotmem v1)
          · simp at ha
            exact absurd (ha.1 ▸ hb) (hnotmem v2)
          · simp at ha hb
            exact absurd (ha.2.trans hb.2.symm) hne
      · intro k v
        dsimp only
        by_cases hk : k = k₀
        · subst hk
          rw [mget_mset_self, mget_append_none _ hproc]
          constructor
          · intro hv
            refine ⟨?_, hdivk⟩
            rw [mget, if_pos rfl]
            exact hv.symm ▸ rfl
          · rintro ⟨hv, _⟩
            rw [mget, if_pos rfl] at hv
            exact hv
        · rw [mget_mset_ne _ _ _ _ (fun hc => hk hc.symm), hmap k v, hget_append k hk]
    | some pv =>
      have hprocpv : mget processed k₀ = some pv := ((hmap k₀ pv).mp hpv).1
      by_cases hv₀ : pv = v₀
      · -- same value: state unchanged
        have hstep : makeConsensusMapStep st (k₀, v₀) = st := by
          rw [makeConsensusMapStep, if_neg hcontains]
          dsimp only
          rw [hpv]
          dsimp only
          rw [if_pos hv₀]
        rw [hstep]
        have hall : ∀ w, (k₀, w) ∈ processed → w = pv := by
          intro w hw
          by_contra hne
          exact hdivk ((hdiv k₀).mpr ⟨w, pv, hw, mem_of_mget_eq_some hprocpv, hne⟩)
        refine ⟨hnd, ?_, ?_⟩
        · intro k
          rw [hdiv k]
          constructor
          · rintro ⟨v1, v2, h1, h2, hne⟩
            exact ⟨v1, v2, List.mem_append_left _ h1, List.mem_append_left _ h2, hne⟩
          · rintro ⟨v1, v2, h1, h2, hne⟩
            rcases List.mem_append.mp h1 with ha | ha <;>
              rcases List.mem_append.mp h2 with hb | hb
            · exact ⟨v1, v2, ha, hb, hne⟩
            · simp at hb
              exact absurd ((hall v1 (hb.1 ▸ ha)).trans (hv₀.trans hb.2.symm)) hne
            · simp at ha
              exact absurd ((ha.2.trans hv₀.symm).trans (hall v2 (ha.1 ▸ hb)).symm) hne
            · simp at ha hb
              exact absurd (ha.2.trans hb.2.symm) hne
        · intro k v
          by_cases hk : k = k₀
          · subst hk
            rw [hmap k v, mget_append_some _ hprocpv, hprocpv]
          · rw [hmap k v, hget_append k hk]
      · -- divergent value: remove and blacklist
        have hstep : makeConsensusMapStep st (k₀, v₀) =
            { consensusMap := mdel st.consensusMap k₀
              divergentKeys := jsSetAdd st.divergentKeys k₀ } := by
          rw [makeConsensusMapStep, if_neg hcontains]
          dsimp only
          rw [hpv]
          dsimp only
          rw [if_neg hv₀]
        rw [hstep]
        refine ⟨mkeys_nodup_mdel _ _ hnd, ?_, ?_⟩
        · intro k
          dsimp only
          rw [jsSetAdd_mem]
          by_cases hk : k = k₀
          · subst hk
            constructor
            · intro _
              exact ⟨pv, v₀, List.mem_append_left _ (mem_of_mget_eq_some hprocpv),
                List.mem_append_right _ (by simp), hv₀⟩
            · intro _
              exact Or.inr rfl
          · rw [hdiv k]
            constructor
            · rintro (⟨v1, v2, h1, h2, hne⟩ | hc)
              · exact ⟨v1, v2, List.mem_append_left _ h1, List.mem_append_left _ h2, hne⟩
              · exact absurd hc hk
            · rintro ⟨v1, v2, h1, h2, hne⟩
              rcases List.mem_append.mp h1 with ha | ha <;>
                rcases List.mem_append.mp h2 with hb | hb
              · exact Or.inl ⟨v1, v2, ha, hb, hne⟩
              · simp at hb
                exact absurd hb.1 hk
              · simp at ha
                exact absurd ha.1 hk
              · simp at ha
                exact absurd ha.1 hk
        · intro k v
          dsimp only
          by_cases hk : k = k₀
          · subst hk
            rw [mget_mdel_self _ _ hnd]
            constructor
            · intro hc
              exact Option.noConfusion hc
            · rintro ⟨_, hc⟩
              exact absurd (jsSetAdd_mem _ _ _ |>.mpr (Or.inr rfl)) hc
          · rw [mget_mdel_ne _ _ _ (fun hc => hk hc.symm), hmap k v, hget_append k hk]
            constructor
            · rintro ⟨h1, h2⟩
              refine ⟨h1, fun hc => ?_⟩
              rcases (jsSetAdd_mem _ _ _).mp hc with hc | hc
              · exact h2 hc
              · exact hk hc
            · rintro ⟨h1, h2⟩
              exact ⟨h1, fun hc => h2 ((jsSetAdd_mem _ _ _).mpr (Or.inl hc))⟩

theorem makeConsensusMap_foldl_inv {K V : Type} [DecidableEq K] [DecidableEq V]
    (pairs processed : List (K × V)) (st : ConsensusState K V)
    (hnd : (mkeys st.consensusMap).Nodup)
    (hdiv : ∀ k, k ∈ st.divergentKeys ↔
      ∃ v1 v2, (k, v1) ∈ processed ∧ (k, v2) ∈ processed ∧ v1 ≠ v2)
    (hmap : ∀ k v, mget st.consensusMap k = some v ↔
      (mget processed k = some v ∧ k ∉ st.divergentKeys)) :
    (∀ k, k ∈ (pairs.foldl makeConsensusMapStep st).divergentKeys ↔
      ∃ v1 v2, (k, v1) ∈ processed ++ pairs ∧ (k, v2) ∈ processed ++ pairs ∧ v1 ≠ v2) ∧
    (∀ k v, mget (pairs.foldl makeConsensusMapStep st).consensusMap k = some v ↔
      (mget (processed ++ pairs) k = some v ∧
        k ∉ (pairs.foldl makeConsensusMapStep st).divergentKeys)) := by
  induction pairs generalizing processed st with
  | nil =>
    refine ⟨by simpa using hdiv, by simpa using hmap⟩
  | cons p rest ih =>
    obtain ⟨hnd', hdiv', hmap'⟩ := makeConsensusMapStep_inv processed st p hnd hdiv hmap
    have := ih (processed ++ [p]) (makeConsensusMapStep st p) hnd' hdiv' hmap'
    rwa [List.append_assoc, List.singleton_append] at this

/-- The full characterization of `makeConsensusMap`: a key maps to `v`
exactly when it occurs and all its occurrences carry `v`. -/
theorem makeConsensusMap_get {K V : Type} [DecidableEq K] [DecidableEq V]
    (pairs : List (K × V)) (k : K) (v : V) :
    mget (makeConsensusMap pairs) k = some v ↔
      ((k, v) ∈ pairs ∧ ∀ v', (k, v') ∈ pairs → v' = v) := by
  obtain ⟨hdiv, hmap⟩ := makeConsensusMap_foldl_inv pairs [] ⟨[], []⟩
    (by simp [mkeys]) (by simp) (by simp [mget])
  rw [makeConsensusMap]
  rw [show ([] : List (K × V)) ++ pairs = pairs from by simp] at hdiv hmap
  rw [hmap k v]
  constructor
  · rintro ⟨h1, h2⟩
    refine ⟨mem_of_mget_eq_some h1, ?_⟩
    intro v' hv'
    by_contra hne
    exact h2 ((hdiv k).mpr ⟨v', v, hv', mem_of_mget_eq_some h1, hne⟩)
  · rintro ⟨h1, h2⟩
    have hkmem : k ∈ mkeys pairs := by
      simp only [mkeys, List.mem_map]
      exact ⟨(k, v), h1, rfl⟩
    cases hp : mget pairs k with
    | none => exact absurd hkmem ((mget_eq_none_iff_not_mem_mkeys _ _).mp hp)
    | some w =>
      have hw : w = v := h2 w (mem_of_mget_eq_some hp)
      subst hw
      refine ⟨rfl, fun hc => ?_⟩
      obtain ⟨v1, v2, h1', h2', hne⟩ := (hdiv k).mp hc
      exact hne ((h2 v1 h1').trans (h2 v2 h2').symm)

theorem mget_foldl_mset {K V : Type} [DecidableEq K] (entries : List (K × V))
    (m0 : List (K × V)) (k : K) (hnd : (mkeys entries).Nodup) :
    mget (entries.foldl (fun m kv => mset m kv.1 kv.2) m0) k =
      (match mget entries k with
       | some v => some v
       | none => mget m0 k) := by
  induction entries generalizing m0 with
  | nil => rfl
  | cons e rest ih =>
    obtain ⟨a, b⟩ := e
    obtain ⟨hhead, htail⟩ := mkeys_nodup_tail hnd
    rw [List.foldl_cons, ih _ htail]
    by_cases hk : a = k
    · subst hk
      have : mget rest a = none := by
        rw [mget_eq_none_iff_not_mem_mkeys]
        exact hhead
      rw [this, mget, if_pos rfl, mget_mset_self]
    · rw [mget, if_neg hk]
      cases mget rest k with
      | some w => rfl
      | none => rw [mget_mset_ne _ _ _ _ hk]

theorem makeConsensusMapStep_keys_nodup {K V : Type} [DecidableEq K] [DecidableEq V]
    (st : ConsensusState K V) (p : K × V) (h : (mkeys st.consensusMap).Nodup) :
    (mkeys (makeConsensusMapStep st p).consensusMap).Nodup := by
  rw [makeConsensusMapStep]
  split
  · exact h
  · cases mget st.consensusMap p.1 with
    | none => exact mkeys_nodup_mset _ _ _ h
    | some pv =>
      dsimp only
      split
      · exact h
      · exact mkeys_nodup_mdel _ _ h

theorem makeConsensusMap_keys_nodup {K V : Type} [DecidableEq K] [DecidableEq V]
    (pairs : List (K × V)) : (mkeys (makeConsensusMap pairs)).Nodup := by
  rw [makeConsensusMap]
  suffices H : ∀ st : ConsensusState K V, (mkeys st.consensusMap).Nodup →
      (mkeys (pairs.foldl makeConsensusMapStep st).consensusMap).Nodup by
    exact H ⟨[], []⟩ (by simp [mkeys])
  induction pairs with
  | nil => exact fun st h => h
  | cons p rest ih =>
    intro st h
    exact ih _ (makeConsensusMapStep_keys_nodup st p h)

/-- C3.  The consensus reduction keeps a key exactly when all recorded
pairs for it agree (first value provisional; a conflicting later value
removes and permanently excludes the key, so no later pair can re-add it);
consequently every key of the resulting `oldFuncToNewFuncMap` maps all of
the library's frames that had that old func onto the one new func, and any
old func whose frames ended with two or more distinct new funcs is absent
from the map. -/
theorem consensus_soundness :
    (∀ (pairs : List (Nat × Nat)) (k v : Nat),
      mget (makeConsensusMap pairs) k = some v ↔
        ((k, v) ∈ pairs ∧ ∀ v', (k, v') ∈ pairs → v' = v)) ∧
    (∀ (thread : Thread) (stepInfo : SymbolicationStepInfo) (map0 : List (Nat × Nat))
      (r : ApplyResult),
      applySymbolicationStep thread stepInfo map0 = Except.ok r →
      stepInfo.threadLibSymbolicationInfo.allFramesForThisLib.Nodup →
      (∀ f ∈ stepInfo.threadLibSymbolicationInfo.allFramesForThisLib,
        cget thread.frameTable.func 0 f ∉ mkeys map0) →
      (∀ oldF newF, mget r.oldFuncToNewFuncMap oldF = some newF →
        ∀ f ∈ stepInfo.threadLibSymbolicationInfo.allFramesForThisLib,
        cget thread.frameTable.func 0 f = oldF →
        cget r.thread.frameTable.func 0 f = newF) ∧
      (∀ oldF f1 f2, f1 ∈ stepInfo.threadLibSymbolicationInfo.allFramesForThisLib →
        f2 ∈ stepInfo.threadLibSymbolicationInfo.allFramesForThisLib →
        cget thread.frameTable.func 0 f1 = oldF →
        cget thread.frameTable.func 0 f2 = oldF →
        cget r.thread.frameTable.func 0 f1 ≠ cget r.thread.frameTable.func 0 f2 →
        mget r.oldFuncToNewFuncMap oldF = none)) := by
  refine ⟨makeConsensusMap_get, ?_⟩
  intro thread stepInfo map0 r hok hnd hdisj
  have hr := apply_ok_elim hok
  subst hr
  rw [applyModel_parts]
  dsimp only
  have hinv := modelStD_inv thread stepInfo hnd
  have hcolentry : ∀ f ∈ stepInfo.threadLibSymbolicationInfo.allFramesForThisLib,
      ∃ e ∈ (modelStD thread stepInfo).funcResolutionLog, e.frameIndex = f ∧
        cget (modelStD thread stepInfo).funcCol 0 f = e.funcIndex ∧
        (cget thread.frameTable.func 0 f, e.funcIndex) ∈
          (modelStD thread stepInfo).oldFuncToNewFuncEntries := by
    intro f hf
    have : f ∈ (modelStD thread stepInfo).funcResolutionLog.map (fun e => e.frameIndex) :=
      hinv.logFrames ▸ hf
    obtain ⟨e, he, hef⟩ := List.mem_map.mp this
    refine ⟨e, he, hef, hef ▸ hinv.colEq e he, ?_⟩
    rw [hinv.entriesEq]
    have := List.mem_map_of_mem
      (fun e => (cget thread.frameTable.func 0 e.frameIndex, e.funcIndex)) he
    simpa [hef] using this
  constructor
  · intro oldF newF hsome f hf holdf
    rw [mget_foldl_mset _ _ _ (makeConsensusMap_keys_nodup _)] at hsome
    obtain ⟨e, he, hef, hcol, hentry⟩ := hcolentry f hf
    cases hc : mget (makeConsensusMap (modelStD thread stepInfo).oldFuncToNewFuncEntries)
        oldF with
    | some v =>
      rw [hc] at hsome
      dsimp only at hsome
      have hv : v = newF := Option.some.inj hsome
      obtain ⟨_, hall⟩ := (makeConsensusMap_get _ _ _).mp hc
      rw [hcol]
      exact hv ▸ hall e.funcIndex (holdf ▸ hentry)
    | none =>
      rw [hc] at hsome
      dsimp only at hsome
      have hmem0 : oldF ∈ mkeys map0 :=
        (mget_isSome_iff_mem_mkeys map0 oldF).mp (by rw [hsome]; rfl)
      exact absurd (holdf.symm ▸ hmem0) (hdisj f hf)
  · intro oldF f1 f2 hf1 hf2 holdf1 holdf2 hne
    rw [mget_foldl_mset _ _ _ (makeConsensusMap_keys_nodup _)]
    obtain ⟨e1, he1, hef1, hcol1, hentry1⟩ := hcolentry f1 hf1
    obtain ⟨e2, he2, hef2, hcol2, hentry2⟩ := hcolentry f2 hf2
    cases hc : mget (makeConsensusMap (modelStD thread stepInfo).oldFuncToNewFuncEntries)
        oldF with
    | some v =>
      obtain ⟨_, hall⟩ := (makeConsensusMap_get _ _ _).mp hc
      have h1 : e1.funcIndex = v := hall e1.funcIndex (holdf1 ▸ hentry1)
      have h2 : e2.funcIndex = v := hall e2.funcIndex (holdf2 ▸ hentry2)
      rw [hcol1, hcol2, h1, h2] at hne
      exact absurd rfl hne
    | none =>
      rw [mget_eq_none_iff_not_mem_mkeys]
      exact holdf1 ▸ hdisj f1 hf1

/-- Witness for C3: a later pair matching the first value does not restore
a key that diverged, and agreeing keys survive. -/
theorem consensus_soundness_witness :
    mget (makeConsensusMap [(1, 5), (2, 6), (1, 7), (1, 5)]) 1 = none ∧
      mget (makeConsensusMap [(1, 5), (2, 6), (1, 5)]) 2 = some 6 := by
  constructor
  · cases hc : mget (makeConsensusMap [(1, 5), (2, 6), (1, 7), (1, 5)]) 1 with
    | none => rfl
    | some v =>
      obtain ⟨hmem, hall⟩ := (consensus_soundness.1 [(1, 5), (2, 6), (1, 7), (1, 5)] 1 v).mp hc
      have h5 : 5 = v := hall 5 (by simp)
      have h7 : 7 = v := hall 7 (by simp)
      omega
  · refine (consensus_soundness.1 [(1, 5), (2, 6), (1, 5)] 2 6).mpr ⟨by decide, ?_⟩
    intro v' hv'
    simp at hv'
    exact hv'

/-! ### Lemmas: decimal number strings and `funcKey` injectivity -/

theorem digitChar_isDigit (m : Nat) (h : m < 10) : (Nat.digitChar m).isDigit = true := by
  interval_cases m <;> decide

theorem digitChar_inj (m n : Nat) (hm : m < 10) (hn : n < 10)
    (h : Nat.digitChar m = Nat.digitChar n) : m = n := by
  interval_cases m <;> interval_cases n <;> simp_all <;> exact absurd h (by decide)

theorem toDigitsCore_digits (fuel : Nat) : ∀ (n : Nat) (acc : List Char),
    (∀ c ∈ acc, c.isDigit = true) →
    ∀ c ∈ Nat.toDigitsCore 10 fuel n acc, c.isDigit = true := by
  induction fuel with
  | zero => intro n acc hacc; exact hacc
  | succ fuel ih =>
    intro n acc hacc
    rw [Nat.toDigitsCore]
    have hacc' : ∀ c ∈ Nat.digitChar (n % 10) :: acc, c.isDigit = true := by
      intro c hc
      rcases List.mem_cons.mp hc with hc | hc
      · exact hc ▸ digitChar_isDigit _ (Nat.mod_lt _ (by norm_num))
      · exact hacc c hc
    split
    · exact hacc'
    · exact ih _ _ hacc'

theorem toDigits_digits (n : Nat) : ∀ c ∈ Nat.toDigits 10 n, c.isDigit = true :=
  toDigitsCore_digits (n + 1) n [] (by simp)

theorem toDigitsCore_append (fuel : Nat) : ∀ (n : Nat) (acc : List Char),
    Nat.toDigitsCore 10 fuel n acc = Nat.toDigitsCore 10 fuel n [] ++ acc := by
  induction fuel with
  | zero => intro n acc; rfl
  | succ fuel ih =>
    intro n acc
    rw [Nat.toDigitsCore, Nat.toDigitsCore]
    split
    · rfl
    · rw [ih (n / 10) [Nat.digitChar (n % 10)], ih (n / 10) (Nat.digitChar (n % 10) :: acc),
        List.append_assoc]
      rfl

theorem toDigitsCore_fuel (fuel : Nat) : ∀ (fuel' n : Nat), n < fuel → n < fuel' →
    Nat.toDigitsCore 10 fuel n [] = Nat.toDigitsCore 10 fuel' n [] := by
  induction fuel with
  | zero => intro fuel' n h; exact absurd h (Nat.not_lt_zero n)
  | succ fuel ih =>
    intro fuel' n h h'
    cases fuel' with
    | zero => exact absurd h' (Nat.not_lt_zero n)
    | succ fuel' =>
      rw [Nat.toDigitsCore, Nat.toDigitsCore]
      by_cases hz : n / 10 = 0
      · rw [if_pos hz, if_pos hz]
      · rw [if_neg hz, if_neg hz]
        have hn : 0 < n := by
          by_contra hc
          have : n = 0 := by omega
          exact hz (by rw [this])
        have hd : n / 10 < n := Nat.div_lt_self hn (by norm_num)
        rw [toDigitsCore_append fuel, toDigitsCore_append fuel',
          ih fuel' (n / 10) (by omega) (by omega)]

theorem toDigits_recurrence (n : Nat) :
    Nat.toDigits 10 n =
      if n < 10 then [Nat.digitChar n]
      else Nat.toDigits 10 (n / 10) ++ [Nat.digitChar (n % 10)] := by
  rw [Nat.toDigits, Nat.toDigitsCore]
  by_cases hz : n / 10 = 0
  · have hlt : n < 10 := (Nat.div_eq_zero_iff (by norm_num)).mp hz
    rw [if_pos hz, if_pos hlt, Nat.mod_eq_of_lt hlt]
  · have hge : ¬ n < 10 := by
      intro hc
      exact hz (Nat.div_eq_of_lt hc)
    rw [if_neg hz, if_neg hge, toDigitsCore_append n, Nat.toDigits]
    have hn : 0 < n := by
      by_contra hc
      have : n = 0 := by omega
      exact hz (by rw [this])
    rw [toDigitsCore_fuel n (n / 10 + 1) (n / 10) (Nat.div_lt_self hn (by norm_num))
      (Nat.lt_succ_self _)]

theorem toDigits_ne_nil (n : Nat) : Nat.toDigits 10 n ≠ [] := by
  rw [toDigits_recurrence]
  split
  · exact fun hc => List.noConfusion hc
  · exact fun hc => absurd (List.append_eq_nil.mp hc).2 (fun h => List.noConfusion h)

theorem toDigits_inj (m : Nat) : ∀ n, Nat.toDigits 10 m = Nat.toDigits 10 n → m = n := by
  induction m using Nat.strong_induction_on with
  | _ m ih =>
    intro n h
    rw [toDigits_recurrence m, toDigits_recurrence n] at h
    by_cases hm : m < 10 <;> by_cases hn : n < 10
    · rw [if_pos hm, if_pos hn] at h
      exact digitChar_inj m n hm hn (List.cons.inj h).1
    · rw [if_pos hm, if_neg hn] at h
      have hlen := congrArg List.length h
      simp only [List.length_cons, List.length_nil, List.length_append] at hlen
      have := List.length_pos.mpr (toDigits_ne_nil (n / 10))
      omega
    · rw [if_neg hm, if_pos hn] at h
      have hlen := congrArg List.length h
      simp only [List.length_cons, List.length_nil, List.length_append] at hlen
      have := List.length_pos.mpr (toDigits_ne_nil (m / 10))
      omega
    · rw [if_neg hm, if_neg hn] at h
      obtain ⟨h1, h2⟩ := List.append_inj' h (by simp)
      have hdiv : m / 10 = n / 10 :=
        ih (m / 10) (Nat.div_lt_self (by omega) (by norm_num)) (n / 10) h1
      have hmod : m % 10 = n % 10 :=
        digitChar_inj _ _ (Nat.mod_lt _ (by norm_num)) (Nat.mod_lt _ (by norm_num))
          (List.cons.inj h2).1
      omega

theorem natRepr_data (n : Nat) : (Nat.repr n).data = Nat.toDigits 10 n := rfl

theorem natRepr_inj {m n : Nat} (h : Nat.repr m = Nat.repr n) : m = n :=
  toDigits_inj m n (by rw [← natRepr_data, ← natRepr_data, h])

theorem natRepr_ne_nil (n : Nat) : (Nat.repr n).data ≠ [] := by
  rw [natRepr_data]
  exact toDigits_ne_nil n

theorem colon_split_inj : ∀ (l1 l2 r1 r2 : List Char),
    (∀ c ∈ l1, c.isDigit = true) → (∀ c ∈ l2, c.isDigit = true) →
    l1 ++ ':' :: r1 = l2 ++ ':' :: r2 → l1 = l2 ∧ r1 = r2 := by
  intro l1
  induction l1 with
  | nil =>
    intro l2 r1 r2 _ hd2 h
    cases l2 with
    | nil => exact ⟨rfl, (List.cons.inj h).2⟩
    | cons c l2' =>
      obtain ⟨hc, _⟩ := List.cons.inj h
      have : (':' : Char).isDigit = true := hc ▸ hd2 c (List.mem_cons_self c l2')
      exact absurd this (by decide)
  | cons c l1' ih =>
    intro l2 r1 r2 hd1 hd2 h
    cases l2 with
    | nil =>
      obtain ⟨hc, _⟩ := List.cons.inj h
      have : (':' : Char).isDigit = true := hc ▸ hd1 c (List.mem_cons_self c l1')
      exact absurd this.symm (by decide)
    | cons c2 l2' =>
      obtain ⟨hc, htail⟩ := List.cons.inj h
      obtain ⟨h1, h2⟩ := ih l2' r1 r2 (fun x hx => hd1 x (List.mem_cons_of_mem _ hx))
        (fun x hx => hd2 x (List.mem_cons_of_mem _ hx)) htail
      exact ⟨by rw [hc, h1], h2⟩

theorem funcKeyFor_inj {a a' : Nat} {b b' : Option Nat}
    (h : funcKeyFor a b = funcKeyFor a' b') : a = a' ∧ b = b' := by
  have hdata := congrArg String.data h
  simp only [funcKeyFor] at hdata
  simp only [String.data_append] at hdata
  rw [List.append_assoc, List.append_assoc] at hdata
  simp only [List.singleton_append] at hdata
  have hsplit := colon_split_inj (Nat.repr a).data (Nat.repr a').data _ _
    (by rw [natRepr_data]; exact toDigits_digits a)
    (by rw [natRepr_data]; exact toDigits_digits a') hdata
  refine ⟨natRepr_inj (String.ext hsplit.1), ?_⟩
  have htail := hsplit.2
  cases b with
  | none =>
    cases b' with
    | none => rfl
    | some i =>
      dsimp only at htail
      exact absurd htail.symm (natRepr_ne_nil i)
  | some i =>
    cases b' with
    | none =>
      dsimp only at htail
      exact absurd htail (natRepr_ne_nil i)
    | some i' =>
      dsimp only at htail
      rw [natRepr_inj (String.ext htail)]

theorem mget_value_inj {K V : Type} [DecidableEq K] {m : List (K × V)}
    (hvnd : (m.map Prod.snd).Nodup) {k1 k2 : K} {v : V}
    (h1 : mget m k1 = some v) (h2 : mget m k2 = some v) : k1 = k2 := by
  induction m with
  | nil => exact absurd h1 (by simp [mget])
  | cons e rest ih =>
    obtain ⟨a, b⟩ := e
    have hvnd' : b ∉ rest.map Prod.snd ∧ (rest.map Prod.snd).Nodup := by
      have h' : (b :: rest.map Prod.snd).Nodup := hvnd
      exact ⟨(List.nodup_cons.mp h').1, (List.nodup_cons.mp h').2⟩
    by_cases ha1 : a = k1 <;> by_cases ha2 : a = k2
    · rw [← ha1, ← ha2]
    · rw [mget, if_pos ha1] at h1
      rw [mget, if_neg ha2] at h2
      have hb : b = v := Option.some.inj h1
      have : v ∈ rest.map Prod.snd :=
        List.mem_map_of_mem Prod.snd (mem_of_mget_eq_some h2)
      exact absurd (hb ▸ this) hvnd'.1
    · rw [mget, if_neg ha1] at h1
      rw [mget, if_pos ha2] at h2
      have hb : b = v := Option.some.inj h2
      have : v ∈ rest.map Prod.snd :=
        List.mem_map_of_mem Prod.snd (mem_of_mget_eq_some h1)
      exact absurd (hb ▸ this) hvnd'.1
    · rw [mget, if_neg ha1] at h1
      rw [mget, if_neg ha2] at h2
      exact ih hvnd'.2 h1 h2

theorem mem_jsSetOfList {K : Type} [DecidableEq K] {l : List K} {x : K}
    (h : x ∈ jsSetOfList l) : x ∈ l := by
  rcases (mem_foldl_jsSetAdd l [] x).mp h with hc | hc
  · simp at hc
  · exact hc

theorem modelStD_values_nodup (t : Thread) (s : SymbolicationStepInfo)
    (hnd : s.threadLibSymbolicationInfo.allFramesForThisLib.Nodup)
    (hlt : ∀ x ∈ s.threadLibSymbolicationInfo.allFuncsForThisLib, x < t.funcTable.length) :
    ((modelStD t s).funcKeyToFuncMap.map Prod.snd).Nodup := by
  obtain ⟨n, hdrop, hvals, hle, hcond⟩ := (modelStD_inv t s hnd).iterStruct
  rw [hvals]
  refine List.Nodup.append ?_ (List.nodup_range' _ _) ?_
  · exact List.Nodup.sublist (List.take_sublist n _)
      (jsSetOfList_nodup s.threadLibSymbolicationInfo.allFuncsForThisLib)
  · intro x hx
    have hxa : x ∈ jsSetOfList s.threadLibSymbolicationInfo.allFuncsForThisLib :=
      List.take_subset n _ hx
    have hxlt : x < t.funcTable.length := hlt x (mem_jsSetOfList hxa)
    intro hc
    have := (List.mem_range'_1.mp hc).1
    omega

/-- C2.  After `applySymbolicationStep`, the func-grouping loop processed
exactly the library's frames, and two processed frames get equal `func`
column values exactly when their resolved (name, file) string-index pairs
are equal: equal pairs merge into the same func, different pairs go to
different funcs. -/
theorem func_grouping_correctness (thread : Thread) (stepInfo : SymbolicationStepInfo)
    (map0 : List (Nat × Nat)) (r : ApplyResult)
    (hok : applySymbolicationStep thread stepInfo map0 = Except.ok r)
    (hnd : stepInfo.threadLibSymbolicationInfo.allFramesForThisLib.Nodup)
    (hlt : ∀ x ∈ stepInfo.threadLibSymbolicationInfo.allFuncsForThisLib,
      x < thread.funcTable.length) :
    (r.funcResolutionLog.map (fun e => e.frameIndex) =
      stepInfo.threadLibSymbolicationInfo.allFramesForThisLib) ∧
    (∀ e1 ∈ r.funcResolutionLog, ∀ e2 ∈ r.funcResolutionLog,
      ((e1.nameStringIndex = e2.nameStringIndex ∧
        e1.fileNameStringIndex = e2.fileNameStringIndex) ↔
        cget r.thread.frameTable.func 0 e1.frameIndex =
          cget r.thread.frameTable.func 0 e2.frameIndex)) := by
  have hr := apply_ok_elim hok
  subst hr
  rw [applyModel_parts]
  dsimp only
  have hinv := modelStD_inv thread stepInfo hnd
  refine ⟨hinv.logFrames, ?_⟩
  intro e1 he1 e2 he2
  rw [hinv.colEq e1 he1, hinv.colEq e2 he2]
  constructor
  · rintro ⟨hname, hfile⟩
    have hk : funcKeyFor e1.nameStringIndex e1.fileNameStringIndex =
        funcKeyFor e2.nameStringIndex e2.fileNameStringIndex := by
      rw [hname, hfile]
    have hb1 := hinv.mapBinding e1 he1
    have hb2 := hinv.mapBinding e2 he2
    rw [hk, hb2] at hb1
    exact (Option.some.inj hb1).symm
  · intro hfi
    have hb1 := hinv.mapBinding e1 he1
    have hb2 := hinv.mapBinding e2 he2
    rw [hfi] at hb1
    have hkeys := mget_value_inj (modelStD_values_nodup thread stepInfo hnd hlt) hb1 hb2
    exact funcKeyFor_inj hkeys

/-- Witness for C2: the one frame of the example gets processed. -/
theorem func_grouping_correctness_witness :
    (applyModel exThread exStep []).funcResolutionLog.map (fun e => e.frameIndex) = [0] :=
  (func_grouping_correctness exThread exStep [] (applyModel exThread exStep [])
    (applySymbolicationStep_eq exThread exStep []) (by decide) (by decide)).1

/-! ### Lemmas: the library-key round trip -/

theorem jsSplitCharList_of_not_mem (sep : Char) (l : List Char) (h : sep ∉ l) :
    jsSplitCharList sep l = [l] := by
  induction l with
  | nil => rfl
  | cons c rest ih =>
    have hc : ¬ c = sep := fun hc => h (hc ▸ List.mem_cons_self c rest)
    have hr : sep ∉ rest := fun hr => h (List.mem_cons_of_mem c hr)
    simp only [jsSplitCharList]
    rw [if_neg hc, ih hr]

theorem jsSplitCharList_append (sep : Char) (l1 l2 : List Char) (h : sep ∉ l1) :
    jsSplitCharList sep (l1 ++ sep :: l2) = l1 :: jsSplitCharList sep l2 := by
  induction l1 with
  | nil =>
    simp [jsSplitCharList]
  | cons c rest ih =>
    have hc : ¬ c = sep := fun hc => h (hc ▸ List.mem_cons_self c rest)
    have hr : sep ∉ rest := fun hr => h (List.mem_cons_of_mem c hr)
    simp only [List.cons_append, jsSplitCharList, List.append_eq]
    rw [if_neg hc, ih hr]

theorem jsSplitCharList_head (sep : Char) (l : List Char) :
    ∃ p ps, jsSplitCharList sep l = p :: ps ∧ sep ∉ p := by
  induction l with
  | nil => exact ⟨[], [], rfl, by simp⟩
  | cons c rest ih =>
    by_cases hc : c = sep
    · refine ⟨[], jsSplitCharList sep rest, ?_, by simp⟩
      simp only [jsSplitCharList]
      rw [if_pos hc]
    · obtain ⟨p, ps, hsplit, hmem⟩ := ih
      refine ⟨c :: p, ps, ?_, ?_⟩
      · simp only [jsSplitCharList]
        rw [if_neg hc, hsplit]
      · intro hmem'
        rcases List.mem_cons.mp hmem' with h | h
        · exact hc h.symm
        · exact hmem h

theorem stringMk_data (s : String) : String.mk s.data = s := by
  cases s
  rfl

/-- C10 (corrected: the round trip additionally requires the breakpadId to
be free of '/').  Encoding a lib's `(debugName, breakpadId)` as
`debugName ++ "/" ++ breakpadId` and decoding by splitting at '/' recovers
the original pair when neither component contains '/'; when the debugName
contains '/', the decoded pair differs from the original. -/
theorem libKey_roundtrip (lib : Lib) :
    (('/' : Char) ∉ lib.debugName.data → ('/' : Char) ∉ lib.breakpadId.data →
      decodeLibKey (libKeyOf lib) = ⟨lib.debugName, lib.breakpadId⟩) ∧
    (('/' : Char) ∈ lib.debugName.data →
      decodeLibKey (libKeyOf lib) ≠ ⟨lib.debugName, lib.breakpadId⟩) := by
  constructor
  · intro hd hb
    have hdata : (libKeyOf lib).data =
        lib.debugName.data ++ '/' :: lib.breakpadId.data := by
      simp [libKeyOf]
    simp only [decodeLibKey, jsSplitOnChar, hdata]
    rw [jsSplitCharList_append _ _ _ hd, jsSplitCharList_of_not_mem _ _ hb]
    simp [stringMk_data]
  · intro hd hne
    obtain ⟨p, ps, hsplit, hp⟩ := jsSplitCharList_head '/' (libKeyOf lib).data
    have hdbg : (decodeLibKey (libKeyOf lib)).debugName = String.mk p := by
      simp only [decodeLibKey, jsSplitOnChar, hsplit]
      rfl
    rw [hne] at hdbg
    have hpd : lib.debugName.data = p := congrArg String.data hdbg
    exact hp (hpd ▸ hd)

/-- Witness for C10: a slash-free pair round-trips. -/
theorem libKey_roundtrip_witness :
    decodeLibKey (libKeyOf ⟨"libxul", "ABC123"⟩) = ⟨"libxul", "ABC123"⟩ :=
  (libKey_roundtrip ⟨"libxul", "ABC123"⟩).1 (by decide) (by decide)

/-- Counterexample to C10 as stated: a slash-free debugName does not
suffice — a '/' in the breakpadId also garbles the decoded pair. -/
theorem libKey_roundtrip_counterexample :
    ('/' : Char) ∉ ("a" : String).data ∧
      decodeLibKey (libKeyOf ⟨"a", "x/y"⟩) ≠ ⟨"a", "x/y"⟩ := by
  refine ⟨by decide, by decide⟩

/-! ### Lemmas: the request aggregator -/

theorem jsSetAdd_eq_of_mem {K : Type} [DecidableEq K] {s : List K} {x : K} (h : x ∈ s) :
    jsSetAdd s x = s := by
  simp [jsSetAdd, List.contains, h]

theorem jsSetAdd_eq_of_not_mem {K : Type} [DecidableEq K] {s : List K} {x : K}
    (h : x ∉ s) : jsSetAdd s x = s ++ [x] := by
  simp [jsSetAdd, List.contains, h]

theorem jsSetOfList_append_single {K : Type} [DecidableEq K] (l : List K) (x : K) :
    jsSetOfList (l ++ [x]) = jsSetAdd (jsSetOfList l) x := by
  simp [jsSetOfList, List.foldl_append]

theorem jsSetOfList_append {K : Type} [DecidableEq K] (A B : List K) :
    jsSetOfList (A ++ B) = B.foldl jsSetAdd (jsSetOfList A) := by
  simp [jsSetOfList, List.foldl_append]

theorem mem_jsSetOfList_iff {K : Type} [DecidableEq K] (l : List K) (x : K) :
    x ∈ jsSetOfList l ↔ x ∈ l := by
  constructor
  · exact mem_jsSetOfList
  · intro h
    exact (mem_foldl_jsSetAdd l [] x).mpr (Or.inr h)

theorem concat_append {α : Type} (l1 l2 : List (List α)) :
    (l1 ++ l2).foldr (· ++ ·) [] = l1.foldr (· ++ ·) [] ++ l2.foldr (· ++ ·) [] := by
  induction l1 with
  | nil => simp
  | cons x rest ih => simp [ih, List.append_assoc]

theorem foldl_foldl_eq {α β : Type} (f : β → α → β) :
    ∀ (ls : List (List α)) (m : β),
      ls.foldl (fun m l => l.foldl f m) m = (ls.foldr (· ++ ·) []).foldl f m := by
  intro ls
  induction ls with
  | nil => intro m; rfl
  | cons l rest ih =>
    intro m
    simp only [List.foldl_cons, List.foldr_cons, List.foldl_append]
    exact ih (l.foldl f m)

theorem aggValue_append_self (P : List (String × ThreadLibSymbolicationInfo))
    (e : String × ThreadLibSymbolicationInfo) :
    aggValue (P ++ [e]) e.1 = e.2.frameAddresses.foldl jsSetAdd (aggValue P e.1) := by
  simp only [aggValue]
  rw [List.filter_append]
  have hfe : [e].filter (fun x => decide (x.1 = e.1)) = [e] := by simp
  rw [hfe, List.map_append, concat_append]
  simp only [List.map_cons, List.map_nil, List.foldr_cons, List.foldr_nil, List.append_nil]
  rw [jsSetOfList_append]

theorem aggValue_append_ne (P : List (String × ThreadLibSymbolicationInfo))
    (e : String × ThreadLibSymbolicationInfo) (k : String) (h : k ≠ e.1) :
    aggValue (P ++ [e]) k = aggValue P k := by
  simp only [aggValue]
  rw [List.filter_append]
  have hfe : [e].filter (fun x => decide (x.1 = k)) = [] := by
    simp only [List.filter_cons, List.filter_nil]
    rw [if_neg]
    simp only [decide_eq_true_eq]
    exact fun hc => h hc.symm
  rw [hfe, List.append_nil]

theorem aggValue_of_not_mem (P : List (String × ThreadLibSymbolicationInfo)) (k : String)
    (h : k ∉ P.map Prod.fst) : aggValue P k = [] := by
  have hf : P.filter (fun x => decide (x.1 = k)) = [] := by
    rw [List.filter_eq_nil_iff]
    intro a ha
    simp only [decide_eq_true_eq]
    exact fun hc => h (hc ▸ List.mem_map_of_mem Prod.fst ha)
  simp only [aggValue, hf, List.map_nil, List.foldr_nil]
  rfl

theorem assoc_eq_map_getD {K V : Type} [DecidableEq K] (d : V) (m : List (K × V))
    (hnd : (mkeys m).Nodup) :
    m = (mkeys m).map (fun k => (k, (mget m k).getD d)) := by
  induction m with
  | nil => rfl
  | cons e rest ih =>
    obtain ⟨a, b⟩ := e
    have ha : a ∉ mkeys rest := (List.nodup_cons.mp hnd).1
    have hrest := ih (List.nodup_cons.mp hnd).2
    have hhead : (mget ((a, b) :: rest) a).getD d = b := by
      simp [mget]
    have htail : (mkeys rest).map (fun k => (k, (mget ((a, b) :: rest) k).getD d)) =
        (mkeys rest).map (fun k => (k, (mget rest k).getD d)) := by
      refine List.map_congr_left fun k hk => ?_
      have hne : ¬ a = k := fun hc => ha (hc ▸ hk)
      simp [mget, hne]
    simp only [mkeys, List.map_cons] at hrest htail ⊢
    rw [hhead, htail, ← hrest]

theorem aggFold_inv :
    ∀ (L P : List (String × ThreadLibSymbolicationInfo)) (m : List (String × List Nat)),
      mkeys m = jsSetOfList (P.map Prod.fst) →
      (∀ k, mget m k = if k ∈ P.map Prod.fst then some (aggValue P k) else none) →
      mkeys (L.foldl aggStep m) = jsSetOfList ((P ++ L).map Prod.fst) ∧
      (∀ k, mget (L.foldl aggStep m) k =
        if k ∈ (P ++ L).map Prod.fst then some (aggValue (P ++ L) k) else none) := by
  intro L
  induction L with
  | nil =>
    intro P m hkeys hget
    refine ⟨by rw [List.append_nil]; exact hkeys,
      fun k => by rw [List.append_nil]; exact hget k⟩
  | cons e rest ih =>
    intro P m hkeys hget
    have hstep_keys : mkeys (aggStep m e) = jsSetOfList ((P ++ [e]).map Prod.fst) := by
      simp only [List.map_append, List.map_cons, List.map_nil]
      rw [jsSetOfList_append_single]
      simp only [aggStep]
      by_cases hk : e.1 ∈ mkeys m
      · rw [mkeys_mset_mem _ _ _ hk, hkeys, jsSetAdd_eq_of_mem (hkeys ▸ hk)]
      · rw [mkeys_mset_not_mem _ _ _ hk, hkeys,
          jsSetAdd_eq_of_not_mem (fun hc => hk (hkeys ▸ hc))]
    have hstep_get : ∀ k, mget (aggStep m e) k =
        if k ∈ (P ++ [e]).map Prod.fst then some (aggValue (P ++ [e]) k) else none := by
      intro k
      by_cases hke : k = e.1
      · have hv : (match mget m e.1 with | some s => s | none => []) = aggValue P e.1 := by
          rw [hget e.1]
          by_cases hin : e.1 ∈ P.map Prod.fst
          · rw [if_pos hin]
          · rw [if_neg hin, aggValue_of_not_mem _ _ hin]
        rw [hke, if_pos (by simp), aggValue_append_self]
        simp only [aggStep]
        rw [mget_mset_self, hv]
      · simp only [aggStep]
        rw [mget_mset_ne _ _ _ _ (fun hc => hke hc.symm), hget k]
        have hmem : (k ∈ (P ++ [e]).map Prod.fst) ↔ k ∈ P.map Prod.fst := by
          simp [hke]
        by_cases hin : k ∈ P.map Prod.fst
        · rw [if_pos hin, if_pos (hmem.mpr hin), aggValue_append_ne _ _ _ hke]
        · rw [if_neg hin, if_neg (fun hc => hin (hmem.mp hc))]
    have hres := ih (P ++ [e]) (aggStep m e) hstep_keys hstep_get
    rw [List.append_assoc, List.singleton_append] at hres
    simpa [List.foldl_cons] using hres

/-- C9.  The aggregator returns exactly one request per distinct library
key over all threads' collector outputs (in first-encounter order), whose
address list is the deduplicated union of the frame addresses recorded for
that key across all threads. -/
theorem request_aggregation
    (symbolicationInfo : List (List (String × ThreadLibSymbolicationInfo))) :
    buildLibSymbolicationRequestsForAllThreads symbolicationInfo =
      (specDistinctLibKeys symbolicationInfo).map
        (fun k => { lib := decodeLibKey k,
                    addresses := specAggregatedAddresses symbolicationInfo k }) := by
  have hfold : buildLibSymbolicationRequestsForAllThreads symbolicationInfo =
      ((symbolicationInfo.foldr (· ++ ·) []).foldl aggStep []).map
        (fun e => { lib := decodeLibKey e.1, addresses := e.2 }) := by
    show (symbolicationInfo.foldl (fun m tsi => tsi.foldl aggStep m) []).map
        (fun e => ({ lib := decodeLibKey e.1, addresses := e.2 } : LibSymbolicationRequest)) =
      ((symbolicationInfo.foldr (· ++ ·) []).foldl aggStep []).map
        (fun e => ({ lib := decodeLibKey e.1, addresses := e.2 } : LibSymbolicationRequest))
    rw [foldl_foldl_eq]
  rw [hfold]
  obtain ⟨hkeys, hget⟩ := aggFold_inv (symbolicationInfo.foldr (· ++ ·) []) [] []
    (by rfl) (fun k => by simp [mget])
  rw [List.nil_append] at hkeys
  have hnodup : (mkeys ((symbolicationInfo.foldr (· ++ ·) []).foldl aggStep [])).Nodup := by
    rw [hkeys]
    exact jsSetOfList_nodup _
  have hassoc := assoc_eq_map_getD ([] : List Nat) _ hnodup
  conv_lhs => rw [hassoc]
  rw [List.map_map, hkeys]
  show (jsSetOfList ((symbolicationInfo.foldr (· ++ ·) []).map Prod.fst)).map _ =
    (jsSetOfList ((symbolicationInfo.foldr (· ++ ·) []).map Prod.fst)).map _
  refine List.map_congr_left fun k hk => ?_
  have hkmem : k ∈ (symbolicationInfo.foldr (· ++ ·) []).map Prod.fst :=
    mem_jsSetOfList hk
  have := hget k
  rw [List.nil_append] at this
  rw [if_pos hkmem] at this
  simp only [Function.comp]
  rw [this]
  rfl

/-! ### Lemmas: the address collector -/

theorem getThreadSymbolicationInfo_eq (t : Thread) :
    getThreadSymbolicationInfo t =
      (List.range t.resourceTable.length).foldlM (collectorStep t) [] := rfl

theorem mem_mkeys_mset {K V : Type} [DecidableEq K] {m : List (K × V)} {k key : K} {v : V}
    (h : key ∈ mkeys (mset m k v)) : key ∈ mkeys m ∨ key = k := by
  by_cases hk : k ∈ mkeys m
  · rw [mkeys_mset_mem _ _ _ hk] at h
    exact Or.inl h
  · rw [mkeys_mset_not_mem _ _ _ hk] at h
    rcases List.mem_append.mp h with h | h
    · exact Or.inl h
    · exact Or.inr (List.mem_singleton.mp h)

theorem collectorStep_cases (t : Thread) (m : List (String × ThreadLibSymbolicationInfo))
    (r : Nat) :
    (¬ resourceIsDangling t r →
      collectorStep t m r = Except.ok m ∨
      ∃ lib, resourceQualifies t r ∧
        jsIndexList t.libs (resourceRawLibIndex t r) = some lib ∧
        collectorStep t m r = Except.ok
          (mset m (libKeyOf lib)
            (threadLibInfoFor t r (resourceRawLibIndex t r).toNat))) ∧
    (resourceIsDangling t r → collectorStep t m r = Except.error "Did not find a lib.") := by
  by_cases htype : cget t.resourceTable.type 0 r ≠ resourceTypesLibrary
  · constructor
    · intro _
      left
      simp only [collectorStep, if_pos htype]
    · intro hd
      exact absurd hd.1.1 htype
  · cases hlib : cget t.resourceTable.lib JsLibIndexValue.undef r with
    | null =>
      constructor
      · intro _
        left
        simp only [collectorStep, if_neg htype, hlib]
      · intro hd
        obtain ⟨i, hi', _⟩ := hd.1.2
        rw [hlib] at hi'
        exact JsLibIndexValue.noConfusion hi'
    | undef =>
      constructor
      · intro _
        left
        simp only [collectorStep, if_neg htype, hlib]
      · intro hd
        obtain ⟨i, hi', _⟩ := hd.1.2
        rw [hlib] at hi'
        exact JsLibIndexValue.noConfusion hi'
    | val i =>
      have hraw : resourceRawLibIndex t r = i := by
        simp [resourceRawLibIndex, hlib]
      by_cases hi : i = -1
      · constructor
        · intro _
          left
          simp only [collectorStep, if_neg htype, hlib, if_pos hi]
        · intro hd
          obtain ⟨i', hi', hne⟩ := hd.1.2
          rw [hlib] at hi'
          injection hi' with h
          exact absurd (h ▸ hi) hne
      · cases hidx : jsIndexList t.libs i with
        | none =>
          have hd : resourceIsDangling t r := by
            refine ⟨⟨not_not.mp htype, ⟨i, hlib, hi⟩⟩, ?_⟩
            rw [hraw]
            exact hidx
          constructor
          · intro hnd
            exact absurd hd hnd
          · intro _
            simp only [collectorStep, if_neg htype, hlib, if_neg hi, hidx]
        | some lib =>
          constructor
          · intro _
            right
            refine ⟨lib, ⟨not_not.mp htype, ⟨i, hlib, hi⟩⟩, ?_, ?_⟩
            · rw [hraw]
              exact hidx
            · simp only [collectorStep, if_neg htype, hlib, if_neg hi, hidx, hraw]
          · intro hd
            have h2 := hd.2
            rw [hraw, hidx] at h2
            exact Option.noConfusion h2

theorem collector_fold_ok (t : Thread) :
    ∀ (rows : List Nat) (m : List (String × ThreadLibSymbolicationInfo)),
      (∀ r ∈ rows, ¬ resourceIsDangling t r) →
      ∃ m', rows.foldlM (collectorStep t) m = Except.ok m' ∧
        ∀ key ∈ mkeys m', key ∈ mkeys m ∨
          ∃ r ∈ rows, resourceQualifies t r ∧
            ∃ lib, jsIndexList t.libs (resourceRawLibIndex t r) = some lib ∧
              libKeyOf lib = key := by
  intro rows
  induction rows with
  | nil =>
    intro m _
    exact ⟨m, rfl, fun key hk => Or.inl hk⟩
  | cons r rest ih =>
    intro m h
    rcases (collectorStep_cases t m r).1 (h r (List.mem_cons_self r rest)) with
      hok | ⟨lib, hq, hidx, hok⟩
    · obtain ⟨m', hfold, hkeys⟩ := ih m (fun r' hr' => h r' (List.mem_cons_of_mem _ hr'))
      refine ⟨m', ?_, ?_⟩
      · rw [List.foldlM_cons, hok]
        exact hfold
      · intro key hk
        rcases hkeys key hk with hin | ⟨r', hr', hrest⟩
        · exact Or.inl hin
        · exact Or.inr ⟨r', List.mem_cons_of_mem _ hr', hrest⟩
    · obtain ⟨m', hfold, hkeys⟩ :=
        ih (mset m (libKeyOf lib) (threadLibInfoFor t r (resourceRawLibIndex t r).toNat))
          (fun r' hr' => h r' (List.mem_cons_of_mem _ hr'))
      refine ⟨m', ?_, ?_⟩
      · rw [List.foldlM_cons, hok]
        exact hfold
      · intro key hk
        rcases hkeys key hk with hin | ⟨r', hr', hrest⟩
        · rcases mem_mkeys_mset hin with hm | hkey
          · exact Or.inl hm
          · exact Or.inr ⟨r, List.mem_cons_self r rest, hq, lib, hidx, hkey.symm⟩
        · exact Or.inr ⟨r', List.mem_cons_of_mem _ hr', hrest⟩

theorem collector_fold_error (t : Thread) :
    ∀ (rows : List Nat) (m : List (String × ThreadLibSymbolicationInfo)),
      (∃ r ∈ rows, resourceIsDangling t r) →
      rows.foldlM (collectorStep t) m = Except.error "Did not find a lib." := by
  intro rows
  induction rows with
  | nil =>
    intro m h
    obtain ⟨r, hr, _⟩ := h
    simp at hr
  | cons r rest ih =>
    intro m h
    by_cases hr : resourceIsDangling t r
    · rw [List.foldlM_cons, (collectorStep_cases t m r).2 hr]
      rfl
    · obtain ⟨r', hr', hd⟩ := h
      have hr'rest : r' ∈ rest := by
        rcases List.mem_cons.mp hr' with he | he
        · exact absurd (he ▸ hd) hr
        · exact he
      rcases (collectorStep_cases t m r).1 hr with hok | ⟨lib, _, _, hok⟩
      · rw [List.foldlM_cons, hok]
        exact ih m ⟨r', hr'rest, hd⟩
      · rw [List.foldlM_cons, hok]
        exact ih _ ⟨r', hr'rest, hd⟩

/-- C8.  The collector throws exactly when some resource row of kind
library carries a concrete lib index with no corresponding lib row; rows
whose lib cell is null, undefined or −1 are skipped without error, so
every key of a successfully returned map stems from a qualifying resource
row whose lib row exists. -/
theorem collector_error_characterization (t : Thread) :
    ((∃ e, getThreadSymbolicationInfo t = Except.error e) ↔
      ∃ r ∈ List.range t.resourceTable.length, resourceIsDangling t r) ∧
    (∀ m, getThreadSymbolicationInfo t = Except.ok m →
      ∀ key ∈ mkeys m, ∃ r ∈ List.range t.resourceTable.length,
        resourceQualifies t r ∧
          ∃ lib, jsIndexList t.libs (resourceRawLibIndex t r) = some lib ∧
            libKeyOf lib = key) := by
  constructor
  · constructor
    · rintro ⟨e, he⟩
      by_contra hno
      push_neg at hno
      obtain ⟨m', hok, _⟩ := collector_fold_ok t (List.range t.resourceTable.length) []
        (fun r hr => hno r hr)
      rw [getThreadSymbolicationInfo_eq, hok] at he
      exact Except.noConfusion he
    · rintro ⟨r, hr, hd⟩
      refine ⟨"Did not find a lib.", ?_⟩
      rw [getThreadSymbolicationInfo_eq]
      exact collector_fold_error t _ [] ⟨r, hr, hd⟩
  · intro m hm key hk
    have hno : ∀ r ∈ List.range t.resourceTable.length, ¬ resourceIsDangling t r := by
      intro r hr hd
      rw [getThreadSymbolicationInfo_eq, collector_fold_error t _ [] ⟨r, hr, hd⟩] at hm
      exact Except.noConfusion hm
    obtain ⟨m', hok, hkeys⟩ := collector_fold_ok t (List.range t.resourceTable.length) [] hno
    rw [getThreadSymbolicationInfo_eq, hok] at hm
    have hmm : m' = m := Except.ok.inj hm
    rcases hkeys key (by rw [hmm]; exact hk) with hin | hrest
    · simp [mkeys] at hin
    · exact hrest

/-- Witness for C8: the single resource row of the example thread
qualifies and its lib row exists. -/
theorem collector_error_characterization_witness :
    ∃ r ∈ List.range exThread.resourceTable.length,
      resourceQualifies exThread r ∧
        ∃ lib, jsIndexList exThread.libs (resourceRawLibIndex exThread r) = some lib ∧
          libKeyOf lib = "libxul/ABC123" :=
  (collector_error_characterization exThread).2 [("libxul/ABC123", exInfo)] (by decide)
    "libxul/ABC123" (by decide)

/-! ### Lemmas: the orchestrator's error handling -/

theorem runEvents_ok (profile : Profile)
    (si : List (List (String × ThreadLibSymbolicationInfo))) :
    ∀ (events : List LibEvent) (run : SymbolicationRun),
      (∀ ev ∈ events, eventFatal ev = none) →
      events.foldlM (handleLibEvent profile si) run =
        Except.ok ⟨run.stepCalls ++ (events.map (stepCallsOf profile si)).foldr (· ++ ·) [],
                   run.warnings ++ events.filterMap eventWarning⟩ := by
  intro events
  induction events with
  | nil =>
    intro run _
    simp only [List.foldlM_nil, List.map_nil, List.foldr_nil, List.filterMap_nil,
      List.append_nil]
    rfl
  | cons ev rest ih =>
    intro run h
    cases ev with
    | success request results =>
      have hrec := ih
        { run with
          stepCalls := run.stepCalls ++ finishSymbolicationForLib profile si results
            (request.lib.debugName ++ "/" ++ request.lib.breakpadId) }
        (fun e he => h e (List.mem_cons_of_mem _ he))
      rw [List.foldlM_cons]
      exact hrec.trans (by simp [stepCallsOf, eventWarning, List.append_assoc])
    | failure request error =>
      have hf : eventFatal (LibEvent.failure request error) = none :=
        h _ (List.mem_cons_self _ _)
      cases error with
      | other msg => exact absurd hf (by simp [eventFatal])
      | symbolsNotFound msg =>
        have hrec := ih
          { run with warnings := run.warnings ++ [ProviderError.symbolsNotFound msg] }
          (fun e he => h e (List.mem_cons_of_mem _ he))
        rw [List.foldlM_cons]
        exact hrec.trans (by simp [stepCallsOf, eventWarning, List.append_assoc])

theorem runEvents_fatal (profile : Profile)
    (si : List (List (String × ThreadLibSymbolicationInfo))) :
    ∀ (pre : List LibEvent) (ev : LibEvent) (post : List LibEvent) (err : ProviderError)
      (run : SymbolicationRun),
      (∀ p ∈ pre, eventFatal p = none) → eventFatal ev = some err →
      (pre ++ ev :: post).foldlM (handleLibEvent profile si) run = Except.error err := by
  intro pre
  induction pre with
  | nil =>
    intro ev post err run _ hf
    cases ev with
    | success request results =>
      simp only [eventFatal] at hf
      exact Option.noConfusion hf
    | failure request error =>
      cases error with
      | symbolsNotFound msg =>
        simp only [eventFatal] at hf
        exact Option.noConfusion hf
      | other msg =>
        simp only [eventFatal] at hf
        injection hf with h
        subst h
        rw [List.nil_append, List.foldlM_cons]
        rfl
  | cons p pre' ih =>
    intro ev post err run h hf
    have hp := h p (List.mem_cons_self _ _)
    have hrest := fun q hq => h q (List.mem_cons_of_mem p hq)
    cases p with
    | success request results =>
      rw [List.cons_append, List.foldlM_cons]
      exact ih ev post err _ hrest hf
    | failure request error =>
      cases error with
      | other msg =>
        exact absurd hp (by simp [eventFatal])
      | symbolsNotFound msg =>
        rw [List.cons_append, List.foldlM_cons]
        exact ih ev post err _ hrest hf

/-- C7.  A provider failure of the recoverable "not found" kind is only
logged during `symbolicateProfile`: the run still succeeds, the error
appears among the warnings, and no step callback fires for that library;
a failure with any other error makes the event fold stop with exactly that
error (rethrown to the caller, no retry). -/
theorem orchestrator_error_handling (profile : Profile)
    (si : List (List (String × ThreadLibSymbolicationInfo))) (events : List LibEvent)
    (hsi : profile.threads.mapM getThreadSymbolicationInfo = Except.ok si) :
    ((∀ ev ∈ events, eventFatal ev = none) →
      symbolicateProfile profile events = Except.ok
        (buildLibSymbolicationRequestsForAllThreads si,
         Except.ok ⟨(events.map (stepCallsOf profile si)).foldr (· ++ ·) [],
                    events.filterMap eventWarning⟩)) ∧
    (∀ pre ev post err, events = pre ++ ev :: post →
      (∀ p ∈ pre, eventFatal p = none) → eventFatal ev = some err →
      symbolicateProfile profile events = Except.ok
        (buildLibSymbolicationRequestsForAllThreads si, Except.error err)) := by
  constructor
  · intro h
    simp only [symbolicateProfile, hsi]
    rw [runEvents_ok profile si events ⟨[], []⟩ h]
    rfl
  · intro pre ev post err hev hpre hf
    simp only [symbolicateProfile, hsi]
    rw [hev, runEvents_fatal profile si pre ev post err ⟨[], []⟩ hpre hf]

/-- Witness for C7: a lone "not found" failure is logged as a warning and
the run succeeds with no step calls. -/
theorem orchestrator_error_handling_witness :
    symbolicateProfile ⟨[exThread]⟩
        [LibEvent.failure ⟨⟨"libxul", "ABC123"⟩, [10]⟩
          (ProviderError.symbolsNotFound "missing")] =
      Except.ok
        (buildLibSymbolicationRequestsForAllThreads [[("libxul/ABC123", exInfo)]],
         Except.ok ⟨[], [ProviderError.symbolsNotFound "missing"]⟩) := by
  have h := (orchestrator_error_handling ⟨[exThread]⟩ [[("libxul/ABC123", exInfo)]]
      [LibEvent.failure ⟨⟨"libxul", "ABC123"⟩, [10]⟩
        (ProviderError.symbolsNotFound "missing")]
      (by decide)).1
    (by
      intro ev hev
      have he := List.mem_singleton.mp hev
      subst he
      rfl)
  exact h.trans (by simp [stepCallsOf, eventWarning])

/-! ### Lemmas: frame effects of the substitution engine -/

theorem le_foldr_max (l : List Nat) (x : Nat) (h : x ∈ l) : x ≤ l.foldr max 0 := by
  induction l with
  | nil => simp at h
  | cons a rest ih =>
    rcases List.mem_cons.mp h with h | h
    · rw [h]
      exact le_max_left _ _
    · exact le_trans (ih h) (le_max_right _ _)

theorem threadRefs_lt_freshRefBase (t : Thread) (x : Nat) (h : x ∈ threadRefs t) :
    x < freshRefBase t := by
  have := le_foldr_max (threadRefs t) x h
  rw [freshRefBase]
  omega

theorem stepBEffects_refl (st : StepBState) : stepBEffects st st :=
  ⟨rfl, rfl, rfl, le_refl _, strExt_refl _⟩

theorem stepBEffects_trans {a b c : StepBState} (h1 : stepBEffects a b)
    (h2 : stepBEffects b c) : stepBEffects a c :=
  ⟨h2.1.trans h1.1, h2.2.1.trans h1.2.1, h2.2.2.1.trans h1.2.2.1,
   le_trans h1.2.2.2.1 h2.2.2.2.1, strExt_trans h1.2.2.2.2 h2.2.2.2.2⟩

theorem stepBEntry_effects (l : Nat) (st : StepBState) (e : Nat × String) :
    stepBEffects st (stepBEntry l st e) := by
  cases hc : mget st.symbolAddressToCanonicalSymbolIndexMap e.1 with
  | some symbolIndex =>
    simp only [stepBEntry, hc]
    exact ⟨rfl, rfl, rfl, le_refl _, indexForString_strExt _ _⟩
  | none =>
    cases hit : st.availableIter with
    | cons symbolIndex rest =>
      simp only [stepBEntry, hc, hit]
      exact ⟨rfl, rfl, rfl, le_refl _, indexForString_strExt _ _⟩
    | nil =>
      simp only [stepBEntry, hc, hit]
      exact ⟨rfl, rfl, rfl, Nat.le_succ _, indexForString_strExt _ _⟩

theorem stepB_effects (l : Nat) (entries : List (Nat × String)) :
    ∀ st : StepBState, stepBEffects st (stepB l st entries) := by
  induction entries with
  | nil => exact fun st => stepBEffects_refl st
  | cons e rest ih =>
    intro st
    exact stepBEffects_trans (stepBEntry_effects l st e) (ih (stepBEntry l st e))

theorem stepDEffects_refl (st : StepDState) : stepDEffects st st :=
  ⟨rfl, rfl, rfl, rfl, rfl, rfl, rfl, rfl, rfl, le_refl _, strExt_refl _⟩

theorem stepDEffects_trans {a b c : StepDState} (h1 : stepDEffects a b)
    (h2 : stepDEffects b c) : stepDEffects a c :=
  ⟨h2.1.trans h1.1, h2.2.1.trans h1.2.1, h2.2.2.1.trans h1.2.2.1,
   h2.2.2.2.1.trans h1.2.2.2.1, h2.2.2.2.2.1.trans h1.2.2.2.2.1,
   h2.2.2.2.2.2.1.trans h1.2.2.2.2.2.1, h2.2.2.2.2.2.2.1.trans h1.2.2.2.2.2.2.1,
   h2.2.2.2.2.2.2.2.1.trans h1.2.2.2.2.2.2.2.1,
   h2.2.2.2.2.2.2.2.2.1.trans h1.2.2.2.2.2.2.2.2.1,
   le_trans h1.2.2.2.2.2.2.2.2.2.1 h2.2.2.2.2.2.2.2.2.2.1,
   strExt_trans h1.2.2.2.2.2.2.2.2.2.2 h2.2.2.2.2.2.2.2.2.2.2⟩

theorem stepDPureFrame_effects (oldFt : FrameTable) (ns : NativeSymbolTable)
    (res : List (Nat × AddressResult)) (rI : Nat) (nsCol : Col (Option Nat))
    (st : StepDState) (f : Nat) :
    stepDEffects st (stepDPureFrame oldFt ns res rI nsCol st f) := by
  cases hsi : cget nsCol none f with
  | none =>
    have heq : stepDPureFrame oldFt ns res rI nsCol st f = st := by
      rw [stepDPureFrame, stepDFrame]
      dsimp only
      rw [hsi]
    rw [heq]
    exact stepDEffects_refl st
  | some nsi =>
    obtain ⟨nameIdx, fileIdx, line, stbl', hext, hcases⟩ :=
      stepDPureFrame_cases oldFt ns res rI nsCol st f nsi hsi
    rcases hcases with ⟨fi, hmk, heq⟩ | ⟨fi, rest, hmk, hit, heq⟩ | ⟨hmk, hit, heq⟩
    · rw [heq]
      exact ⟨rfl, rfl, rfl, rfl, rfl, rfl, rfl, rfl, rfl, le_refl _, hext⟩
    · rw [heq]
      exact ⟨rfl, rfl, rfl, rfl, rfl, rfl, rfl, rfl, rfl, le_refl _, hext⟩
    · rw [heq]
      exact ⟨rfl, rfl, rfl, rfl, rfl, rfl, rfl, rfl, rfl, Nat.le_succ _, hext⟩

theorem stepD_foldl_effects (oldFt : FrameTable) (ns : NativeSymbolTable)
    (res : List (Nat × AddressResult)) (rI : Nat) (nsCol : Col (Option Nat))
    (frames : List Nat) :
    ∀ st : StepDState,
      stepDEffects st (frames.foldl (stepDPureFrame oldFt ns res rI nsCol) st) := by
  induction frames with
  | nil => exact fun st => stepDEffects_refl st
  | cons f rest ih =>
    intro st
    exact stepDEffects_trans (stepDPureFrame_effects oldFt ns res rI nsCol st f)
      (ih (stepDPureFrame oldFt ns res rI nsCol st f))

/-- C6.  `applySymbolicationStep` is non-destructive: the returned thread's
`func`, `nativeSymbol` and `line` frame columns and all func-table and
native-symbol-table columns live in freshly allocated arrays (identities
not reachable from the input thread), the other frame-table columns as
well as the resource table and libs are shared unchanged, the func and
native-symbol tables only grow, and the string table is shared (same
identity) with strings only appended. -/
theorem non_destructive_update (thread : Thread) (stepInfo : SymbolicationStepInfo)
    (map0 : List (Nat × Nat)) (r : ApplyResult)
    (hok : applySymbolicationStep thread stepInfo map0 = Except.ok r) :
    (∀ ρ ∈ [r.thread.frameTable.func.ref, r.thread.frameTable.nativeSymbol.ref,
        r.thread.frameTable.line.ref,
        r.thread.funcTable.name.ref, r.thread.funcTable.fileName.ref,
        r.thread.funcTable.resource.ref, r.thread.funcTable.isJS.ref,
        r.thread.funcTable.relevantForJS.ref, r.thread.funcTable.lineNumber.ref,
        r.thread.funcTable.columnNumber.ref,
        r.thread.nativeSymbols.libIndex.ref, r.thread.nativeSymbols.address.ref,
        r.thread.nativeSymbols.name.ref], ρ ∉ threadRefs thread) ∧
    r.thread.frameTable.address = thread.frameTable.address ∧
    r.thread.frameTable.innerWindowID = thread.frameTable.innerWindowID ∧
    r.thread.frameTable.length = thread.frameTable.length ∧
    r.thread.resourceTable = thread.resourceTable ∧
    r.thread.libs = thread.libs ∧
    thread.funcTable.length ≤ r.thread.funcTable.length ∧
    thread.nativeSymbols.length ≤ r.thread.nativeSymbols.length ∧
    strExt thread.stringTable r.thread.stringTable := by
  have hr := apply_ok_elim hok
  subst hr
  rw [applyModel_parts]
  dsimp only
  have hD : stepDEffects (modelStD0 thread stepInfo) (modelStD thread stepInfo) := by
    rw [modelStD]
    exact stepD_foldl_effects _ _ _ _ _ _ _
  have hB : stepBEffects
      ⟨(modelStA thread stepInfo).availableNativeSymbols,
       shallowCloneNativeSymbolTable (freshRefBase thread) thread.nativeSymbols,
       (modelStA thread stepInfo).symbolAddressToCanonicalSymbolIndexMap,
       thread.stringTable⟩
      (modelStB thread stepInfo) := by
    rw [modelStB]
    exact stepB_effects _ _ _
  have hfc : (modelStD thread stepInfo).funcCol.ref = freshRefBase thread + 11 := hD.1
  have hlc : (modelStD thread stepInfo).lineCol.ref = freshRefBase thread + 12 := hD.2.1
  have hnc : (modelNsCol thread stepInfo).ref = freshRefBase thread + 3 := by
    rw [modelNsCol]
    exact stepCPure_ref _ _ _
  have hn1 : (modelStD thread stepInfo).funcTable.name.ref = freshRefBase thread + 4 :=
    hD.2.2.1
  have hn2 : (modelStD thread stepInfo).funcTable.fileName.ref = freshRefBase thread + 5 :=
    hD.2.2.2.1
  have hn3 : (modelStD thread stepInfo).funcTable.resource.ref = freshRefBase thread + 6 :=
    hD.2.2.2.2.1
  have hn4 : (modelStD thread stepInfo).funcTable.isJS.ref = freshRefBase thread + 7 :=
    hD.2.2.2.2.2.1
  have hn5 : (modelStD thread stepInfo).funcTable.relevantForJS.ref =
      freshRefBase thread + 8 := hD.2.2.2.2.2.2.1
  have hn6 : (modelStD thread stepInfo).funcTable.lineNumber.ref =
      freshRefBase thread + 9 := hD.2.2.2.2.2.2.2.1
  have hn7 : (modelStD thread stepInfo).funcTable.columnNumber.ref =
      freshRefBase thread + 10 := hD.2.2.2.2.2.2.2.2.1
  have hs1 : (modelStB thread stepInfo).nativeSymbols.libIndex.ref =
      freshRefBase thread := hB.1
  have hs2 : (modelStB thread stepInfo).nativeSymbols.address.ref =
      freshRefBase thread + 1 := hB.2.1
  have hs3 : (modelStB thread stepInfo).nativeSymbols.name.ref =
      freshRefBase thread + 2 := hB.2.2.1
  refine ⟨?_, rfl, rfl, rfl, rfl, rfl, hD.2.2.2.2.2.2.2.2.2.1, hB.2.2.2.1,
    strExt_trans hB.2.2.2.2 hD.2.2.2.2.2.2.2.2.2.2⟩
  intro ρ hρ hmem
  have hlt := threadRefs_lt_freshRefBase thread ρ hmem
  simp only [List.mem_cons, List.not_mem_nil, or_false] at hρ
  rcases hρ with h | h | h | h | h | h | h | h | h | h | h | h | h <;>
    subst h <;>
    first
    | (rw [hfc] at hlt; omega)
    | (rw [hlc] at hlt; omega)
    | (rw [hnc] at hlt; omega)
    | (rw [hn1] at hlt; omega)
    | (rw [hn2] at hlt; omega)
    | (rw [hn3] at hlt; omega)
    | (rw [hn4] at hlt; omega)
    | (rw [hn5] at hlt; omega)
    | (rw [hn6] at hlt; omega)
    | (rw [hn7] at hlt; omega)
    | (rw [hs1] at hlt; omega)
    | (rw [hs2] at hlt; omega)
    | (rw [hs3] at hlt; omega)

/-- Witness for C6: the example step writes its `func` column into a fresh
array. -/
theorem non_destructive_update_witness :
    (applyModel exThread exStep []).thread.frameTable.func.ref ∉ threadRefs exThread :=
  (non_destructive_update exThread exStep [] (applyModel exThread exStep [])
    (applySymbolicationStep_eq exThread exStep [])).1
    (applyModel exThread exStep []).thread.frameTable.func.ref (by simp)

/-! ### Lemmas: string interning stability -/

theorem findIdx_mem_isSome (l : List String) (s : String) (h : s ∈ l) :
    (l.findIdx? (fun t => t == s)).isSome = true := by
  rw [List.findIdx?_isSome, List.any_eq_true]
  exact ⟨s, h, by simp⟩

theorem indexForString_of_mem (st : StringTable) (s : String) (h : s ∈ st.strings) :
    indexForString st s = (stIdx st s, st) := by
  obtain ⟨i, hi⟩ := Option.isSome_iff_exists.mp (findIdx_mem_isSome st.strings s h)
  simp [indexForString, stIdx, hi]

theorem intern_mem (st : StringTable) (s : String) :
    s ∈ ((indexForString st s).2).strings := by
  rw [indexForString]
  cases hf : st.strings.findIdx? (fun t => t == s) with
  | some i =>
    dsimp only
    have hsome : (st.strings.findIdx? (fun t => t == s)).isSome = true := by
      rw [hf]
      rfl
    rw [List.findIdx?_isSome, List.any_eq_true] at hsome
    obtain ⟨x, hx, hxs⟩ := hsome
    have hxeq : x = s := by simpa using hxs
    exact hxeq ▸ hx
  | none =>
    dsimp only
    simp

theorem intern_first (st : StringTable) (s : String) :
    stIdx ((indexForString st s).2) s = (indexForString st s).1 := by
  by_cases h : s ∈ st.strings
  · rw [indexForString_of_mem st s h]
  · have hf : st.strings.findIdx? (fun t => t == s) = none := by
      rw [List.findIdx?_eq_none_iff]
      intro x hx
      by_cases hxs : x = s
      · exact absurd (hxs ▸ hx) h
      · simp [hxs]
    have hi : indexForString st s =
        (st.strings.length, ⟨st.ref, st.strings ++ [s]⟩) := by
      rw [indexForString, hf]
    rw [hi, stIdx, indexForString]
    dsimp only
    rw [List.findIdx?_append, hf]
    simp

theorem stIdx_ext (st₁ st₂ : StringTable) (s : String) (hext : strExt st₁ st₂)
    (h : s ∈ st₁.strings) : stIdx st₂ s = stIdx st₁ s := by
  obtain ⟨-, l, hstr⟩ := hext
  rw [stIdx, stIdx, indexForString, indexForString, hstr, List.findIdx?_append]
  obtain ⟨i, hi⟩ := Option.isSome_iff_exists.mp (findIdx_mem_isSome st₁.strings s h)
  rw [hi]
  rfl

theorem strExt_mem {st₁ st₂ : StringTable} (hext : strExt st₁ st₂) {s : String}
    (h : s ∈ st₁.strings) : s ∈ st₂.strings := by
  obtain ⟨-, l, hstr⟩ := hext
  rw [hstr]
  exact List.mem_append_left _ h

theorem nodup_length_le_of_subset {α : Type} [DecidableEq α] {l₁ l₂ : List α}
    (hnd : l₁.Nodup) (hsub : ∀ x ∈ l₁, x ∈ l₂) : l₁.length ≤ l₂.length := by
  have h1 : l₁.toFinset.card = l₁.length := List.toFinset_card_of_nodup hnd
  have h3 : l₁.toFinset ⊆ l₂.toFinset := by
    intro x hx
    rw [List.mem_toFinset] at hx ⊢
    exact hsub x hx
  calc l₁.length = l₁.toFinset.card := h1.symm
    _ ≤ l₂.toFinset.card := Finset.card_le_card h3
    _ ≤ l₂.length := List.toFinset_card_le l₂

/-! ### Lemmas: resolution under full coverage -/

theorem resolveAddressResult_covered (ft : FrameTable) (ns : NativeSymbolTable)
    (s : StringTable) (res : List (Nat × AddressResult)) (f : Nat) (r : AddressResult)
    (h : mget res (cget ft.address 0 f) = some r) :
    resolveAddressResult ft ns s res f = r := by
  rw [resolveAddressResult, h]

theorem frameSymbolAddress_covered (ft : FrameTable) (ns : NativeSymbolTable)
    (s : StringTable) (res : List (Nat × AddressResult)) (f : Nat) (r : AddressResult)
    (h : mget res (cget ft.address 0 f) = some r) :
    frameSymbolAddress ft ns s res f = r.symbolAddress := by
  rw [frameSymbolAddress, resolveAddressResult_covered ft ns s res f r h]

theorem frameSymbolName_covered (ft : FrameTable) (ns : NativeSymbolTable)
    (s : StringTable) (res : List (Nat × AddressResult)) (f : Nat) (r : AddressResult)
    (h : mget res (cget ft.address 0 f) = some r) :
    frameSymbolName ft ns s res f = r.name := by
  rw [frameSymbolName, resolveAddressResult_covered ft ns s res f r h]

theorem foldl_congr_mem {α β : Type} {l : List α} {f g : β → α → β} {b : β}
    (h : ∀ a ∈ l, ∀ acc, f acc a = g acc a) : l.foldl f b = l.foldl g b := by
  induction l generalizing b with
  | nil => rfl
  | cons a rest ih =>
    rw [List.foldl_cons, List.foldl_cons, h a (List.mem_cons_self a rest)]
    exact ih (fun x hx acc => h x (List.mem_cons_of_mem a hx) acc)

theorem stepA_sa2name_fold (ft : FrameTable) (ns : NativeSymbolTable) (s : StringTable)
    (res : List (Nat × AddressResult)) :
    ∀ (frames : List Nat) (st : StepAState),
      (frames.foldl (stepAFrame ft ns s res) st).symbolAddressToNameMap =
        frames.foldl
          (fun m f => mset m (frameSymbolAddress ft ns s res f)
            (frameSymbolName ft ns s res f)) st.symbolAddressToNameMap := by
  intro frames
  induction frames with
  | nil => intro st; rfl
  | cons f rest ih =>
    intro st
    rw [List.foldl_cons, List.foldl_cons, ← stepAFrame_sa2name]
    exact ih (stepAFrame ft ns s res st f)

/-! ### Lemmas: Step B counting and column stability -/

theorem mset_length_not_mem {K V : Type} [DecidableEq K] (m : List (K × V)) (k : K) (v : V)
    (h : k ∉ mkeys m) : (mset m k v).length = m.length + 1 := by
  have hc := congrArg List.length (mkeys_mset_not_mem m k v h)
  simpa [mkeys] using hc

theorem cset_data_length_ge {α : Type} (c : Col α) (d : α) (i : Nat) (v : α)
    (h : c.data.length ≤ i) : (cset c d i v).data.length = i + 1 := by
  rw [cset, lset, if_neg (Nat.not_lt.mpr h)]
  simp only [List.length_append, List.length_replicate, List.length_singleton]
  omega

theorem stepBEntry_counts (l : Nat) (st : StepBState) (e : Nat × String) :
    (stepBEntry l st e).symbolAddressToCanonicalSymbolIndexMap.length +
      (stepBEntry l st e).availableIter.length + st.nativeSymbols.length =
    st.symbolAddressToCanonicalSymbolIndexMap.length + st.availableIter.length +
      (stepBEntry l st e).nativeSymbols.length := by
  cases hc : mget st.symbolAddressToCanonicalSymbolIndexMap e.1 with
  | some si =>
    simp only [stepBEntry, hc]
  | none =>
    have hnot : e.1 ∉ mkeys st.symbolAddressToCanonicalSymbolIndexMap :=
      (mget_eq_none_iff_not_mem_mkeys _ _).mp hc
    cases hit : st.availableIter with
    | cons si rest =>
      simp only [stepBEntry, hc, hit]
      rw [mset_length_not_mem _ _ _ hnot]
      simp only [List.length_cons]
      omega
    | nil =>
      simp only [stepBEntry, hc, hit]
      rw [mset_length_not_mem _ _ _ hnot]
      simp only [List.length_nil]
      omega

theorem stepB_counts (l : Nat) (entries : List (Nat × String)) :
    ∀ st : StepBState,
      (stepB l st entries).symbolAddressToCanonicalSymbolIndexMap.length +
        (stepB l st entries).availableIter.length + st.nativeSymbols.length =
      st.symbolAddressToCanonicalSymbolIndexMap.length + st.availableIter.length +
        (stepB l st entries).nativeSymbols.length := by
  induction entries with
  | nil => intro st; rfl
  | cons e rest ih =>
    intro st
    have h1 := stepBEntry_counts l st e
    have h2 := ih (stepBEntry l st e)
    simp only [stepB] at h2 ⊢
    rw [List.foldl_cons]
    omega

theorem stepB_names_present (l : Nat) (entries : List (Nat × String)) :
    ∀ st : StepBState, ∀ e ∈ entries, e.2 ∈ (stepB l st entries).stringTable.strings := by
  induction entries with
  | nil =>
    intro st e he
    simp at he
  | cons e0 rest ih =>
    intro st e he
    rcases List.mem_cons.mp he with he | he
    · subst he
      have hmem : e.2 ∈ (stepBEntry l st e).stringTable.strings := by
        cases hc : mget st.symbolAddressToCanonicalSymbolIndexMap e.1 with
        | some si =>
          simp only [stepBEntry, hc]
          exact intern_mem _ _
        | none =>
          cases hit : st.availableIter with
          | cons si r' =>
            simp only [stepBEntry, hc, hit]
            exact intern_mem _ _
          | nil =>
            simp only [stepBEntry, hc, hit]
            exact intern_mem _ _
      have hext := (stepB_effects l rest (stepBEntry l st e)).2.2.2.2
      rw [stepB, List.foldl_cons]
      exact strExt_mem hext hmem
    · rw [stepB, List.foldl_cons]
      exact ih (stepBEntry l st e0) e he

theorem stepB_stringTable_stable (l : Nat) (entries : List (Nat × String)) :
    ∀ st : StepBState, (∀ e ∈ entries, e.2 ∈ st.stringTable.strings) →
      (stepB l st entries).stringTable = st.stringTable := by
  induction entries with
  | nil => intro st _; rfl
  | cons e rest ih =>
    intro st h
    have hmem := h e (List.mem_cons_self e rest)
    have hst : (stepBEntry l st e).stringTable = st.stringTable := by
      cases hc : mget st.symbolAddressToCanonicalSymbolIndexMap e.1 with
      | some si =>
        simp only [stepBEntry, hc]
        rw [indexForString_of_mem _ _ hmem]
      | none =>
        cases hit : st.availableIter with
        | cons si r' =>
          simp only [stepBEntry, hc, hit]
          rw [indexForString_of_mem _ _ hmem]
        | nil =>
          simp only [stepBEntry, hc, hit]
          rw [indexForString_of_mem _ _ hmem]
    calc (stepB l st (e :: rest)).stringTable
        = (stepB l (stepBEntry l st e) rest).stringTable := rfl
      _ = (stepBEntry l st e).stringTable :=
          ih _ (fun e' he' => by rw [hst]; exact h e' (List.mem_cons_of_mem e he'))
      _ = st.stringTable := hst

theorem stepBEntry_libIndex (l : Nat) (st : StepBState) (e : Nat × String)
    (hlen : st.nativeSymbols.libIndex.data.length = st.nativeSymbols.length) :
    (stepBEntry l st e).nativeSymbols.libIndex.data.length =
      (stepBEntry l st e).nativeSymbols.length ∧
    (∀ i, i < st.nativeSymbols.length →
      cget (stepBEntry l st e).nativeSymbols.libIndex 0 i =
        cget st.nativeSymbols.libIndex 0 i) ∧
    (∀ i, st.nativeSymbols.length ≤ i → i < (stepBEntry l st e).nativeSymbols.length →
      cget (stepBEntry l st e).nativeSymbols.libIndex 0 i = l) := by
  cases hc : mget st.symbolAddressToCanonicalSymbolIndexMap e.1 with
  | some si =>
    simp only [stepBEntry, hc]
    exact ⟨hlen, fun i _ => trivial, fun i h1 h2 => absurd (lt_of_le_of_lt h1 h2) (lt_irrefl _)⟩
  | none =>
    cases hit : st.availableIter with
    | cons si r' =>
      simp only [stepBEntry, hc, hit]
      exact ⟨hlen, fun i _ => trivial,
        fun i h1 h2 => absurd (lt_of_le_of_lt h1 h2) (lt_irrefl _)⟩
    | nil =>
      simp only [stepBEntry, hc, hit]
      refine ⟨?_, ?_, ?_⟩
      · exact cset_data_length_ge _ _ _ _ (le_of_eq hlen)
      · intro i hi
        exact cget_cset_ne _ _ _ _ _ (fun hc' => absurd (hc' ▸ hi) (lt_irrefl _))
      · intro i h1 h2
        have hieq : i = st.nativeSymbols.length := by omega
        rw [hieq]
        exact cget_cset_self _ _ _ _

theorem stepB_libIndex (l : Nat) (entries : List (Nat × String)) :
    ∀ st : StepBState,
      st.nativeSymbols.libIndex.data.length = st.nativeSymbols.length →
      (stepB l st entries).nativeSymbols.libIndex.data.length =
        (stepB l st entries).nativeSymbols.length ∧
      (∀ i, i < st.nativeSymbols.length →
        cget (stepB l st entries).nativeSymbols.libIndex 0 i =
          cget st.nativeSymbols.libIndex 0 i) ∧
      (∀ i, st.nativeSymbols.length ≤ i → i < (stepB l st entries).nativeSymbols.length →
        cget (stepB l st entries).nativeSymbols.libIndex 0 i = l) := by
  induction entries with
  | nil =>
    intro st hlen
    exact ⟨hlen, fun i _ => rfl, fun i h1 h2 => absurd (lt_of_le_of_lt h1 h2) (lt_irrefl _)⟩
  | cons e rest ih =>
    intro st hlen
    have he := stepBEntry_libIndex l st e hlen
    have hih := ih (stepBEntry l st e) he.1
    have hle : st.nativeSymbols.length ≤ (stepBEntry l st e).nativeSymbols.length :=
      (stepBEntry_effects l st e).2.2.2.1
    refine ⟨?_, ?_, ?_⟩
    · exact hih.1
    · intro i hi
      calc cget (stepB l st (e :: rest)).nativeSymbols.libIndex 0 i
          = cget (stepBEntry l st e).nativeSymbols.libIndex 0 i :=
            hih.2.1 i (lt_of_lt_of_le hi hle)
        _ = cget st.nativeSymbols.libIndex 0 i := he.2.1 i hi
    · intro i h1 h2
      by_cases hmid : i < (stepBEntry l st e).nativeSymbols.length
      · calc cget (stepB l st (e :: rest)).nativeSymbols.libIndex 0 i
            = cget (stepBEntry l st e).nativeSymbols.libIndex 0 i := hih.2.1 i hmid
          _ = l := he.2.2 i h1 hmid
      · exact hih.2.2 i (Nat.not_lt.mp hmid) h2

/-! ### Lemmas: Step D counting and column stability -/

theorem stepDPureFrame_skip (oldFt : FrameTable) (ns : NativeSymbolTable)
    (res : List (Nat × AddressResult)) (rI : Nat) (nsCol : Col (Option Nat))
    (st : StepDState) (f : Nat) (hsi : cget nsCol none f = none) :
    stepDPureFrame oldFt ns res rI nsCol st f = st := by
  rw [stepDPureFrame, stepDFrame]
  dsimp only
  rw [hsi]

theorem stepDPureFrame_counts (oldFt : FrameTable) (ns : NativeSymbolTable)
    (res : List (Nat × AddressResult)) (rI : Nat) (nsCol : Col (Option Nat))
    (st : StepDState) (f : Nat) :
    (stepDPureFrame oldFt ns res rI nsCol st f).funcKeyToFuncMap.length +
      (stepDPureFrame oldFt ns res rI nsCol st f).availableFuncIter.length +
      st.funcTable.length =
    st.funcKeyToFuncMap.length + st.availableFuncIter.length +
      (stepDPureFrame oldFt ns res rI nsCol st f).funcTable.length := by
  cases hsi : cget nsCol none f with
  | none => rw [stepDPureFrame_skip oldFt ns res rI nsCol st f hsi]
  | some nsi =>
    obtain ⟨nameIdx, fileIdx, line, stbl', hext, hcases⟩ :=
      stepDPureFrame_cases oldFt ns res rI nsCol st f nsi hsi
    rcases hcases with ⟨fi, hmk, heq⟩ | ⟨fi, rest, hmk, hit, heq⟩ | ⟨hmk, hit, heq⟩
    · rw [heq]
    · rw [heq]
      dsimp only
      rw [mset_length_not_mem _ _ _ ((mget_eq_none_iff_not_mem_mkeys _ _).mp hmk), hit]
      simp only [List.length_cons]
      omega
    · rw [heq]
      dsimp only
      rw [mset_length_not_mem _ _ _ ((mget_eq_none_iff_not_mem_mkeys _ _).mp hmk), hit]
      simp only [List.length_nil]
      omega

theorem stepD_counts (oldFt : FrameTable) (ns : NativeSymbolTable)
    (res : List (Nat × AddressResult)) (rI : Nat) (nsCol : Col (Option Nat))
    (frames : List Nat) :
    ∀ st : StepDState,
      (frames.foldl (stepDPureFrame oldFt ns res rI nsCol) st).funcKeyToFuncMap.length +
        (frames.foldl (stepDPureFrame oldFt ns res rI nsCol) st).availableFuncIter.length +
        st.funcTable.length =
      st.funcKeyToFuncMap.length + st.availableFuncIter.length +
        (frames.foldl (stepDPureFrame oldFt ns res rI nsCol) st).funcTable.length := by
  induction frames with
  | nil => intro st; rfl
  | cons f rest ih =>
    intro st
    have h1 := stepDPureFrame_counts oldFt ns res rI nsCol st f
    have h2 := ih (stepDPureFrame oldFt ns res rI nsCol st f)
    rw [List.foldl_cons]
    omega

theorem stepDPureFrame_resource (oldFt : FrameTable) (ns : NativeSymbolTable)
    (res : List (Nat × AddressResult)) (rI : Nat) (nsCol : Col (Option Nat))
    (st : StepDState) (f : Nat)
    (hlen : st.funcTable.resource.data.length = st.funcTable.length) :
    (stepDPureFrame oldFt ns res rI nsCol st f).funcTable.resource.data.length =
      (stepDPureFrame oldFt ns res rI nsCol st f).funcTable.length ∧
    (∀ i, i < st.funcTable.length →
      cget (stepDPureFrame oldFt ns res rI nsCol st f).funcTable.resource (-1) i =
        cget st.funcTable.resource (-1) i) ∧
    (∀ i, st.funcTable.length ≤ i →
      i < (stepDPureFrame oldFt ns res rI nsCol st f).funcTable.length →
      cget (stepDPureFrame oldFt ns res rI nsCol st f).funcTable.resource (-1) i =
        (rI : Int)) := by
  cases hsi : cget nsCol none f with
  | none =>
    rw [stepDPureFrame_skip oldFt ns res rI nsCol st f hsi]
    exact ⟨hlen, fun i _ => rfl, fun i h1 h2 => absurd (lt_of_le_of_lt h1 h2) (lt_irrefl _)⟩
  | some nsi =>
    obtain ⟨nameIdx, fileIdx, line, stbl', hext, hcases⟩ :=
      stepDPureFrame_cases oldFt ns res rI nsCol st f nsi hsi
    rcases hcases with ⟨fi, hmk, heq⟩ | ⟨fi, rest, hmk, hit, heq⟩ | ⟨hmk, hit, heq⟩
    · rw [heq]
      exact ⟨hlen, fun i _ => rfl, fun i h1 h2 => absurd (lt_of_le_of_lt h1 h2) (lt_irrefl _)⟩
    · rw [heq]
      exact ⟨hlen, fun i _ => rfl, fun i h1 h2 => absurd (lt_of_le_of_lt h1 h2) (lt_irrefl _)⟩
    · rw [heq]
      refine ⟨?_, ?_, ?_⟩
      · exact cset_data_length_ge _ _ _ _ (le_of_eq hlen)
      · intro i hi
        exact cget_cset_ne _ _ _ _ _ (fun hc' => absurd (hc' ▸ hi) (lt_irrefl _))
      · intro i h1 h2
        dsimp only at h2
        have hieq : i = st.funcTable.length := by omega
        rw [hieq]
        exact cget_cset_self _ _ _ _

theorem stepD_resource (oldFt : FrameTable) (ns : NativeSymbolTable)
    (res : List (Nat × AddressResult)) (rI : Nat) (nsCol : Col (Option Nat))
    (frames : List Nat) :
    ∀ st : StepDState,
      st.funcTable.resource.data.length = st.funcTable.length →
      (frames.foldl (stepDPureFrame oldFt ns res rI nsCol) st).funcTable.resource.data.length =
        (frames.foldl (stepDPureFrame oldFt ns res rI nsCol) st).funcTable.length ∧
      (∀ i, i < st.funcTable.length →
        cget (frames.foldl (stepDPureFrame oldFt ns res rI nsCol) st).funcTable.resource
            (-1) i = cget st.funcTable.resource (-1) i) ∧
      (∀ i, st.funcTable.length ≤ i →
        i < (frames.foldl (stepDPureFrame oldFt ns res rI nsCol) st).funcTable.length →
        cget (frames.foldl (stepDPureFrame oldFt ns res rI nsCol) st).funcTable.resource
            (-1) i = (rI : Int)) := by
  induction frames with
  | nil =>
    intro st hlen
    exact ⟨hlen, fun i _ => rfl, fun i h1 h2 => absurd (lt_of_le_of_lt h1 h2) (lt_irrefl _)⟩
  | cons f rest ih =>
    intro st hlen
    have he := stepDPureFrame_resource oldFt ns res rI nsCol st f hlen
    have hih := ih (stepDPureFrame oldFt ns res rI nsCol st f) he.1
    have hle : st.funcTable.length ≤
        (stepDPureFrame oldFt ns res rI nsCol st f).funcTable.length :=
      (stepDPureFrame_effects oldFt ns res rI nsCol st f).2.2.2.2.2.2.2.2.2.1
    rw [List.foldl_cons]
    refine ⟨hih.1, ?_, ?_⟩
    · intro i hi
      calc cget (rest.foldl (stepDPureFrame oldFt ns res rI nsCol)
              (stepDPureFrame oldFt ns res rI nsCol st f)).funcTable.resource (-1) i
          = cget (stepDPureFrame oldFt ns res rI nsCol st f).funcTable.resource (-1) i :=
            hih.2.1 i (lt_of_lt_of_le hi hle)
        _ = cget st.funcTable.resource (-1) i := he.2.1 i hi
    · intro i h1 h2
      by_cases hmid : i < (stepDPureFrame oldFt ns res rI nsCol st f).funcTable.length
      · calc cget (rest.foldl (stepDPureFrame oldFt ns res rI nsCol)
                (stepDPureFrame oldFt ns res rI nsCol st f)).funcTable.resource (-1) i
            = cget (stepDPureFrame oldFt ns res rI nsCol st f).funcTable.resource (-1) i :=
              hih.2.1 i hmid
          _ = (rI : Int) := he.2.2 i h1 hmid
      · exact hih.2.2 i (Nat.not_lt.mp hmid) h2

theorem stepDPureFrame_funcCol_ne (oldFt : FrameTable) (ns : NativeSymbolTable)
    (res : List (Nat × AddressResult)) (rI : Nat) (nsCol : Col (Option Nat))
    (st : StepDState) (f r' : Nat) (hne : r' ≠ f) :
    cget (stepDPureFrame oldFt ns res rI nsCol st f).funcCol 0 r' =
      cget st.funcCol 0 r' := by
  cases hsi : cget nsCol none f with
  | none => rw [stepDPureFrame_skip oldFt ns res rI nsCol st f hsi]
  | some nsi =>
    obtain ⟨nameIdx, fileIdx, line, stbl', hext, hcases⟩ :=
      stepDPureFrame_cases oldFt ns res rI nsCol st f nsi hsi
    rcases hcases with ⟨fi, hmk, heq⟩ | ⟨fi, rest, hmk, hit, heq⟩ | ⟨hmk, hit, heq⟩ <;>
      rw [heq] <;>
      exact cget_cset_ne _ _ _ _ _ (fun hc' => hne hc'.symm)

theorem stepD_funcCol_not_mem (oldFt : FrameTable) (ns : NativeSymbolTable)
    (res : List (Nat × AddressResult)) (rI : Nat) (nsCol : Col (Option Nat))
    (frames : List Nat) :
    ∀ (st : StepDState) (r' : Nat), r' ∉ frames →
      cget (frames.foldl (stepDPureFrame oldFt ns res rI nsCol) st).funcCol 0 r' =
        cget st.funcCol 0 r' := by
  induction frames with
  | nil => intro st r' _; rfl
  | cons f rest ih =>
    intro st r' hr
    rw [List.foldl_cons]
    calc cget (rest.foldl (stepDPureFrame oldFt ns res rI nsCol)
            (stepDPureFrame oldFt ns res rI nsCol st f)).funcCol 0 r'
        = cget (stepDPureFrame oldFt ns res rI nsCol st f).funcCol 0 r' :=
          ih _ r' (fun hc => hr (List.mem_cons_of_mem f hc))
      _ = cget st.funcCol 0 r' :=
          stepDPureFrame_funcCol_ne oldFt ns res rI nsCol st f r'
            (fun hc => hr (hc ▸ List.mem_cons_self f rest))

/-! ### Lemmas: Step D under full coverage -/

theorem stepDPureFrame_log (oldFt : FrameTable) (ns : NativeSymbolTable)
    (res : List (Nat × AddressResult)) (rI : Nat) (nsCol : Col (Option Nat))
    (st : StepDState) (f : Nat) (r : AddressResult) (nsi : Nat)
    (hres : mget res (cget oldFt.address 0 f) = some r)
    (hsi : cget nsCol none f = some nsi) :
    ∃ fi,
      (stepDPureFrame oldFt ns res rI nsCol st f).funcResolutionLog =
        st.funcResolutionLog ++
          [⟨f, (indexForString st.stringTable r.name).1,
            (match r.file with
             | some fl =>
               some (indexForString (indexForString st.stringTable r.name).2 fl).1
             | none => none),
            fi⟩] ∧
      (stepDPureFrame oldFt ns res rI nsCol st f).stringTable =
        (match r.file with
         | some fl => (indexForString (indexForString st.stringTable r.name).2 fl).2
         | none => (indexForString st.stringTable r.name).2) := by
  rw [stepDPureFrame, stepDFrame]
  dsimp only
  rw [hsi]
  dsimp only
  rw [hres]
  dsimp only
  cases hrf : r.file with
  | none =>
    dsimp only
    cases hmk : mget st.funcKeyToFuncMap
        (funcKeyFor (indexForString st.stringTable r.name).1 none) with
    | some fi => exact ⟨fi, rfl, rfl⟩
    | none =>
      cases hit : st.availableFuncIter with
      | cons fi rest => exact ⟨fi, rfl, rfl⟩
      | nil => exact ⟨st.funcTable.length, rfl, rfl⟩
  | some fl =>
    dsimp only
    cases hmk : mget st.funcKeyToFuncMap
        (funcKeyFor (indexForString st.stringTable r.name).1
          (some (indexForString (indexForString st.stringTable r.name).2 fl).1)) with
    | some fi => exact ⟨fi, rfl, rfl⟩
    | none =>
      cases hit : st.availableFuncIter with
      | cons fi rest => exact ⟨fi, rfl, rfl⟩
      | nil => exact ⟨st.funcTable.length, rfl, rfl⟩

theorem stepDPureFrame_covered (oldFt : FrameTable) (ns : NativeSymbolTable)
    (res : List (Nat × AddressResult)) (rI : Nat) (nsCol : Col (Option Nat))
    (st : StepDState) (f : Nat) (r : AddressResult) (nsi : Nat) (S : StringTable)
    (hres : mget res (cget oldFt.address 0 f) = some r)
    (hsi : cget nsCol none f = some nsi)
    (hstS : st.stringTable = S)
    (hname : r.name ∈ S.strings)
    (hfile : ∀ fl, r.file = some fl → fl ∈ S.strings) :
    (∃ fi, mget st.funcKeyToFuncMap
        (funcKeyFor (stIdx S r.name) (r.file.map (stIdx S))) = some fi ∧
      stepDPureFrame oldFt ns res rI nsCol st f =
        { st with
          oldFuncToNewFuncEntries :=
            st.oldFuncToNewFuncEntries ++ [(cget oldFt.func 0 f, fi)]
          funcCol := cset st.funcCol 0 f fi
          lineCol := cset st.lineCol none f r.line
          funcResolutionLog := st.funcResolutionLog ++
            [⟨f, stIdx S r.name, r.file.map (stIdx S), fi⟩] }) ∨
    (∃ fi rest,
      mget st.funcKeyToFuncMap (funcKeyFor (stIdx S r.name) (r.file.map (stIdx S))) = none ∧
      st.availableFuncIter = fi :: rest ∧
      stepDPureFrame oldFt ns res rI nsCol st f =
        { funcTable :=
            { st.funcTable with
              name := cset st.funcTable.name 0 fi (stIdx S r.name)
              fileName := cset st.funcTable.fileName none fi (r.file.map (stIdx S)) }
          availableFuncIter := rest
          funcKeyToFuncMap := mset st.funcKeyToFuncMap
            (funcKeyFor (stIdx S r.name) (r.file.map (stIdx S))) fi
          oldFuncToNewFuncEntries :=
            st.oldFuncToNewFuncEntries ++ [(cget oldFt.func 0 f, fi)]
          funcCol := cset st.funcCol 0 f fi
          lineCol := cset st.lineCol none f r.line
          stringTable := st.stringTable
          funcResolutionLog := st.funcResolutionLog ++
            [⟨f, stIdx S r.name, r.file.map (stIdx S), fi⟩] }) ∨
    (mget st.funcKeyToFuncMap (funcKeyFor (stIdx S r.name) (r.file.map (stIdx S))) = none ∧
      st.availableFuncIter = [] ∧
      stepDPureFrame oldFt ns res rI nsCol st f =
        { funcTable :=
            { st.funcTable with
              isJS := cset st.funcTable.isJS false st.funcTable.length false
              relevantForJS := cset st.funcTable.relevantForJS false st.funcTable.length false
              resource := cset st.funcTable.resource (-1) st.funcTable.length (rI : Int)
              lineNumber := cset st.funcTable.lineNumber none st.funcTable.length none
              columnNumber := cset st.funcTable.columnNumber none st.funcTable.length none
              length := st.funcTable.length + 1
              name := cset st.funcTable.name 0 st.funcTable.length (stIdx S r.name)
              fileName := cset st.funcTable.fileName none st.funcTable.length
                (r.file.map (stIdx S)) }
          availableFuncIter := []
          funcKeyToFuncMap := mset st.funcKeyToFuncMap
            (funcKeyFor (stIdx S r.name) (r.file.map (stIdx S))) st.funcTable.length
          oldFuncToNewFuncEntries :=
            st.oldFuncToNewFuncEntries ++ [(cget oldFt.func 0 f, st.funcTable.length)]
          funcCol := cset st.funcCol 0 f st.funcTable.length
          lineCol := cset st.lineCol none f r.line
          stringTable := st.stringTable
          funcResolutionLog := st.funcResolutionLog ++
            [⟨f, stIdx S r.name, r.file.map (stIdx S), st.funcTable.length⟩] }) := by
  rw [stepDPureFrame, stepDFrame]
  dsimp only
  rw [hsi]
  dsimp only
  rw [hres]
  dsimp only
  have hI1 : indexForString st.stringTable r.name = (stIdx S r.name, st.stringTable) := by
    rw [hstS]
    exact indexForString_of_mem S r.name hname
  rw [hI1]
  dsimp only
  cases hrf : r.file with
  | none =>
    dsimp only
    cases hmk : mget st.funcKeyToFuncMap (funcKeyFor (stIdx S r.name) none) with
    | some fi => exact Or.inl ⟨fi, hmk, rfl⟩
    | none =>
      cases hit : st.availableFuncIter with
      | cons fi rest => exact Or.inr (Or.inl ⟨fi, rest, hmk, rfl, rfl⟩)
      | nil => exact Or.inr (Or.inr ⟨hmk, rfl, rfl⟩)
  | some fl =>
    dsimp only
    have hI2 : indexForString st.stringTable fl = (stIdx S fl, st.stringTable) := by
      rw [hstS]
      exact indexForString_of_mem S fl (hfile fl hrf)
    rw [hI2]
    dsimp only
    cases hmk : mget st.funcKeyToFuncMap
        (funcKeyFor (stIdx S r.name) (some (stIdx S fl))) with
    | some fi => exact Or.inl ⟨fi, hmk, rfl⟩
    | none =>
      cases hit : st.availableFuncIter with
      | cons fi rest => exact Or.inr (Or.inl ⟨fi, rest, hmk, rfl, rfl⟩)
      | nil => exact Or.inr (Or.inr ⟨hmk, rfl, rfl⟩)

theorem stepD_log_keys (oldFt : FrameTable) (ns : NativeSymbolTable)
    (res : List (Nat × AddressResult)) (rI : Nat) (nsCol : Col (Option Nat)) :
    ∀ (frames : List Nat) (st : StepDState),
      (∀ f ∈ frames, (mget res (cget oldFt.address 0 f)).isSome = true) →
      (∀ f ∈ frames, (cget nsCol none f).isSome = true) →
      ∀ S' : StringTable,
        strExt (frames.foldl (stepDPureFrame oldFt ns res rI nsCol) st).stringTable S' →
        ∀ e ∈ (frames.foldl (stepDPureFrame oldFt ns res rI nsCol) st).funcResolutionLog,
          e ∈ st.funcResolutionLog ∨
          ∃ r, mget res (cget oldFt.address 0 e.frameIndex) = some r ∧
            e.nameStringIndex = stIdx S' r.name ∧
            e.fileNameStringIndex = r.file.map (stIdx S') ∧
            r.name ∈ S'.strings ∧
            (∀ fl, r.file = some fl → fl ∈ S'.strings) := by
  intro frames
  induction frames with
  | nil =>
    intro st _ _ S' _ e he
    exact Or.inl he
  | cons f rest ih =>
    intro st hcov hns S' hS' e he
    obtain ⟨r, hres⟩ := Option.isSome_iff_exists.mp (hcov f (List.mem_cons_self f rest))
    obtain ⟨nsi, hsi⟩ := Option.isSome_iff_exists.mp (hns f (List.mem_cons_self f rest))
    obtain ⟨sa, nm, rfile, rline⟩ := r
    rw [List.foldl_cons] at he hS'
    have hrec := ih (stepDPureFrame oldFt ns res rI nsCol st f)
      (fun g hg => hcov g (List.mem_cons_of_mem f hg))
      (fun g hg => hns g (List.mem_cons_of_mem f hg)) S' hS' e he
    rcases hrec with hin | hprop
    · obtain ⟨fi, hlog, hst⟩ :=
        stepDPureFrame_log oldFt ns res rI nsCol st f ⟨sa, nm, rfile, rline⟩ nsi hres hsi
      rw [hlog] at hin
      rcases List.mem_append.mp hin with hin | hin
      · exact Or.inl hin
      · have he' := List.mem_singleton.mp hin
        have hfold_ext : strExt
            (stepDPureFrame oldFt ns res rI nsCol st f).stringTable S' :=
          strExt_trans ((stepD_foldl_effects oldFt ns res rI nsCol rest
            (stepDPureFrame oldFt ns res rI nsCol st f)).2.2.2.2.2.2.2.2.2.2) hS'
        rw [hst] at hfold_ext
        have hmem1 : nm ∈ ((indexForString st.stringTable nm).2).strings :=
          intern_mem st.stringTable nm
        have hfirst1 : stIdx ((indexForString st.stringTable nm).2) nm =
            (indexForString st.stringTable nm).1 :=
          intern_first st.stringTable nm
        cases rfile with
        | none =>
          dsimp only at he' hfold_ext
          subst he'
          refine Or.inr ⟨⟨sa, nm, none, rline⟩, hres, ?_, rfl, ?_, ?_⟩
          · dsimp only
            rw [← hfirst1]
            exact (stIdx_ext _ S' nm hfold_ext hmem1).symm
          · exact strExt_mem hfold_ext hmem1
          · intro fl hfl
            exact Option.noConfusion hfl
        | some fl =>
          dsimp only at he' hfold_ext
          subst he'
          have hmem2 : fl ∈ ((indexForString
              ((indexForString st.stringTable nm).2) fl).2).strings :=
            intern_mem _ fl
          have hfirst2 : stIdx ((indexForString
              ((indexForString st.stringTable nm).2) fl).2) fl =
              (indexForString ((indexForString st.stringTable nm).2) fl).1 :=
            intern_first _ fl
          have hextT1 : strExt ((indexForString st.stringTable nm).2)
              ((indexForString ((indexForString st.stringTable nm).2) fl).2) :=
            indexForString_strExt _ fl
          refine Or.inr ⟨⟨sa, nm, some fl, rline⟩, hres, ?_, ?_, ?_, ?_⟩
          · dsimp only
            rw [← hfirst1]
            exact (stIdx_ext _ S' nm (strExt_trans hextT1 hfold_ext) hmem1).symm
          · dsimp only [Option.map_some]
            rw [← hfirst2]
            exact congrArg some (stIdx_ext _ S' fl hfold_ext hmem2).symm
          · exact strExt_mem (strExt_trans hextT1 hfold_ext) hmem1
          · intro fl' hfl'
            have hfl'' : fl' = fl := by
              simpa using hfl'.symm
            rw [hfl'']
            exact strExt_mem hfold_ext hmem2
    · exact Or.inr hprop

theorem stepD_length_allocSpec (oldFt : FrameTable) (ns : NativeSymbolTable)
    (res : List (Nat × AddressResult)) (rI : Nat) (nsCol : Col (Option Nat))
    (S : StringTable) :
    ∀ (frames : List Nat) (st : StepDState),
      st.stringTable = S →
      (∀ f ∈ frames, ∃ r, mget res (cget oldFt.address 0 f) = some r ∧
        r.name ∈ S.strings ∧ ∀ fl, r.file = some fl → fl ∈ S.strings) →
      (∀ f ∈ frames, (cget nsCol none f).isSome = true) →
      (frames.foldl (stepDPureFrame oldFt ns res rI nsCol) st).funcTable.length =
        allocSpec
          (frames.map fun f =>
            match mget res (cget oldFt.address 0 f) with
            | some r => funcKeyFor (stIdx S r.name) (r.file.map (stIdx S))
            | none => "")
          (mkeys st.funcKeyToFuncMap) st.availableFuncIter.length st.funcTable.length := by
  intro frames
  induction frames with
  | nil =>
    intro st _ _ _
    rfl
  | cons f rest ih =>
    intro st hstS hcov hns
    obtain ⟨r, hres, hname, hfile⟩ := hcov f (List.mem_cons_self f rest)
    obtain ⟨nsi, hsi⟩ := Option.isSome_iff_exists.mp (hns f (List.mem_cons_self f rest))
    rw [List.foldl_cons, List.map_cons]
    have hkey : (match mget res (cget oldFt.address 0 f) with
        | some r => funcKeyFor (stIdx S r.name) (r.file.map (stIdx S))
        | none => "") = funcKeyFor (stIdx S r.name) (r.file.map (stIdx S)) := by
      rw [hres]
    rw [hkey]
    rcases stepDPureFrame_covered oldFt ns res rI nsCol st f r nsi S hres hsi hstS
        hname hfile with
      ⟨fi, hmk, heq⟩ | ⟨fi, rest', hmk, hit, heq⟩ | ⟨hmk, hit, heq⟩
    · have hkmem : funcKeyFor (stIdx S r.name) (r.file.map (stIdx S)) ∈
          mkeys st.funcKeyToFuncMap :=
        (mget_isSome_iff_mem_mkeys _ _).mp (by rw [hmk]; rfl)
      simp only [allocSpec]
      rw [if_pos (by simp [List.contains, hkmem])]
      rw [heq]
      exact ih _ hstS (fun g hg => hcov g (List.mem_cons_of_mem f hg))
        (fun g hg => hns g (List.mem_cons_of_mem f hg))
    · have hknot : funcKeyFor (stIdx S r.name) (r.file.map (stIdx S)) ∉
          mkeys st.funcKeyToFuncMap :=
        (mget_eq_none_iff_not_mem_mkeys _ _).mp hmk
      simp only [allocSpec]
      rw [if_neg (by simp [List.contains, hknot])]
      rw [hit]
      simp only [List.length_cons]
      rw [heq]
      have hrec := ih
        { funcTable :=
            { st.funcTable with
              name := cset st.funcTable.name 0 fi (stIdx S r.name)
              fileName := cset st.funcTable.fileName none fi (r.file.map (stIdx S)) }
          availableFuncIter := rest'
          funcKeyToFuncMap := mset st.funcKeyToFuncMap
            (funcKeyFor (stIdx S r.name) (r.file.map (stIdx S))) fi
          oldFuncToNewFuncEntries :=
            st.oldFuncToNewFuncEntries ++ [(cget oldFt.func 0 f, fi)]
          funcCol := cset st.funcCol 0 f fi
          lineCol := cset st.lineCol none f r.line
          stringTable := st.stringTable
          funcResolutionLog := st.funcResolutionLog ++
            [⟨f, stIdx S r.name, r.file.map (stIdx S), fi⟩] }
        hstS (fun g hg => hcov g (List.mem_cons_of_mem f hg))
        (fun g hg => hns g (List.mem_cons_of_mem f hg))
      dsimp only at hrec
      rw [mkeys_mset_not_mem _ _ _ hknot] at hrec
      exact hrec
    · have hknot : funcKeyFor (stIdx S r.name) (r.file.map (stIdx S)) ∉
          mkeys st.funcKeyToFuncMap :=
        (mget_eq_none_iff_not_mem_mkeys _ _).mp hmk
      simp only [allocSpec]
      rw [if_neg (by simp [List.contains, hknot])]
      rw [hit]
      simp only [List.length_nil]
      rw [heq]
      have hrec := ih
        { funcTable :=
            { st.funcTable with
              isJS := cset st.funcTable.isJS false st.funcTable.length false
              relevantForJS := cset st.funcTable.relevantForJS false st.funcTable.length false
              resource := cset st.funcTable.resource (-1) st.funcTable.length (rI : Int)
              lineNumber := cset st.funcTable.lineNumber none st.funcTable.length none
              columnNumber := cset st.funcTable.columnNumber none st.funcTable.length none
              length := st.funcTable.length + 1
              name := cset st.funcTable.name 0 st.funcTable.length (stIdx S r.name)
              fileName := cset st.funcTable.fileName none st.funcTable.length
                (r.file.map (stIdx S)) }
          availableFuncIter := []
          funcKeyToFuncMap := mset st.funcKeyToFuncMap
            (funcKeyFor (stIdx S r.name) (r.file.map (stIdx S))) st.funcTable.length
          oldFuncToNewFuncEntries :=
            st.oldFuncToNewFuncEntries ++ [(cget oldFt.func 0 f, st.funcTable.length)]
          funcCol := cset st.funcCol 0 f st.funcTable.length
          lineCol := cset st.lineCol none f r.line
          stringTable := st.stringTable
          funcResolutionLog := st.funcResolutionLog ++
            [⟨f, stIdx S r.name, r.file.map (stIdx S), st.funcTable.length⟩] }
        hstS (fun g hg => hcov g (List.mem_cons_of_mem f hg))
        (fun g hg => hns g (List.mem_cons_of_mem f hg))
      dsimp only at hrec
      rw [mkeys_mset_not_mem _ _ _ hknot] at hrec
      exact hrec

/-! ### Lemmas: stability of re-application on a recomputed slice -/

theorem mkeys_length {K V : Type} (m : List (K × V)) : (mkeys m).length = m.length := by
  simp [mkeys]

theorem collectFrames_nodup (ft : FrameTable) (funcTable : FuncTable) (rI : Nat) :
    (collectFramesForResource ft funcTable rI).Nodup :=
  List.Nodup.filter _ (List.nodup_range _)

theorem collectFuncs_nodup (funcTable : FuncTable) (rI : Nat) :
    (collectFuncsForResource funcTable rI).Nodup :=
  List.Nodup.filter _ (List.nodup_range _)

theorem collectNs_nodup (ns : NativeSymbolTable) (lI : Nat) :
    (collectNativeSymbolsForLib ns lI).Nodup :=
  List.Nodup.filter _ (List.nodup_range _)

theorem reapply_frames_eq (t : Thread) (rI lI : Nat) (res : List (Nat × AddressResult))
    (m₀ : List (Nat × Nat))
    (hwfFF : ∀ f, f < t.frameTable.length →
      cget t.frameTable.func 0 f < t.funcTable.length)
    (hwfFR : t.funcTable.resource.data.length = t.funcTable.length) :
    (threadLibInfoFor ((applyModel t (sliceStep t rI lI res) m₀).thread)
        rI lI).allFramesForThisLib =
      (threadLibInfoFor t rI lI).allFramesForThisLib := by
  have hnd : (sliceStep t rI lI res).threadLibSymbolicationInfo.allFramesForThisLib.Nodup :=
    collectFrames_nodup t.frameTable t.funcTable rI
  have hinv := modelStD_inv t (sliceStep t rI lI res) hnd
  have hstab : (modelStD t (sliceStep t rI lI res)).funcTable.resource.data.length =
        (modelStD t (sliceStep t rI lI res)).funcTable.length ∧
      (∀ i, i < t.funcTable.length →
        cget (modelStD t (sliceStep t rI lI res)).funcTable.resource (-1) i =
          cget t.funcTable.resource (-1) i) ∧
      (∀ i, t.funcTable.length ≤ i →
        i < (modelStD t (sliceStep t rI lI res)).funcTable.length →
        cget (modelStD t (sliceStep t rI lI res)).funcTable.resource (-1) i =
          (rI : Int)) :=
    stepD_resource _ _ _ _ _ _ (modelStD0 t (sliceStep t rI lI res)) hwfFR
  show collectFramesForResource ((applyModel t (sliceStep t rI lI res) m₀).thread).frameTable
      ((applyModel t (sliceStep t rI lI res) m₀).thread).funcTable rI =
    collectFramesForResource t.frameTable t.funcTable rI
  rw [collectFramesForResource, collectFramesForResource]
  show (List.range t.frameTable.length).filter _ =
    (List.range t.frameTable.length).filter _
  refine List.filter_congr ?_
  intro fr hfr
  have hfr' : fr < t.frameTable.length := List.mem_range.mp hfr
  rw [decide_eq_decide]
  have hft : (applyModel t (sliceStep t rI lI res) m₀).thread.funcTable =
      (modelStD t (sliceStep t rI lI res)).funcTable := rfl
  rw [hft]
  by_cases hfm : fr ∈ (threadLibInfoFor t rI lI).allFramesForThisLib
  · refine iff_of_true ?_ ?_
    · have hfm' : fr ∈ (modelStD t (sliceStep t rI lI res)).funcResolutionLog.map
          (fun e => e.frameIndex) := by
        rw [hinv.logFrames]
        exact hfm
      obtain ⟨e, he, hef⟩ := List.mem_map.mp hfm'
      have hcol : cget ((applyModel t (sliceStep t rI lI res) m₀).thread).frameTable.func
          0 fr = e.funcIndex := by
        rw [← hef]
        exact hinv.colEq e he
      rw [hcol]
      have hvmem : e.funcIndex ∈
          (modelStD t (sliceStep t rI lI res)).funcKeyToFuncMap.map Prod.snd :=
        List.mem_map_of_mem Prod.snd (mem_of_mget_eq_some (hinv.mapBinding e he))
      obtain ⟨n, hdrop, hvals, hle, hcond⟩ := hinv.iterStruct
      rw [hvals] at hvmem
      rcases List.mem_append.mp hvmem with hv | hv
      · have hv' : e.funcIndex ∈
            jsSetOfList (sliceStep t rI lI res).threadLibSymbolicationInfo.allFuncsForThisLib :=
          List.take_subset n _ hv
        have hv'' : e.funcIndex ∈ collectFuncsForResource t.funcTable rI :=
          mem_jsSetOfList hv'
        have hlt : e.funcIndex < t.funcTable.length :=
          List.mem_range.mp (List.mem_filter.mp hv'').1
        have hr0 : cget t.funcTable.resource (-1) e.funcIndex = (rI : Int) :=
          of_decide_eq_true (List.mem_filter.mp hv'').2
        rw [hstab.2.1 e.funcIndex hlt]
        exact hr0
      · have h1 := (List.mem_range'_1.mp hv).1
        have h2 := (List.mem_range'_1.mp hv).2
        exact hstab.2.2 e.funcIndex h1 (by omega)
    · exact of_decide_eq_true (List.mem_filter.mp hfm).2
  · have hcol : cget ((applyModel t (sliceStep t rI lI res) m₀).thread).frameTable.func
        0 fr = cget t.frameTable.func 0 fr := by
      have hnc : cget (modelStD t (sliceStep t rI lI res)).funcCol 0 fr =
          cget (modelStD0 t (sliceStep t rI lI res)).funcCol 0 fr :=
        stepD_funcCol_not_mem _ _ _ _ _ _ (modelStD0 t (sliceStep t rI lI res)) fr hfm
      exact hnc
    rw [hcol]
    rw [hstab.2.1 (cget t.frameTable.func 0 fr) (hwfFF fr hfr')]

theorem mset_self {K V : Type} [DecidableEq K] (m : List (K × V)) (k : K) (v : V)
    (h : mget m k = some v) : mset m k v = m := by
  induction m with
  | nil => exact absurd h (by rw [mget]; exact fun hc => Option.noConfusion hc)
  | cons p rest ih =>
    obtain ⟨a, b⟩ := p
    rw [mget] at h
    rw [mset]
    by_cases hk : a = k
    · rw [if_pos hk] at h ⊢
      rw [Option.some.inj h]
    · rw [if_neg hk] at h ⊢
      rw [ih h]

theorem mset_append_not_mem {K V : Type} [DecidableEq K] (m : List (K × V)) (k : K) (v : V)
    (h : k ∉ mkeys m) : mset m k v = m ++ [(k, v)] := by
  induction m with
  | nil => rfl
  | cons p rest ih =>
    obtain ⟨a, b⟩ := p
    have hk : a ≠ k := by
      intro hc
      exact h (by rw [← hc]; exact List.mem_cons_self _ _)
    have hrest : k ∉ mkeys rest := by
      intro hc
      exact h (List.mem_cons_of_mem _ hc)
    rw [mset, if_neg hk, List.cons_append, ih hrest]

theorem cset_id {α : Type} (c : Col α) (d : α) (i : Nat) (v : α)
    (hlt : i < c.data.length) (hv : cget c d i = v) : cset c d i v = c := by
  rw [cset, lset, if_pos hlt]
  cases c with
  | mk r data =>
    have hv' : data[i] = v := by
      rw [← hv, cget]
      exact (List.getD_eq_getElem data d hlt).symm
    congr 1
    refine List.ext_getElem (by simp) ?_
    intro n h1 h2
    rw [List.getElem_set]
    split
    · rename_i hin
      subst hin
      exact hv'.symm
    · rfl

theorem cset_data_lt {α : Type} (c : Col α) (d : α) (i : Nat) (v : α) :
    i < (cset c d i v).data.length := by
  by_cases h : i < c.data.length
  · rw [cset, lset, if_pos h]
    simpa using h
  · rw [cset, lset, if_neg h]
    simp only [List.length_append, List.length_replicate, List.length_singleton]
    omega

theorem getD_mem_of_lt {α : Type} (l : List α) (d : α) (i : Nat) (h : i < l.length) :
    l.getD i d ∈ l := by
  rw [List.getD_eq_getElem l d h]
  exact List.getElem_mem _

theorem findIdx_getD (l : List String) (s : String) (i : Nat)
    (h : l.findIdx? (fun t => t == s) = some i) : l.getD i "" = s ∧ i < l.length := by
  obtain ⟨hlt, hp, -⟩ := List.findIdx?_eq_some_iff_getElem.mp h
  refine ⟨?_, hlt⟩
  rw [List.getD_eq_getElem l "" hlt]
  simpa using hp

theorem stIdx_lt_of_mem (st : StringTable) (s : String) (h : s ∈ st.strings) :
    stIdx st s < st.strings.length := by
  rw [stIdx, indexForString]
  obtain ⟨i, hi⟩ := Option.isSome_iff_exists.mp (findIdx_mem_isSome st.strings s h)
  rw [hi]
  exact (findIdx_getD st.strings s i hi).2

theorem getString_stIdx (st : StringTable) (s : String) (h : s ∈ st.strings) :
    getString st (stIdx st s) = s := by
  rw [stIdx, indexForString]
  obtain ⟨i, hi⟩ := Option.isSome_iff_exists.mp (findIdx_mem_isSome st.strings s h)
  rw [hi, getString]
  exact (findIdx_getD st.strings s i hi).1

theorem strExt_getString {st₁ st₂ : StringTable} (hext : strExt st₁ st₂) (i : Nat)
    (h : i < st₁.strings.length) : getString st₂ i = getString st₁ i := by
  obtain ⟨-, l, hstr⟩ := hext
  rw [getString, getString, hstr, List.getD_eq_getElem st₁.strings "" h,
    List.getD_eq_getElem _ "" (by rw [List.length_append]; omega)]
  exact (List.getElem_append_left' l h).symm

theorem mem_jsSetDel_iff {K : Type} [DecidableEq K] (s : List K) (k x : K)
    (hnd : s.Nodup) : x ∈ jsSetDel s k ↔ x ∈ s ∧ x ≠ k := by
  induction s with
  | nil => simp [jsSetDel]
  | cons a rest ih =>
    rw [jsSetDel]
    obtain ⟨hh, ht⟩ := List.nodup_cons.mp hnd
    by_cases ha : a = k
    · rw [if_pos ha]
      subst ha
      constructor
      · intro hx
        exact ⟨List.mem_cons_of_mem _ hx, fun hc => hh (hc ▸ hx)⟩
      · intro hx
        rcases List.mem_cons.mp hx.1 with h1 | h1
        · exact absurd h1 hx.2
        · exact h1
    · rw [if_neg ha]
      constructor
      · intro hx
        rcases List.mem_cons.mp hx with h1 | h1
        · refine ⟨h1 ▸ List.mem_cons_self _ _, ?_⟩
          rw [h1]
          exact ha
        · obtain ⟨h2, h3⟩ := (ih ht).mp h1
          exact ⟨List.mem_cons_of_mem _ h2, h3⟩
      · intro hx
        rcases List.mem_cons.mp hx.1 with h1 | h1
        · exact h1 ▸ List.mem_cons_self _ _
        · exact List.mem_cons_of_mem _ ((ih ht).mpr ⟨h1, hx.2⟩)

theorem mget_map_pair {K : Type} [DecidableEq K] (l : List K) (C : K → Nat) (k : K) :
    mget (l.map (fun a => (a, C a))) k = if k ∈ l then some (C k) else none := by
  induction l with
  | nil => simp [mget]
  | cons a rest ih =>
    rw [List.map_cons, mget]
    by_cases ha : a = k
    · subst ha
      rw [if_pos rfl, if_pos (List.mem_cons_self _ _)]
    · rw [if_neg ha, ih]
      by_cases hk : k ∈ rest
      · rw [if_pos hk, if_pos (List.mem_cons_of_mem _ hk)]
      · rw [if_neg hk, if_neg ?_]
        intro hc
        rcases List.mem_cons.mp hc with h1 | h1
        · exact ha h1.symm
        · exact hk h1

theorem mget_foldl_mset_last {α K V : Type} [DecidableEq K] (l : List α)
    (k : α → K) (v : α → V) (m0 : List (K × V)) (a : K) :
    mget (l.foldl (fun m x => mset m (k x) (v x)) m0) a =
      match (l.filter (fun x => decide (k x = a))).getLast? with
      | some x => some (v x)
      | none => mget m0 a := by
  induction l generalizing m0 with
  | nil => rfl
  | cons x rest ih =>
    rw [List.foldl_cons, ih, List.filter_cons]
    by_cases hx : k x = a
    · rw [if_pos (by simpa using hx)]
      cases hc : rest.filter (fun y => decide (k y = a)) with
      | nil =>
        show mget (mset m0 (k x) (v x)) a = some (v x)
        rw [← hx, mget_mset_self]
      | cons z zs =>
        rw [List.getLast?_cons_cons]
        cases hz : (z :: zs).getLast? with
        | some y => rfl
        | none => exact absurd hz (by simp)
    · rw [if_neg (by simpa using hx)]
      cases hrest : (rest.filter (fun y => decide (k y = a))).getLast? with
      | some y => rfl
      | none =>
        show mget (mset m0 (k x) (v x)) a = mget m0 a
        rw [mget_mset_ne _ _ _ _ hx]

theorem keyFold_append (l : List FuncResolution) (e : FuncResolution) :
    keyFold (l ++ [e]) =
      mset (keyFold l) (funcKeyFor e.nameStringIndex e.fileNameStringIndex) e.funcIndex := by
  rw [keyFold, keyFold, List.foldl_append, List.foldl_cons, List.foldl_nil]

theorem keyFold_mem (l : List FuncResolution) (κ : String) (w : Nat)
    (h : mget (keyFold l) κ = some w) :
    ∃ e ∈ l, funcKeyFor e.nameStringIndex e.fileNameStringIndex = κ ∧ e.funcIndex = w := by
  induction l using List.reverseRecOn with
  | nil => exact absurd h (by rw [keyFold]; exact fun hc => Option.noConfusion hc)
  | append_singleton l e ih =>
    rw [keyFold_append] at h
    by_cases hk : funcKeyFor e.nameStringIndex e.fileNameStringIndex = κ
    · rw [← hk, mget_mset_self] at h
      exact ⟨e, List.mem_append_right _ (List.mem_singleton_self e), hk,
        Option.some.inj h⟩
    · rw [mget_mset_ne _ _ _ _ hk] at h
      obtain ⟨e', he', hk', hv'⟩ := ih h
      exact ⟨e', List.mem_append_left _ he', hk', hv'⟩

theorem log_consistent (map : List (String × Nat)) (l : List FuncResolution)
    (hb : ∀ e ∈ l,
      mget map (funcKeyFor e.nameStringIndex e.fileNameStringIndex) = some e.funcIndex) :
    ∀ e1 ∈ l, ∀ e2 ∈ l,
      funcKeyFor e1.nameStringIndex e1.fileNameStringIndex =
        funcKeyFor e2.nameStringIndex e2.fileNameStringIndex →
      e1.funcIndex = e2.funcIndex := by
  intro e1 h1 e2 h2 hk
  have hb1 := hb e1 h1
  have hb2 := hb e2 h2
  rw [hk, hb2] at hb1
  exact (Option.some.inj hb1).symm

theorem keyFold_consistent_sub (l₁ l₂ : List FuncResolution)
    (Q : ∀ e1 ∈ l₁ ++ l₂, ∀ e2 ∈ l₁ ++ l₂,
      funcKeyFor e1.nameStringIndex e1.fileNameStringIndex =
        funcKeyFor e2.nameStringIndex e2.fileNameStringIndex →
      e1.funcIndex = e2.funcIndex)
    (κ : String) (w : Nat) (h : mget (keyFold l₁) κ = some w) :
    mget (keyFold (l₁ ++ l₂)) κ = some w := by
  induction l₂ using List.reverseRecOn with
  | nil => simpa using h
  | append_singleton l₂ e ih =>
    have hQ' : ∀ e1 ∈ l₁ ++ l₂, ∀ e2 ∈ l₁ ++ l₂,
        funcKeyFor e1.nameStringIndex e1.fileNameStringIndex =
          funcKeyFor e2.nameStringIndex e2.fileNameStringIndex →
        e1.funcIndex = e2.funcIndex := by
      intro e1 h1 e2 h2 hk
      refine Q e1 ?_ e2 ?_ hk
      · rw [← List.append_assoc]
        exact List.mem_append_left _ h1
      · rw [← List.append_assoc]
        exact List.mem_append_left _ h2
    have ihh := ih hQ'
    rw [← List.append_assoc, keyFold_append]
    by_cases hk : funcKeyFor e.nameStringIndex e.fileNameStringIndex = κ
    · obtain ⟨e', he', hk', hv'⟩ := keyFold_mem _ _ _ ihh
      have he'full : e' ∈ l₁ ++ (l₂ ++ [e]) := by
        rw [← List.append_assoc]
        exact List.mem_append_left _ he'
      have hefull : e ∈ l₁ ++ (l₂ ++ [e]) := by
        refine List.mem_append_right _ (List.mem_append_right _ ?_)
        exact List.mem_singleton_self e
      have hfi : e'.funcIndex = e.funcIndex :=
        Q e' he'full e hefull (hk'.trans hk.symm)
      rw [← hk, mget_mset_self, ← hv', hfi]
    · rw [mget_mset_ne _ _ _ _ hk]
      exact ihh

theorem keyFold_take_eq (l₁ l₂ : List FuncResolution)
    (Q : ∀ e1 ∈ l₁ ++ l₂, ∀ e2 ∈ l₁ ++ l₂,
      funcKeyFor e1.nameStringIndex e1.fileNameStringIndex =
        funcKeyFor e2.nameStringIndex e2.fileNameStringIndex →
      e1.funcIndex = e2.funcIndex) :
    keyFold l₁ = (keyFold (l₁ ++ l₂)).take (keyFold l₁).length := by
  induction l₂ using List.reverseRecOn with
  | nil => simp
  | append_singleton l₂ e ih =>
    have hQ' : ∀ e1 ∈ l₁ ++ l₂, ∀ e2 ∈ l₁ ++ l₂,
        funcKeyFor e1.nameStringIndex e1.fileNameStringIndex =
          funcKeyFor e2.nameStringIndex e2.fileNameStringIndex →
        e1.funcIndex = e2.funcIndex := by
      intro e1 h1 e2 h2 hk
      refine Q e1 ?_ e2 ?_ hk
      · rw [← List.append_assoc]
        exact List.mem_append_left _ h1
      · rw [← List.append_assoc]
        exact List.mem_append_left _ h2
    have ihh := ih hQ'
    have hlen : (keyFold l₁).length ≤ (keyFold (l₁ ++ l₂)).length := by
      have := congrArg List.length ihh
      rw [List.length_take] at this
      omega
    rw [← List.append_assoc, keyFold_append]
    cases hm : mget (keyFold (l₁ ++ l₂))
        (funcKeyFor e.nameStringIndex e.fileNameStringIndex) with
    | some w =>
      obtain ⟨e', he', hk', hv'⟩ := keyFold_mem _ _ _ hm
      have he'full : e' ∈ (l₁ ++ l₂) ++ [e] := List.mem_append_left _ he'
      have hefull : e ∈ (l₁ ++ l₂) ++ [e] :=
        List.mem_append_right _ (List.mem_singleton_self e)
      have hQ'' : ∀ e1 ∈ (l₁ ++ l₂) ++ [e], ∀ e2 ∈ (l₁ ++ l₂) ++ [e],
          funcKeyFor e1.nameStringIndex e1.fileNameStringIndex =
            funcKeyFor e2.nameStringIndex e2.fileNameStringIndex →
          e1.funcIndex = e2.funcIndex := by
        intro e1 h1 e2 h2 hk
        rw [List.append_assoc] at h1 h2
        exact Q e1 h1 e2 h2 hk
      have hfi : e'.funcIndex = e.funcIndex := hQ'' e' he'full e hefull hk'
      have hw : w = e.funcIndex := by
        rw [← hv', hfi]
      rw [mset_self _ _ _ (hw ▸ hm)]
      exact ihh
    | none =>
      rw [mset_append_not_mem _ _ _ ((mget_eq_none_iff_not_mem_mkeys _ _).mp hm)]
      rw [List.take_append_of_le_length hlen]
      exact ihh

theorem cset_data_length_le {α : Type} (c : Col α) (d : α) (i : Nat) (v : α) :
    c.data.length ≤ (cset c d i v).data.length := by
  by_cases h : i < c.data.length
  · rw [cset, lset, if_pos h]
    simp
  · rw [cset, lset, if_neg h]
    simp only [List.length_append, List.length_replicate, List.length_singleton]
    omega

theorem mkeys_append {K V : Type} (a b : List (K × V)) :
    mkeys (a ++ b) = mkeys a ++ mkeys b := by
  rw [mkeys, mkeys, mkeys, List.map_append]

theorem stepAFrame_valInv (ft : FrameTable) (ns : NativeSymbolTable) (s : StringTable)
    (res : List (Nat × AddressResult)) (avail₀ : List Nat) (st : StepAState) (f : Nat)
    (h : StepAValInv avail₀ st) : StepAValInv avail₀ (stepAFrame ft ns s res st f) := by
  rcases stepAFrame_canon_cases ft ns s res st f with ⟨hc, ha⟩ | ⟨oldSym, hmiss, hmem, hc, ha⟩
  · refine ⟨?_, ?_, ?_, ?_, ?_⟩
    · rw [ha]; exact h.availNodup
    · rw [ha]; exact h.availSub
    · rw [hc]; exact h.canonValsNodup
    · rw [hc]; exact h.canonValsSub
    · rw [ha, hc]; exact h.availCanonDisj
  · have hknew : frameSymbolAddress ft ns s res f ∉
        mkeys st.symbolAddressToCanonicalSymbolIndexMap :=
      (mget_eq_none_iff_not_mem_mkeys _ _).mp hmiss
    have hvals : (stepAFrame ft ns s res st f).symbolAddressToCanonicalSymbolIndexMap.map
        Prod.snd = st.symbolAddressToCanonicalSymbolIndexMap.map Prod.snd ++ [oldSym] := by
      rw [hc]
      exact mvalues_mset_not_mem _ _ _ hknew
    refine ⟨?_, ?_, ?_, ?_, ?_⟩
    · rw [ha]
      exact jsSetDel_nodup _ _ h.availNodup
    · rw [ha]
      intro v hv
      exact h.availSub v (jsSetDel_mem _ _ _ hv)
    · rw [hvals, List.nodup_append]
      refine ⟨h.canonValsNodup, List.nodup_singleton _, ?_⟩
      intro x hx hx1
      have hxo : x = oldSym := List.mem_singleton.mp hx1
      subst hxo
      exact h.availCanonDisj x hmem hx
    · rw [hc]
      intro p hp
      rcases mset_mem_cases hp with hp' | hp'
      · exact h.canonValsSub p hp'
      · rw [hp'.2]
        exact h.availSub oldSym hmem
    · rw [ha, hvals]
      intro v hv
      have hv' : v ∈ st.availableNativeSymbols ∧ v ≠ oldSym :=
        (mem_jsSetDel_iff _ _ _ h.availNodup).mp hv
      intro hcmem
      rcases List.mem_append.mp hcmem with h1 | h1
      · exact h.availCanonDisj v hv'.1 h1
      · exact hv'.2 (List.mem_singleton.mp h1)

theorem stepA_foldl_valInv (ft : FrameTable) (ns : NativeSymbolTable) (s : StringTable)
    (res : List (Nat × AddressResult)) (frames : List Nat) (avail₀ : List Nat)
    (st : StepAState) (h : StepAValInv avail₀ st) :
    StepAValInv avail₀ (frames.foldl (stepAFrame ft ns s res) st) := by
  induction frames generalizing st with
  | nil => exact h
  | cons g rest ih => exact ih _ (stepAFrame_valInv ft ns s res avail₀ st g h)

theorem stepA_valInv (ft : FrameTable) (ns : NativeSymbolTable) (s : StringTable)
    (res : List (Nat × AddressResult)) (frames : List Nat) (avail₀ : List Nat)
    (hnd : avail₀.Nodup) :
    StepAValInv avail₀ (stepA ft ns s res frames avail₀) := by
  rw [stepA]
  refine stepA_foldl_valInv ft ns s res frames avail₀ _ ?_
  refine ⟨hnd, fun v hv => hv, by simp, ?_, ?_⟩
  · intro p hp
    simp at hp
  · intro v hv
    simp

theorem stepBEntry_cellInv (l : Nat) (N0 : Nat) (avail₀ : List Nat)
    (hb : ∀ v ∈ avail₀, v < N0)
    (done : List (Nat × String)) (st : StepBState) (e : Nat × String)
    (hknew : e.1 ∉ mkeys done)
    (hinv : StepBCellInv N0 avail₀ done st) :
    StepBCellInv N0 avail₀ (done ++ [e]) (stepBEntry l st e) := by
  have hvlt : ∀ v ∈ st.symbolAddressToCanonicalSymbolIndexMap.map Prod.snd,
      v < st.nativeSymbols.length := by
    intro v hv
    obtain ⟨p, hp, hpv⟩ := List.mem_map.mp hv
    rcases hinv.valsClass p hp with h1 | h1
    · have := hb p.2 h1
      have hN := hinv.lenLB
      omega
    · rw [← hpv]
      exact h1.2
  have hext : strExt st.stringTable (indexForString st.stringTable e.2).2 :=
    indexForString_strExt st.stringTable e.2
  have hmem2 : e.2 ∈ ((indexForString st.stringTable e.2).2).strings :=
    intern_mem st.stringTable e.2
  have hfirst : stIdx ((indexForString st.stringTable e.2).2) e.2 =
      (indexForString st.stringTable e.2).1 :=
    intern_first st.stringTable e.2
  have hcellsPres : ∀ (c : Nat),
      (∀ p ∈ done, ∀ cp, mget st.symbolAddressToCanonicalSymbolIndexMap p.1 = some cp →
        cp ≠ c) →
      ∀ p ∈ done, ∃ cp,
        mget st.symbolAddressToCanonicalSymbolIndexMap p.1 = some cp ∧
        cget (cset st.nativeSymbols.address 0 c e.1) 0 cp = p.1 ∧
        cp < (cset st.nativeSymbols.address 0 c e.1).data.length ∧
        cget (cset st.nativeSymbols.name 0 c (indexForString st.stringTable e.2).1) 0 cp =
          stIdx ((indexForString st.stringTable e.2).2) p.2 ∧
        cp < (cset st.nativeSymbols.name 0 c
          (indexForString st.stringTable e.2).1).data.length ∧
        p.2 ∈ ((indexForString st.stringTable e.2).2).strings := by
    intro c hfresh p hp
    obtain ⟨cp, hcp, haddr, hal, hname, hnl, hmem⟩ := hinv.cells p hp
    have hne : cp ≠ c := hfresh p hp cp hcp
    refine ⟨cp, hcp, ?_, ?_, ?_, ?_, strExt_mem hext hmem⟩
    · rw [cget_cset_ne _ _ _ _ _ (fun hcc => hne hcc.symm)]
      exact haddr
    · exact Nat.lt_of_lt_of_le hal (cset_data_length_le _ _ _ _)
    · rw [cget_cset_ne _ _ _ _ _ (fun hcc => hne hcc.symm), hname,
        stIdx_ext _ _ _ hext hmem]
    · exact Nat.lt_of_lt_of_le hnl (cset_data_length_le _ _ _ _)
  rw [stepBEntry]
  dsimp only
  cases hm : mget st.symbolAddressToCanonicalSymbolIndexMap e.1 with
  | some c =>
    refine ⟨hinv.canonValsNodup, hinv.iterNodup, hinv.iterSub, hinv.iterDisj,
      hinv.valsClass, hinv.lenLB, ?_⟩
    intro p hp
    rcases List.mem_append.mp hp with hp | hp
    · refine hcellsPres c ?_ p hp
      intro q hq cq hcq hcc
      have hce : (e.1, c) ∈ st.symbolAddressToCanonicalSymbolIndexMap :=
        mem_of_mget_eq_some hm
      have hqe : q.1 = e.1 := mget_value_inj hinv.canonValsNodup (hcc ▸ hcq) hm
      exact hknew (hqe ▸ List.mem_map_of_mem Prod.fst hq)
    · have hpe : p = e := List.mem_singleton.mp hp
      subst hpe
      refine ⟨c, hm, ?_, cset_data_lt _ _ _ _, ?_, cset_data_lt _ _ _ _, hmem2⟩
      · exact cget_cset_self _ _ _ _
      · rw [cget_cset_self, hfirst]
  | none =>
    cases hit : st.availableIter with
    | cons c rest =>
      have hcmem : c ∈ st.availableIter := by
        rw [hit]
        exact List.mem_cons_self _ _
      have hcnotv : c ∉ st.symbolAddressToCanonicalSymbolIndexMap.map Prod.snd :=
        hinv.iterDisj c hcmem
      have hknewE : e.1 ∉ mkeys st.symbolAddressToCanonicalSymbolIndexMap :=
        (mget_eq_none_iff_not_mem_mkeys _ _).mp hm
      have hvals : (mset st.symbolAddressToCanonicalSymbolIndexMap e.1 c).map Prod.snd =
          st.symbolAddressToCanonicalSymbolIndexMap.map Prod.snd ++ [c] :=
        mvalues_mset_not_mem _ _ _ hknewE
      have hitnd := hinv.iterNodup
      rw [hit] at hitnd
      obtain ⟨hchead, hrestnd⟩ := List.nodup_cons.mp hitnd
      refine ⟨?_, hrestnd, ?_, ?_, ?_, hinv.lenLB, ?_⟩
      · rw [hvals, List.nodup_append]
        refine ⟨hinv.canonValsNodup, List.nodup_singleton _, ?_⟩
        intro x hx hx1
        have hxc : x = c := List.mem_singleton.mp hx1
        subst hxc
        exact hcnotv hx
      · intro v hv
        refine hinv.iterSub v ?_
        rw [hit]
        exact List.mem_cons_of_mem _ hv
      · intro v hv
        rw [hvals]
        intro hvm
        rcases List.mem_append.mp hvm with h1 | h1
        · exact hinv.iterDisj v (by rw [hit]; exact List.mem_cons_of_mem _ hv) h1
        · exact hchead (List.mem_singleton.mp h1 ▸ hv)
      · intro p hp
        rcases mset_mem_cases hp with hp' | hp'
        · exact hinv.valsClass p hp'
        · rw [hp'.2]
          exact Or.inl (hinv.iterSub c hcmem)
      · intro p hp
        rcases List.mem_append.mp hp with hp | hp
        · have hfreshC : ∀ q ∈ done, ∀ cq,
              mget st.symbolAddressToCanonicalSymbolIndexMap q.1 = some cq → cq ≠ c := by
            intro q hq cq hcq hcc
            subst hcc
            exact hcnotv (List.mem_map_of_mem Prod.snd (mem_of_mget_eq_some hcq))
          obtain ⟨cp, hcp, haddr, hal, hname, hnl, hmem⟩ :=
            hcellsPres c hfreshC p hp
          refine ⟨cp, ?_, haddr, hal, hname, hnl, hmem⟩
          have hpne : p.1 ≠ e.1 := by
            intro hc
            exact hknew (hc ▸ List.mem_map_of_mem Prod.fst hp)
          rw [mget_mset_ne _ _ _ _ (fun hc => hpne hc.symm)]
          exact hcp
        · have hpe : p = e := List.mem_singleton.mp hp
          subst hpe
          refine ⟨c, mget_mset_self _ _ _, ?_, cset_data_lt _ _ _ _, ?_,
            cset_data_lt _ _ _ _, hmem2⟩
          · exact cget_cset_self _ _ _ _
          · rw [cget_cset_self, hfirst]
    | nil =>
      have hknewE : e.1 ∉ mkeys st.symbolAddressToCanonicalSymbolIndexMap :=
        (mget_eq_none_iff_not_mem_mkeys _ _).mp hm
      have hvals : (mset st.symbolAddressToCanonicalSymbolIndexMap e.1
            st.nativeSymbols.length).map Prod.snd =
          st.symbolAddressToCanonicalSymbolIndexMap.map Prod.snd ++
            [st.nativeSymbols.length] :=
        mvalues_mset_not_mem _ _ _ hknewE
      refine ⟨?_, List.nodup_nil, ?_, ?_, ?_, ?_, ?_⟩
      · rw [hvals, List.nodup_append]
        refine ⟨hinv.canonValsNodup, List.nodup_singleton _, ?_⟩
        intro x hx hx1
        have hxc : x = st.nativeSymbols.length := List.mem_singleton.mp hx1
        rw [hxc] at hx
        exact absurd (hvlt _ hx) (Nat.lt_irrefl _)
      · intro v hv
        exact absurd hv (List.not_mem_nil v)
      · intro v hv
        exact absurd hv (List.not_mem_nil v)
      · intro p hp
        rcases mset_mem_cases hp with hp' | hp'
        · rcases hinv.valsClass p hp' with h1 | h1
          · exact Or.inl h1
          · refine Or.inr ⟨h1.1, ?_⟩
            show p.2 < st.nativeSymbols.length + 1
            omega
        · rw [hp'.2]
          refine Or.inr ⟨hinv.lenLB, ?_⟩
          show st.nativeSymbols.length < st.nativeSymbols.length + 1
          omega
      · show N0 ≤ st.nativeSymbols.length + 1
        have := hinv.lenLB
        omega
      · intro p hp
        rcases List.mem_append.mp hp with hp | hp
        · have hfreshC : ∀ q ∈ done, ∀ cq,
              mget st.symbolAddressToCanonicalSymbolIndexMap q.1 = some cq →
              cq ≠ st.nativeSymbols.length := by
            intro q hq cq hcq hcc
            rw [hcc] at hcq
            exact absurd (hvlt _
              (List.mem_map_of_mem Prod.snd (mem_of_mget_eq_some hcq))) (Nat.lt_irrefl _)
          obtain ⟨cp, hcp, haddr, hal, hname, hnl, hmem⟩ :=
            hcellsPres st.nativeSymbols.length hfreshC p hp
          refine ⟨cp, ?_, haddr, hal, hname, hnl, hmem⟩
          have hpne : p.1 ≠ e.1 := by
            intro hc
            exact hknew (hc ▸ List.mem_map_of_mem Prod.fst hp)
          rw [mget_mset_ne _ _ _ _ (fun hc => hpne hc.symm)]
          exact hcp
        · have hpe : p = e := List.mem_singleton.mp hp
          subst hpe
          refine ⟨st.nativeSymbols.length, mget_mset_self _ _ _, ?_,
            cset_data_lt _ _ _ _, ?_, cset_data_lt _ _ _ _, hmem2⟩
          · exact cget_cset_self _ _ _ _
          · rw [cget_cset_self, hfirst]

theorem stepB_cellInv (l : Nat) (N0 : Nat) (avail₀ : List Nat)
    (hb : ∀ v ∈ avail₀, v < N0) :
    ∀ (entries done : List (Nat × String)) (st : StepBState),
      (mkeys (done ++ entries)).Nodup →
      StepBCellInv N0 avail₀ done st →
      StepBCellInv N0 avail₀ (done ++ entries) (stepB l st entries) := by
  intro entries
  induction entries with
  | nil =>
    intro done st _ hinv
    simpa using hinv
  | cons e rest ih =>
    intro done st hnd hinv
    have hknew : e.1 ∉ mkeys done := by
      rw [mkeys_append] at hnd
      obtain ⟨-, -, hdisj⟩ := List.nodup_append.mp hnd
      intro hc
      exact hdisj hc (List.mem_cons_self _ _)
    have hnd' : (mkeys ((done ++ [e]) ++ rest)).Nodup := by
      rwa [show (done ++ [e]) ++ rest = done ++ e :: rest from by simp]
    have hstep := stepBEntry_cellInv l N0 avail₀ hb done st e hknew hinv
    have hrec := ih (done ++ [e]) (stepBEntry l st e) hnd' hstep
    rw [show (done ++ [e]) ++ rest = done ++ e :: rest from by simp] at hrec
    exact hrec

theorem reapply_stB_cells (t : Thread) (rI lI : Nat) (res : List (Nat × AddressResult)) :
    StepBCellInv t.nativeSymbols.length
      (jsSetOfList (collectNativeSymbolsForLib t.nativeSymbols lI))
      (modelStA t (sliceStep t rI lI res)).symbolAddressToNameMap
      (modelStB t (sliceStep t rI lI res)) := by
  have hb : ∀ v ∈ jsSetOfList (collectNativeSymbolsForLib t.nativeSymbols lI),
      v < t.nativeSymbols.length := by
    intro v hv
    have hv' := mem_jsSetOfList hv
    exact List.mem_range.mp (List.mem_filter.mp hv').1
  have hvalInv : StepAValInv (jsSetOfList (collectNativeSymbolsForLib t.nativeSymbols lI))
      (modelStA t (sliceStep t rI lI res)) :=
    stepA_valInv t.frameTable t.nativeSymbols t.stringTable res
      (sliceStep t rI lI res).threadLibSymbolicationInfo.allFramesForThisLib
      (jsSetOfList (collectNativeSymbolsForLib t.nativeSymbols lI)) (jsSetOfList_nodup _)
  have hnd : (mkeys (([] : List (Nat × String)) ++
      (modelStA t (sliceStep t rI lI res)).symbolAddressToNameMap)).Nodup := by
    have := (stepA_inv t.frameTable t.nativeSymbols t.stringTable res
      (sliceStep t rI lI res).threadLibSymbolicationInfo.allFramesForThisLib
      (jsSetOfList (collectNativeSymbolsForLib t.nativeSymbols lI))).nameKeysNodup
    simpa using this
  have h0 : StepBCellInv t.nativeSymbols.length
      (jsSetOfList (collectNativeSymbolsForLib t.nativeSymbols lI)) []
      ⟨(modelStA t (sliceStep t rI lI res)).availableNativeSymbols,
       shallowCloneNativeSymbolTable (freshRefBase t) t.nativeSymbols,
       (modelStA t (sliceStep t rI lI res)).symbolAddressToCanonicalSymbolIndexMap,
       t.stringTable⟩ := by
    refine ⟨hvalInv.canonValsNodup, hvalInv.availNodup, hvalInv.availSub,
      hvalInv.availCanonDisj, ?_, Nat.le_refl _, ?_⟩
    · intro p hp
      exact Or.inl (hvalInv.canonValsSub p hp)
    · intro p hp
      exact absurd hp (List.not_mem_nil p)
  have hfold := stepB_cellInv (sliceStep t rI lI res).threadLibSymbolicationInfo.libIndex
    t.nativeSymbols.length (jsSetOfList (collectNativeSymbolsForLib t.nativeSymbols lI)) hb
    (modelStA t (sliceStep t rI lI res)).symbolAddressToNameMap [] _ hnd h0
  simpa using hfold

theorem stepDPureFrame_spec (oldFt : FrameTable) (ns : NativeSymbolTable)
    (res : List (Nat × AddressResult)) (rI : Nat) (nsCol : Col (Option Nat))
    (st : StepDState) (f : Nat) (c : Nat) (ar : AddressResult)
    (nameIdx : Nat) (fileIdx : Option Nat) (stbl' : StringTable)
    (hsi : cget nsCol none f = some c)
    (har : (match mget res (cget oldFt.address 0 f) with
      | some r => r
      | none =>
        { symbolAddress := cget ns.address 0 c
          name := getString st.stringTable (cget ns.name 0 c)
          file := (cget st.funcTable.fileName none (cget oldFt.func 0 f)).map
            (getString st.stringTable)
          line := cget oldFt.line none f : AddressResult }) = ar)
    (hn : nameIdx = (indexForString st.stringTable ar.name).1)
    (hfo : fileIdx = (match ar.file with
      | some fl => some (indexForString (indexForString st.stringTable ar.name).2 fl).1
      | none => none))
    (hsb : stbl' = (match ar.file with
      | some fl => (indexForString (indexForString st.stringTable ar.name).2 fl).2
      | none => (indexForString st.stringTable ar.name).2)) :
    (∃ fi, mget st.funcKeyToFuncMap (funcKeyFor nameIdx fileIdx) = some fi ∧
      stepDPureFrame oldFt ns res rI nsCol st f =
        { st with
          oldFuncToNewFuncEntries :=
            st.oldFuncToNewFuncEntries ++ [(cget oldFt.func 0 f, fi)]
          funcCol := cset st.funcCol 0 f fi
          lineCol := cset st.lineCol none f ar.line
          stringTable := stbl'
          funcResolutionLog := st.funcResolutionLog ++ [⟨f, nameIdx, fileIdx, fi⟩] }) ∨
    (∃ fi rest, mget st.funcKeyToFuncMap (funcKeyFor nameIdx fileIdx) = none ∧
      st.availableFuncIter = fi :: rest ∧
      stepDPureFrame oldFt ns res rI nsCol st f =
        { funcTable :=
            { st.funcTable with
              name := cset st.funcTable.name 0 fi nameIdx
              fileName := cset st.funcTable.fileName none fi fileIdx }
          availableFuncIter := rest
          funcKeyToFuncMap := mset st.funcKeyToFuncMap (funcKeyFor nameIdx fileIdx) fi
          oldFuncToNewFuncEntries :=
            st.oldFuncToNewFuncEntries ++ [(cget oldFt.func 0 f, fi)]
          funcCol := cset st.funcCol 0 f fi
          lineCol := cset st.lineCol none f ar.line
          stringTable := stbl'
          funcResolutionLog := st.funcResolutionLog ++ [⟨f, nameIdx, fileIdx, fi⟩] }) ∨
    (mget st.funcKeyToFuncMap (funcKeyFor nameIdx fileIdx) = none ∧
      st.availableFuncIter = [] ∧
      stepDPureFrame oldFt ns res rI nsCol st f =
        { funcTable :=
            { st.funcTable with
              isJS := cset st.funcTable.isJS false st.funcTable.length false
              relevantForJS := cset st.funcTable.relevantForJS false st.funcTable.length false
              resource := cset st.funcTable.resource (-1) st.funcTable.length (rI : Int)
              lineNumber := cset st.funcTable.lineNumber none st.funcTable.length none
              columnNumber := cset st.funcTable.columnNumber none st.funcTable.length none
              length := st.funcTable.length + 1
              name := cset st.funcTable.name 0 st.funcTable.length nameIdx
              fileName := cset st.funcTable.fileName none st.funcTable.length fileIdx }
          availableFuncIter := []
          funcKeyToFuncMap :=
            mset st.funcKeyToFuncMap (funcKeyFor nameIdx fileIdx) st.funcTable.length
          oldFuncToNewFuncEntries :=
            st.oldFuncToNewFuncEntries ++ [(cget oldFt.func 0 f, st.funcTable.length)]
          funcCol := cset st.funcCol 0 f st.funcTable.length
          lineCol := cset st.lineCol none f ar.line
          stringTable := stbl'
          funcResolutionLog :=
            st.funcResolutionLog ++ [⟨f, nameIdx, fileIdx, st.funcTable.length⟩] }) := by
  subst hn hfo hsb
  rw [stepDPureFrame, stepDFrame]
  dsimp only
  rw [hsi]
  dsimp only
  rw [har]
  cases harf : ar.file with
  | none =>
    dsimp only
    cases hmk : mget st.funcKeyToFuncMap
        (funcKeyFor (indexForString st.stringTable ar.name).1 none) with
    | some fi => exact Or.inl ⟨fi, rfl, rfl⟩
    | none =>
      cases hit : st.availableFuncIter with
      | cons fi rest => exact Or.inr (Or.inl ⟨fi, rest, rfl, rfl, rfl⟩)
      | nil => exact Or.inr (Or.inr ⟨rfl, rfl, rfl⟩)
  | some fl =>
    dsimp only
    cases hmk : mget st.funcKeyToFuncMap
        (funcKeyFor (indexForString st.stringTable ar.name).1
          (some (indexForString (indexForString st.stringTable ar.name).2 fl).1)) with
    | some fi => exact Or.inl ⟨fi, rfl, rfl⟩
    | none =>
      cases hit : st.availableFuncIter with
      | cons fi rest => exact Or.inr (Or.inl ⟨fi, rest, rfl, rfl, rfl⟩)
      | nil => exact Or.inr (Or.inr ⟨rfl, rfl, rfl⟩)

theorem strExt_len {st₁ st₂ : StringTable} (hext : strExt st₁ st₂) :
    st₁.strings.length ≤ st₂.strings.length := by
  obtain ⟨-, l, hstr⟩ := hext
  rw [hstr, List.length_append]
  omega

theorem stepDCellInv_push (oldFt : FrameTable) (ns : NativeSymbolTable)
    (res : List (Nat × AddressResult)) (rI : Nat) (nsCol : Col (Option Nat))
    (S0 : StringTable) (N0 : Nat) (done : List FuncResolution) (st : StepDState)
    (f : Nat) (c : Nat) (nameIdx : Nat) (fileIdx : Option Nat) (stbl' : StringTable)
    (ln : Option Nat)
    (hsi : cget nsCol none f = some c)
    (hinv : StepDCellInv oldFt ns res nsCol S0 N0 done st)
    (hbr :
      (∃ fi, mget st.funcKeyToFuncMap (funcKeyFor nameIdx fileIdx) = some fi ∧
        stepDPureFrame oldFt ns res rI nsCol st f =
          { st with
            oldFuncToNewFuncEntries :=
              st.oldFuncToNewFuncEntries ++ [(cget oldFt.func 0 f, fi)]
            funcCol := cset st.funcCol 0 f fi
            lineCol := cset st.lineCol none f ln
            stringTable := stbl'
            funcResolutionLog := st.funcResolutionLog ++ [⟨f, nameIdx, fileIdx, fi⟩] }) ∨
      (∃ fi rest, mget st.funcKeyToFuncMap (funcKeyFor nameIdx fileIdx) = none ∧
        st.availableFuncIter = fi :: rest ∧
        stepDPureFrame oldFt ns res rI nsCol st f =
          { funcTable :=
              { st.funcTable with
                name := cset st.funcTable.name 0 fi nameIdx
                fileName := cset st.funcTable.fileName none fi fileIdx }
            availableFuncIter := rest
            funcKeyToFuncMap := mset st.funcKeyToFuncMap (funcKeyFor nameIdx fileIdx) fi
            oldFuncToNewFuncEntries :=
              st.oldFuncToNewFuncEntries ++ [(cget oldFt.func 0 f, fi)]
            funcCol := cset st.funcCol 0 f fi
            lineCol := cset st.lineCol none f ln
            stringTable := stbl'
            funcResolutionLog := st.funcResolutionLog ++ [⟨f, nameIdx, fileIdx, fi⟩] }) ∨
      (mget st.funcKeyToFuncMap (funcKeyFor nameIdx fileIdx) = none ∧
        st.availableFuncIter = [] ∧
        stepDPureFrame oldFt ns res rI nsCol st f =
          { funcTable :=
              { st.funcTable with
                isJS := cset st.funcTable.isJS false st.funcTable.length false
                relevantForJS :=
                  cset st.funcTable.relevantForJS false st.funcTable.length false
                resource := cset st.funcTable.resource (-1) st.funcTable.length (rI : Int)
                lineNumber := cset st.funcTable.lineNumber none st.funcTable.length none
                columnNumber := cset st.funcTable.columnNumber none st.funcTable.length none
                length := st.funcTable.length + 1
                name := cset st.funcTable.name 0 st.funcTable.length nameIdx
                fileName := cset st.funcTable.fileName none st.funcTable.length fileIdx }
            availableFuncIter := []
            funcKeyToFuncMap :=
              mset st.funcKeyToFuncMap (funcKeyFor nameIdx fileIdx) st.funcTable.length
            oldFuncToNewFuncEntries :=
              st.oldFuncToNewFuncEntries ++ [(cget oldFt.func 0 f, st.funcTable.length)]
            funcCol := cset st.funcCol 0 f st.funcTable.length
            lineCol := cset st.lineCol none f ln
            stringTable := stbl'
            funcResolutionLog :=
              st.funcResolutionLog ++ [⟨f, nameIdx, fileIdx, st.funcTable.length⟩] }))
    (hgrow : strExt st.stringTable stbl')
    (hFOn : nameIdx < stbl'.strings.length ∧
      stIdx stbl' (getString stbl' nameIdx) = nameIdx)
    (hFOf : ∀ i, fileIdx = some i →
      i < stbl'.strings.length ∧ stIdx stbl' (getString stbl' i) = i)
    (hRC : ∀ r, mget res (cget oldFt.address 0 f) = some r →
      nameIdx = stIdx stbl' r.name ∧ r.name ∈ stbl'.strings ∧
      fileIdx = r.file.map (stIdx stbl') ∧
      (∀ fl, r.file = some fl → fl ∈ stbl'.strings))
    (hRU : mget res (cget oldFt.address 0 f) = none → nameIdx = cget ns.name 0 c) :
    ∃ fi, StepDCellInv oldFt ns res nsCol S0 N0 (done ++ [⟨f, nameIdx, fileIdx, fi⟩])
      (stepDPureFrame oldFt ns res rI nsCol st f) := by
  have hFO' : ∀ e' ∈ done,
      e'.nameStringIndex < stbl'.strings.length ∧
      stIdx stbl' (getString stbl' e'.nameStringIndex) = e'.nameStringIndex ∧
      ∀ i, e'.fileNameStringIndex = some i →
        i < stbl'.strings.length ∧ stIdx stbl' (getString stbl' i) = i := by
    intro e' he'
    obtain ⟨h1, h2, h3⟩ := hinv.firstOcc e' he'
    have hmem1 : getString st.stringTable e'.nameStringIndex ∈ st.stringTable.strings :=
      getD_mem_of_lt _ _ _ h1
    refine ⟨Nat.lt_of_lt_of_le h1 (strExt_len hgrow), ?_, ?_⟩
    · rw [strExt_getString hgrow _ h1, stIdx_ext _ _ _ hgrow hmem1, h2]
    · intro i hi
      obtain ⟨h4, h5⟩ := h3 i hi
      have hmem2 : getString st.stringTable i ∈ st.stringTable.strings :=
        getD_mem_of_lt _ _ _ h4
      refine ⟨Nat.lt_of_lt_of_le h4 (strExt_len hgrow), ?_⟩
      rw [strExt_getString hgrow _ h4, stIdx_ext _ _ _ hgrow hmem2, h5]
  have hRC' : ∀ e' ∈ done, ∀ r, mget res (cget oldFt.address 0 e'.frameIndex) = some r →
      e'.nameStringIndex = stIdx stbl' r.name ∧
      r.name ∈ stbl'.strings ∧
      e'.fileNameStringIndex = r.file.map (stIdx stbl') ∧
      (∀ fl, r.file = some fl → fl ∈ stbl'.strings) := by
    intro e' he' r hres
    obtain ⟨h1, h2, h3, h4⟩ := hinv.resCov e' he' r hres
    refine ⟨?_, strExt_mem hgrow h2, ?_, ?_⟩
    · rw [h1, stIdx_ext _ _ _ hgrow h2]
    · rw [h3]
      cases hrf : r.file with
      | none => rfl
      | some fl =>
        have hflm := h4 fl hrf
        show some (stIdx st.stringTable fl) = some (stIdx stbl' fl)
        rw [stIdx_ext _ _ _ hgrow hflm]
    · intro fl hfl
      exact strExt_mem hgrow (h4 fl hfl)
  rcases hbr with ⟨fi, hmk, heq⟩ | ⟨fi, rest, hmk, hit, heq⟩ | ⟨hmk, hit, heq⟩
  · -- key found in the map: no table writes
    obtain ⟨e', he', hkey', hfi'⟩ := keyFold_mem done _ _ (hinv.mapEq ▸ hmk)
    obtain ⟨hn', hf'⟩ := funcKeyFor_inj hkey'
    refine ⟨fi, ?_, ?_, ?_, ?_, ?_, ?_, ?_, ?_, ?_, ?_, ?_, ?_, ?_⟩ <;> (try rw [heq])
    · show st.funcResolutionLog ++ _ = done ++ _
      rw [hinv.logEq]
    · show st.funcKeyToFuncMap = keyFold (done ++ [⟨f, nameIdx, fileIdx, fi⟩])
      rw [keyFold_append, hinv.mapEq]
      exact (mset_self _ _ _ (hinv.mapEq ▸ hmk)).symm
    · intro e he
      rcases List.mem_append.mp he with he | he
      · exact hinv.bindings e he
      · rw [List.mem_singleton.mp he]
        exact hmk
    · intro e he
      rcases List.mem_append.mp he with he | he
      · exact hinv.cells e he
      · rw [List.mem_singleton.mp he]
        obtain ⟨c1, c2, c3, c4⟩ := hinv.cells e' he'
        rw [hfi'] at c1 c2 c3 c4
        exact ⟨hn' ▸ c1, c2, hf' ▸ c3, c4⟩
    · intro e he
      rcases List.mem_append.mp he with he | he
      · exact hFO' e he
      · rw [List.mem_singleton.mp he]
        exact ⟨hFOn.1, hFOn.2, hFOf⟩
    · intro e he
      rcases List.mem_append.mp he with he | he
      · exact hRC' e he
      · rw [List.mem_singleton.mp he]
        intro r hres
        exact hRC r hres
    · intro e he
      rcases List.mem_append.mp he with he | he
      · exact hinv.resUnc e he
      · rw [List.mem_singleton.mp he]
        intro hres
        exact ⟨c, hsi, hRU hres⟩
    · exact hinv.funcIterNodup
    · exact hinv.funcIterBound
    · exact hinv.funcIterFresh
    · exact hinv.lenMono
    · intro e he
      rcases List.mem_append.mp he with he | he
      · exact hinv.idxBound e he
      · rw [List.mem_singleton.mp he]
        show fi < st.funcTable.length
        rw [← hfi']
        exact hinv.idxBound e' he'
    · exact strExt_trans hinv.strext0 hgrow
  · -- key missing, reuse a func from the available iterator
    have hfiIter : fi ∈ st.availableFuncIter := by
      rw [hit]
      exact List.mem_cons_self _ _
    have hfiFresh : fi ∉ st.funcKeyToFuncMap.map Prod.snd := hinv.funcIterFresh fi hfiIter
    have hfiLt : fi < st.funcTable.length :=
      Nat.lt_of_lt_of_le (hinv.funcIterBound fi hfiIter) hinv.lenMono
    have hkeyNot : funcKeyFor nameIdx fileIdx ∉ mkeys st.funcKeyToFuncMap :=
      (mget_eq_none_iff_not_mem_mkeys _ _).mp hmk
    have hitnd := hinv.funcIterNodup
    rw [hit] at hitnd
    obtain ⟨hfihead, hrestnd⟩ := List.nodup_cons.mp hitnd
    have hcellsFresh : ∀ e ∈ done, e.funcIndex ≠ fi := by
      intro e he hc
      refine hfiFresh ?_
      rw [← hc]
      exact List.mem_map_of_mem Prod.snd (mem_of_mget_eq_some (hinv.bindings e he))
    refine ⟨fi, ?_, ?_, ?_, ?_, ?_, ?_, ?_, ?_, ?_, ?_, ?_, ?_, ?_⟩ <;> (try rw [heq])
    · show st.funcResolutionLog ++ _ = done ++ _
      rw [hinv.logEq]
    · show mset st.funcKeyToFuncMap (funcKeyFor nameIdx fileIdx) fi =
        keyFold (done ++ [⟨f, nameIdx, fileIdx, fi⟩])
      rw [keyFold_append, hinv.mapEq]
    · intro e he
      rcases List.mem_append.mp he with he | he
      · have hbind := hinv.bindings e he
        have hkeyne : funcKeyFor nameIdx fileIdx ≠
            funcKeyFor e.nameStringIndex e.fileNameStringIndex := by
          intro hc
          rw [← hc, hmk] at hbind
          exact Option.noConfusion hbind
        show mget (mset st.funcKeyToFuncMap _ _) _ = _
        rw [mget_mset_ne _ _ _ _ hkeyne]
        exact hbind
      · rw [List.mem_singleton.mp he]
        exact mget_mset_self _ _ _
    · intro e he
      rcases List.mem_append.mp he with he | he
      · obtain ⟨c1, c2, c3, c4⟩ := hinv.cells e he
        have hne : fi ≠ e.funcIndex := fun hc => hcellsFresh e he hc.symm
        refine ⟨?_, ?_, ?_, ?_⟩
        · rw [cget_cset_ne _ _ _ _ _ hne]
          exact c1
        · exact Nat.lt_of_lt_of_le c2 (cset_data_length_le _ _ _ _)
        · rw [cget_cset_ne _ _ _ _ _ hne]
          exact c3
        · exact Nat.lt_of_lt_of_le c4 (cset_data_length_le _ _ _ _)
      · rw [List.mem_singleton.mp he]
        exact ⟨cget_cset_self _ _ _ _, cset_data_lt _ _ _ _,
          cget_cset_self _ _ _ _, cset_data_lt _ _ _ _⟩
    · intro e he
      rcases List.mem_append.mp he with he | he
      · exact hFO' e he
      · rw [List.mem_singleton.mp he]
        exact ⟨hFOn.1, hFOn.2, hFOf⟩
    · intro e he
      rcases List.mem_append.mp he with he | he
      · exact hRC' e he
      · rw [List.mem_singleton.mp he]
        intro r hres
        exact hRC r hres
    · intro e he
      rcases List.mem_append.mp he with he | he
      · exact hinv.resUnc e he
      · rw [List.mem_singleton.mp he]
        intro hres
        exact ⟨c, hsi, hRU hres⟩
    · exact hrestnd
    · intro v hv
      refine hinv.funcIterBound v ?_
      rw [hit]
      exact List.mem_cons_of_mem _ hv
    · intro v hv
      rw [mvalues_mset_not_mem _ _ _ hkeyNot]
      intro hvm
      rcases List.mem_append.mp hvm with h1 | h1
      · exact hinv.funcIterFresh v (by rw [hit]; exact List.mem_cons_of_mem _ hv) h1
      · exact hfihead (List.mem_singleton.mp h1 ▸ hv)
    · exact hinv.lenMono
    · intro e he
      rcases List.mem_append.mp he with he | he
      · exact hinv.idxBound e he
      · rw [List.mem_singleton.mp he]
        exact hfiLt
    · exact strExt_trans hinv.strext0 hgrow
  · -- key missing, iterator exhausted: append a new func row
    have hkeyNot : funcKeyFor nameIdx fileIdx ∉ mkeys st.funcKeyToFuncMap :=
      (mget_eq_none_iff_not_mem_mkeys _ _).mp hmk
    have hcellsFresh : ∀ e ∈ done, e.funcIndex ≠ st.funcTable.length := by
      intro e he hc
      have := hinv.idxBound e he
      omega
    refine ⟨st.funcTable.length, ?_, ?_, ?_, ?_, ?_, ?_, ?_, ?_, ?_, ?_, ?_, ?_, ?_⟩ <;>
      (try rw [heq])
    · show st.funcResolutionLog ++ _ = done ++ _
      rw [hinv.logEq]
    · show mset st.funcKeyToFuncMap (funcKeyFor nameIdx fileIdx) st.funcTable.length =
        keyFold (done ++ [⟨f, nameIdx, fileIdx, st.funcTable.length⟩])
      rw [keyFold_append, hinv.mapEq]
    · intro e he
      rcases List.mem_append.mp he with he | he
      · have hbind := hinv.bindings e he
        have hkeyne : funcKeyFor nameIdx fileIdx ≠
            funcKeyFor e.nameStringIndex e.fileNameStringIndex := by
          intro hc
          rw [← hc, hmk] at hbind
          exact Option.noConfusion hbind
        show mget (mset st.funcKeyToFuncMap _ _) _ = _
        rw [mget_mset_ne _ _ _ _ hkeyne]
        exact hbind
      · rw [List.mem_singleton.mp he]
        exact mget_mset_self _ _ _
    · intro e he
      rcases List.mem_append.mp he with he | he
      · obtain ⟨c1, c2, c3, c4⟩ := hinv.cells e he
        have hne : st.funcTable.length ≠ e.funcIndex :=
          fun hc => hcellsFresh e he hc.symm
        refine ⟨?_, ?_, ?_, ?_⟩
        · rw [cget_cset_ne _ _ _ _ _ hne]
          exact c1
        · exact Nat.lt_of_lt_of_le c2 (cset_data_length_le _ _ _ _)
        · rw [cget_cset_ne _ _ _ _ _ hne]
          exact c3
        · exact Nat.lt_of_lt_of_le c4 (cset_data_length_le _ _ _ _)
      · rw [List.mem_singleton.mp he]
        exact ⟨cget_cset_self _ _ _ _, cset_data_lt _ _ _ _,
          cget_cset_self _ _ _ _, cset_data_lt _ _ _ _⟩
    · intro e he
      rcases List.mem_append.mp he with he | he
      · exact hFO' e he
      · rw [List.mem_singleton.mp he]
        exact ⟨hFOn.1, hFOn.2, hFOf⟩
    · intro e he
      rcases List.mem_append.mp he with he | he
      · exact hRC' e he
      · rw [List.mem_singleton.mp he]
        intro r hres
        exact hRC r hres
    · intro e he
      rcases List.mem_append.mp he with he | he
      · exact hinv.resUnc e he
      · rw [List.mem_singleton.mp he]
        intro hres
        exact ⟨c, hsi, hRU hres⟩
    · exact List.nodup_nil
    · intro v hv
      exact absurd hv (List.not_mem_nil v)
    · intro v hv
      exact absurd hv (List.not_mem_nil v)
    · show N0 ≤ st.funcTable.length + 1
      have := hinv.lenMono
      omega
    · intro e he
      rcases List.mem_append.mp he with he | he
      · have := hinv.idxBound e he
        show e.funcIndex < st.funcTable.length + 1
        omega
      · rw [List.mem_singleton.mp he]
        show st.funcTable.length < st.funcTable.length + 1
        omega
    · exact strExt_trans hinv.strext0 hgrow

theorem intern_pair_firstOcc (S : StringTable) (nm : String) (fo : Option String)
    (fIdx : Option Nat) (sb : StringTable)
    (hnone : fo = none → fIdx = none ∧ sb = (indexForString S nm).2)
    (hsome : ∀ fl, fo = some fl →
      fIdx = some (indexForString (indexForString S nm).2 fl).1 ∧
      sb = (indexForString (indexForString S nm).2 fl).2) :
    strExt S sb ∧
    ((indexForString S nm).1 < sb.strings.length ∧
     stIdx sb (getString sb (indexForString S nm).1) = (indexForString S nm).1) ∧
    (∀ i, fIdx = some i →
      i < sb.strings.length ∧ stIdx sb (getString sb i) = i) ∧
    nm ∈ sb.strings ∧
    stIdx sb nm = (indexForString S nm).1 ∧
    (∀ fl, fo = some fl →
      fl ∈ sb.strings ∧
      stIdx sb fl = (indexForString (indexForString S nm).2 fl).1) := by
  cases hfo : fo with
  | none =>
    obtain ⟨hfi, hsb⟩ := hnone hfo
    subst hfi hsb
    have hm := intern_mem S nm
    have hf := intern_first S nm
    have hlt : (indexForString S nm).1 < (indexForString S nm).2.strings.length := by
      rw [← hf]
      exact stIdx_lt_of_mem _ _ hm
    refine ⟨indexForString_strExt S nm, ⟨hlt, ?_⟩, ?_, hm, hf, ?_⟩
    · rw [← hf, getString_stIdx _ _ hm]
    · intro i hi
      exact absurd hi (by simp)
    · intro fl hfl
      exact Option.noConfusion hfl
  | some fl =>
    obtain ⟨hfi, hsb⟩ := hsome fl hfo
    subst hfi hsb
    have hm := intern_mem S nm
    have hf := intern_first S nm
    have hext2 : strExt (indexForString S nm).2
        (indexForString (indexForString S nm).2 fl).2 :=
      indexForString_strExt _ _
    have hm' : nm ∈ (indexForString (indexForString S nm).2 fl).2.strings :=
      strExt_mem hext2 hm
    have hm2 := intern_mem (indexForString S nm).2 fl
    have hf2 := intern_first (indexForString S nm).2 fl
    have hlt : (indexForString S nm).1 < (indexForString S nm).2.strings.length := by
      rw [← hf]
      exact stIdx_lt_of_mem _ _ hm
    have hfN : stIdx (indexForString (indexForString S nm).2 fl).2 nm =
        (indexForString S nm).1 := by
      rw [stIdx_ext _ _ _ hext2 hm, hf]
    refine ⟨strExt_trans (indexForString_strExt S nm) hext2,
      ⟨Nat.lt_of_lt_of_le hlt (strExt_len hext2), ?_⟩, ?_, hm', hfN, ?_⟩
    · rw [strExt_getString hext2 _ hlt, ← hf, getString_stIdx _ _ hm,
        stIdx_ext _ _ _ hext2 hm, hf]
    · intro i hi
      have hieq : (indexForString (indexForString S nm).2 fl).1 = i := Option.some.inj hi
      constructor
      · rw [← hieq, ← hf2]
        exact stIdx_lt_of_mem _ _ hm2
      · rw [← hieq, ← hf2, getString_stIdx _ _ hm2]
    · intro fl' hfl'
      have hfe : fl' = fl := Option.some.inj hfl'.symm
      subst hfe
      exact ⟨hm2, hf2⟩

theorem stepDCellInv_step (oldFt : FrameTable) (ns : NativeSymbolTable)
    (res : List (Nat × AddressResult)) (rI : Nat) (nsCol : Col (Option Nat))
    (S0 : StringTable) (N0 : Nat) (done : List FuncResolution) (st : StepDState)
    (f : Nat) (c : Nat)
    (hsi : cget nsCol none f = some c)
    (hNs : cget ns.name 0 c < S0.strings.length ∧
      stIdx S0 (getString S0 (cget ns.name 0 c)) = cget ns.name 0 c)
    (hinv : StepDCellInv oldFt ns res nsCol S0 N0 done st) :
    ∃ nameIdx fileIdx fi,
      StepDCellInv oldFt ns res nsCol S0 N0 (done ++ [⟨f, nameIdx, fileIdx, fi⟩])
        (stepDPureFrame oldFt ns res rI nsCol st f) := by
  cases hres : mget res (cget oldFt.address 0 f) with
  | some r =>
    have har : (match mget res (cget oldFt.address 0 f) with
        | some rr => rr
        | none =>
          { symbolAddress := cget ns.address 0 c
            name := getString st.stringTable (cget ns.name 0 c)
            file := (cget st.funcTable.fileName none (cget oldFt.func 0 f)).map
              (getString st.stringTable)
            line := cget oldFt.line none f : AddressResult }) = r := by
      rw [hres]
    have hbr := stepDPureFrame_spec oldFt ns res rI nsCol st f c r
      ((indexForString st.stringTable r.name).1)
      (match r.file with
        | some fl => some (indexForString (indexForString st.stringTable r.name).2 fl).1
        | none => none)
      (match r.file with
        | some fl => (indexForString (indexForString st.stringTable r.name).2 fl).2
        | none => (indexForString st.stringTable r.name).2)
      hsi har rfl rfl rfl
    obtain ⟨hgrow, hFOn, hFOf, hnmMem, hnmIdx, hflFacts⟩ :=
      intern_pair_firstOcc st.stringTable r.name r.file
        (match r.file with
          | some fl => some (indexForString (indexForString st.stringTable r.name).2 fl).1
          | none => none)
        (match r.file with
          | some fl => (indexForString (indexForString st.stringTable r.name).2 fl).2
          | none => (indexForString st.stringTable r.name).2)
        (fun hrf => by rw [hrf]; exact ⟨rfl, rfl⟩)
        (fun fl hrf => by rw [hrf]; exact ⟨rfl, rfl⟩)
    have hRC : ∀ r', mget res (cget oldFt.address 0 f) = some r' →
        (indexForString st.stringTable r.name).1 =
          stIdx (match r.file with
            | some fl => (indexForString (indexForString st.stringTable r.name).2 fl).2
            | none => (indexForString st.stringTable r.name).2) r'.name ∧
        r'.name ∈ (match r.file with
            | some fl => (indexForString (indexForString st.stringTable r.name).2 fl).2
            | none => (indexForString st.stringTable r.name).2).strings ∧
        (match r.file with
          | some fl => some (indexForString (indexForString st.stringTable r.name).2 fl).1
          | none => none) = r'.file.map (stIdx (match r.file with
            | some fl => (indexForString (indexForString st.stringTable r.name).2 fl).2
            | none => (indexForString st.stringTable r.name).2)) ∧
        (∀ fl, r'.file = some fl → fl ∈ (match r.file with
            | some fl' => (indexForString (indexForString st.stringTable r.name).2 fl').2
            | none => (indexForString st.stringTable r.name).2).strings) := by
      intro r' hres'
      have hrr : r' = r := by
        rw [hres] at hres'
        exact Option.some.inj hres'.symm
      subst hrr
      refine ⟨hnmIdx.symm, hnmMem, ?_, ?_⟩
      · cases hrf : r'.file with
        | none => rfl
        | some fl =>
          have hx := (hflFacts fl hrf).2
          rw [hrf] at hx
          exact congrArg some hx.symm
      · intro fl hfl
        exact (hflFacts fl hfl).1
    have hRU : mget res (cget oldFt.address 0 f) = none →
        (indexForString st.stringTable r.name).1 = cget ns.name 0 c := by
      intro hnone
      rw [hres] at hnone
      exact Option.noConfusion hnone
    obtain ⟨fi, hI⟩ := stepDCellInv_push oldFt ns res rI nsCol S0 N0 done st f c
      ((indexForString st.stringTable r.name).1)
      (match r.file with
        | some fl => some (indexForString (indexForString st.stringTable r.name).2 fl).1
        | none => none)
      (match r.file with
        | some fl => (indexForString (indexForString st.stringTable r.name).2 fl).2
        | none => (indexForString st.stringTable r.name).2)
      r.line hsi hinv hbr hgrow hFOn hFOf hRC hRU
    exact ⟨(indexForString st.stringTable r.name).1,
      (match r.file with
        | some fl => some (indexForString (indexForString st.stringTable r.name).2 fl).1
        | none => none), fi, hI⟩
  | none =>
    have har : (match mget res (cget oldFt.address 0 f) with
        | some rr => rr
        | none =>
          { symbolAddress := cget ns.address 0 c
            name := getString st.stringTable (cget ns.name 0 c)
            file := (cget st.funcTable.fileName none (cget oldFt.func 0 f)).map
              (getString st.stringTable)
            line := cget oldFt.line none f : AddressResult }) =
        ({ symbolAddress := cget ns.address 0 c
           name := getString st.stringTable (cget ns.name 0 c)
           file := (cget st.funcTable.fileName none (cget oldFt.func 0 f)).map
             (getString st.stringTable)
           line := cget oldFt.line none f } : AddressResult) := by
      rw [hres]
    have hbr := stepDPureFrame_spec oldFt ns res rI nsCol st f c
      ({ symbolAddress := cget ns.address 0 c
         name := getString st.stringTable (cget ns.name 0 c)
         file := (cget st.funcTable.fileName none (cget oldFt.func 0 f)).map
           (getString st.stringTable)
         line := cget oldFt.line none f } : AddressResult)
      ((indexForString st.stringTable
        (getString st.stringTable (cget ns.name 0 c))).1)
      (match (cget st.funcTable.fileName none (cget oldFt.func 0 f)).map
          (getString st.stringTable) with
        | some fl => some (indexForString (indexForString st.stringTable
            (getString st.stringTable (cget ns.name 0 c))).2 fl).1
        | none => none)
      (match (cget st.funcTable.fileName none (cget oldFt.func 0 f)).map
          (getString st.stringTable) with
        | some fl => (indexForString (indexForString st.stringTable
            (getString st.stringTable (cget ns.name 0 c))).2 fl).2
        | none => (indexForString st.stringTable
            (getString st.stringTable (cget ns.name 0 c))).2)
      hsi har rfl rfl rfl
    obtain ⟨hgrow, hFOn, hFOf, -, -, -⟩ :=
      intern_pair_firstOcc st.stringTable
        (getString st.stringTable (cget ns.name 0 c))
        ((cget st.funcTable.fileName none (cget oldFt.func 0 f)).map
          (getString st.stringTable))
        (match (cget st.funcTable.fileName none (cget oldFt.func 0 f)).map
            (getString st.stringTable) with
          | some fl => some (indexForString (indexForString st.stringTable
              (getString st.stringTable (cget ns.name 0 c))).2 fl).1
          | none => none)
        (match (cget st.funcTable.fileName none (cget oldFt.func 0 f)).map
            (getString st.stringTable) with
          | some fl => (indexForString (indexForString st.stringTable
              (getString st.stringTable (cget ns.name 0 c))).2 fl).2
          | none => (indexForString st.stringTable
              (getString st.stringTable (cget ns.name 0 c))).2)
        (fun hrf => by rw [hrf]; exact ⟨rfl, rfl⟩)
        (fun fl hrf => by rw [hrf]; exact ⟨rfl, rfl⟩)
    have hidxG : getString st.stringTable (cget ns.name 0 c) =
        getString S0 (cget ns.name 0 c) :=
      strExt_getString hinv.strext0 _ hNs.1
    have hs0mem0 : getString S0 (cget ns.name 0 c) ∈ S0.strings :=
      getD_mem_of_lt _ _ _ hNs.1
    have hs0mem : getString S0 (cget ns.name 0 c) ∈ st.stringTable.strings :=
      strExt_mem hinv.strext0 hs0mem0
    have hNameVal : (indexForString st.stringTable
        (getString st.stringTable (cget ns.name 0 c))).1 = cget ns.name 0 c := by
      rw [hidxG, indexForString_of_mem _ _ hs0mem, stIdx_ext _ _ _ hinv.strext0 hs0mem0,
        hNs.2]
    have hRC : ∀ r', mget res (cget oldFt.address 0 f) = some r' →
        (indexForString st.stringTable
          (getString st.stringTable (cget ns.name 0 c))).1 =
          stIdx (match (cget st.funcTable.fileName none (cget oldFt.func 0 f)).map
              (getString st.stringTable) with
            | some fl => (indexForString (indexForString st.stringTable
                (getString st.stringTable (cget ns.name 0 c))).2 fl).2
            | none => (indexForString st.stringTable
                (getString st.stringTable (cget ns.name 0 c))).2) r'.name ∧
        r'.name ∈ (match (cget st.funcTable.fileName none (cget oldFt.func 0 f)).map
              (getString st.stringTable) with
            | some fl => (indexForString (indexForString st.stringTable
                (getString st.stringTable (cget ns.name 0 c))).2 fl).2
            | none => (indexForString st.stringTable
                (getString st.stringTable (cget ns.name 0 c))).2).strings ∧
        (match (cget st.funcTable.fileName none (cget oldFt.func 0 f)).map
            (getString st.stringTable) with
          | some fl => some (indexForString (indexForString st.stringTable
              (getString st.stringTable (cget ns.name 0 c))).2 fl).1
          | none => none) =
          r'.file.map (stIdx (match (cget st.funcTable.fileName none
              (cget oldFt.func 0 f)).map (getString st.stringTable) with
            | some fl => (indexForString (indexForString st.stringTable
                (getString st.stringTable (cget ns.name 0 c))).2 fl).2
            | none => (indexForString st.stringTable
                (getString st.stringTable (cget ns.name 0 c))).2)) ∧
        (∀ fl, r'.file = some fl →
          fl ∈ (match (cget st.funcTable.fileName none (cget oldFt.func 0 f)).map
              (getString st.stringTable) with
            | some fl' => (indexForString (indexForString st.stringTable
                (getString st.stringTable (cget ns.name 0 c))).2 fl').2
            | none => (indexForString st.stringTable
                (getString st.stringTable (cget ns.name 0 c))).2).strings) := by
      intro r' hres'
      rw [hres] at hres'
      exact Option.noConfusion hres'
    have hRU : mget res (cget oldFt.address 0 f) = none →
        (indexForString st.stringTable
          (getString st.stringTable (cget ns.name 0 c))).1 = cget ns.name 0 c := by
      intro _
      exact hNameVal
    obtain ⟨fi, hI⟩ := stepDCellInv_push oldFt ns res rI nsCol S0 N0 done st f c
      ((indexForString st.stringTable
        (getString st.stringTable (cget ns.name 0 c))).1)
      (match (cget st.funcTable.fileName none (cget oldFt.func 0 f)).map
          (getString st.stringTable) with
        | some fl => some (indexForString (indexForString st.stringTable
            (getString st.stringTable (cget ns.name 0 c))).2 fl).1
        | none => none)
      (match (cget st.funcTable.fileName none (cget oldFt.func 0 f)).map
          (getString st.stringTable) with
        | some fl => (indexForString (indexForString st.stringTable
            (getString st.stringTable (cget ns.name 0 c))).2 fl).2
        | none => (indexForString st.stringTable
            (getString st.stringTable (cget ns.name 0 c))).2)
      (cget oldFt.line none f) hsi hinv hbr hgrow hFOn hFOf hRC hRU
    exact ⟨(indexForString st.stringTable
        (getString st.stringTable (cget ns.name 0 c))).1,
      (match (cget st.funcTable.fileName none (cget oldFt.func 0 f)).map
          (getString st.stringTable) with
        | some fl => some (indexForString (indexForString st.stringTable
            (getString st.stringTable (cget ns.name 0 c))).2 fl).1
        | none => none), fi, hI⟩

theorem stepDCellInv_foldl (oldFt : FrameTable) (ns : NativeSymbolTable)
    (res : List (Nat × AddressResult)) (rI : Nat) (nsCol : Col (Option Nat))
    (S0 : StringTable) (N0 : Nat) :
    ∀ (frames : List Nat) (done : List FuncResolution) (st : StepDState),
      (∀ f ∈ frames, ∃ c, cget nsCol none f = some c ∧
        cget ns.name 0 c < S0.strings.length ∧
        stIdx S0 (getString S0 (cget ns.name 0 c)) = cget ns.name 0 c) →
      StepDCellInv oldFt ns res nsCol S0 N0 done st →
      ∃ done', StepDCellInv oldFt ns res nsCol S0 N0 done'
        (frames.foldl (stepDPureFrame oldFt ns res rI nsCol) st) := by
  intro frames
  induction frames with
  | nil =>
    intro done st _ hinv
    exact ⟨done, hinv⟩
  | cons f rest ih =>
    intro done st hNs hinv
    obtain ⟨c, hc, hb1, hb2⟩ := hNs f (List.mem_cons_self f rest)
    obtain ⟨nI, fI, fi, hstep⟩ :=
      stepDCellInv_step oldFt ns res rI nsCol S0 N0 done st f c hc ⟨hb1, hb2⟩ hinv
    exact ih (done ++ [⟨f, nI, fI, fi⟩]) _
      (fun g hg => hNs g (List.mem_cons_of_mem _ hg)) hstep

theorem reapply_stD_cells (t : Thread) (rI lI : Nat) (res : List (Nat × AddressResult)) :
    StepDCellInv t.frameTable (modelStB t (sliceStep t rI lI res)).nativeSymbols res
      (modelNsCol t (sliceStep t rI lI res))
      (modelStB t (sliceStep t rI lI res)).stringTable
      t.funcTable.length
      (modelStD t (sliceStep t rI lI res)).funcResolutionLog
      (modelStD t (sliceStep t rI lI res)) := by
  have hcells := reapply_stB_cells t rI lI res
  have hNs : ∀ f ∈ (sliceStep t rI lI res).threadLibSymbolicationInfo.allFramesForThisLib,
      ∃ c, cget (modelNsCol t (sliceStep t rI lI res)) none f = some c ∧
        cget (modelStB t (sliceStep t rI lI res)).nativeSymbols.name 0 c <
          (modelStB t (sliceStep t rI lI res)).stringTable.strings.length ∧
        stIdx (modelStB t (sliceStep t rI lI res)).stringTable
          (getString (modelStB t (sliceStep t rI lI res)).stringTable
            (cget (modelStB t (sliceStep t rI lI res)).nativeSymbols.name 0 c)) =
          cget (modelStB t (sliceStep t rI lI res)).nativeSymbols.name 0 c := by
    intro f hf
    obtain ⟨si, hsiC, hcol⟩ := modelNsCol_get t (sliceStep t rI lI res) f hf
    refine ⟨si, hcol, ?_⟩
    have hkey : frameSymbolAddress t.frameTable t.nativeSymbols t.stringTable res f ∈
        mkeys (modelStA t (sliceStep t rI lI res)).symbolAddressToNameMap :=
      stepA_sa2name_mem _ _ _ _ _ _ f hf
    obtain ⟨nm, hnm⟩ :=
      Option.isSome_iff_exists.mp ((mget_isSome_iff_mem_mkeys _ _).mpr hkey)
    have hpmem := mem_of_mget_eq_some hnm
    obtain ⟨c', hc', haddr, hal, hname, hnl, hmem⟩ := hcells.cells _ hpmem
    have hcc : c' = si := by
      have hc'' : mget
          (modelStB t (sliceStep t rI lI res)).symbolAddressToCanonicalSymbolIndexMap
          (frameSymbolAddress t.frameTable t.nativeSymbols t.stringTable res f) =
          some c' := hc'
      have hsiC' : mget
          (modelStB t (sliceStep t rI lI res)).symbolAddressToCanonicalSymbolIndexMap
          (frameSymbolAddress t.frameTable t.nativeSymbols t.stringTable res f) =
          some si := hsiC
      exact Option.some.inj (hc''.symm.trans hsiC')
    subst hcc
    constructor
    · rw [hname]
      exact stIdx_lt_of_mem _ _ hmem
    · rw [hname, getString_stIdx _ _ hmem]
  have h0 : StepDCellInv t.frameTable (modelStB t (sliceStep t rI lI res)).nativeSymbols
      res (modelNsCol t (sliceStep t rI lI res))
      (modelStB t (sliceStep t rI lI res)).stringTable t.funcTable.length
      [] (modelStD0 t (sliceStep t rI lI res)) := by
    refine ⟨rfl, rfl, ?_, ?_, ?_, ?_, ?_, ?_, ?_, ?_, ?_, ?_, strExt_refl _⟩
    · intro e he
      exact absurd he (List.not_mem_nil e)
    · intro e he
      exact absurd he (List.not_mem_nil e)
    · intro e he
      exact absurd he (List.not_mem_nil e)
    · intro e he
      exact absurd he (List.not_mem_nil e)
    · intro e he
      exact absurd he (List.not_mem_nil e)
    · exact jsSetOfList_nodup _
    · intro v hv
      have hv' := mem_jsSetOfList hv
      exact List.mem_range.mp (List.mem_filter.mp hv').1
    · intro v hv
      intro hc
      exact absurd hc (List.not_mem_nil v)
    · exact Nat.le_refl _
    · intro e he
      exact absurd he (List.not_mem_nil e)
  obtain ⟨done', hI⟩ := stepDCellInv_foldl t.frameTable
    (modelStB t (sliceStep t rI lI res)).nativeSymbols res
    (sliceStep t rI lI res).threadLibSymbolicationInfo.resourceIndex
    (modelNsCol t (sliceStep t rI lI res))
    (modelStB t (sliceStep t rI lI res)).stringTable t.funcTable.length
    (sliceStep t rI lI res).threadLibSymbolicationInfo.allFramesForThisLib
    [] (modelStD0 t (sliceStep t rI lI res)) hNs h0
  have hlog : (modelStD t (sliceStep t rI lI res)).funcResolutionLog = done' := hI.logEq
  rw [hlog]
  exact hI

theorem getLast_mem {α : Type} {l : List α} {x : α} (h : l.getLast? = some x) : x ∈ l := by
  induction l with
  | nil => exact absurd h (by simp)
  | cons a rest ih =>
    cases rest with
    | nil =>
      rw [List.getLast?_singleton] at h
      rw [← Option.some.inj h]
      exact List.mem_singleton_self a
    | cons b rest' =>
      rw [List.getLast?_cons_cons] at h
      exact List.mem_cons_of_mem a (ih h)

/-- A canonical-symbol loop whose every entry already has a canonical row
carrying the entry's address and interned name leaves the state unchanged. -/
theorem stepB_fixpoint (l : Nat) (entries : List (Nat × String)) :
    ∀ st : StepBState,
      (∀ e ∈ entries, ∃ c,
        mget st.symbolAddressToCanonicalSymbolIndexMap e.1 = some c ∧
        cget st.nativeSymbols.address 0 c = e.1 ∧
        c < st.nativeSymbols.address.data.length ∧
        cget st.nativeSymbols.name 0 c = stIdx st.stringTable e.2 ∧
        c < st.nativeSymbols.name.data.length ∧
        e.2 ∈ st.stringTable.strings) →
      stepB l st entries = st := by
  induction entries with
  | nil => intro st _; rfl
  | cons e rest ih =>
    intro st h
    obtain ⟨c, hc, ha, hal, hn, hnl, hm⟩ := h e (List.mem_cons_self e rest)
    have hone : stepBEntry l st e = st := by
      simp only [stepBEntry, hc]
      rw [indexForString_of_mem _ _ hm]
      dsimp only
      rw [cset_id _ _ _ _ hal ha, cset_id _ _ _ _ hnl hn]
    rw [stepB, List.foldl_cons, hone]
    exact ih st (fun e' he' => h e' (List.mem_cons_of_mem _ he'))

/-- One Step A iteration on a frame that already carries the canonical
symbol of its resolved symbol address: the canonical map claims exactly
that symbol (if the address is new), and the available set shrinks by it. -/
theorem stepAFrame_replay (ft : FrameTable) (ns : NativeSymbolTable) (s : StringTable)
    (res : List (Nat × AddressResult)) (avail₀ : List Nat) (sa C : Nat → Nat)
    (processed : List Nat) (st : StepAState) (f : Nat)
    (hsa : frameSymbolAddress ft ns s res f = sa f)
    (hold : cget ft.nativeSymbol none f = some (C (sa f)))
    (hCin : C (sa f) ∈ avail₀)
    (hinj : ∀ a ∈ jsSetOfList (processed.map sa), C (sa f) = C a → sa f = a)
    (hinv : StepAReplayInv avail₀ sa C processed st) :
    StepAReplayInv avail₀ sa C (processed ++ [f]) (stepAFrame ft ns s res st f) := by
  have hkeys : jsSetOfList ((processed ++ [f]).map sa) =
      jsSetAdd (jsSetOfList (processed.map sa)) (sa f) := by
    rw [List.map_append, List.map_singleton, jsSetOfList_append_single]
  have hsa' : (resolveAddressResult ft ns s res f).symbolAddress = sa f := hsa
  rw [stepAFrame]
  dsimp only
  rw [hold]
  dsimp only
  rw [hsa']
  by_cases hmem : sa f ∈ jsSetOfList (processed.map sa)
  · have hsome : (mget st.symbolAddressToCanonicalSymbolIndexMap (sa f)).isSome = true := by
      rw [hinv.canonEq, mget_map_pair, if_pos hmem]
      rfl
    rw [if_pos hsome]
    refine ⟨?_, ?_, hinv.availNodup⟩
    · show st.symbolAddressToCanonicalSymbolIndexMap = _
      rw [hkeys, jsSetAdd_eq_of_mem hmem]
      exact hinv.canonEq
    · intro v
      show v ∈ st.availableNativeSymbols ↔ _
      rw [hkeys, jsSetAdd_eq_of_mem hmem]
      exact hinv.availMem v
  · have hnone : mget st.symbolAddressToCanonicalSymbolIndexMap (sa f) = none := by
      rw [hinv.canonEq, mget_map_pair, if_neg hmem]
    have hnsome : ¬ (mget st.symbolAddressToCanonicalSymbolIndexMap (sa f)).isSome = true := by
      rw [hnone]
      simp
    rw [if_neg hnsome]
    have hmemAvail : C (sa f) ∈ st.availableNativeSymbols :=
      (hinv.availMem _).mpr
        ⟨hCin, fun a ha heq => hmem ((hinj a ha heq).symm ▸ ha)⟩
    have hcont : st.availableNativeSymbols.contains (C (sa f)) = true := by
      simpa [List.contains] using hmemAvail
    rw [if_pos hcont]
    refine ⟨?_, ?_, jsSetDel_nodup _ _ hinv.availNodup⟩
    · show mset st.symbolAddressToCanonicalSymbolIndexMap (sa f) (C (sa f)) = _
      rw [mset_append_not_mem _ _ _ ((mget_eq_none_iff_not_mem_mkeys _ _).mp hnone),
        hinv.canonEq, hkeys, jsSetAdd_eq_of_not_mem hmem, List.map_append]
      rfl
    · intro v
      show v ∈ jsSetDel st.availableNativeSymbols (C (sa f)) ↔ _
      rw [mem_jsSetDel_iff _ _ _ hinv.availNodup, hkeys]
      constructor
      · rintro ⟨hv, hne⟩
        obtain ⟨hv0, hvC⟩ := (hinv.availMem v).mp hv
        refine ⟨hv0, ?_⟩
        intro a ha
        rcases (jsSetAdd_mem _ _ _).mp ha with ha | ha
        · exact hvC a ha
        · rw [ha]
          exact hne
      · rintro ⟨hv0, hvC⟩
        refine ⟨(hinv.availMem v).mpr
          ⟨hv0, fun a ha => hvC a ((jsSetAdd_mem _ _ _).mpr (Or.inl ha))⟩, ?_⟩
        exact hvC (sa f) ((jsSetAdd_mem _ _ _).mpr (Or.inr rfl))

/-- Folding Step A over frames that all carry the canonical symbols of
their resolved symbol addresses preserves the replay invariant. -/
theorem stepA_replay_fold (ft : FrameTable) (ns : NativeSymbolTable) (s : StringTable)
    (res : List (Nat × AddressResult)) (avail₀ : List Nat) (sa C : Nat → Nat) :
    ∀ (frames processed : List Nat) (st : StepAState),
      (∀ f ∈ frames, frameSymbolAddress ft ns s res f = sa f) →
      (∀ f ∈ frames, cget ft.nativeSymbol none f = some (C (sa f))) →
      (∀ f ∈ frames, C (sa f) ∈ avail₀) →
      (∀ f ∈ frames, ∀ a ∈ processed.map sa, C (sa f) = C a → sa f = a) →
      (∀ f ∈ frames, ∀ g ∈ frames, C (sa f) = C (sa g) → sa f = sa g) →
      StepAReplayInv avail₀ sa C processed st →
      StepAReplayInv avail₀ sa C (processed ++ frames)
        (frames.foldl (stepAFrame ft ns s res) st) := by
  intro frames
  induction frames with
  | nil =>
    intro processed st _ _ _ _ _ hinv
    rw [List.append_nil]
    exact hinv
  | cons f rest ih =>
    intro processed st hsa hold hCin hinjP hinj2 hinv
    have hstep := stepAFrame_replay ft ns s res avail₀ sa C processed st f
      (hsa f (List.mem_cons_self f rest)) (hold f (List.mem_cons_self f rest))
      (hCin f (List.mem_cons_self f rest))
      (fun a ha => hinjP f (List.mem_cons_self f rest) a (mem_jsSetOfList ha)) hinv
    have hinjP' : ∀ g ∈ rest, ∀ a ∈ (processed ++ [f]).map sa, C (sa g) = C a → sa g = a := by
      intro g hg a ha heq
      rw [List.map_append, List.map_singleton] at ha
      rcases List.mem_append.mp ha with ha | ha
      · exact hinjP g (List.mem_cons_of_mem _ hg) a ha heq
      · rw [List.mem_singleton] at ha
        rw [ha] at heq ⊢
        exact hinj2 g (List.mem_cons_of_mem _ hg) f (List.mem_cons_self f rest) heq
    have hrec := ih (processed ++ [f]) _
      (fun g hg => hsa g (List.mem_cons_of_mem _ hg))
      (fun g hg => hold g (List.mem_cons_of_mem _ hg))
      (fun g hg => hCin g (List.mem_cons_of_mem _ hg))
      hinjP'
      (fun g hg g' hg' => hinj2 g (List.mem_cons_of_mem _ hg) g' (List.mem_cons_of_mem _ hg'))
      hstep
    rw [List.foldl_cons]
    rw [show (processed ++ [f]) ++ rest = processed ++ f :: rest from by simp] at hrec
    exact hrec

/-- Every frame of the library slice has, after the first application, a
canonical symbol row whose address and name cells carry the frame's
resolved symbol address and the interned final name for that address. -/
theorem reapply_canon_cells (t : Thread) (rI lI : Nat) (res : List (Nat × AddressResult)) :
    ∀ f ∈ (threadLibInfoFor t rI lI).allFramesForThisLib,
      ∃ c nm,
        mget (modelStB t (sliceStep t rI lI res)).symbolAddressToCanonicalSymbolIndexMap
          (frameSymbolAddress t.frameTable t.nativeSymbols t.stringTable res f) = some c ∧
        cget (modelNsCol t (sliceStep t rI lI res)) none f = some c ∧
        mget (modelStA t (sliceStep t rI lI res)).symbolAddressToNameMap
          (frameSymbolAddress t.frameTable t.nativeSymbols t.stringTable res f) = some nm ∧
        cget (modelStB t (sliceStep t rI lI res)).nativeSymbols.address 0 c =
          frameSymbolAddress t.frameTable t.nativeSymbols t.stringTable res f ∧
        c < (modelStB t (sliceStep t rI lI res)).nativeSymbols.address.data.length ∧
        cget (modelStB t (sliceStep t rI lI res)).nativeSymbols.name 0 c =
          stIdx (modelStB t (sliceStep t rI lI res)).stringTable nm ∧
        c < (modelStB t (sliceStep t rI lI res)).nativeSymbols.name.data.length ∧
        nm ∈ (modelStB t (sliceStep t rI lI res)).stringTable.strings := by
  intro f hf
  have hcells := reapply_stB_cells t rI lI res
  obtain ⟨si, hsiC, hcol⟩ := modelNsCol_get t (sliceStep t rI lI res) f hf
  have hkey : frameSymbolAddress t.frameTable t.nativeSymbols t.stringTable res f ∈
      mkeys (modelStA t (sliceStep t rI lI res)).symbolAddressToNameMap :=
    stepA_sa2name_mem _ _ _ _ _ _ f hf
  obtain ⟨nm, hnm⟩ :=
    Option.isSome_iff_exists.mp ((mget_isSome_iff_mem_mkeys _ _).mpr hkey)
  have hpmem := mem_of_mget_eq_some hnm
  obtain ⟨c', hc', haddr, hal, hname, hnl, hmem⟩ := hcells.cells _ hpmem
  have hcc : c' = si := by
    have hc'' : mget
        (modelStB t (sliceStep t rI lI res)).symbolAddressToCanonicalSymbolIndexMap
        (frameSymbolAddress t.frameTable t.nativeSymbols t.stringTable res f) =
        some c' := hc'
    have hsiC' : mget
        (modelStB t (sliceStep t rI lI res)).symbolAddressToCanonicalSymbolIndexMap
        (frameSymbolAddress t.frameTable t.nativeSymbols t.stringTable res f) =
        some si := hsiC
    exact Option.some.inj (hc''.symm.trans hsiC')
  subst hcc
  exact ⟨c', nm, hc', hcol, hnm, haddr, hal, hname, hnl, hmem⟩

/-- Re-resolving a frame of the library slice on the first application's
output thread yields the same symbol address as the first resolution. -/
theorem reapply_sa_eq (t : Thread) (rI lI : Nat) (res : List (Nat × AddressResult))
    (m₀ : List (Nat × Nat)) :
    ∀ f ∈ (threadLibInfoFor t rI lI).allFramesForThisLib,
      frameSymbolAddress ((applyModel t (sliceStep t rI lI res) m₀).thread).frameTable
        ((applyModel t (sliceStep t rI lI res) m₀).thread).nativeSymbols
        ((applyModel t (sliceStep t rI lI res) m₀).thread).stringTable res f =
      frameSymbolAddress t.frameTable t.nativeSymbols t.stringTable res f := by
  intro f hf
  cases hres : mget res (cget t.frameTable.address 0 f) with
  | some r =>
    have hres' : mget res
        (cget ((applyModel t (sliceStep t rI lI res) m₀).thread).frameTable.address 0 f) =
        some r := hres
    rw [frameSymbolAddress_covered _ _ _ _ _ _ hres',
      frameSymbolAddress_covered _ _ _ _ _ _ hres]
  | none =>
    obtain ⟨c, nm, hc, hcol, hnm, haddr, hal, hname, hnl, hmem⟩ :=
      reapply_canon_cells t rI lI res f hf
    have hres' : mget res
        (cget ((applyModel t (sliceStep t rI lI res) m₀).thread).frameTable.address 0 f) =
        none := hres
    have hold : cget
        ((applyModel t (sliceStep t rI lI res) m₀).thread).frameTable.nativeSymbol
        none f = some c := hcol
    show (resolveAddressResult
        ((applyModel t (sliceStep t rI lI res) m₀).thread).frameTable
        ((applyModel t (sliceStep t rI lI res) m₀).thread).nativeSymbols
        ((applyModel t (sliceStep t rI lI res) m₀).thread).stringTable res f).symbolAddress =
      frameSymbolAddress t.frameTable t.nativeSymbols t.stringTable res f
    rw [resolveAddressResult, hres', hold]
    exact haddr

/-- Re-resolving an uncovered frame of the library slice on the first
application's output thread yields the final canonical name that the first
application stored for the frame's symbol address. -/
theorem reapply_name_unc (t : Thread) (rI lI : Nat) (res : List (Nat × AddressResult))
    (m₀ : List (Nat × Nat)) :
    ∀ f ∈ (threadLibInfoFor t rI lI).allFramesForThisLib,
      mget res (cget t.frameTable.address 0 f) = none →
      ∃ nm,
        mget (modelStA t (sliceStep t rI lI res)).symbolAddressToNameMap
          (frameSymbolAddress t.frameTable t.nativeSymbols t.stringTable res f) = some nm ∧
        frameSymbolName ((applyModel t (sliceStep t rI lI res) m₀).thread).frameTable
          ((applyModel t (sliceStep t rI lI res) m₀).thread).nativeSymbols
          ((applyModel t (sliceStep t rI lI res) m₀).thread).stringTable res f = nm := by
  intro f hf hres
  obtain ⟨c, nm, hc, hcol, hnm, haddr, hal, hname, hnl, hmem⟩ :=
    reapply_canon_cells t rI lI res f hf
  refine ⟨nm, hnm, ?_⟩
  have hres' : mget res
      (cget ((applyModel t (sliceStep t rI lI res) m₀).thread).frameTable.address 0 f) =
      none := hres
  have hold : cget
      ((applyModel t (sliceStep t rI lI res) m₀).thread).frameTable.nativeSymbol
      none f = some c := hcol
  have hname' : cget
      ((applyModel t (sliceStep t rI lI res) m₀).thread).nativeSymbols.name 0 c =
      stIdx (modelStB t (sliceStep t rI lI res)).stringTable nm := hname
  have hext : strExt (modelStB t (sliceStep t rI lI res)).stringTable
      (modelStD t (sliceStep t rI lI res)).stringTable :=
    (stepD_foldl_effects t.frameTable (modelStB t (sliceStep t rI lI res)).nativeSymbols
      res (threadLibInfoFor t rI lI).resourceIndex (modelNsCol t (sliceStep t rI lI res))
      (threadLibInfoFor t rI lI).allFramesForThisLib
      (modelStD0 t (sliceStep t rI lI res))).2.2.2.2.2.2.2.2.2.2
  have hgoal : getString ((applyModel t (sliceStep t rI lI res) m₀).thread).stringTable
      (cget ((applyModel t (sliceStep t rI lI res) m₀).thread).nativeSymbols.name 0 c) =
      nm := by
    rw [hname']
    show getString (modelStD t (sliceStep t rI lI res)).stringTable
      (stIdx (modelStB t (sliceStep t rI lI res)).stringTable nm) = nm
    rw [strExt_getString hext _ (stIdx_lt_of_mem _ _ hmem), getString_stIdx _ _ hmem]
  show (resolveAddressResult
      ((applyModel t (sliceStep t rI lI res) m₀).thread).frameTable
      ((applyModel t (sliceStep t rI lI res) m₀).thread).nativeSymbols
      ((applyModel t (sliceStep t rI lI res) m₀).thread).stringTable res f).name = nm
  rw [resolveAddressResult, hres', hold]
  exact hgoal

/-- The symbol-address-to-name map of the second application's Step A
agrees pointwise with the first application's. -/
theorem reapply_sa2name_get (t : Thread) (rI lI : Nat) (res : List (Nat × AddressResult))
    (m₀ : List (Nat × Nat))
    (hwfFF : ∀ f, f < t.frameTable.length →
      cget t.frameTable.func 0 f < t.funcTable.length)
    (hwfFR : t.funcTable.resource.data.length = t.funcTable.length) :
    ∀ a, mget (modelStA ((applyModel t (sliceStep t rI lI res) m₀).thread)
        (sliceStep ((applyModel t (sliceStep t rI lI res) m₀).thread)
          rI lI res)).symbolAddressToNameMap a =
      mget (modelStA t (sliceStep t rI lI res)).symbolAddressToNameMap a := by
  intro a
  have h2 : (modelStA ((applyModel t (sliceStep t rI lI res) m₀).thread)
      (sliceStep ((applyModel t (sliceStep t rI lI res) m₀).thread)
        rI lI res)).symbolAddressToNameMap =
      (threadLibInfoFor ((applyModel t (sliceStep t rI lI res) m₀).thread)
        rI lI).allFramesForThisLib.foldl
        (fun m f => mset m
          (frameSymbolAddress ((applyModel t (sliceStep t rI lI res) m₀).thread).frameTable
            ((applyModel t (sliceStep t rI lI res) m₀).thread).nativeSymbols
            ((applyModel t (sliceStep t rI lI res) m₀).thread).stringTable res f)
          (frameSymbolName ((applyModel t (sliceStep t rI lI res) m₀).thread).frameTable
            ((applyModel t (sliceStep t rI lI res) m₀).thread).nativeSymbols
            ((applyModel t (sliceStep t rI lI res) m₀).thread).stringTable res f)) [] :=
    stepA_sa2name_fold _ _ _ _ _ _
  have h1 : (modelStA t (sliceStep t rI lI res)).symbolAddressToNameMap =
      (threadLibInfoFor t rI lI).allFramesForThisLib.foldl
        (fun m f => mset m
          (frameSymbolAddress t.frameTable t.nativeSymbols t.stringTable res f)
          (frameSymbolName t.frameTable t.nativeSymbols t.stringTable res f)) [] :=
    stepA_sa2name_fold _ _ _ _ _ _
  rw [h2, h1, reapply_frames_eq t rI lI res m₀ hwfFF hwfFR]
  rw [mget_foldl_mset_last, mget_foldl_mset_last]
  have hfeq : (threadLibInfoFor t rI lI).allFramesForThisLib.filter
      (fun x => decide
        (frameSymbolAddress ((applyModel t (sliceStep t rI lI res) m₀).thread).frameTable
          ((applyModel t (sliceStep t rI lI res) m₀).thread).nativeSymbols
          ((applyModel t (sliceStep t rI lI res) m₀).thread).stringTable res x = a)) =
      (threadLibInfoFor t rI lI).allFramesForThisLib.filter
      (fun x => decide
        (frameSymbolAddress t.frameTable t.nativeSymbols t.stringTable res x = a)) := by
    refine List.filter_congr ?_
    intro x hx
    rw [decide_eq_decide]
    rw [reapply_sa_eq t rI lI res m₀ x hx]
  rw [hfeq]
  cases hlast : ((threadLibInfoFor t rI lI).allFramesForThisLib.filter
      (fun x => decide
        (frameSymbolAddress t.frameTable t.nativeSymbols t.stringTable res x =
          a))).getLast? with
  | none => rfl
  | some fl =>
    have hfl := getLast_mem hlast
    have hflF : fl ∈ (threadLibInfoFor t rI lI).allFramesForThisLib :=
      (List.mem_filter.mp hfl).1
    have hfla : frameSymbolAddress t.frameTable t.nativeSymbols t.stringTable res fl = a :=
      of_decide_eq_true (List.mem_filter.mp hfl).2
    show some (frameSymbolName
        ((applyModel t (sliceStep t rI lI res) m₀).thread).frameTable
        ((applyModel t (sliceStep t rI lI res) m₀).thread).nativeSymbols
        ((applyModel t (sliceStep t rI lI res) m₀).thread).stringTable res fl) =
      some (frameSymbolName t.frameTable t.nativeSymbols t.stringTable res fl)
    cases hres : mget res (cget t.frameTable.address 0 fl) with
    | some r =>
      have hres' : mget res
          (cget ((applyModel t (sliceStep t rI lI res) m₀).thread).frameTable.address
            0 fl) = some r := hres
      rw [frameSymbolName_covered _ _ _ _ _ _ hres',
        frameSymbolName_covered _ _ _ _ _ _ hres]
    | none =>
      obtain ⟨nm, hnm, hval⟩ := reapply_name_unc t rI lI res m₀ fl hflF hres
      rw [hval]
      have hmap : mget (modelStA t (sliceStep t rI lI res)).symbolAddressToNameMap a =
          some (frameSymbolName t.frameTable t.nativeSymbols t.stringTable res fl) := by
        rw [h1, mget_foldl_mset_last, hlast]
      rw [hfla] at hnm
      exact hnm.symm.trans hmap

/-- Running Step A a second time on the first application's output thread
immediately re-claims, for every resolved symbol address, the canonical
symbol the first application assigned to it. -/
theorem reapply_stepA_replay (t : Thread) (rI lI : Nat) (res : List (Nat × AddressResult))
    (m₀ : List (Nat × Nat))
    (hwfFF : ∀ f, f < t.frameTable.length →
      cget t.frameTable.func 0 f < t.funcTable.length)
    (hwfFR : t.funcTable.resource.data.length = t.funcTable.length)
    (hwfNL : t.nativeSymbols.libIndex.data.length = t.nativeSymbols.length) :
    StepAReplayInv
      (jsSetOfList (collectNativeSymbolsForLib
        ((applyModel t (sliceStep t rI lI res) m₀).thread).nativeSymbols lI))
      (frameSymbolAddress t.frameTable t.nativeSymbols t.stringTable res)
      (fun a => (mget
        (modelStB t (sliceStep t rI lI res)).symbolAddressToCanonicalSymbolIndexMap
        a).getD 0)
      ((threadLibInfoFor t rI lI).allFramesForThisLib)
      (modelStA ((applyModel t (sliceStep t rI lI res) m₀).thread)
        (sliceStep ((applyModel t (sliceStep t rI lI res) m₀).thread) rI lI res)) := by
  have hframes := reapply_frames_eq t rI lI res m₀ hwfFF hwfFR
  have hcells := reapply_stB_cells t rI lI res
  have hlib : (modelStB t (sliceStep t rI lI res)).nativeSymbols.libIndex.data.length =
        (modelStB t (sliceStep t rI lI res)).nativeSymbols.length ∧
      (∀ i, i < t.nativeSymbols.length →
        cget (modelStB t (sliceStep t rI lI res)).nativeSymbols.libIndex 0 i =
          cget t.nativeSymbols.libIndex 0 i) ∧
      (∀ i, t.nativeSymbols.length ≤ i →
        i < (modelStB t (sliceStep t rI lI res)).nativeSymbols.length →
        cget (modelStB t (sliceStep t rI lI res)).nativeSymbols.libIndex 0 i = lI) :=
    stepB_libIndex _ _ _ hwfNL
  have hmono : t.nativeSymbols.length ≤
      (modelStB t (sliceStep t rI lI res)).nativeSymbols.length :=
    (stepB_effects (sliceStep t rI lI res).threadLibSymbolicationInfo.libIndex
      (modelStA t (sliceStep t rI lI res)).symbolAddressToNameMap
      ⟨(modelStA t (sliceStep t rI lI res)).availableNativeSymbols,
       shallowCloneNativeSymbolTable (freshRefBase t) t.nativeSymbols,
       (modelStA t (sliceStep t rI lI res)).symbolAddressToCanonicalSymbolIndexMap,
       t.stringTable⟩).2.2.2.1
  have hCmem : ∀ f ∈ (threadLibInfoFor t rI lI).allFramesForThisLib,
      ∀ c, mget (modelStB t (sliceStep t rI lI res)).symbolAddressToCanonicalSymbolIndexMap
        (frameSymbolAddress t.frameTable t.nativeSymbols t.stringTable res f) = some c →
      c ∈ collectNativeSymbolsForLib
        ((applyModel t (sliceStep t rI lI res) m₀).thread).nativeSymbols lI := by
    intro f hf c hc
    have hpm := mem_of_mget_eq_some hc
    have hclass := hcells.valsClass _ hpm
    show c ∈ collectNativeSymbolsForLib
      (modelStB t (sliceStep t rI lI res)).nativeSymbols lI
    rcases hclass with hcl | hcl
    · have hv' := mem_jsSetOfList hcl
      have hvlt : c < t.nativeSymbols.length :=
        List.mem_range.mp (List.mem_filter.mp hv').1
      have hvlib : cget t.nativeSymbols.libIndex 0 c = lI :=
        of_decide_eq_true (List.mem_filter.mp hv').2
      refine List.mem_filter.mpr
        ⟨List.mem_range.mpr (lt_of_lt_of_le hvlt hmono), ?_⟩
      exact decide_eq_true (by rw [hlib.2.1 c hvlt]; exact hvlib)
    · exact List.mem_filter.mpr
        ⟨List.mem_range.mpr hcl.2, decide_eq_true (hlib.2.2 c hcl.1 hcl.2)⟩
  have hsa2 : ∀ f ∈ (threadLibInfoFor ((applyModel t (sliceStep t rI lI res) m₀).thread)
      rI lI).allFramesForThisLib,
      frameSymbolAddress ((applyModel t (sliceStep t rI lI res) m₀).thread).frameTable
        ((applyModel t (sliceStep t rI lI res) m₀).thread).nativeSymbols
        ((applyModel t (sliceStep t rI lI res) m₀).thread).stringTable res f =
      frameSymbolAddress t.frameTable t.nativeSymbols t.stringTable res f := by
    intro f hf
    rw [hframes] at hf
    exact reapply_sa_eq t rI lI res m₀ f hf
  have hold2 : ∀ f ∈ (threadLibInfoFor ((applyModel t (sliceStep t rI lI res) m₀).thread)
      rI lI).allFramesForThisLib,
      cget ((applyModel t (sliceStep t rI lI res) m₀).thread).frameTable.nativeSymbol
        none f =
      some ((mget
        (modelStB t (sliceStep t rI lI res)).symbolAddressToCanonicalSymbolIndexMap
        (frameSymbolAddress t.frameTable t.nativeSymbols t.stringTable res f)).getD 0) := by
    intro f hf
    rw [hframes] at hf
    obtain ⟨c, nm, hc, hcol, -, -, -, -, -, -⟩ := reapply_canon_cells t rI lI res f hf
    have hcol' : cget
        ((applyModel t (sliceStep t rI lI res) m₀).thread).frameTable.nativeSymbol
        none f = some c := hcol
    rw [hcol', hc]
    rfl
  have hCin2 : ∀ f ∈ (threadLibInfoFor ((applyModel t (sliceStep t rI lI res) m₀).thread)
      rI lI).allFramesForThisLib,
      ((mget (modelStB t (sliceStep t rI lI res)).symbolAddressToCanonicalSymbolIndexMap
        (frameSymbolAddress t.frameTable t.nativeSymbols t.stringTable res f)).getD 0) ∈
      jsSetOfList (collectNativeSymbolsForLib
        ((applyModel t (sliceStep t rI lI res) m₀).thread).nativeSymbols lI) := by
    intro f hf
    rw [hframes] at hf
    obtain ⟨c, nm, hc, -, -, -, -, -, -, -⟩ := reapply_canon_cells t rI lI res f hf
    rw [hc]
    exact (mem_jsSetOfList_iff _ _).mpr (hCmem f hf c hc)
  have hinj2 : ∀ f ∈ (threadLibInfoFor ((applyModel t (sliceStep t rI lI res) m₀).thread)
      rI lI).allFramesForThisLib,
      ∀ g ∈ (threadLibInfoFor ((applyModel t (sliceStep t rI lI res) m₀).thread)
        rI lI).allFramesForThisLib,
      ((mget (modelStB t (sliceStep t rI lI res)).symbolAddressToCanonicalSymbolIndexMap
        (frameSymbolAddress t.frameTable t.nativeSymbols t.stringTable res f)).getD 0) =
      ((mget (modelStB t (sliceStep t rI lI res)).symbolAddressToCanonicalSymbolIndexMap
        (frameSymbolAddress t.frameTable t.nativeSymbols t.stringTable res g)).getD 0) →
      frameSymbolAddress t.frameTable t.nativeSymbols t.stringTable res f =
      frameSymbolAddress t.frameTable t.nativeSymbols t.stringTable res g := by
    intro f hf g hg heq
    rw [hframes] at hf hg
    obtain ⟨cf, nmf, hcf, -, -, -, -, -, -, -⟩ := reapply_canon_cells t rI lI res f hf
    obtain ⟨cg, nmg, hcg, -, -, -, -, -, -, -⟩ := reapply_canon_cells t rI lI res g hg
    rw [hcf, hcg] at heq
    have heq' : cf = cg := heq
    rw [heq'] at hcf
    exact mget_value_inj hcells.canonValsNodup hcf hcg
  have h0 : StepAReplayInv
      (jsSetOfList (collectNativeSymbolsForLib
        ((applyModel t (sliceStep t rI lI res) m₀).thread).nativeSymbols lI))
      (frameSymbolAddress t.frameTable t.nativeSymbols t.stringTable res)
      (fun a => (mget
        (modelStB t (sliceStep t rI lI res)).symbolAddressToCanonicalSymbolIndexMap
        a).getD 0)
      []
      ⟨jsSetOfList (collectNativeSymbolsForLib
        ((applyModel t (sliceStep t rI lI res) m₀).thread).nativeSymbols lI),
       [], [], []⟩ := by
    refine ⟨rfl, ?_, jsSetOfList_nodup _⟩
    intro v
    constructor
    · intro hv
      refine ⟨hv, ?_⟩
      intro a ha
      exact absurd (mem_jsSetOfList ha) (List.not_mem_nil a)
    · intro hv
      exact hv.1
  have h := stepA_replay_fold
    ((applyModel t (sliceStep t rI lI res) m₀).thread).frameTable
    ((applyModel t (sliceStep t rI lI res) m₀).thread).nativeSymbols
    ((applyModel t (sliceStep t rI lI res) m₀).thread).stringTable res
    (jsSetOfList (collectNativeSymbolsForLib
      ((applyModel t (sliceStep t rI lI res) m₀).thread).nativeSymbols lI))
    (frameSymbolAddress t.frameTable t.nativeSymbols t.stringTable res)
    (fun a => (mget
      (modelStB t (sliceStep t rI lI res)).symbolAddressToCanonicalSymbolIndexMap
      a).getD 0)
    ((threadLibInfoFor ((applyModel t (sliceStep t rI lI res) m₀).thread)
      rI lI).allFramesForThisLib)
    []
    ⟨jsSetOfList (collectNativeSymbolsForLib
      ((applyModel t (sliceStep t rI lI res) m₀).thread).nativeSymbols lI),
     [], [], []⟩
    hsa2 hold2 hCin2 (fun f hf a ha => absurd ha (List.not_mem_nil a)) hinj2 h0
  rw [List.nil_append, hframes] at h
  have hstA : modelStA ((applyModel t (sliceStep t rI lI res) m₀).thread)
      (sliceStep ((applyModel t (sliceStep t rI lI res) m₀).thread) rI lI res) =
      ((threadLibInfoFor t rI lI).allFramesForThisLib).foldl
        (stepAFrame ((applyModel t (sliceStep t rI lI res) m₀).thread).frameTable
          ((applyModel t (sliceStep t rI lI res) m₀).thread).nativeSymbols
          ((applyModel t (sliceStep t rI lI res) m₀).thread).stringTable res)
        ⟨jsSetOfList (collectNativeSymbolsForLib
          ((applyModel t (sliceStep t rI lI res) m₀).thread).nativeSymbols lI),
         [], [], []⟩ := by
    show ((threadLibInfoFor ((applyModel t (sliceStep t rI lI res) m₀).thread)
        rI lI).allFramesForThisLib).foldl
        (stepAFrame ((applyModel t (sliceStep t rI lI res) m₀).thread).frameTable
          ((applyModel t (sliceStep t rI lI res) m₀).thread).nativeSymbols
          ((applyModel t (sliceStep t rI lI res) m₀).thread).stringTable res)
        ⟨jsSetOfList (collectNativeSymbolsForLib
          ((applyModel t (sliceStep t rI lI res) m₀).thread).nativeSymbols lI),
         [], [], []⟩ = _
    rw [hframes]
  rw [hstA]
  exact h

/-- Running the canonical-symbol loop a second time on the first
application's output thread is a fixpoint: every resolved symbol address
hits its canonical row, and every write is an identity write. -/
theorem reapply_stB_fix (t : Thread) (rI lI : Nat) (res : List (Nat × AddressResult))
    (m₀ : List (Nat × Nat))
    (hwfFF : ∀ f, f < t.frameTable.length →
      cget t.frameTable.func 0 f < t.funcTable.length)
    (hwfFR : t.funcTable.resource.data.length = t.funcTable.length)
    (hwfNL : t.nativeSymbols.libIndex.data.length = t.nativeSymbols.length) :
    modelStB ((applyModel t (sliceStep t rI lI res) m₀).thread)
      (sliceStep ((applyModel t (sliceStep t rI lI res) m₀).thread) rI lI res) =
    ⟨(modelStA ((applyModel t (sliceStep t rI lI res) m₀).thread)
        (sliceStep ((applyModel t (sliceStep t rI lI res) m₀).thread)
          rI lI res)).availableNativeSymbols,
     shallowCloneNativeSymbolTable
       (freshRefBase ((applyModel t (sliceStep t rI lI res) m₀).thread))
       ((applyModel t (sliceStep t rI lI res) m₀).thread).nativeSymbols,
     (modelStA ((applyModel t (sliceStep t rI lI res) m₀).thread)
        (sliceStep ((applyModel t (sliceStep t rI lI res) m₀).thread)
          rI lI res)).symbolAddressToCanonicalSymbolIndexMap,
     ((applyModel t (sliceStep t rI lI res) m₀).thread).stringTable⟩ := by
  have hreplay := reapply_stepA_replay t rI lI res m₀ hwfFF hwfFR hwfNL
  have hcells := reapply_stB_cells t rI lI res
  have hext : strExt (modelStB t (sliceStep t rI lI res)).stringTable
      (modelStD t (sliceStep t rI lI res)).stringTable :=
    (stepD_foldl_effects t.frameTable (modelStB t (sliceStep t rI lI res)).nativeSymbols
      res (threadLibInfoFor t rI lI).resourceIndex (modelNsCol t (sliceStep t rI lI res))
      (threadLibInfoFor t rI lI).allFramesForThisLib
      (modelStD0 t (sliceStep t rI lI res))).2.2.2.2.2.2.2.2.2.2
  have hnd2 : (mkeys (modelStA ((applyModel t (sliceStep t rI lI res) m₀).thread)
      (sliceStep ((applyModel t (sliceStep t rI lI res) m₀).thread)
        rI lI res)).symbolAddressToNameMap).Nodup :=
    (stepA_inv ((applyModel t (sliceStep t rI lI res) m₀).thread).frameTable
      ((applyModel t (sliceStep t rI lI res) m₀).thread).nativeSymbols
      ((applyModel t (sliceStep t rI lI res) m₀).thread).stringTable res
      (sliceStep ((applyModel t (sliceStep t rI lI res) m₀).thread)
        rI lI res).threadLibSymbolicationInfo.allFramesForThisLib
      (jsSetOfList (sliceStep ((applyModel t (sliceStep t rI lI res) m₀).thread)
        rI lI res).threadLibSymbolicationInfo.allNativeSymbolsForThisLib)).nameKeysNodup
  refine stepB_fixpoint _ _ _ ?_
  intro e he
  obtain ⟨a, nm⟩ := e
  have hget2 : mget (modelStA ((applyModel t (sliceStep t rI lI res) m₀).thread)
      (sliceStep ((applyModel t (sliceStep t rI lI res) m₀).thread)
        rI lI res)).symbolAddressToNameMap a = some nm :=
    mget_eq_some_of_mem_of_nodup he hnd2
  have hget1 : mget (modelStA t (sliceStep t rI lI res)).symbolAddressToNameMap a =
      some nm := by
    rw [← reapply_sa2name_get t rI lI res m₀ hwfFF hwfFR a]
    exact hget2
  have hmem1 : (a, nm) ∈ (modelStA t (sliceStep t rI lI res)).symbolAddressToNameMap :=
    mem_of_mget_eq_some hget1
  obtain ⟨c, hc, haddr, hal, hname, hnl, hmemS⟩ := hcells.cells _ hmem1
  have hamem : a ∈ mkeys (modelStA t (sliceStep t rI lI res)).symbolAddressToNameMap :=
    (mget_isSome_iff_mem_mkeys _ _).mp (by rw [hget1]; rfl)
  have hkeys : mkeys (modelStA t (sliceStep t rI lI res)).symbolAddressToNameMap =
      jsSetOfList ((threadLibInfoFor t rI lI).allFramesForThisLib.map
        (frameSymbolAddress t.frameTable t.nativeSymbols t.stringTable res)) :=
    stepA_sa2name_keys _ _ _ _ _ _
  have hamem' : a ∈ jsSetOfList ((threadLibInfoFor t rI lI).allFramesForThisLib.map
      (frameSymbolAddress t.frameTable t.nativeSymbols t.stringTable res)) := by
    rw [← hkeys]
    exact hamem
  have hcanon2 : mget (modelStA ((applyModel t (sliceStep t rI lI res) m₀).thread)
      (sliceStep ((applyModel t (sliceStep t rI lI res) m₀).thread)
        rI lI res)).symbolAddressToCanonicalSymbolIndexMap a = some c := by
    rw [hreplay.canonEq, mget_map_pair, if_pos hamem', hc]
    rfl
  refine ⟨c, hcanon2, ?_, ?_, ?_, ?_, ?_⟩
  · show cget (modelStB t (sliceStep t rI lI res)).nativeSymbols.address 0 c = a
    exact haddr
  · show c < (modelStB t (sliceStep t rI lI res)).nativeSymbols.address.data.length
    exact hal
  · show cget (modelStB t (sliceStep t rI lI res)).nativeSymbols.name 0 c =
      stIdx (modelStD t (sliceStep t rI lI res)).stringTable nm
    rw [stIdx_ext _ _ _ hext hmemS]
    exact hname
  · show c < (modelStB t (sliceStep t rI lI res)).nativeSymbols.name.data.length
    exact hnl
  · show nm ∈ (modelStD t (sliceStep t rI lI res)).stringTable.strings
    exact strExt_mem hext hmemS

/-- The second application's canonical-symbol loop appends no native-symbol
row: the native-symbol table lengths after the two applications agree. -/
theorem reapply_ns_len (t : Thread) (rI lI : Nat) (res : List (Nat × AddressResult))
    (m₀ : List (Nat × Nat))
    (hwfFF : ∀ f, f < t.frameTable.length →
      cget t.frameTable.func 0 f < t.funcTable.length)
    (hwfFR : t.funcTable.resource.data.length = t.funcTable.length)
    (hwfNL : t.nativeSymbols.libIndex.data.length = t.nativeSymbols.length) :
    (modelStB ((applyModel t (sliceStep t rI lI res) m₀).thread)
      (sliceStep ((applyModel t (sliceStep t rI lI res) m₀).thread)
        rI lI res)).nativeSymbols.length =
    (modelStB t (sliceStep t rI lI res)).nativeSymbols.length := by
  rw [reapply_stB_fix t rI lI res m₀ hwfFF hwfFR hwfNL]
  rfl

/-- The funcs collected for the library resource on the first application's
output thread are exactly the originally collected funcs followed by the
newly appended rows, in index order. -/
theorem reapply_funcs_eq (t : Thread) (rI lI : Nat) (res : List (Nat × AddressResult))
    (hwfFR : t.funcTable.resource.data.length = t.funcTable.length) :
    collectFuncsForResource (modelStD t (sliceStep t rI lI res)).funcTable rI =
      collectFuncsForResource t.funcTable rI ++
        List.range' t.funcTable.length
          ((modelStD t (sliceStep t rI lI res)).funcTable.length -
            t.funcTable.length) := by
  have hstab : (modelStD t (sliceStep t rI lI res)).funcTable.resource.data.length =
        (modelStD t (sliceStep t rI lI res)).funcTable.length ∧
      (∀ i, i < t.funcTable.length →
        cget (modelStD t (sliceStep t rI lI res)).funcTable.resource (-1) i =
          cget t.funcTable.resource (-1) i) ∧
      (∀ i, t.funcTable.length ≤ i →
        i < (modelStD t (sliceStep t rI lI res)).funcTable.length →
        cget (modelStD t (sliceStep t rI lI res)).funcTable.resource (-1) i =
          (rI : Int)) :=
    stepD_resource _ _ _ _ _ _ (modelStD0 t (sliceStep t rI lI res)) hwfFR
  have hmono : t.funcTable.length ≤ (modelStD t (sliceStep t rI lI res)).funcTable.length :=
    (stepD_foldl_effects t.frameTable (modelStB t (sliceStep t rI lI res)).nativeSymbols
      res (threadLibInfoFor t rI lI).resourceIndex (modelNsCol t (sliceStep t rI lI res))
      (threadLibInfoFor t rI lI).allFramesForThisLib
      (modelStD0 t (sliceStep t rI lI res))).2.2.2.2.2.2.2.2.2.1
  rw [collectFuncsForResource, collectFuncsForResource]
  set P := (modelStD t (sliceStep t rI lI res)).funcTable.length - t.funcTable.length
    with hP
  have hX : (modelStD t (sliceStep t rI lI res)).funcTable.length =
      t.funcTable.length + P := by omega
  rw [hX, List.range_add, List.filter_append]
  congr 1
  · refine List.filter_congr ?_
    intro x hx
    have hxlt : x < t.funcTable.length := List.mem_range.mp hx
    rw [decide_eq_decide]
    rw [hstab.2.1 x hxlt]
  · rw [show (List.range P).map (fun x => t.funcTable.length + x) =
      List.range' t.funcTable.length P from (List.range'_eq_map_range _ _).symm]
    refine List.filter_eq_self.mpr ?_
    intro x hx
    have h1 := (List.mem_range'_1.mp hx).1
    have h2 := (List.mem_range'_1.mp hx).2
    refine decide_eq_true ?_
    refine hstab.2.2 x h1 ?_
    omega

/-- The available-func set the second application starts from, as a plain
list: the original funcs of the resource followed by the appended rows. -/
theorem reapply_avail_eq (t : Thread) (rI lI : Nat) (res : List (Nat × AddressResult))
    (hwfFR : t.funcTable.resource.data.length = t.funcTable.length) :
    jsSetOfList (collectFuncsForResource
      (modelStD t (sliceStep t rI lI res)).funcTable rI) =
      collectFuncsForResource t.funcTable rI ++
        List.range' t.funcTable.length
          ((modelStD t (sliceStep t rI lI res)).funcTable.length -
            t.funcTable.length) := by
  rw [reapply_funcs_eq t rI lI res hwfFR]
  refine jsSetOfList_eq_self _ ?_
  refine List.Nodup.append (collectFuncs_nodup _ _) (List.nodup_range' _ _) ?_
  intro x hx hc
  have hxlt : x < t.funcTable.length := List.mem_range.mp (List.mem_filter.mp hx).1
  have := (List.mem_range'_1.mp hc).1
  omega

/-- Running the func-grouping loop a second time over the first
application's logged frames replays it exactly: every frame resolves to its
logged key, reuses its logged func (drawn from the key map or from the
available iterator in lock step with the first run), and performs only
identity writes. -/
theorem stepD_replay_fold (oldFt : FrameTable) (ns : NativeSymbolTable)
    (res : List (Nat × AddressResult)) (rI : Nat) (nsCol : Col (Option Nat))
    (S : StringTable) (T : FuncTable) (avail : List Nat) (log : List FuncResolution)
    (hQ : ∀ e1 ∈ log, ∀ e2 ∈ log,
      funcKeyFor e1.nameStringIndex e1.fileNameStringIndex =
        funcKeyFor e2.nameStringIndex e2.fileNameStringIndex →
      e1.funcIndex = e2.funcIndex)
    (hB : ∀ e ∈ log,
      mget (keyFold log) (funcKeyFor e.nameStringIndex e.fileNameStringIndex) =
        some e.funcIndex)
    (hTake : (keyFold log).map Prod.snd = avail.take (keyFold log).length)
    (hLen : (keyFold log).length ≤ avail.length)
    (hRes : ∀ e ∈ log, ∀ st : StepDState, st.stringTable = S →
      st.funcTable.fileName.data = T.fileName.data →
      ∃ c, cget nsCol none e.frameIndex = some c ∧
        ∃ ar, (match mget res (cget oldFt.address 0 e.frameIndex) with
            | some r => r
            | none =>
              { symbolAddress := cget ns.address 0 c
                name := getString st.stringTable (cget ns.name 0 c)
                file := (cget st.funcTable.fileName none
                  (cget oldFt.func 0 e.frameIndex)).map (getString st.stringTable)
                line := cget oldFt.line none e.frameIndex : AddressResult }) = ar ∧
          (indexForString st.stringTable ar.name).1 = e.nameStringIndex ∧
          (match ar.file with
            | some fl =>
              some (indexForString (indexForString st.stringTable ar.name).2 fl).1
            | none => none) = e.fileNameStringIndex ∧
          (match ar.file with
            | some fl => (indexForString (indexForString st.stringTable ar.name).2 fl).2
            | none => (indexForString st.stringTable ar.name).2) = S)
    (hCells : ∀ e ∈ log,
      T.name.data.getD e.funcIndex 0 = e.nameStringIndex ∧
      e.funcIndex < T.name.data.length ∧
      T.fileName.data.getD e.funcIndex none = e.fileNameStringIndex ∧
      e.funcIndex < T.fileName.data.length) :
    ∀ (rest done : List FuncResolution), log = done ++ rest →
      ∀ st : StepDState, StepDReplayInv S T avail done st →
      StepDReplayInv S T avail log
        ((rest.map (fun x => x.frameIndex)).foldl
          (stepDPureFrame oldFt ns res rI nsCol) st) := by
  intro rest
  induction rest with
  | nil =>
    intro done hlog st hinv
    rw [hlog, List.append_nil]
    exact hinv
  | cons e rest' ih =>
    intro done hlog st hinv
    have hel : e ∈ log := by
      rw [hlog]
      exact List.mem_append_right _ (List.mem_cons_self _ _)
    obtain ⟨c, hc, ar, har, hnm, hfo', hsb'⟩ := hRes e hel st hinv.strings hinv.fileData
    have hspec := stepDPureFrame_spec oldFt ns res rI nsCol st e.frameIndex c ar
      e.nameStringIndex e.fileNameStringIndex S hc har hnm.symm hfo'.symm hsb'.symm
    have hQlog : ∀ e1 ∈ done ++ e :: rest', ∀ e2 ∈ done ++ e :: rest',
        funcKeyFor e1.nameStringIndex e1.fileNameStringIndex =
          funcKeyFor e2.nameStringIndex e2.fileNameStringIndex →
        e1.funcIndex = e2.funcIndex := by
      rw [← hlog]
      exact hQ
    have hlog2 : log = (done ++ [e]) ++ rest' := by
      rw [hlog]
      simp
    obtain ⟨hc1, hc2, hc3, hc4⟩ := hCells e hel
    rcases hspec with ⟨fi, hfi, heq⟩ | ⟨fi, restIter, hnone, hiter, heq⟩ | ⟨hnone, hiter, heq⟩
    · have hfald : mget (keyFold log)
          (funcKeyFor e.nameStringIndex e.fileNameStringIndex) = some fi := by
        rw [hlog]
        refine keyFold_consistent_sub done (e :: rest') hQlog _ fi ?_
        rw [← hinv.mapEq]
        exact hfi
      have hfie : fi = e.funcIndex := Option.some.inj (hfald.symm.trans (hB e hel))
      have hfi2 := hfi
      rw [hinv.mapEq, hfie] at hfi2
      have hinv' : StepDReplayInv S T avail (done ++ [e])
          (stepDPureFrame oldFt ns res rI nsCol st e.frameIndex) := by
        rw [heq]
        refine ⟨rfl, ?_, ?_, ?_, ?_, ?_⟩
        · exact hinv.nameData
        · exact hinv.fileData
        · exact hinv.flen
        · show st.funcKeyToFuncMap = keyFold (done ++ [e])
          rw [keyFold_append, mset_self _ _ _ hfi2]
          exact hinv.mapEq
        · show st.availableFuncIter = avail.drop (keyFold (done ++ [e])).length
          rw [keyFold_append, mset_self _ _ _ hfi2]
          exact hinv.iterEq
      rw [List.map_cons, List.foldl_cons]
      exact ih (done ++ [e]) hlog2 _ hinv'
    · have hnone' : mget (keyFold done)
          (funcKeyFor e.nameStringIndex e.fileNameStringIndex) = none := by
        rw [← hinv.mapEq]
        exact hnone
      have hktake : keyFold done = (keyFold log).take (keyFold done).length := by
        rw [hlog]
        exact keyFold_take_eq done (e :: rest') hQlog
      have hksucc : keyFold (done ++ [e]) = keyFold done ++
          [(funcKeyFor e.nameStringIndex e.fileNameStringIndex, e.funcIndex)] := by
        rw [keyFold_append,
          mset_append_not_mem _ _ _ ((mget_eq_none_iff_not_mem_mkeys _ _).mp hnone')]
      have hlen1 : (keyFold (done ++ [e])).length = (keyFold done).length + 1 := by
        rw [hksucc, List.length_append, List.length_singleton]
      have hktake2 : keyFold (done ++ [e]) =
          (keyFold log).take ((keyFold done).length + 1) := by
        rw [← hlen1, hlog2]
        exact keyFold_take_eq (done ++ [e]) rest' (by rw [← hlog2]; exact hQ)
      have hklt : (keyFold done).length < (keyFold log).length := by
        by_contra hge
        push_neg at hge
        have htk : (keyFold log).take ((keyFold done).length + 1) = keyFold log :=
          List.take_of_length_le (by omega)
        have h2 := congrArg List.length hktake2
        rw [htk, hlen1] at h2
        omega
      have hoptk : (keyFold log)[(keyFold done).length]? =
          some (funcKeyFor e.nameStringIndex e.fileNameStringIndex, e.funcIndex) := by
        have hts : (keyFold log).take ((keyFold done).length + 1) =
            (keyFold log).take (keyFold done).length ++
              ((keyFold log)[(keyFold done).length]?).toList := List.take_succ
        rw [← hktake2, ← hktake, hksucc] at hts
        have hcc := List.append_cancel_left hts
        cases hopt : (keyFold log)[(keyFold done).length]? with
        | none =>
          rw [hopt] at hcc
          exact absurd hcc (by simp)
        | some p =>
          rw [hopt] at hcc
          have hp : (funcKeyFor e.nameStringIndex e.fileNameStringIndex, e.funcIndex) =
              p := by
            simpa using hcc
          rw [hp]
      have havailk : avail[(keyFold done).length]? = some e.funcIndex := by
        have h1 : ((keyFold log).map Prod.snd)[(keyFold done).length]? =
            some e.funcIndex := by
          rw [List.getElem?_map, hoptk]
          rfl
        rw [hTake] at h1
        have h2 : (avail.take (keyFold log).length)[(keyFold done).length]? =
            avail[(keyFold done).length]? := by
          rw [List.getElem?_take]
          rw [if_pos hklt]
        rw [h2] at h1
        exact h1
      have hkltA : (keyFold done).length < avail.length := lt_of_lt_of_le hklt hLen
      have hdrop : avail.drop (keyFold done).length =
          e.funcIndex :: avail.drop ((keyFold done).length + 1) := by
        have h1 : avail[(keyFold done).length] ::
            avail.drop ((keyFold done).length + 1) =
            avail.drop (keyFold done).length :=
          List.getElem_cons_drop avail _ hkltA
        have h2 : avail[(keyFold done).length] = e.funcIndex := by
          have h3 : avail[(keyFold done).length]? =
              some avail[(keyFold done).length] :=
            List.getElem?_eq_getElem hkltA
          rw [havailk] at h3
          exact (Option.some.inj h3).symm
        rw [← h1, h2]
      have hfirst : fi :: restIter =
          e.funcIndex :: avail.drop ((keyFold done).length + 1) := by
        rw [← hiter, hinv.iterEq, hdrop]
      have hfie : fi = e.funcIndex := (List.cons.inj hfirst).1
      have hrest : restIter = avail.drop ((keyFold done).length + 1) :=
        (List.cons.inj hfirst).2
      have hinv' : StepDReplayInv S T avail (done ++ [e])
          (stepDPureFrame oldFt ns res rI nsCol st e.frameIndex) := by
        rw [heq]
        refine ⟨rfl, ?_, ?_, ?_, ?_, ?_⟩
        · have hb : fi < st.funcTable.name.data.length := by
            rw [hfie, hinv.nameData]
            exact hc2
          have hv : cget st.funcTable.name 0 fi = e.nameStringIndex := by
            rw [hfie]
            show st.funcTable.name.data.getD e.funcIndex 0 = e.nameStringIndex
            rw [hinv.nameData]
            exact hc1
          rw [cset_id _ _ _ _ hb hv]
          exact hinv.nameData
        · have hb : fi < st.funcTable.fileName.data.length := by
            rw [hfie, hinv.fileData]
            exact hc4
          have hv : cget st.funcTable.fileName none fi = e.fileNameStringIndex := by
            rw [hfie]
            show st.funcTable.fileName.data.getD e.funcIndex none = e.fileNameStringIndex
            rw [hinv.fileData]
            exact hc3
          rw [cset_id _ _ _ _ hb hv]
          exact hinv.fileData
        · exact hinv.flen
        · show mset st.funcKeyToFuncMap
            (funcKeyFor e.nameStringIndex e.fileNameStringIndex) fi =
            keyFold (done ++ [e])
          rw [hinv.mapEq, hfie, hksucc,
            mset_append_not_mem _ _ _ ((mget_eq_none_iff_not_mem_mkeys _ _).mp hnone')]
        · show restIter = avail.drop (keyFold (done ++ [e])).length
          rw [hlen1]
          exact hrest
      rw [List.map_cons, List.foldl_cons]
      exact ih (done ++ [e]) hlog2 _ hinv'
    · have hnone' : mget (keyFold done)
          (funcKeyFor e.nameStringIndex e.fileNameStringIndex) = none := by
        rw [← hinv.mapEq]
        exact hnone
      have hktake : keyFold done = (keyFold log).take (keyFold done).length := by
        rw [hlog]
        exact keyFold_take_eq done (e :: rest') hQlog
      have hksucc : keyFold (done ++ [e]) = keyFold done ++
          [(funcKeyFor e.nameStringIndex e.fileNameStringIndex, e.funcIndex)] := by
        rw [keyFold_append,
          mset_append_not_mem _ _ _ ((mget_eq_none_iff_not_mem_mkeys _ _).mp hnone')]
      have hlen1 : (keyFold (done ++ [e])).length = (keyFold done).length + 1 := by
        rw [hksucc, List.length_append, List.length_singleton]
      have hktake2 : keyFold (done ++ [e]) =
          (keyFold log).take ((keyFold done).length + 1) := by
        rw [← hlen1, hlog2]
        exact keyFold_take_eq (done ++ [e]) rest' (by rw [← hlog2]; exact hQ)
      have hklt : (keyFold done).length < (keyFold log).length := by
        by_contra hge
        push_neg at hge
        have htk : (keyFold log).take ((keyFold done).length + 1) = keyFold log :=
          List.take_of_length_le (by omega)
        have h2 := congrArg List.length hktake2
        rw [htk, hlen1] at h2
        omega
      have hnil : avail.drop (keyFold done).length = [] := by
        rw [← hinv.iterEq]
        exact hiter
      have hle2 : avail.length ≤ (keyFold done).length := List.drop_eq_nil_iff.mp hnil
      exact absurd hklt (by omega)

/-- Re-processing a logged frame in the second application's func-grouping
loop recomputes exactly the logged name and file-name string indices and
leaves the string table unchanged. -/
theorem reapply_entry_spec (t : Thread) (rI lI : Nat) (res : List (Nat × AddressResult))
    (m₀ : List (Nat × Nat))
    (hwfFF : ∀ f, f < t.frameTable.length →
      cget t.frameTable.func 0 f < t.funcTable.length)
    (hwfFR : t.funcTable.resource.data.length = t.funcTable.length)
    (hwfNL : t.nativeSymbols.libIndex.data.length = t.nativeSymbols.length) :
    ∀ e ∈ (modelStD t (sliceStep t rI lI res)).funcResolutionLog, ∀ st : StepDState,
      st.stringTable = (modelStD t (sliceStep t rI lI res)).stringTable →
      st.funcTable.fileName.data =
        (modelStD t (sliceStep t rI lI res)).funcTable.fileName.data →
      ∃ c, cget (modelNsCol ((applyModel t (sliceStep t rI lI res) m₀).thread)
          (sliceStep ((applyModel t (sliceStep t rI lI res) m₀).thread) rI lI res))
          none e.frameIndex = some c ∧
        ∃ ar, (match mget res
            (cget ((applyModel t (sliceStep t rI lI res) m₀).thread).frameTable.address
              0 e.frameIndex) with
          | some r => r
          | none =>
            { symbolAddress := cget (modelStB
                ((applyModel t (sliceStep t rI lI res) m₀).thread)
                (sliceStep ((applyModel t (sliceStep t rI lI res) m₀).thread)
                  rI lI res)).nativeSymbols.address 0 c
              name := getString st.stringTable
                (cget (modelStB ((applyModel t (sliceStep t rI lI res) m₀).thread)
                  (sliceStep ((applyModel t (sliceStep t rI lI res) m₀).thread)
                    rI lI res)).nativeSymbols.name 0 c)
              file := (cget st.funcTable.fileName none
                (cget ((applyModel t (sliceStep t rI lI res) m₀).thread).frameTable.func
                  0 e.frameIndex)).map (getString st.stringTable)
              line := cget
                ((applyModel t (sliceStep t rI lI res) m₀).thread).frameTable.line
                none e.frameIndex : AddressResult }) = ar ∧
          (indexForString st.stringTable ar.name).1 = e.nameStringIndex ∧
          (match ar.file with
            | some fl =>
              some (indexForString (indexForString st.stringTable ar.name).2 fl).1
            | none => none) = e.fileNameStringIndex ∧
          (match ar.file with
            | some fl => (indexForString (indexForString st.stringTable ar.name).2 fl).2
            | none => (indexForString st.stringTable ar.name).2) =
            (modelStD t (sliceStep t rI lI res)).stringTable := by
  intro e hel st hS hFD
  have hcellsD := reapply_stD_cells t rI lI res
  have hnd : (sliceStep t rI lI res).threadLibSymbolicationInfo.allFramesForThisLib.Nodup :=
    collectFrames_nodup t.frameTable t.funcTable rI
  have hinv₁ := modelStD_inv t (sliceStep t rI lI res) hnd
  have hframes := reapply_frames_eq t rI lI res m₀ hwfFF hwfFR
  have hfmem : e.frameIndex ∈ (threadLibInfoFor t rI lI).allFramesForThisLib := by
    have hx : e.frameIndex ∈ (modelStD t (sliceStep t rI lI res)).funcResolutionLog.map
        (fun x => x.frameIndex) := List.mem_map_of_mem _ hel
    rw [hinv₁.logFrames] at hx
    exact hx
  have hf₂ : e.frameIndex ∈ (sliceStep ((applyModel t (sliceStep t rI lI res) m₀).thread)
      rI lI res).threadLibSymbolicationInfo.allFramesForThisLib := by
    show e.frameIndex ∈ (threadLibInfoFor ((applyModel t (sliceStep t rI lI res) m₀).thread)
      rI lI).allFramesForThisLib
    rw [hframes]
    exact hfmem
  obtain ⟨si, hsiC2, hcol2⟩ := modelNsCol_get ((applyModel t (sliceStep t rI lI res) m₀).thread)
    (sliceStep ((applyModel t (sliceStep t rI lI res) m₀).thread) rI lI res)
    e.frameIndex hf₂
  refine ⟨si, hcol2, ?_⟩
  cases hres : mget res (cget t.frameTable.address 0 e.frameIndex) with
  | some r =>
    have hres' : mget res
        (cget ((applyModel t (sliceStep t rI lI res) m₀).thread).frameTable.address
          0 e.frameIndex) = some r := hres
    obtain ⟨hni, hnmem, hfi, hfmemS⟩ := hcellsD.resCov e hel r hres
    refine ⟨r, by rw [hres'], ?_, ?_, ?_⟩
    · show (indexForString st.stringTable r.name).1 = e.nameStringIndex
      rw [hS, indexForString_of_mem _ _ hnmem]
      exact hni.symm
    · cases hrf : r.file with
      | none =>
        rw [hfi, hrf]
        rfl
      | some fl =>
        show some (indexForString (indexForString st.stringTable r.name).2 fl).1 =
          e.fileNameStringIndex
        rw [hS, indexForString_of_mem _ _ hnmem]
        show some (indexForString (modelStD t (sliceStep t rI lI res)).stringTable fl).1 =
          e.fileNameStringIndex
        rw [indexForString_of_mem _ _ (hfmemS fl hrf), hfi, hrf]
        rfl
    · cases hrf : r.file with
      | none =>
        show (indexForString st.stringTable r.name).2 =
          (modelStD t (sliceStep t rI lI res)).stringTable
        rw [hS, indexForString_of_mem _ _ hnmem]
      | some fl =>
        show (indexForString (indexForString st.stringTable r.name).2 fl).2 =
          (modelStD t (sliceStep t rI lI res)).stringTable
        rw [hS, indexForString_of_mem _ _ hnmem]
        show (indexForString (modelStD t (sliceStep t rI lI res)).stringTable fl).2 =
          (modelStD t (sliceStep t rI lI res)).stringTable
        rw [indexForString_of_mem _ _ (hfmemS fl hrf)]
  | none =>
    have hres' : mget res
        (cget ((applyModel t (sliceStep t rI lI res) m₀).thread).frameTable.address
          0 e.frameIndex) = none := hres
    obtain ⟨c₁, nm, hc₁, hcol₁, hnm₁, haddr₁, hal₁, hname₁, hnl₁, hmemB⟩ :=
      reapply_canon_cells t rI lI res e.frameIndex hfmem
    have hreplay := reapply_stepA_replay t rI lI res m₀ hwfFF hwfFR hwfNL
    have hfix := reapply_stB_fix t rI lI res m₀ hwfFF hwfFR hwfNL
    have hext : strExt (modelStB t (sliceStep t rI lI res)).stringTable
        (modelStD t (sliceStep t rI lI res)).stringTable :=
      (stepD_foldl_effects t.frameTable (modelStB t (sliceStep t rI lI res)).nativeSymbols
        res (threadLibInfoFor t rI lI).resourceIndex (modelNsCol t (sliceStep t rI lI res))
        (threadLibInfoFor t rI lI).allFramesForThisLib
        (modelStD0 t (sliceStep t rI lI res))).2.2.2.2.2.2.2.2.2.2
    have hmemS2 : nm ∈ (modelStD t (sliceStep t rI lI res)).stringTable.strings :=
      strExt_mem hext hmemB
    have hkeys : mkeys (modelStA t (sliceStep t rI lI res)).symbolAddressToNameMap =
        jsSetOfList ((threadLibInfoFor t rI lI).allFramesForThisLib.map
          (frameSymbolAddress t.frameTable t.nativeSymbols t.stringTable res)) :=
      stepA_sa2name_keys _ _ _ _ _ _
    have hsamem : frameSymbolAddress t.frameTable t.nativeSymbols t.stringTable res
        e.frameIndex ∈
        mkeys (modelStA t (sliceStep t rI lI res)).symbolAddressToNameMap :=
      stepA_sa2name_mem _ _ _ _ _ _ e.frameIndex hfmem
    rw [hkeys] at hsamem
    have hcanonA2 : mget (modelStA ((applyModel t (sliceStep t rI lI res) m₀).thread)
        (sliceStep ((applyModel t (sliceStep t rI lI res) m₀).thread)
          rI lI res)).symbolAddressToCanonicalSymbolIndexMap
        (frameSymbolAddress t.frameTable t.nativeSymbols t.stringTable res e.frameIndex) =
        some c₁ := by
      rw [hreplay.canonEq, mget_map_pair, if_pos hsamem, hc₁]
      rfl
    have hsiC2' : mget (modelStA ((applyModel t (sliceStep t rI lI res) m₀).thread)
        (sliceStep ((applyModel t (sliceStep t rI lI res) m₀).thread)
          rI lI res)).symbolAddressToCanonicalSymbolIndexMap
        (frameSymbolAddress t.frameTable t.nativeSymbols t.stringTable res e.frameIndex) =
        some si := by
      have hx : mget (modelStB ((applyModel t (sliceStep t rI lI res) m₀).thread)
          (sliceStep ((applyModel t (sliceStep t rI lI res) m₀).thread)
            rI lI res)).symbolAddressToCanonicalSymbolIndexMap
          (frameSymbolAddress
            ((applyModel t (sliceStep t rI lI res) m₀).thread).frameTable
            ((applyModel t (sliceStep t rI lI res) m₀).thread).nativeSymbols
            ((applyModel t (sliceStep t rI lI res) m₀).thread).stringTable res
            e.frameIndex) = some si := hsiC2
      rw [hfix, reapply_sa_eq t rI lI res m₀ e.frameIndex hfmem] at hx
      exact hx
    have hcsi : c₁ = si := Option.some.inj (hcanonA2.symm.trans hsiC2')
    subst hcsi
    have hnv : cget (modelStB ((applyModel t (sliceStep t rI lI res) m₀).thread)
        (sliceStep ((applyModel t (sliceStep t rI lI res) m₀).thread)
          rI lI res)).nativeSymbols.name 0 c₁ =
        stIdx (modelStB t (sliceStep t rI lI res)).stringTable nm := by
      rw [hfix]
      exact hname₁
    have hnameval : getString st.stringTable
        (cget (modelStB ((applyModel t (sliceStep t rI lI res) m₀).thread)
          (sliceStep ((applyModel t (sliceStep t rI lI res) m₀).thread)
            rI lI res)).nativeSymbols.name 0 c₁) = nm := by
      rw [hnv, hS]
      show getString (modelStD t (sliceStep t rI lI res)).stringTable
        (stIdx (modelStB t (sliceStep t rI lI res)).stringTable nm) = nm
      rw [strExt_getString hext _ (stIdx_lt_of_mem _ _ hmemB), getString_stIdx _ _ hmemB]
    have hfunc : cget ((applyModel t (sliceStep t rI lI res) m₀).thread).frameTable.func
        0 e.frameIndex = e.funcIndex := hinv₁.colEq e hel
    have hfd : cget st.funcTable.fileName none e.funcIndex = e.fileNameStringIndex := by
      show st.funcTable.fileName.data.getD e.funcIndex none = e.fileNameStringIndex
      rw [hFD]
      exact (hcellsD.cells e hel).2.2.1
    obtain ⟨c₂, hcol₂', hni''⟩ := hcellsD.resUnc e hel hres
    have hceq : c₂ = c₁ := Option.some.inj (hcol₂'.symm.trans hcol₁)
    rw [hceq] at hni''
    refine ⟨⟨cget (modelStB ((applyModel t (sliceStep t rI lI res) m₀).thread)
        (sliceStep ((applyModel t (sliceStep t rI lI res) m₀).thread)
          rI lI res)).nativeSymbols.address 0 c₁, nm,
      e.fileNameStringIndex.map
        (getString (modelStD t (sliceStep t rI lI res)).stringTable),
      cget ((applyModel t (sliceStep t rI lI res) m₀).thread).frameTable.line
        none e.frameIndex⟩, ?_, ?_, ?_, ?_⟩
    · rw [hres']
      show (⟨cget (modelStB ((applyModel t (sliceStep t rI lI res) m₀).thread)
            (sliceStep ((applyModel t (sliceStep t rI lI res) m₀).thread)
              rI lI res)).nativeSymbols.address 0 c₁,
          getString st.stringTable
            (cget (modelStB ((applyModel t (sliceStep t rI lI res) m₀).thread)
              (sliceStep ((applyModel t (sliceStep t rI lI res) m₀).thread)
                rI lI res)).nativeSymbols.name 0 c₁),
          (cget st.funcTable.fileName none
            (cget ((applyModel t (sliceStep t rI lI res) m₀).thread).frameTable.func
              0 e.frameIndex)).map (getString st.stringTable),
          cget ((applyModel t (sliceStep t rI lI res) m₀).thread).frameTable.line
            none e.frameIndex⟩ : AddressResult) = _
      rw [hnameval, hfunc, hfd, hS]
    · show (indexForString st.stringTable nm).1 = e.nameStringIndex
      rw [hS]
      show stIdx (modelStD t (sliceStep t rI lI res)).stringTable nm = e.nameStringIndex
      rw [stIdx_ext _ _ _ hext hmemB, hni'', hname₁]
    · cases hefi : e.fileNameStringIndex with
      | none => rfl
      | some i =>
        show some (indexForString (indexForString st.stringTable nm).2
          (getString (modelStD t (sliceStep t rI lI res)).stringTable i)).1 = some i
        rw [hS, indexForString_of_mem _ _ hmemS2]
        show some (indexForString (modelStD t (sliceStep t rI lI res)).stringTable
          (getString (modelStD t (sliceStep t rI lI res)).stringTable i)).1 = some i
        obtain ⟨hoc1, hoc2⟩ := (hcellsD.firstOcc e hel).2.2 i hefi
        have hgm : getString (modelStD t (sliceStep t rI lI res)).stringTable i ∈
            (modelStD t (sliceStep t rI lI res)).stringTable.strings :=
          getD_mem_of_lt _ _ _ hoc1
        rw [indexForString_of_mem _ _ hgm]
        exact congrArg some hoc2
    · cases hefi : e.fileNameStringIndex with
      | none =>
        show (indexForString st.stringTable nm).2 =
          (modelStD t (sliceStep t rI lI res)).stringTable
        rw [hS, indexForString_of_mem _ _ hmemS2]
      | some i =>
        show (indexForString (indexForString st.stringTable nm).2
          (getString (modelStD t (sliceStep t rI lI res)).stringTable i)).2 =
          (modelStD t (sliceStep t rI lI res)).stringTable
        rw [hS, indexForString_of_mem _ _ hmemS2]
        show (indexForString (modelStD t (sliceStep t rI lI res)).stringTable
          (getString (modelStD t (sliceStep t rI lI res)).stringTable i)).2 =
          (modelStD t (sliceStep t rI lI res)).stringTable
        obtain ⟨hoc1, hoc2⟩ := (hcellsD.firstOcc e hel).2.2 i hefi
        have hgm : getString (modelStD t (sliceStep t rI lI res)).stringTable i ∈
            (modelStD t (sliceStep t rI lI res)).stringTable.strings :=
          getD_mem_of_lt _ _ _ hoc1
        rw [indexForString_of_mem _ _ hgm]

/-- The second application's func-grouping loop replays the first: its final
state keeps the first application's string table, func-table contents and
length, and marches its key map and available-func iterator along the first
application's final key map. -/
theorem reapply_stD_replay (t : Thread) (rI lI : Nat) (res : List (Nat × AddressResult))
    (m₀ : List (Nat × Nat))
    (hwfFF : ∀ f, f < t.frameTable.length →
      cget t.frameTable.func 0 f < t.funcTable.length)
    (hwfFR : t.funcTable.resource.data.length = t.funcTable.length)
    (hwfNL : t.nativeSymbols.libIndex.data.length = t.nativeSymbols.length) :
    StepDReplayInv (modelStD t (sliceStep t rI lI res)).stringTable
      (modelStD t (sliceStep t rI lI res)).funcTable
      (jsSetOfList (collectFuncsForResource
        (modelStD t (sliceStep t rI lI res)).funcTable rI))
      (modelStD t (sliceStep t rI lI res)).funcResolutionLog
      (modelStD ((applyModel t (sliceStep t rI lI res) m₀).thread)
        (sliceStep ((applyModel t (sliceStep t rI lI res) m₀).thread) rI lI res)) := by
  have hcellsD := reapply_stD_cells t rI lI res
  have hnd : (sliceStep t rI lI res).threadLibSymbolicationInfo.allFramesForThisLib.Nodup :=
    collectFrames_nodup t.frameTable t.funcTable rI
  have hinv₁ := modelStD_inv t (sliceStep t rI lI res) hnd
  have hframes := reapply_frames_eq t rI lI res m₀ hwfFF hwfFR
  have hB : ∀ e ∈ (modelStD t (sliceStep t rI lI res)).funcResolutionLog,
      mget (keyFold (modelStD t (sliceStep t rI lI res)).funcResolutionLog)
        (funcKeyFor e.nameStringIndex e.fileNameStringIndex) = some e.funcIndex := by
    intro e he
    have hx := hcellsD.bindings e he
    rw [hcellsD.mapEq] at hx
    exact hx
  have hQ := log_consistent (keyFold (modelStD t (sliceStep t rI lI res)).funcResolutionLog)
    (modelStD t (sliceStep t rI lI res)).funcResolutionLog hB
  obtain ⟨n, hdrop₁, hvals₁, hle₁, hcond₁⟩ := hinv₁.iterStruct
  have hA1 : jsSetOfList
      (sliceStep t rI lI res).threadLibSymbolicationInfo.allFuncsForThisLib =
      collectFuncsForResource t.funcTable rI :=
    jsSetOfList_eq_self _ (collectFuncs_nodup t.funcTable rI)
  rw [hA1] at hvals₁ hcond₁
  rw [hcellsD.mapEq] at hvals₁
  have hav := reapply_avail_eq t rI lI res hwfFR
  have hkl : (keyFold (modelStD t (sliceStep t rI lI res)).funcResolutionLog).length =
      min n (collectFuncsForResource t.funcTable rI).length +
        ((modelStD t (sliceStep t rI lI res)).funcTable.length - t.funcTable.length) := by
    have h := congrArg List.length hvals₁
    rw [List.length_map, List.length_append, List.length_take, List.length_range'] at h
    exact h
  have hTake : (keyFold (modelStD t (sliceStep t rI lI res)).funcResolutionLog).map
      Prod.snd =
      (jsSetOfList (collectFuncsForResource
        (modelStD t (sliceStep t rI lI res)).funcTable rI)).take
        (keyFold (modelStD t (sliceStep t rI lI res)).funcResolutionLog).length := by
    rw [hav, hvals₁]
    by_cases hP : (modelStD t (sliceStep t rI lI res)).funcTable.length -
        t.funcTable.length = 0
    · rw [hP, List.range'_zero, List.append_nil, List.append_nil]
      by_cases hn : n ≤ (collectFuncsForResource t.funcTable rI).length
      · rw [show (keyFold (modelStD t (sliceStep t rI lI res)).funcResolutionLog).length =
          n from by omega]
      · rw [List.take_of_length_le (by omega), List.take_of_length_le (by omega)]
    · have hn' : n = (collectFuncsForResource t.funcTable rI).length :=
        hcond₁ (by omega)
      rw [hn', List.take_length]
      rw [List.take_of_length_le
        (by rw [List.length_append, List.length_range']; omega)]
  have hLen : (keyFold (modelStD t (sliceStep t rI lI res)).funcResolutionLog).length ≤
      (jsSetOfList (collectFuncsForResource
        (modelStD t (sliceStep t rI lI res)).funcTable rI)).length := by
    rw [hav, List.length_append, List.length_range']
    omega
  have hCells2 : ∀ e ∈ (modelStD t (sliceStep t rI lI res)).funcResolutionLog,
      (modelStD t (sliceStep t rI lI res)).funcTable.name.data.getD e.funcIndex 0 =
        e.nameStringIndex ∧
      e.funcIndex < (modelStD t (sliceStep t rI lI res)).funcTable.name.data.length ∧
      (modelStD t (sliceStep t rI lI res)).funcTable.fileName.data.getD e.funcIndex
        none = e.fileNameStringIndex ∧
      e.funcIndex < (modelStD t (sliceStep t rI lI res)).funcTable.fileName.data.length := by
    intro e he
    obtain ⟨a1, a2, a3, a4⟩ := hcellsD.cells e he
    exact ⟨a1, a2, a3, a4⟩
  have h0 : StepDReplayInv (modelStD t (sliceStep t rI lI res)).stringTable
      (modelStD t (sliceStep t rI lI res)).funcTable
      (jsSetOfList (collectFuncsForResource
        (modelStD t (sliceStep t rI lI res)).funcTable rI))
      []
      (modelStD0 ((applyModel t (sliceStep t rI lI res) m₀).thread)
        (sliceStep ((applyModel t (sliceStep t rI lI res) m₀).thread) rI lI res)) := by
    refine ⟨?_, rfl, rfl, rfl, rfl, ?_⟩
    · show (modelStB ((applyModel t (sliceStep t rI lI res) m₀).thread)
        (sliceStep ((applyModel t (sliceStep t rI lI res) m₀).thread)
          rI lI res)).stringTable = (modelStD t (sliceStep t rI lI res)).stringTable
      rw [reapply_stB_fix t rI lI res m₀ hwfFF hwfFR hwfNL]
      rfl
    · rfl
  have hfold := stepD_replay_fold
    ((applyModel t (sliceStep t rI lI res) m₀).thread).frameTable
    (modelStB ((applyModel t (sliceStep t rI lI res) m₀).thread)
      (sliceStep ((applyModel t (sliceStep t rI lI res) m₀).thread)
        rI lI res)).nativeSymbols
    res
    (sliceStep ((applyModel t (sliceStep t rI lI res) m₀).thread)
      rI lI res).threadLibSymbolicationInfo.resourceIndex
    (modelNsCol ((applyModel t (sliceStep t rI lI res) m₀).thread)
      (sliceStep ((applyModel t (sliceStep t rI lI res) m₀).thread) rI lI res))
    (modelStD t (sliceStep t rI lI res)).stringTable
    (modelStD t (sliceStep t rI lI res)).funcTable
    (jsSetOfList (collectFuncsForResource
      (modelStD t (sliceStep t rI lI res)).funcTable rI))
    (modelStD t (sliceStep t rI lI res)).funcResolutionLog
    hQ hB hTake hLen
    (reapply_entry_spec t rI lI res m₀ hwfFF hwfFR hwfNL)
    hCells2
    (modelStD t (sliceStep t rI lI res)).funcResolutionLog
    []
    rfl
    (modelStD0 ((applyModel t (sliceStep t rI lI res) m₀).thread)
      (sliceStep ((applyModel t (sliceStep t rI lI res) m₀).thread) rI lI res))
    h0
  have hFL : (sliceStep ((applyModel t (sliceStep t rI lI res) m₀).thread)
      rI lI res).threadLibSymbolicationInfo.allFramesForThisLib =
      (modelStD t (sliceStep t rI lI res)).funcResolutionLog.map
        (fun x => x.frameIndex) := by
    have h1 : (threadLibInfoFor ((applyModel t (sliceStep t rI lI res) m₀).thread)
        rI lI).allFramesForThisLib = (threadLibInfoFor t rI lI).allFramesForThisLib :=
      hframes
    have h2 : (modelStD t (sliceStep t rI lI res)).funcResolutionLog.map
        (fun x => x.frameIndex) = (threadLibInfoFor t rI lI).allFramesForThisLib :=
      hinv₁.logFrames
    exact h1.trans h2.symm
  have hunf : modelStD ((applyModel t (sliceStep t rI lI res) m₀).thread)
      (sliceStep ((applyModel t (sliceStep t rI lI res) m₀).thread) rI lI res) =
      (((modelStD t (sliceStep t rI lI res)).funcResolutionLog.map
        (fun x => x.frameIndex)).foldl
        (stepDPureFrame ((applyModel t (sliceStep t rI lI res) m₀).thread).frameTable
          (modelStB ((applyModel t (sliceStep t rI lI res) m₀).thread)
            (sliceStep ((applyModel t (sliceStep t rI lI res) m₀).thread)
              rI lI res)).nativeSymbols
          res
          (sliceStep ((applyModel t (sliceStep t rI lI res) m₀).thread)
            rI lI res).threadLibSymbolicationInfo.resourceIndex
          (modelNsCol ((applyModel t (sliceStep t rI lI res) m₀).thread)
            (sliceStep ((applyModel t (sliceStep t rI lI res) m₀).thread) rI lI res)))
        (modelStD0 ((applyModel t (sliceStep t rI lI res) m₀).thread)
          (sliceStep ((applyModel t (sliceStep t rI lI res) m₀).thread) rI lI res))) := by
    show ((sliceStep ((applyModel t (sliceStep t rI lI res) m₀).thread)
        rI lI res).threadLibSymbolicationInfo.allFramesForThisLib).foldl
        (stepDPureFrame ((applyModel t (sliceStep t rI lI res) m₀).thread).frameTable
          (modelStB ((applyModel t (sliceStep t rI lI res) m₀).thread)
            (sliceStep ((applyModel t (sliceStep t rI lI res) m₀).thread)
              rI lI res)).nativeSymbols
          res
          (sliceStep ((applyModel t (sliceStep t rI lI res) m₀).thread)
            rI lI res).threadLibSymbolicationInfo.resourceIndex
          (modelNsCol ((applyModel t (sliceStep t rI lI res) m₀).thread)
            (sliceStep ((applyModel t (sliceStep t rI lI res) m₀).thread) rI lI res)))
        (modelStD0 ((applyModel t (sliceStep t rI lI res) m₀).thread)
          (sliceStep ((applyModel t (sliceStep t rI lI res) m₀).thread) rI lI res)) = _
    rw [hFL]
  rw [hunf]
  exact hfold

/-- The second application's func-grouping loop creates no func row: the
func-table lengths after the two applications agree. -/
theorem reapply_func_len (t : Thread) (rI lI : Nat) (res : List (Nat × AddressResult))
    (m₀ : List (Nat × Nat))
    (hwfFF : ∀ f, f < t.frameTable.length →
      cget t.frameTable.func 0 f < t.funcTable.length)
    (hwfFR : t.funcTable.resource.data.length = t.funcTable.length)
    (hwfNL : t.nativeSymbols.libIndex.data.length = t.nativeSymbols.length) :
    (modelStD ((applyModel t (sliceStep t rI lI res) m₀).thread)
      (sliceStep ((applyModel t (sliceStep t rI lI res) m₀).thread)
        rI lI res)).funcTable.length =
    (modelStD t (sliceStep t rI lI res)).funcTable.length :=
  (reapply_stD_replay t rI lI res m₀ hwfFF hwfFR hwfNL).flen

/-- C5 (corrected: the second application must use the library slice
recomputed by the address collector on the first application's output
thread; re-applying with the stale slice does create new native-symbol
rows).  Under this condition — with a well-formed input thread —
re-applying the same `resultsForLib`, even one covering only part of the
slice's frame addresses, creates no func rows and no native-symbol rows
beyond the first application: the returned func table and native-symbol
table lengths equal those after the first application. -/
theorem reapplication_stable (t : Thread) (rI lI : Nat)
    (res : List (Nat × AddressResult)) (m₀ m₂ : List (Nat × Nat)) (r₁ r₂ : ApplyResult)
    (hok₁ : applySymbolicationStep t (sliceStep t rI lI res) m₀ = Except.ok r₁)
    (hok₂ : applySymbolicationStep r₁.thread (sliceStep r₁.thread rI lI res) m₂ =
      Except.ok r₂)
    (hwfFF : ∀ f, f < t.frameTable.length →
      cget t.frameTable.func 0 f < t.funcTable.length)
    (hwfFR : t.funcTable.resource.data.length = t.funcTable.length)
    (hwfNL : t.nativeSymbols.libIndex.data.length = t.nativeSymbols.length) :
    r₂.thread.funcTable.length = r₁.thread.funcTable.length ∧
    r₂.thread.nativeSymbols.length = r₁.thread.nativeSymbols.length := by
  have h1 := apply_ok_elim hok₁
  subst h1
  have h2 := apply_ok_elim hok₂
  subst h2
  exact ⟨reapply_func_len t rI lI res m₀ hwfFF hwfFR hwfNL,
    reapply_ns_len t rI lI res m₀ hwfFF hwfFR hwfNL⟩

/-- Counterexample to C5 as stated: re-applying the same results with the
same (stale) library slice of the same thread, the second time on the
first application's output, creates a second native-symbol row. -/
theorem reapplication_counterexample :
    (applyOk exThread exStep []).nativeSymbols.length = 1 ∧
    (applyOk (applyOk exThread exStep []) exStep []).nativeSymbols.length = 2 := by
  exact ⟨by decide, by decide⟩

/-- Witness for C5: on the example thread, the second application with the
recomputed slice leaves both table sizes unchanged. -/
theorem reapplication_stable_witness :
    (applyModel (applyModel exThread
        (sliceStep exThread 0 0 [(10, ⟨0, "X", none, none⟩)]) []).thread
      (sliceStep (applyModel exThread
        (sliceStep exThread 0 0 [(10, ⟨0, "X", none, none⟩)]) []).thread
        0 0 [(10, ⟨0, "X", none, none⟩)]) []).thread.funcTable.length =
      (applyModel exThread
        (sliceStep exThread 0 0 [(10, ⟨0, "X", none, none⟩)]) []).thread.funcTable.length ∧
    (applyModel (applyModel exThread
        (sliceStep exThread 0 0 [(10, ⟨0, "X", none, none⟩)]) []).thread
      (sliceStep (applyModel exThread
        (sliceStep exThread 0 0 [(10, ⟨0, "X", none, none⟩)]) []).thread
        0 0 [(10, ⟨0, "X", none, none⟩)]) []).thread.nativeSymbols.length =
      (applyModel exThread
        (sliceStep exThread 0 0 [(10, ⟨0, "X", none, none⟩)]) []).thread.nativeSymbols.length :=
  reapplication_stable exThread 0 0 [(10, ⟨0, "X", none, none⟩)] [] []
    (applyModel exThread (sliceStep exThread 0 0 [(10, ⟨0, "X", none, none⟩)]) [])
    (applyModel (applyModel exThread
        (sliceStep exThread 0 0 [(10, ⟨0, "X", none, none⟩)]) []).thread
      (sliceStep (applyModel exThread
        (sliceStep exThread 0 0 [(10, ⟨0, "X", none, none⟩)]) []).thread
        0 0 [(10, ⟨0, "X", none, none⟩)]) [])
    (applySymbolicationStep_eq _ _ _)
    (applySymbolicationStep_eq _ _ _)
    (by
      intro f hf
      have h1 : exThread.frameTable.length = 1 := rfl
      rw [h1] at hf
      have hf0 : f = 0 := by omega
      subst hf0
      decide)
    (by decide)
    (by decide)

end Symbolication

